import Mathlib

/-!
# Chain-state storage engine (`beam/node_db.cpp`)

A shallow embedding of `NodeDB`: the relational store is a record of tables, each table a list of
rows; every C++ method that touches the store becomes a function from the store to
`Except Err` of the new store.

Conventions of the embedding.

* `Height` is a 64-bit unsigned integer in the source.  The expressions `h - 1`, `h + 1`, `h++`
  are modelled with explicit wrap-around (`heightDec`, `heightInc`).
* `throw`, a failed store call (`ThrowError`), `TestChanged1Row` and a failed `assert`/`verify`
  all end the call; each is an `Err`.  A call *completes* when it yields `Except.ok`.
* Row identifiers are the store's implicit `rowid`: a fresh row gets the largest identifier in the
  table plus one.  Identifiers and the two child counters are natural numbers here; the model does
  not follow them past `2^63` rows, respectively `2^32` children of one row.
* The `while (true)` loop of `OnStateReachable` together with its recursion is driven by a fuel
  argument; running out of fuel is the separate error `Err.fuel`.
* The store keeps an integer as a signed 64-bit value.  A `uint32_t` reaches it through
  `sqlite3_bind_int`, a `uint64_t` through `sqlite3_bind_int64`, each as the signed value with
  the same bits (`bindInt`, `asInt64`); `ORDER BY` compares the signed values.  `Refs` and
  `Unspent` of table `Spendable` are integers without bound here: the model does not follow a
  sum that leaves the 64-bit range.
-/

namespace Beam

/-! ## Data model -/

/-- A 32-byte hash value; only equality of hashes is ever used by the engine. -/
abbrev MerkleHash := Nat

/-- An opaque byte string. -/
abbrev Blob := List Nat

deriving instance DecidableEq for Except

/-- The ways in which a call can end without completing. -/
inductive Err where
  /-- `ThrowError`: the store refused a statement (for instance a primary-key conflict). -/
  | sqlite
  /-- `TestChanged1Row`: the last statement did not change exactly one row. -/
  | changed1Row
  /-- The row asked for does not exist (`throw "State not found!"` and its variants). -/
  | notFound
  /-- `throw "attempt to delete an active state"`. -/
  | activeDelete
  /-- A counter that must be positive was zero (`throw "oops"`, `throw "oops!"`). -/
  | oops
  /-- An `assert` or `verify` did not hold. -/
  | assertion
  /-- The fuel of the model ran out. -/
  | fuel
  deriving DecidableEq, Repr

namespace StateFlags

/-- Modelled from the spec: the flag constants live in `node_db.h`; the spec gives
`Functional = 0x1`. -/
def Functional : Nat := 1

/-- Modelled from the spec: the flag constants live in `node_db.h`; the spec gives
`Reachable = 0x2`. -/
def Reachable : Nat := 2

/-- Modelled from the spec: the flag constants live in `node_db.h`; the spec gives
`Active = 0x4`. -/
def Active : Nat := 4

end StateFlags

namespace ParamID

/-- Modelled from the spec: the parameter ids live in `node_db.h`; the spec names `DbVer = 1`. -/
def DbVer : Nat := 1

/-- Modelled from the spec: the parameter ids live in `node_db.h`, in a small contiguous range. -/
def CursorRow : Nat := 2

/-- Modelled from the spec: the parameter ids live in `node_db.h`, in a small contiguous range. -/
def CursorHeight : Nat := 3

end ParamID

/-- The truth value of the C expression `mask & flags`. -/
def hasFlag (flags mask : Nat) : Bool := (flags &&& mask) != 0

/-- Bitwise complement of a 32-bit unsigned value (`~x` on `uint32_t`). -/
def notU32 (x : Nat) : Nat := (2 ^ 32 - 1) ^^^ x

/-- The value of `h - 1` for a 64-bit unsigned `h`. -/
def heightDec (h : Nat) : Nat := (h + (2 ^ 64 - 1)) % 2 ^ 64

/-- The value of `h + 1` for a 64-bit unsigned `h`. -/
def heightInc (h : Nat) : Nat := (h + 1) % 2 ^ 64

/-- A row of table `States`, together with its `rowid`. -/
structure StateRow where
  rowid : Nat
  Height : Nat
  Hash : MerkleHash
  HashPrev : MerkleHash
  Difficulty : Nat
  Timestamp : Nat
  LiveObjects : Blob
  History : Blob
  Flags : Nat
  RowPrev : Option Nat
  CountNext : Nat
  CountNextFunctional : Nat
  PoW : Option Blob
  Mmr : Option Blob
  Body : Option Blob
  Rollback : Option Blob
  Peer : Option Blob
  deriving DecidableEq, Repr

/-- A row of table `Params`. -/
structure ParamRow where
  ID : Nat
  ParamInt : Option Nat
  ParamBlob : Option Blob
  deriving DecidableEq, Repr

/-- A row of table `Spendable`. -/
structure SpendableRow where
  Key : Blob
  Body : Blob
  Refs : Int
  Unspent : Int
  deriving DecidableEq, Repr

/-- The store: one list of rows per table.  `Tips` and `TipsReachable` hold `(Height, State)`. -/
structure NodeDB where
  States : List StateRow
  Tips : List (Nat × Nat)
  TipsReachable : List (Nat × Nat)
  Params : List ParamRow
  Spendable : List SpendableRow
  deriving DecidableEq, Repr

/-- The store right after `Create`: every table empty. -/
def NodeDB.empty : NodeDB :=
  { States := [], Tips := [], TipsReachable := [], Params := [], Spendable := [] }

/-- The header handed to `InsertState` (`Block::SystemState::Full`).

Modelled from the spec: `Block::SystemState::Full::get_Hash` is declared outside the files at
hand; the spec calls its result the content hash of the header.  The model carries that value
with the header, in `hash`. -/
structure Full where
  m_Height : Nat
  m_Prev : MerkleHash
  m_Difficulty : Nat
  m_TimeStamp : Nat
  m_LiveObjects : Blob
  m_History : Blob
  hash : MerkleHash
  deriving DecidableEq, Repr

/-- The pair `(Height, Row)` naming a header row (`NodeDB::StateID`). -/
structure StateID where
  m_Height : Nat
  m_Row : Nat
  deriving DecidableEq, Repr

/-! ## Statement helpers -/

/-- The row returned by `SELECT ... FROM States WHERE rowid=?`. -/
def findRow (st : NodeDB) (rowid : Nat) : Option StateRow :=
  st.States.find? (fun r => r.rowid == rowid)

/-- The row returned by `SELECT ... FROM States WHERE Height=? AND Hash=?`. -/
def findKey (st : NodeDB) (h : Nat) (hash : MerkleHash) : Option StateRow :=
  st.States.find? (fun r => r.Height == h && r.Hash == hash)

/-- `UPDATE States SET ... WHERE rowid=?` followed by `TestChanged1Row`. -/
def updateRow (st : NodeDB) (rowid : Nat) (f : StateRow → StateRow) : Except Err NodeDB :=
  if (st.States.filter (fun r => r.rowid == rowid)).length = 1 then
    .ok { st with States := st.States.map (fun r => if r.rowid == rowid then f r else r) }
  else .error .changed1Row

/-- The identifier the store gives to the next row of `States`. -/
def newRowid (st : NodeDB) : Nat :=
  st.States.foldl (fun m r => max m r.rowid) 0 + 1

def SetNextCount (st : NodeDB) (rowid n : Nat) : Except Err NodeDB :=
  updateRow st rowid (fun r => { r with CountNext := n })

def SetNextCountFunctional (st : NodeDB) (rowid n : Nat) : Except Err NodeDB :=
  updateRow st rowid (fun r => { r with CountNextFunctional := n })

def SetFlags (st : NodeDB) (rowid n : Nat) : Except Err NodeDB :=
  updateRow st rowid (fun r => { r with Flags := n })

/-- `INSERT INTO Tips VALUES(?,?)`; the pair is the primary key, so a second copy is refused. -/
def TipAdd (st : NodeDB) (rowid h : Nat) : Except Err NodeDB :=
  if (h, rowid) ∈ st.Tips then .error .sqlite
  else .ok { st with Tips := st.Tips ++ [(h, rowid)] }

def TipDel (st : NodeDB) (rowid h : Nat) : Except Err NodeDB :=
  if st.Tips.count (h, rowid) = 1 then
    .ok { st with Tips := st.Tips.filter (fun p => p != (h, rowid)) }
  else .error .changed1Row

def TipReachableAdd (st : NodeDB) (rowid h : Nat) : Except Err NodeDB :=
  if (h, rowid) ∈ st.TipsReachable then .error .sqlite
  else .ok { st with TipsReachable := st.TipsReachable ++ [(h, rowid)] }

def TipReachableDel (st : NodeDB) (rowid h : Nat) : Except Err NodeDB :=
  if st.TipsReachable.count (h, rowid) = 1 then
    .ok { st with TipsReachable := st.TipsReachable.filter (fun p => p != (h, rowid)) }
  else .error .changed1Row

def GetStateFlags (st : NodeDB) (rowid : Nat) : Except Err Nat :=
  match findRow st rowid with
  | none => .error .notFound
  | some r => .ok r.Flags

def StateFindSafe (st : NodeDB) (h : Nat) (hash : MerkleHash) : Nat :=
  match findKey st h hash with
  | none => 0
  | some r => r.rowid

/-- The row `prv` of `States LEFT JOIN States prv ON States.RowPrev = prv.rowid` for the row
`x`; `none` when the join finds no row (all columns of `prv` NULL). -/
def prvRow (st : NodeDB) (x : StateRow) : Option StateRow :=
  x.RowPrev.bind (fun p => findRow st p)

/-- The column `prv.Flags` of the join as the code reads it: a NULL column reads as 0. -/
def prvFlags (st : NodeDB) (x : StateRow) : Nat :=
  match prvRow st x with
  | some p => p.Flags
  | none => 0

/-- The column `prv.CountNext` of the join as the code reads it: a NULL column reads as 0. -/
def prvCountNext (st : NodeDB) (x : StateRow) : Nat :=
  match prvRow st x with
  | some p => p.CountNext
  | none => 0

/-- The column `prv.CountNextFunctional` of the join as the code reads it: a NULL column reads
as 0. -/
def prvCountNextF (st : NodeDB) (x : StateRow) : Nat :=
  match prvRow st x with
  | some p => p.CountNextFunctional
  | none => 0

/-! ## Parameter store -/

def ParamIntGet (st : NodeDB) (ID : Nat) : Option Nat :=
  match st.Params.find? (fun p => p.ID == ID) with
  | none => none
  | some p => some (p.ParamInt.getD 0)

def ParamIntGetDef (st : NodeDB) (ID : Nat) (defVal : Nat) : Nat :=
  (ParamIntGet st ID).getD defVal

def ParamIntSet (st : NodeDB) (ID val : Nat) : Except Err NodeDB :=
  if (st.Params.filter (fun p => p.ID == ID)).length ≠ 0 then
    .ok { st with
      Params := st.Params.map (fun p => if p.ID == ID then { p with ParamInt := some val } else p) }
  else
    .ok { st with Params := st.Params ++ [{ ID := ID, ParamInt := some val, ParamBlob := none }] }

/-! ## Header graph -/

/-- The rows selected by `WHERE Height=? AND HashPrev=?` with `Height = h + 1`: the rows that name
`(h, hash)` as their predecessor. -/
def isNextOf (h : Nat) (hash : MerkleHash) (r : StateRow) : Bool :=
  r.Height == heightInc h && r.HashPrev == hash

/-- The block `if (rowPrev) { ... }` of `InsertState`: the parent gets one more child and, when
it had none, leaves `Tips`.  `prev` is the row found by the parent lookup, `h` the new height. -/
def InsertState.prevStep (st1 : NodeDB) (prev : Option StateRow) (h : Nat) : Except Err NodeDB :=
  let rowPrev := match prev with
    | some p => p.rowid
    | none => 0
  let nPrevCountNext := match prev with
    | some p => p.CountNext
    | none => 0
  if rowPrev != 0 then
    SetNextCount st1 rowPrev (nPrevCountNext + 1) >>= fun st2 =>
      if nPrevCountNext == 0 then TipDel st2 rowPrev (heightDec h) else .ok st2
  else .ok st1

/-- The part `// Ancestors` of `InsertState`: the rows that name the new row as predecessor get
their `RowPrev`; the new row gets their number as `CountNext`, or becomes a tip. -/
def InsertState.adoptStep (st3 : NodeDB) (rowid h : Nat) (hash : MerkleHash) :
    Except Err NodeDB :=
  let nCountAncestors := (st3.States.filter (isNextOf h hash)).length
  let st4 : NodeDB := { st3 with
    States := st3.States.map
      (fun r => if isNextOf h hash r then { r with RowPrev := some rowid } else r) }
  if nCountAncestors != 0 then SetNextCount st4 rowid nCountAncestors
  else TipAdd st4 rowid h

/-- The row written by the `INSERT` of `InsertState`. -/
def InsertState.newRow (st : NodeDB) (s : Full) : StateRow :=
  -- Is there a prev?
  let rowPrev := match findKey st (heightDec s.m_Height) s.m_Prev with
    | some p => p.rowid
    | none => 0
  -- Count next functional
  let nCountNextF := (st.States.filter
    (fun r => isNextOf s.m_Height s.hash r && hasFlag r.Flags StateFlags.Functional)).length
  { rowid := newRowid st, Height := s.m_Height, Hash := s.hash, HashPrev := s.m_Prev,
    Difficulty := s.m_Difficulty, Timestamp := s.m_TimeStamp,
    LiveObjects := s.m_LiveObjects, History := s.m_History,
    Flags := 0, RowPrev := if rowPrev != 0 then some rowPrev else none,
    CountNext := 0, CountNextFunctional := nCountNextF,
    PoW := none, Mmr := none, Body := none, Rollback := none, Peer := none }

def InsertState (st : NodeDB) (s : Full) : Except Err (NodeDB × Nat) :=
  -- Is there a prev? Is it a tip currently?
  let prev := findKey st (heightDec s.m_Height) s.m_Prev
  -- Insert row; `(Height, Hash)` is the primary key
  if (findKey st s.m_Height s.hash).isSome then .error .sqlite
  else
    let rowid := newRowid st
    let st1 : NodeDB := { st with States := st.States ++ [InsertState.newRow st s] }
    if rowid == 0 then .error .assertion
    else
      InsertState.prevStep st1 prev s.m_Height >>= fun st3 =>
      InsertState.adoptStep st3 rowid s.m_Height s.hash >>= fun st5 =>
      .ok (st5, rowid)

/-- The block `if (!rs.IsNull(1)) { ... }` of `DeleteState`: the parent of the row `x` loses a
child. -/
def DeleteState.prevStep (st : NodeDB) (x : StateRow) : Except Err NodeDB :=
  let rowPrev := x.RowPrev.getD 0
  let nFlags := x.Flags
  let h := x.Height
  if x.RowPrev.isSome then
    let nCountNext := prvCountNext st x
    if nCountNext == 0 then .error .oops
    else
      SetNextCount st rowPrev (nCountNext - 1) >>= fun st1 =>
      (if nCountNext - 1 == 0 then TipAdd st1 rowPrev (heightDec h) else .ok st1)
        >>= fun st2 =>
      if hasFlag nFlags StateFlags.Functional then
        let nCountPrevF := prvCountNextF st x
        if nCountPrevF == 0 then .error .oops
        else
          SetNextCountFunctional st2 rowPrev (nCountPrevF - 1) >>= fun st3 =>
          if nCountPrevF - 1 == 0 && hasFlag nFlags StateFlags.Reachable then
            TipReachableAdd st3 rowPrev (heightDec h)
          else .ok st3
      else .ok st2
  else .ok st

/-- `DELETE FROM States WHERE rowid=?` followed by `TestChanged1Row`. -/
def deleteRow (st : NodeDB) (rowid : Nat) : Except Err NodeDB :=
  if (st.States.filter (fun r => r.rowid == rowid)).length = 1 then
    .ok { st with States := st.States.filter (fun r => r.rowid != rowid) }
  else .error .changed1Row

/-- `DeleteState`: the result is the new store, the returned `bool` and the out-parameter
`rowPrev`. -/
def DeleteState (st : NodeDB) (rowid : Nat) : Except Err (NodeDB × Bool × Nat) :=
  match findRow st rowid with
  | none => .error .notFound
  | some x =>
    let rowPrev := x.RowPrev.getD 0
    if x.CountNext != 0 then .ok (st, false, rowPrev)
    else if hasFlag x.Flags StateFlags.Active then .error .activeDelete
    else
      DeleteState.prevStep st x >>= fun st4 =>
      TipDel st4 rowid x.Height >>= fun st5 =>
      (if hasFlag x.Flags StateFlags.Reachable then TipReachableDel st5 rowid x.Height
       else .ok st5) >>= fun st6 =>
      deleteRow st6 rowid >>= fun st7 =>
      .ok (st7, true, rowPrev)

/-- Modelled from the spec: `Merkle::DistributedMmr::Append` is declared outside the files at
hand; the spec calls the node payload an opaque blob produced by the MMR algorithm from the
row, the leaf count `h`, the previous leaf key and the hash at the slot.  The model keeps those
four arguments as the payload. -/
def DmmrAppend (rowid count kLast : Nat) (hv : MerkleHash) : Blob := [rowid, count, kLast, hv]

def BuildMmr (st : NodeDB) (rowid rowPrev h : Nat) : Except Err NodeDB :=
  if (h == 0) != (rowPrev == 0) then .error .assertion
  else if rowid == rowPrev then .error .assertion
  else
    match findRow st rowid with
    | none => .error .notFound
    | some r =>
      if r.Mmr.isSome then .ok st
      else updateRow st rowid (fun x => { x with Mmr := some (DmmrAppend rowid h rowPrev r.HashPrev) })

/-- The rows read by the `StateGetNextFunctional` query of `OnStateReachable`. -/
def nextFunctional (st : NodeDB) (rowid h : Nat) : List StateRow :=
  st.States.filter (fun r => r.Height == heightInc h && r.RowPrev == some rowid
    && hasFlag r.Flags StateFlags.Functional)

/-- `OnStateReachable`.  One unit of fuel is spent per turn of the `while (true)` loop and per
recursive call; a turn of the loop that goes on with `rows[0]` is the same as a call on it. -/
def OnStateReachable : Nat → NodeDB → Nat → Nat → Nat → Bool → Except Err NodeDB
  | 0, _, _, _, _, _ => .error .fuel
  | fuel + 1, st, rowid, rowPrev, h, b =>
    (if b then BuildMmr st rowid rowPrev h else .ok st) >>= fun st1 =>
    let rows := nextFunctional st1 rowid h
    if rows.all (fun r => hasFlag r.Flags StateFlags.Functional
        && ((!hasFlag r.Flags StateFlags.Reachable) == b)) then
      match rows with
      | [] => if b then TipReachableAdd st1 rowid h else TipReachableDel st1 rowid h
      | r0 :: rest =>
        (r0 :: rest).foldlM
          (fun s r => SetFlags s r.rowid (r.Flags ^^^ StateFlags.Reachable)) st1 >>= fun st2 =>
        rest.foldlM
          (fun s r => OnStateReachable fuel s r.rowid rowid (heightInc h) b) st2 >>= fun st3 =>
        OnStateReachable fuel st3 r0.rowid rowid (heightInc h) b
    else .error .assertion

/-- The block `if (h) { ... } else { ... }` of `SetStateFunctional` for the row `x`: the store
after it, the new flags and `rowPrev`. -/
def SetStateFunctional.prevStep (st : NodeDB) (x : StateRow) : Except Err (NodeDB × Nat × Nat) :=
  let nFlags := x.Flags ||| StateFlags.Functional
  let h := x.Height
  if h != 0 then
    match x.RowPrev with
    | some rowPrev =>
      let nFlagsPrev := prvFlags st x
      let nCountPrevF := prvCountNextF st x
      SetNextCountFunctional st rowPrev (nCountPrevF + 1) >>= fun st1 =>
      if hasFlag nFlagsPrev StateFlags.Reachable then
        (if nCountPrevF == 0 then TipReachableDel st1 rowPrev (heightDec h) else .ok st1)
          >>= fun st2 => .ok (st2, nFlags ||| StateFlags.Reachable, rowPrev)
      else .ok (st1, nFlags, rowPrev)
    | none => .ok (st, nFlags, 0)
  else
    if x.RowPrev.isNone then .ok (st, nFlags ||| StateFlags.Reachable, 0)
    else .error .assertion

def SetStateFunctional (fuel : Nat) (st : NodeDB) (rowid : Nat) : Except Err NodeDB :=
  match findRow st rowid with
  | none => .error .notFound
  | some x =>
    if hasFlag x.Flags StateFlags.Functional then .ok st
    else
      SetStateFunctional.prevStep st x >>= fun res =>
      SetFlags res.1 rowid res.2.1 >>= fun st4 =>
      if hasFlag res.2.1 StateFlags.Reachable then
        OnStateReachable fuel st4 rowid res.2.2 x.Height true
      else .ok st4

/-- The flags `SetStateNotFunctional` writes for a row whose flags are `flags`. -/
def SetStateNotFunctional.newFlags (flags : Nat) : Nat :=
  let nFlags := flags &&& notU32 StateFlags.Functional
  if hasFlag nFlags StateFlags.Reachable then nFlags &&& notU32 StateFlags.Reachable else nFlags

/-- The block `if (h) { ... } else ...` of `SetStateNotFunctional` for the row `x`: the store
after it and `rowPrev`. -/
def SetStateNotFunctional.prevStep (st : NodeDB) (x : StateRow) : Except Err (NodeDB × Nat) :=
  let h := x.Height
  let bReachable := hasFlag (x.Flags &&& notU32 StateFlags.Functional) StateFlags.Reachable
  if h != 0 then
    match x.RowPrev with
    | none => if !bReachable then .ok (st, 0) else .error .assertion
    | some rowPrev =>
      let nCountPrevF := prvCountNextF st x
      if nCountPrevF == 0 then .error .oops
      else
        SetNextCountFunctional st rowPrev (nCountPrevF - 1) >>= fun st1 =>
        (if nCountPrevF - 1 == 0 && bReachable then TipReachableAdd st1 rowPrev (heightDec h)
         else .ok st1) >>= fun st2 => .ok (st2, rowPrev)
  else
    if x.RowPrev.isNone && bReachable then .ok (st, 0) else .error .assertion

def SetStateNotFunctional (fuel : Nat) (st : NodeDB) (rowid : Nat) : Except Err NodeDB :=
  match findRow st rowid with
  | none => .error .notFound
  | some x =>
    if !hasFlag x.Flags StateFlags.Functional then .ok st
    else
      let bReachable := hasFlag (x.Flags &&& notU32 StateFlags.Functional) StateFlags.Reachable
      SetStateNotFunctional.prevStep st x >>= fun res =>
      SetFlags res.1 rowid (SetStateNotFunctional.newFlags x.Flags) >>= fun st4 =>
      if bReachable then OnStateReachable fuel st4 rowid res.2 x.Height false
      else .ok st4

/-! ## Cursor -/

/-- `get_Prev(uint64_t&)`: `none` stands for `false`, `some p` for `true` with `rowid := p`. -/
def get_Prev (st : NodeDB) (rowid : Nat) : Except Err (Option Nat) :=
  if rowid == 0 then .error .assertion
  else
    match findRow st rowid with
    | none => .error .oops
    | some r => .ok r.RowPrev

/-- `get_Prev(StateID&)`. -/
def get_PrevSid (st : NodeDB) (sid : StateID) : Except Err (Option StateID) :=
  get_Prev st sid.m_Row >>= fun r =>
    match r with
    | none => .ok none
    | some p => .ok (some { m_Height := heightDec sid.m_Height, m_Row := p })

/-- `get_Cursor`: the `StateID` read and the returned `bool`. -/
def get_Cursor (st : NodeDB) : StateID × Bool :=
  let row := ParamIntGetDef st ParamID.CursorRow 0
  let height := ParamIntGetDef st ParamID.CursorHeight 0
  ({ m_Height := height, m_Row := row }, decide (row > 0))

def put_Cursor (st : NodeDB) (sid : StateID) : Except Err NodeDB :=
  ParamIntSet st ParamID.CursorRow sid.m_Row >>= fun st1 =>
    ParamIntSet st1 ParamID.CursorHeight sid.m_Height

/-- `MoveBack`: the new store and the `StateID` left in the in-out parameter. -/
def MoveBack (st : NodeDB) (sid : StateID) : Except Err (NodeDB × StateID) :=
  updateRow st sid.m_Row
      (fun r => { r with Flags := r.Flags &&& notU32 StateFlags.Active }) >>= fun st1 =>
    get_PrevSid st1 sid >>= fun r =>
      let sid1 : StateID := match r with
        | some s => s
        | none => { m_Height := 0, m_Row := 0 }
      put_Cursor st1 sid1 >>= fun st2 => .ok (st2, sid1)

def MoveFwd (st : NodeDB) (sid : StateID) : Except Err NodeDB :=
  updateRow st sid.m_Row
      (fun r => { r with Flags := r.Flags ||| StateFlags.Active }) >>= fun st1 =>
    put_Cursor st1 sid

/-! ## Invariant auditor -/

/-- SQL `a = b + 1` on two stored heights.  The store keeps a height as the signed 64-bit integer
with the same bit pattern; when `b + 1` overflows, the store goes on in floating point and the sum
equals no stored integer. -/
def sqlEqSucc (a b : Nat) : Bool := b != 2 ^ 63 - 1 && a == heightInc b

/-- SQL `a = n - 1` on two stored heights.  When `n` is the least signed integer the difference is
computed in floating point, where it rounds to `n` itself. -/
def sqlEqPred (a n : Nat) : Bool := if n == 2 ^ 63 then a == 2 ^ 63 else a == heightDec n

/-- The result rows of `A LEFT JOIN B ON cond`: every match of a row of `A`, or the row of `A` alone
when it has no match. -/
def leftJoin {α β : Type} (as : List α) (bs : List β) (cond : α → β → Bool) :
    List (α × Option β) :=
  (as.map (fun a =>
    match bs.filter (cond a) with
    | [] => [(a, none)]
    | m :: ms => (m :: ms).map (fun x => (a, some x)))).flatten

/-- The assertions made on one result row of query `Dbg0`. -/
def dbg0Check (s : StateRow) (prv : Option StateRow) : Bool :=
  let nFlagsPrev := match prv with
    | some p => p.Flags
    | none => 0
  let rowPrev2 := match prv with
    | some p => p.rowid
    | none => 0
  (!hasFlag s.Flags StateFlags.Reachable || hasFlag s.Flags StateFlags.Functional)
  && (s.RowPrev.isNone == prv.isNone)
  && (match s.RowPrev with
      | some rowPrev =>
        rowPrev == rowPrev2
        && (if hasFlag s.Flags StateFlags.Reachable then hasFlag nFlagsPrev StateFlags.Reachable
            else if hasFlag s.Flags StateFlags.Functional then
              !hasFlag nFlagsPrev StateFlags.Reachable
            else true)
      | none => if hasFlag s.Flags StateFlags.Reachable then s.Height == 0 else true)
  && decide (s.CountNext ≥ s.CountNextFunctional)

/-- The assertions made on one result row of query `Dbg1`; a NULL column reads as 0. -/
def dbg1Check (tip : Nat × Nat) (s : Option StateRow) : Bool :=
  match s with
  | some r => tip.1 == r.Height && r.CountNext == 0
  | none => tip.1 == 0

/-- The assertions made on one result row of query `Dbg2`; a NULL column reads as 0. -/
def dbg2Check (tip : Nat × Nat) (s : Option StateRow) : Bool :=
  match s with
  | some r => tip.1 == r.Height && r.CountNextFunctional == 0
      && hasFlag r.Flags StateFlags.Reachable
  | none => false

/-- `assert_valid`: `true` when no assertion fails. -/
def assert_valid (st : NodeDB) : Bool :=
  let rows0 := leftJoin st.States st.States
    (fun s prv => sqlEqSucc s.Height prv.Height && s.HashPrev == prv.Hash)
  let nTips := (rows0.filter (fun x => x.1.CountNext == 0)).length
  let nTipsReachable := (rows0.filter (fun x => x.1.CountNextFunctional == 0
    && hasFlag x.1.Flags StateFlags.Reachable)).length
  let rows1 := leftJoin st.Tips st.States (fun t s => t.2 == s.rowid)
  let rows2 := leftJoin st.TipsReachable st.States (fun t s => t.2 == s.rowid)
  rows0.all (fun x => dbg0Check x.1 x.2)
  && rows1.all (fun x => dbg1Check x.1 x.2)
  && nTips == rows1.length
  && rows2.all (fun x => dbg2Check x.1 x.2)
  && nTipsReachable == rows2.length
  && st.States.all (fun s => s.CountNext ==
      (st.States.filter (fun nxt => sqlEqPred s.Height nxt.Height
        && s.Hash == nxt.HashPrev)).length)
  && st.States.all (fun s => s.CountNextFunctional ==
      (st.States.filter (fun nxt => sqlEqPred s.Height nxt.Height
        && s.Hash == nxt.HashPrev && hasFlag nxt.Flags 1)).length)

/-! ## Reachable stores -/

/-- The stores reached from the empty store by calls that complete.  With `cursor = false` the
calls are `InsertState`, `DeleteState`, `SetStateFunctional` and `SetStateNotFunctional`; with
`cursor = true` also `MoveFwd` and `MoveBack`.  A header is any value of its type: its height is
a 64-bit unsigned number. -/
inductive Reached (cursor : Bool) : NodeDB → Prop
  | empty : Reached cursor NodeDB.empty
  | insertState {st st1 : NodeDB} {s : Full} {rowid : Nat} :
      Reached cursor st → s.m_Height < 2 ^ 64 → InsertState st s = .ok (st1, rowid) →
      Reached cursor st1
  | deleteState {st st1 : NodeDB} {rowid : Nat} {res : Bool × Nat} :
      Reached cursor st → DeleteState st rowid = .ok (st1, res) → Reached cursor st1
  | setStateFunctional {st st1 : NodeDB} {fuel rowid : Nat} :
      Reached cursor st → SetStateFunctional fuel st rowid = .ok st1 → Reached cursor st1
  | setStateNotFunctional {st st1 : NodeDB} {fuel rowid : Nat} :
      Reached cursor st → SetStateNotFunctional fuel st rowid = .ok st1 → Reached cursor st1
  | moveFwd {st st1 : NodeDB} {sid : StateID} :
      cursor = true → Reached cursor st → MoveFwd st sid = .ok st1 → Reached cursor st1
  | moveBack {st st1 : NodeDB} {sid sid1 : StateID} :
      cursor = true → Reached cursor st → MoveBack st sid = .ok (st1, sid1) → Reached cursor st1

/-! ## Invariants -/

/-- A mask with exactly one bit set. -/
def IsBit (m : Nat) : Prop := ∃ i, m = 2 ^ i

/-- Every row of `States` has flags satisfying `Q`. -/
def AllFlags (Q : Nat → Prop) (st : NodeDB) : Prop := ∀ r ∈ st.States, Q r.Flags

/-- Every row of `st1` carries the flags of some row of `st`. -/
def FlagsKept (st st1 : NodeDB) : Prop := ∀ r1 ∈ st1.States, ∃ r ∈ st.States, r1.Flags = r.Flags

/-- The flag invariant I4 on one flags word: `Reachable` implies `Functional`. -/
def ReachableImpFunctional (f : Nat) : Prop :=
  hasFlag f StateFlags.Reachable = true → hasFlag f StateFlags.Functional = true

/-- The well-formedness of the store and the structural invariants of the header graph, in the
arithmetic of the code: the parent of a row is the row at `heightDec Height` whose hash is the
row's `HashPrev`. -/
structure StructInv (st : NodeDB) : Prop where
  rowid_ne_zero : ∀ r ∈ st.States, r.rowid ≠ 0
  rowid_nodup : (st.States.map (fun r => r.rowid)).Nodup
  key_unique : ∀ r1 ∈ st.States, ∀ r2 ∈ st.States,
    r1.Height = r2.Height → r1.Hash = r2.Hash → r1.rowid = r2.rowid
  height_lt : ∀ r ∈ st.States, r.Height < 2 ^ 64
  rowPrev_iff : ∀ c ∈ st.States, ∀ p, c.RowPrev = some p ↔
    ∃ P ∈ st.States, P.rowid = p ∧ P.Height = heightDec c.Height ∧ P.Hash = c.HashPrev
  countNext : ∀ p ∈ st.States,
    p.CountNext = st.States.countP (fun c => c.RowPrev == some p.rowid)
  tips : ∀ h row, (h, row) ∈ st.Tips ↔
    ∃ r ∈ st.States, r.rowid = row ∧ r.Height = h ∧ r.CountNext = 0

/-- The part of the structural invariant that the flag operations rely on: row identifiers are
unique and not zero, heights are 64-bit, and a non-null `RowPrev` names a row of the table that
sits one height below, in the arithmetic of the code. -/
structure LinkInv (st : NodeDB) : Prop where
  rowid_ne_zero : ∀ r ∈ st.States, r.rowid ≠ 0
  rowid_nodup : (st.States.map (fun r => r.rowid)).Nodup
  height_lt : ∀ r ∈ st.States, r.Height < 2 ^ 64
  link : ∀ c ∈ st.States, ∀ p, c.RowPrev = some p →
    ∃ P ∈ st.States, P.rowid = p ∧ P.Height = heightDec c.Height

/-- What `InsertState` does to an old row: `prev`, the parent found, gets one more child; a row
that names `(h, hash)` as predecessor gets `rowid` as `RowPrev`. -/
def insertedOld (prev : Option StateRow) (rowid h : Nat) (hash : MerkleHash) (r : StateRow) :
    StateRow :=
  let r1 := match prev with
    | some p => if r.rowid == p.rowid then { r with CountNext := p.CountNext + 1 } else r
    | none => r
  if isNextOf h hash r1 then { r1 with RowPrev := some rowid } else r1

/-- What a deleting `DeleteState` of the row `x` does to another row: the parent of `x` loses a
child, and a functional child when `x` is `Functional`. -/
def deletedOld (x : StateRow) (r : StateRow) : StateRow :=
  match x.RowPrev with
  | some p =>
    if r.rowid == p then
      if hasFlag x.Flags StateFlags.Functional then
        { r with CountNext := r.CountNext - 1, CountNextFunctional := r.CountNextFunctional - 1 }
      else { r with CountNext := r.CountNext - 1 }
    else r
  | none => r

/-- The columns of a row that the flag operations never write: everything but `Flags`,
`CountNextFunctional` and `Mmr`. -/
def skeleton (r : StateRow) : StateRow :=
  { r with Flags := 0, CountNextFunctional := 0, Mmr := none }

/-- The store `st1` differs from `st` at most in the `Flags`, `CountNextFunctional` and `Mmr`
columns of `States` and in `TipsReachable` and `Params`. -/
def SameSkeleton (st st1 : NodeDB) : Prop :=
  st1.States.map skeleton = st.States.map skeleton ∧ st1.Tips = st.Tips

/-- The row has its `Reachable` flag set. -/
def RowReachable (r : StateRow) : Prop := hasFlag r.Flags StateFlags.Reachable = true

/-- The row has its `Functional` flag set. -/
def RowFunctional (r : StateRow) : Prop := hasFlag r.Flags StateFlags.Functional = true

/-- The reachability of `r` that its children are consistent with, while the rows in `P` are
pending: a pending row has had its `Reachable` flag flipped, its children not yet. -/
def Eff (P : Nat → Prop) (r : StateRow) : Prop :=
  (P r.rowid ∧ ¬RowReachable r) ∨ (¬P r.rowid ∧ RowReachable r)

/-- The invariant on the `Reachable` flags while `OnStateReachable` is under way with direction
`b`; `P` holds the row identifiers that are pending.  With `P` empty this is the invariant
between calls. -/
structure FlagsInvP (st : NodeDB) (P : Nat → Prop) (b : Bool) : Prop where
  pend : ∀ r ∈ st.States, P r.rowid → hasFlag r.Flags StateFlags.Reachable = b
  up : ∀ c ∈ st.States, c.Height ≠ 0 →
    (RowReachable c ↔
      RowFunctional c ∧ ∃ p ∈ st.States, c.RowPrev = some p.rowid ∧ Eff P p)
  zero : ∀ c ∈ st.States, c.Height = 0 → (RowReachable c ↔ RowFunctional c)
  zeroPrev : ∀ c ∈ st.States, c.Height = 0 → RowFunctional c →
    ∀ p ∈ st.States, c.RowPrev = some p.rowid → ¬Eff P p

/-- The invariant on the `Reachable` flags between calls. -/
def FlagsInv (st : NodeDB) : Prop := FlagsInvP st (fun _ => False) true

/-- The columns the flag invariant reads. -/
def flagView (r : StateRow) : Nat × Nat × Option Nat × Nat :=
  (r.rowid, r.Height, r.RowPrev, r.Flags)

/-- What the loop `for (i...) SetFlags(rows[i].first, rows[i].second ^ Reachable)` of
`OnStateReachable` does to a row: the rows read by the query get their `Reachable` flag
flipped. -/
def flipRows (rows : List StateRow) (r : StateRow) : StateRow :=
  if r ∈ rows then { r with Flags := r.Flags ^^^ StateFlags.Reachable } else r

/-- The rows of `st1` are those of `st`, in order, with the columns read by the flag invariant
unchanged. -/
def FlagViewMap (st st1 : NodeDB) : Prop :=
  ∃ ψ : StateRow → StateRow, st1.States = st.States.map ψ ∧ ∀ r, flagView (ψ r) = flagView r

/-! ## The invariants behind the round trip of the `Functional` flag -/

/-- No row at `Height` 0 names a predecessor. -/
def NoWrap (st : NodeDB) : Prop := ∀ r ∈ st.States, r.Height = 0 → r.RowPrev = none

/-- The column `CountNextFunctional` of a row is the number of rows that name it as `RowPrev` and
have `Functional` set. -/
def CountF (st : NodeDB) : Prop :=
  ∀ p ∈ st.States, p.CountNextFunctional =
    st.States.countP
      (fun c => c.RowPrev == some p.rowid && hasFlag c.Flags StateFlags.Functional)

/-- The table `TipsReachable` while the rows in `P` are pending: no pair twice, every pair is the
`(Height, rowid)` of a row, and a row is listed exactly when it counts as reachable for its
children (`Eff`) and has no functional child. -/
structure TipsP (st : NodeDB) (P : Nat → Prop) : Prop where
  nodup : st.TipsReachable.Nodup
  rows : ∀ e ∈ st.TipsReachable, ∃ r ∈ st.States, e = (r.Height, r.rowid)
  mem : ∀ r ∈ st.States,
    ((r.Height, r.rowid) ∈ st.TipsReachable ↔ Eff P r ∧ r.CountNextFunctional = 0)

/-- Everything `OnStateReachable` relies on while it runs with direction `b` and the rows in `P`
pending. -/
structure CascInv (st : NodeDB) (P : Nat → Prop) (b : Bool) : Prop where
  link : LinkInv st
  noWrap : NoWrap st
  flags : FlagsInvP st P b
  countF : CountF st
  tips : TipsP st P

/-- The graph invariants of the header table as the flag operations need them, with the
arithmetic of the natural numbers (a parent sits at `Height + 1 = ` the height of the child, so a
row at `Height` 0 has no parent).

* well-formedness of the store: row identifiers are unique and not zero, `Height` is 64-bit,
  `Flags` is 32-bit, `(Height, State)` is a key of `TipsReachable`;
* `RowPrev` is set iff the parent row is present, and then names it;
* I2: `CountNextFunctional` is the number of children with `Functional` set;
* I4 and I5: a row with a parent is `Reachable` iff it is `Functional` and the parent is
  `Reachable`; a row without a parent is `Reachable` iff it is at `Height` 0 and `Functional`;
* I7: `TipsReachable` holds exactly the rows with `Reachable` set and `CountNextFunctional` 0.

The invariants on `CountNext`, `Tips` and `Active` (I1, I3, I6, I8) and the uniqueness of
`(Height, Hash)` are not among the fields: the two flag operations neither read nor write those
columns, and find rows by `rowid` and `RowPrev` only. -/
structure GraphInv (st : NodeDB) : Prop where
  rowid_ne_zero : ∀ r ∈ st.States, r.rowid ≠ 0
  rowid_nodup : (st.States.map (fun r => r.rowid)).Nodup
  height_lt : ∀ r ∈ st.States, r.Height < 2 ^ 64
  flags_lt : ∀ r ∈ st.States, r.Flags < 2 ^ 32
  tipsReachable_nodup : st.TipsReachable.Nodup
  rowPrev_iff : ∀ c ∈ st.States, ∀ p, c.RowPrev = some p ↔
    ∃ P ∈ st.States, P.rowid = p ∧ P.Height + 1 = c.Height ∧ P.Hash = c.HashPrev
  countNextFunctional : ∀ p ∈ st.States,
    p.CountNextFunctional = st.States.countP
      (fun c => c.HashPrev == p.Hash && c.Height == p.Height + 1
        && hasFlag c.Flags StateFlags.Functional)
  reachable : ∀ c ∈ st.States,
    (∀ p ∈ st.States, c.RowPrev = some p.rowid →
      (RowReachable c ↔ RowFunctional c ∧ RowReachable p)) ∧
    (c.RowPrev = none → (RowReachable c ↔ c.Height = 0 ∧ RowFunctional c))
  tipsReachable : ∀ h row, (h, row) ∈ st.TipsReachable ↔
    ∃ r ∈ st.States, r.rowid = row ∧ r.Height = h ∧ RowReachable r
      ∧ r.CountNextFunctional = 0

/-- The columns of a row that the round trip is about. -/
def flagCols (r : StateRow) : Nat × Nat × Nat × Nat :=
  (r.rowid, r.Flags, r.CountNext, r.CountNextFunctional)

/-- The store `st1` has the rows of `st`, in order, each changed at most in `Mmr` and in the
`Reachable` bit of `Flags`; `Tips` is the same. -/
def CascadeFrame (st st1 : NodeDB) : Prop :=
  (∃ ψ : StateRow → StateRow, st1.States = st.States.map ψ ∧
    ∀ r, skeleton (ψ r) = skeleton r ∧ (ψ r).CountNextFunctional = r.CountNextFunctional
      ∧ ∀ i, i ≠ 1 → (ψ r).Flags.testBit i = r.Flags.testBit i) ∧ st1.Tips = st.Tips

/-- What `SetStateFunctional` and `SetStateNotFunctional` do to a row before the cascade starts,
for the row `rowid`: with `par = some (p, c)` the parent `p` gets `CountNextFunctional := c`, and
the row itself gets the flags `n`. -/
def rootMap (par : Option (Nat × Nat)) (rowid n : Nat) (r : StateRow) : StateRow :=
  let r1 := match par with
    | some (p, c) => if r.rowid == p then { r with CountNextFunctional := c } else r
    | none => r
  if r1.rowid == rowid then { r1 with Flags := n } else r1

/-- The store `st1` has the rows of `st`, in order; apart from `Mmr`, `CountNextFunctional` and
the `Reachable` bit, a row differs only if it is the row `rowid`, whose flags are then `n`;
`Tips` is the same. -/
def RootFrame (st st1 : NodeDB) (rowid n : Nat) : Prop :=
  (∃ ψ : StateRow → StateRow, st1.States = st.States.map ψ ∧
    ∀ r, skeleton (ψ r) = skeleton r ∧
      ∀ i, i ≠ 1 →
        (ψ r).Flags.testBit i = (if r.rowid = rowid then n else r.Flags).testBit i)
  ∧ st1.Tips = st.Tips

/-- The argument `par` of `rootMap` is right for the row `x` of `st`: none when `x` names no
predecessor, else the predecessor with its counter one down (when `x` is `Functional`, about to
lose the flag) or one up (when it is about to get it). -/
def parentCounter (st : NodeDB) (x : StateRow) : Option (Nat × Nat) → Prop
  | none => x.RowPrev = none
  | some (p, c) => x.RowPrev = some p ∧ ∃ Pp ∈ st.States, Pp.rowid = p ∧
      c = if hasFlag x.Flags StateFlags.Functional then Pp.CountNextFunctional - 1
        else Pp.CountNextFunctional + 1

/-! ## Example headers and stores -/

/-- A header with the given height, predecessor hash and hash; the other fields are zero. -/
def exHeader (h : Nat) (prev hash : MerkleHash) : Full :=
  { m_Height := h, m_Prev := prev, m_Difficulty := 0, m_TimeStamp := 0, m_LiveObjects := [],
    m_History := [], hash := hash }

/-- A row as `InsertState` leaves it for `exHeader`, with the given derived columns. -/
def exRow (rowid h : Nat) (hash prev : MerkleHash) (flags : Nat) (rowPrev : Option Nat)
    (countNext countNextF : Nat) (mmr : Option Blob) : StateRow :=
  { rowid := rowid, Height := h, Hash := hash, HashPrev := prev, Difficulty := 0, Timestamp := 0,
    LiveObjects := [], History := [], Flags := flags, RowPrev := rowPrev, CountNext := countNext,
    CountNextFunctional := countNextF, PoW := none, Mmr := mmr, Body := none, Rollback := none,
    Peer := none }

/-- A store with the given header rows and tip tables and nothing else. -/
def exStore (rows : List StateRow) (tips tipsReachable : List (Nat × Nat)) : NodeDB :=
  { States := rows, Tips := tips, TipsReachable := tipsReachable, Params := [], Spendable := [] }

/-- The store after `InsertState` of a genesis header with hash 10. -/
def exGenesis : NodeDB :=
  exStore [exRow 1 0 10 0 0 none 0 0 none] [(0, 1)] []

/-- The store `exGenesis` after `SetStateFunctional` of its row. -/
def exGenesisFunctional : NodeDB :=
  exStore [exRow 1 0 10 0 3 none 0 0 (some (DmmrAppend 1 0 0 0))] [(0, 1)] [(0, 1)]

/-- The largest height, `2^64 - 1`. -/
def exMaxHeight : Nat := 18446744073709551615

/-- The store after `InsertState` of a header of height `2^64 - 1` with hash 7. -/
def exTop : NodeDB :=
  exStore [exRow 1 exMaxHeight 7 5 0 none 0 0 none] [(exMaxHeight, 1)] []

/-- The store `exTop` after `InsertState` of a header of height 0 whose `HashPrev` is 7. -/
def exTopThenGenesis : NodeDB :=
  exStore [exRow 1 exMaxHeight 7 5 0 none 1 0 none, exRow 2 0 10 7 0 (some 1) 0 0 none]
    [(0, 2)] []

/-- The store after `InsertState` of a header of height 0 with hash 10 and `HashPrev` 7. -/
def exGenesis7 : NodeDB :=
  exStore [exRow 1 0 10 7 0 none 0 0 none] [(0, 1)] []

/-- The store `exGenesis7` after `SetStateFunctional` of its row. -/
def exGenesis7Functional : NodeDB :=
  exStore [exRow 1 0 10 7 3 none 0 0 (some (DmmrAppend 1 0 0 7))] [(0, 1)] [(0, 1)]

/-- The store `exGenesis7Functional` after `InsertState` of a header of height `2^64 - 1` with
hash 7. -/
def exGenesisThenTop : NodeDB :=
  exStore [exRow 1 0 10 7 3 (some 2) 0 0 (some (DmmrAppend 1 0 0 7)),
      exRow 2 exMaxHeight 7 5 0 none 1 1 none]
    [(0, 1)] [(0, 1)]

/-- The store `exGenesisThenTop` after `DeleteState` of row 1. -/
def exGenesisThenTopDeleted : NodeDB :=
  exStore [exRow 2 exMaxHeight 7 5 0 none 0 0 none] [(exMaxHeight, 2)] [(exMaxHeight, 2)]

/-- The store after `InsertState` of a genesis header (hash 10) and of its child (hash 11). -/
def exTwo : NodeDB :=
  exStore [exRow 1 0 10 0 0 none 1 0 none, exRow 2 1 11 10 0 (some 1) 0 0 none] [(1, 2)] []

/-- The store `exTwo` after `SetStateFunctional` of the genesis row. -/
def exTwoGenesisFunctional : NodeDB :=
  exStore [exRow 1 0 10 0 3 none 1 0 (some (DmmrAppend 1 0 0 0)), exRow 2 1 11 10 0 (some 1) 0 0 none]
    [(1, 2)] [(0, 1)]

/-- A genesis header with hash 10 and its child with hash 11; the child is `Functional`, the
genesis header is not, so neither is `Reachable`. -/
def exChildFunctional : NodeDB :=
  exStore [exRow 1 0 10 0 0 none 1 1 none, exRow 2 1 11 10 1 (some 1) 0 0 none] [(1, 2)] []

/-- The store `exGenesis7` after `InsertState` of a header of height `2^64 - 1` with hash 7. -/
def exGenesis7ThenTop : NodeDB :=
  exStore [exRow 1 0 10 7 0 (some 2) 0 0 none, exRow 2 exMaxHeight 7 5 0 none 1 0 none]
    [(0, 1)] []

/-- The store after `InsertState` of a header of height 1 with hash 11 whose predecessor, hash
10, is not there. -/
def exOrphan : NodeDB :=
  exStore [exRow 1 1 11 10 0 none 0 0 none] [(1, 1)] []

/-- The store `exOrphan` after `MoveFwd` to its row. -/
def exOrphanFwd : NodeDB :=
  { States := [exRow 1 1 11 10 4 none 0 0 none], Tips := [(1, 1)], TipsReachable := [],
    Params := [{ ID := 2, ParamInt := some 1, ParamBlob := none },
      { ID := 3, ParamInt := some 1, ParamBlob := none }],
    Spendable := [] }

/-- The store `exOrphanFwd` after `InsertState` of the genesis header with hash 10. -/
def exOrphanFwdGenesis : NodeDB :=
  { States := [exRow 1 1 11 10 4 (some 2) 0 0 none, exRow 2 0 10 0 0 none 1 0 none],
    Tips := [(1, 1)], TipsReachable := [],
    Params := [{ ID := 2, ParamInt := some 1, ParamBlob := none },
      { ID := 3, ParamInt := some 1, ParamBlob := none }],
    Spendable := [] }

/-- The store `exOrphanFwdGenesis` after `MoveBack` on the cursor. -/
def exOrphanBack : NodeDB :=
  { States := [exRow 1 1 11 10 0 (some 2) 0 0 none, exRow 2 0 10 0 0 none 1 0 none],
    Tips := [(1, 1)], TipsReachable := [],
    Params := [{ ID := 2, ParamInt := some 2, ParamBlob := none },
      { ID := 3, ParamInt := some 0, ParamBlob := none }],
    Spendable := [] }

/-! ## Reading a header back -/

/-- `get_State`: the six columns `Height`, `HashPrev`, `Difficulty`, `Timestamp`, `LiveObjects`
and `History` of the row, in this order (the fields the call writes into its out-parameter). -/
def get_State (st : NodeDB) (rowid : Nat) :
    Except Err (Nat × MerkleHash × Nat × Nat × Blob × Blob) :=
  match findRow st rowid with
  | none => .error .notFound
  | some r => .ok (r.Height, r.HashPrev, r.Difficulty, r.Timestamp, r.LiveObjects, r.History)

/-- A store whose only content is one parameter row with id 5 and value 7. -/
def exParam : NodeDB :=
  { States := [], Tips := [], TipsReachable := [],
    Params := [{ ID := 5, ParamInt := some 7, ParamBlob := none }], Spendable := [] }

/-- The store `exTwo` after `MoveFwd` on its genesis row: the row is `Active` and the cursor
names it. -/
def exTwoActive : NodeDB :=
  { States := [exRow 1 0 10 0 4 none 1 0 none, exRow 2 1 11 10 0 (some 1) 0 0 none],
    Tips := [(1, 2)], TipsReachable := [],
    Params := [{ ID := ParamID.CursorRow, ParamInt := some 1, ParamBlob := none },
      { ID := ParamID.CursorHeight, ParamInt := some 0, ParamBlob := none }],
    Spendable := [] }

/-- The columns of a row that no call ever rewrites: the row identifier and the header. -/
def hdr (r : StateRow) : Nat × Nat × MerkleHash × MerkleHash × Nat × Nat × Blob × Blob :=
  (r.rowid, r.Height, r.Hash, r.HashPrev, r.Difficulty, r.Timestamp, r.LiveObjects, r.History)

/-- The rows after a step are the rows before, in order, with identifier and header kept. -/
def HdrMap (st st1 : NodeDB) : Prop :=
  ∃ f : StateRow → StateRow, st1.States = st.States.map f ∧ ∀ r, hdr (f r) = hdr r

/-! ## Insertion of a list of headers, and rows identified by key -/

/-- Inserting the headers of a list into a store, one `InsertState` after the other. -/
def insertAll (st : NodeDB) : List Full → Except Err NodeDB
  | [] => .ok st
  | s :: ss => InsertState st s >>= fun p => insertAll p.1 ss

/-- The key `(Height, Hash)` of a row of `States`. -/
def rowKey (r : StateRow) : Nat × MerkleHash := (r.Height, r.Hash)

/-- The key `(Height, Hash)` under which `InsertState` files a header. -/
def fullKey (s : Full) : Nat × MerkleHash := (s.m_Height, s.hash)

/-- The key of the row that `RowPrev` names; `none` when `RowPrev` is NULL or names no row. -/
def parentKey (st : NodeDB) (r : StateRow) : Option (Nat × MerkleHash) :=
  (prvRow st r).map rowKey

/-- The entries of `Tips` with the row identifier replaced by the `Hash` of the row it
names. -/
def tipKeys (st : NodeDB) : List (Nat × Option MerkleHash) :=
  st.Tips.map (fun t => (t.1, (findRow st t.2).map (fun r => r.Hash)))

/-- The columns `Height`, `Hash`, `HashPrev` of a row. -/
def keyCols (r : StateRow) : Nat × MerkleHash × MerkleHash := (r.Height, r.Hash, r.HashPrev)

/-- The fields of a header that `InsertState` writes to `Height`, `Hash`, `HashPrev`. -/
def fullCols (s : Full) : Nat × MerkleHash × MerkleHash := (s.m_Height, s.hash, s.m_Prev)

/-! ## The graph invariants in full -/

/-- The graph invariants of the header table, with the arithmetic of the natural numbers:
`GraphInv` (well-formedness, the `RowPrev`-parent invariant, I2, I4, I5, I7) together with

* `(Height, Hash)` is a key of `States` and `(Height, State)` a key of `Tips`;
* I1: `CountNext` is the number of children, the rows with `HashPrev` equal to the `Hash` of
  the row and `Height` one more than its `Height`;
* I6: `Tips` holds exactly the rows with `CountNext` 0. -/
structure GraphInvAll (st : NodeDB) : Prop where
  graph : GraphInv st
  key_unique : ∀ r1 ∈ st.States, ∀ r2 ∈ st.States,
    r1.Height = r2.Height → r1.Hash = r2.Hash → r1.rowid = r2.rowid
  tips_nodup : st.Tips.Nodup
  countNext : ∀ p ∈ st.States, p.CountNext = st.States.countP
    (fun c => c.HashPrev == p.Hash && c.Height == p.Height + 1)
  tips : ∀ h row, (h, row) ∈ st.Tips ↔
    ∃ r ∈ st.States, r.rowid = row ∧ r.Height = h ∧ r.CountNext = 0

/-! ## Frame of the flag bits -/

/-- Every row of `st1` has the identifier of a row of `st` and agrees with it on every bit of
`Flags` outside `mask`. -/
def BitsKept (mask : Nat) (st st1 : NodeDB) : Prop :=
  ∀ r1 ∈ st1.States, ∃ r ∈ st.States, r1.rowid = r.rowid ∧
    ∀ i, mask.testBit i = false → r1.Flags.testBit i = r.Flags.testBit i

/-- A row of `st` and a row of `st1` with the same identifier agree on every bit of `Flags`
outside `mask`. -/
def KeepsBits (mask : Nat) (st st1 : NodeDB) : Prop :=
  ∀ r ∈ st.States, ∀ r1 ∈ st1.States, r1.rowid = r.rowid →
    ∀ i, mask.testBit i = false → r1.Flags.testBit i = r.Flags.testBit i

/-! ## Cursor walks -/

/-- `MoveFwd` on the rows with the identifiers `rows`, in order, with the heights `i`,
`i + 1`, ... -/
def moveFwdFrom (st : NodeDB) (i : Nat) : List Nat → Except Err NodeDB
  | [] => .ok st
  | row :: rows =>
    MoveFwd st { m_Height := i, m_Row := row } >>= fun st1 => moveFwdFrom st1 (i + 1) rows

/-- `MoveBack` called `k` times, each time on the `StateID` the call before has left. -/
def moveBackN : Nat → NodeDB → StateID → Except Err (NodeDB × StateID)
  | 0, st, sid => .ok (st, sid)
  | k + 1, st, sid => MoveBack st sid >>= fun p => moveBackN k p.1 p.2

/-- The `RowPrev` of the row with the identifier `a`; `none` when there is no such row. -/
def rowPrevOf (st : NodeDB) (a : Nat) : Option (Option Nat) :=
  (findRow st a).map (fun r => r.RowPrev)

/-- The identifiers form a `RowPrev` chain: each is a row of `States` and names the next entry
of the list as its `RowPrev`. -/
def IsRun (st : NodeDB) (l : List Nat) : Prop :=
  List.Chain' (fun a b => rowPrevOf st a = some (some b)) l ∧ ∀ a ∈ l, (rowPrevOf st a).isSome

/-- What `MoveFwd` on the row `a` does to a row. -/
def setActive (a : Nat) (r : StateRow) : StateRow :=
  if r.rowid == a then { r with Flags := r.Flags ||| StateFlags.Active } else r

/-- What `MoveBack` on the row `a` does to a row. -/
def clearActive (a : Nat) (r : StateRow) : StateRow :=
  if r.rowid == a then { r with Flags := r.Flags &&& notU32 StateFlags.Active } else r

/-! ## The caller protocol of the cursor -/

/-- `MoveFwd(sid)` follows the caller protocol: `sid.Row` is a row of `Height` `sid.Height`
whose `RowPrev` is the row of the cursor, or a row without `RowPrev` while the cursor is
zeroed. -/
def FwdAllowed (st : NodeDB) (sid : StateID) : Prop :=
  ∃ r ∈ st.States, r.rowid = sid.m_Row ∧ r.Height = sid.m_Height ∧
    (r.RowPrev = some (get_Cursor st).1.m_Row ∨
      ((get_Cursor st).1.m_Row = 0 ∧ r.RowPrev = none))

/-- The stores reached from the empty store by `InsertState`, `DeleteState`,
`SetStateFunctional`, `SetStateNotFunctional`, and cursor moves that follow the caller protocol:
`MoveFwd` as `FwdAllowed` says, `MoveBack` on the `StateID` that `get_Cursor` returns. -/
inductive ReachedProtocol : NodeDB → Prop
  | empty : ReachedProtocol NodeDB.empty
  | insertState {st st1 : NodeDB} {s : Full} {rowid : Nat} :
      ReachedProtocol st → s.m_Height < 2 ^ 64 → InsertState st s = .ok (st1, rowid) →
      ReachedProtocol st1
  | deleteState {st st1 : NodeDB} {rowid : Nat} {res : Bool × Nat} :
      ReachedProtocol st → DeleteState st rowid = .ok (st1, res) → ReachedProtocol st1
  | setStateFunctional {st st1 : NodeDB} {fuel rowid : Nat} :
      ReachedProtocol st → SetStateFunctional fuel st rowid = .ok st1 → ReachedProtocol st1
  | setStateNotFunctional {st st1 : NodeDB} {fuel rowid : Nat} :
      ReachedProtocol st → SetStateNotFunctional fuel st rowid = .ok st1 → ReachedProtocol st1
  | moveFwd {st st1 : NodeDB} {sid : StateID} :
      ReachedProtocol st → FwdAllowed st sid → MoveFwd st sid = .ok st1 → ReachedProtocol st1
  | moveBack {st st1 : NodeDB} {sid1 : StateID} :
      ReachedProtocol st → MoveBack st (get_Cursor st).1 = .ok (st1, sid1) →
      ReachedProtocol st1

/-- No row has its `Active` flag set. -/
def NoActive (st : NodeDB) : Prop :=
  ∀ r ∈ st.States, hasFlag r.Flags StateFlags.Active = false

/-- The `Active` rows are exactly the rows of the list, which is a `RowPrev` chain without
repetition: its head, then the row the head names as `RowPrev`, and so on. -/
def ActiveRun (st : NodeDB) (l : List Nat) : Prop :=
  IsRun st l ∧ l.Nodup ∧
    ∀ r ∈ st.States, hasFlag r.Flags StateFlags.Active = true ↔ r.rowid ∈ l

/-! ## Spendable ledger -/

/-- The cast `(uint32_t) x` of a signed 32-bit value. -/
def castU32 (x : Int) : Nat := (x % 2 ^ 32).toNat

/-- The value the store receives from `put(int, uint32_t)`: `sqlite3_bind_int` takes an `int`, so
the `uint32_t` arrives as the signed 32-bit value with the same bits. -/
def bindInt (x : Nat) : Int :=
  if x % 2 ^ 32 < 2 ^ 31 then ((x % 2 ^ 32 : Nat) : Int) else ((x % 2 ^ 32 : Nat) : Int) - 2 ^ 32

/-- `AddSpendable`: `assert(nRefs)`, then the `INSERT`; `Key` is the primary key of the
table. -/
def AddSpendable (st : NodeDB) (key body : Blob) (nRefs nUnspentCount : Nat) :
    Except Err NodeDB :=
  if nRefs == 0 then .error .assertion
  else if st.Spendable.any (fun r => r.Key == key) then .error .sqlite
  else .ok { st with
    Spendable := st.Spendable ++
      [{ Key := key, Body := body, Refs := bindInt nRefs, Unspent := bindInt nUnspentCount }] }

/-- What the `UPDATE` of `ModifySpendable` does to a row. -/
def modifiedRow (key : Blob) (nRefsDelta nUnspentDelta : Int) (r : SpendableRow) :
    SpendableRow :=
  if r.Key == key then
    { r with Refs := r.Refs + bindInt (castU32 nRefsDelta),
             Unspent := r.Unspent + bindInt (castU32 nUnspentDelta) }
  else r

/-- `ModifySpendable`: the `UPDATE` with `TestChanged1Row`, then, with `bMaybeDelete`, the
`DELETE ... WHERE Key=? AND Refs=0`. -/
def ModifySpendable (st : NodeDB) (key : Blob) (nRefsDelta nUnspentDelta : Int)
    (bMaybeDelete : Bool) : Except Err NodeDB :=
  if nRefsDelta == 0 && nUnspentDelta == 0 then .error .assertion
  else if (st.Spendable.filter (fun r => r.Key == key)).length = 1 then
    let sp1 := st.Spendable.map (modifiedRow key nRefsDelta nUnspentDelta)
    let sp2 := if bMaybeDelete then sp1.filter (fun r => !(r.Key == key && r.Refs == 0)) else sp1
    .ok { st with Spendable := sp2 }
  else .error .changed1Row

/-- `EnumUnpsent` followed by `WalkerSpendable::MoveNext` until it returns `false`: the pairs
`(m_Key, m_nUnspentCount)` yielded; the count is read as a `uint32_t`. -/
def EnumUnpsent (st : NodeDB) : List (Blob × Nat) :=
  (st.Spendable.filter (fun r => r.Unspent != 0)).map (fun r => (r.Key, castU32 r.Unspent))

/-- The invariant of a `Spendable` row: `Refs >= 0`, `Unspent >= 0`, `Refs >= Unspent`. -/
def SpendableOk (r : SpendableRow) : Prop := 0 ≤ r.Refs ∧ 0 ≤ r.Unspent ∧ r.Unspent ≤ r.Refs

/-- The stores reached from the empty one by `AddSpendable` with `nRefs > 0` and
`ModifySpendable` calls that complete. -/
inductive SpendableReached : NodeDB → Prop
  | empty : SpendableReached NodeDB.empty
  | add {st st1 : NodeDB} {key body : Blob} {nRefs nUnspentCount : Nat} :
      SpendableReached st → 0 < nRefs → nRefs < 2 ^ 32 → nUnspentCount < 2 ^ 32 →
      AddSpendable st key body nRefs nUnspentCount = .ok st1 → SpendableReached st1
  | modify {st st1 : NodeDB} {key : Blob} {nRefsDelta nUnspentDelta : Int} {b : Bool} :
      SpendableReached st → -2 ^ 31 ≤ nRefsDelta → nRefsDelta < 2 ^ 31 →
      -2 ^ 31 ≤ nUnspentDelta → nUnspentDelta < 2 ^ 31 →
      ModifySpendable st key nRefsDelta nUnspentDelta b = .ok st1 → SpendableReached st1

/-- The stores reached as in `SpendableReached` by calls whose arguments keep the row
invariant: `AddSpendable` with `nUnspentCount <= nRefs < 2^31`, `ModifySpendable` with deltas
that leave the row of the key with `0 <= Unspent <= Refs`. -/
inductive SpendableGuarded : NodeDB → Prop
  | empty : SpendableGuarded NodeDB.empty
  | add {st st1 : NodeDB} {key body : Blob} {nRefs nUnspentCount : Nat} :
      SpendableGuarded st → 0 < nRefs → nRefs < 2 ^ 31 → nUnspentCount ≤ nRefs →
      AddSpendable st key body nRefs nUnspentCount = .ok st1 → SpendableGuarded st1
  | modify {st st1 : NodeDB} {key : Blob} {nRefsDelta nUnspentDelta : Int} {b : Bool} :
      SpendableGuarded st → -2 ^ 31 ≤ nRefsDelta → nRefsDelta < 2 ^ 31 →
      -2 ^ 31 ≤ nUnspentDelta → nUnspentDelta < 2 ^ 31 →
      (∀ r ∈ st.Spendable, r.Key = key →
        0 ≤ r.Unspent + nUnspentDelta ∧ r.Unspent + nUnspentDelta ≤ r.Refs + nRefsDelta) →
      ModifySpendable st key nRefsDelta nUnspentDelta b = .ok st1 → SpendableGuarded st1

/-! ## Block payload -/

/-- `SetStateBlock`: the `UPDATE ... SET Body=?, Peer=?`; with an empty body neither parameter
is bound, and an unbound parameter is NULL (`Recordset::Reset` clears the bindings of the
statement after every use). -/
def SetStateBlock (st : NodeDB) (rowid : Nat) (body peer : Blob) : Except Err NodeDB :=
  updateRow st rowid (fun r =>
    if body.length != 0 then { r with Body := some body, Peer := some peer }
    else { r with Body := none, Peer := none })

/-- `DelStateBlock`: `SetStateBlock` with an empty body; `dummy` is the `PeerID` it passes. -/
def DelStateBlock (st : NodeDB) (rowid : Nat) (dummy : Blob) : Except Err NodeDB :=
  SetStateBlock st rowid [] dummy

/-- `SetStateRollback`. -/
def SetStateRollback (st : NodeDB) (rowid : Nat) (rollback : Blob) : Except Err NodeDB :=
  updateRow st rowid (fun r => { r with Rollback := some rollback })

/-! ## Enumeration of the reachable tips -/

/-- The value the store receives from `put(int, uint64_t)`: `sqlite3_bind_int64` takes a signed
64-bit integer, so the `uint64_t` arrives as the signed value with the same bits. -/
def asInt64 (x : Nat) : Int :=
  if x % 2 ^ 64 < 2 ^ 63 then ((x % 2 ^ 64 : Nat) : Int) else ((x % 2 ^ 64 : Nat) : Int) - 2 ^ 64

/-- The order of `ORDER BY Height DESC, State DESC` on two rows of `TipsReachable`: `a` comes no
later than `b`. -/
def tipsDesc (a b : Nat × Nat) : Prop :=
  asInt64 b.1 < asInt64 a.1 ∨ (asInt64 a.1 = asInt64 b.1 ∧ asInt64 b.2 ≤ asInt64 a.2)

instance : DecidableRel tipsDesc := fun a b =>
  inferInstanceAs (Decidable (asInt64 b.1 < asInt64 a.1 ∨
    (asInt64 a.1 = asInt64 b.1 ∧ asInt64 b.2 ≤ asInt64 a.2)))

/-- `EnumFunctionalTips` followed by `WalkerState::MoveNext` until it returns `false`: the
`StateID`s yielded, in order. -/
def EnumFunctionalTips (st : NodeDB) : List StateID :=
  (st.TipsReachable.insertionSort tipsDesc).map (fun t => { m_Height := t.1, m_Row := t.2 })

/-- The order the claim speaks of: `(Height, Row)` strictly descending, lexicographic, as
unsigned numbers. -/
def sidGt (a b : StateID) : Prop :=
  b.m_Height < a.m_Height ∨ (a.m_Height = b.m_Height ∧ b.m_Row < a.m_Row)

/-! ## More example stores -/

/-- The store `exGenesisThenTopDeleted` after `InsertState` of a genesis header with hash 20. -/
def exTopAndGenesis : NodeDB :=
  exStore [exRow 2 exMaxHeight 7 5 0 none 0 0 none, exRow 3 0 20 0 0 none 0 0 none]
    [(exMaxHeight, 2), (0, 3)] [(exMaxHeight, 2)]

/-- The store `exTopAndGenesis` after `SetStateFunctional` of the genesis row. -/
def exTopAndGenesisFunctional : NodeDB :=
  exStore [exRow 2 exMaxHeight 7 5 0 none 0 0 none,
      exRow 3 0 20 0 3 none 0 0 (some (DmmrAppend 3 0 0 0))]
    [(exMaxHeight, 2), (0, 3)] [(exMaxHeight, 2), (0, 3)]

/-- The store `exGenesisFunctional` after `SetStateNotFunctional` of its row. -/
def exGenesisNotFunctional : NodeDB :=
  exStore [exRow 1 0 10 0 0 none 0 0 (some (DmmrAppend 1 0 0 0))] [(0, 1)] []

/-- The row of `exGenesis` with a block body and a peer. -/
def exBlockRow : StateRow :=
  { exRow 1 0 10 0 0 none 0 0 none with Body := some [1], Peer := some [9] }

/-- The store `exGenesis` with a block body and a peer on its row. -/
def exGenesisBlock : NodeDB :=
  exStore [exBlockRow] [(0, 1)] []

/-- A child of the genesis row of `exTwo` that is `Functional` and `Reachable`. -/
def exLeafReachable : StateRow :=
  exRow 2 1 11 10 3 (some 1) 0 0 (some (DmmrAppend 2 1 1 10))

/-- The store `exTwoGenesisFunctional` after `SetStateFunctional` of row 2: both rows are
`Functional` and `Reachable`, row 2 is the tip and the reachable tip. -/
def exTwoReachable : NodeDB :=
  exStore [exRow 1 0 10 0 3 none 1 1 (some (DmmrAppend 1 0 0 0)), exLeafReachable]
    [(1, 2)] [(1, 2)]

/-- A store whose `TipsReachable` holds an entry of height `2^63` and one of height 0. -/
def exHighTips : NodeDB :=
  exStore [] [] [(9223372036854775808, 1), (0, 2)]

/-- The store after `AddSpendable(K, B, 3, 2)` with `K = [1]`, `B = [7]`. -/
def exSpend : NodeDB :=
  { States := [], Tips := [], TipsReachable := [], Params := [],
    Spendable := [{ Key := [1], Body := [7], Refs := 3, Unspent := 2 }] }

/-- The store after `AddSpendable(K, B, 1, 0)` and `ModifySpendable(K, -2, 0, false)`. -/
def exSpendNegative : NodeDB :=
  { States := [], Tips := [], TipsReachable := [], Params := [],
    Spendable := [{ Key := [1], Body := [7], Refs := -1, Unspent := 0 }] }

/-! ## The `Mmr` column -/

/-- Every row of `st1` continues a row of `st` with the same `rowid`, and keeps its `Mmr` value
when that row had one. -/
def MmrKept (st st1 : NodeDB) : Prop :=
  ∀ r1 ∈ st1.States, ∃ r ∈ st.States, r1.rowid = r.rowid ∧ (r.Mmr.isSome = true → r1.Mmr = r.Mmr)

/-- A row of `st` with a non-null `Mmr` has the same `Mmr` in `st1`, if it is still there. -/
def KeepsMmr (st st1 : NodeDB) : Prop :=
  ∀ r ∈ st.States, r.Mmr.isSome = true → ∀ r1 ∈ st1.States, r1.rowid = r.rowid → r1.Mmr = r.Mmr

/-- Every `Reachable` row has a non-null `Mmr`, except the rows whose identifier is in `P`:
these are the rows that have just got the flag and wait for their call of `BuildMmr`. -/
def MmrInvP (st : NodeDB) (P : Nat → Prop) : Prop :=
  ∀ r ∈ st.States, hasFlag r.Flags StateFlags.Reachable = true → r.Mmr.isSome = true ∨ P r.rowid

/-! ## The walk of `OnStateReachable` -/

/-- The parent link of the rows, in plain arithmetic: row identifiers are unique, heights are
64-bit, and a non-null `RowPrev` names a row of the table whose `Height` is one less. -/
structure ParentInv (st : NodeDB) : Prop where
  rowid_nodup : (st.States.map (fun r => r.rowid)).Nodup
  height_lt : ∀ r ∈ st.States, r.Height < 2 ^ 64
  parent : ∀ c ∈ st.States, ∀ p, c.RowPrev = some p →
    ∃ P ∈ st.States, P.rowid = p ∧ P.Height + 1 = c.Height

/-- `RowPrev` of the row with identifier `v`. -/
def parentOf (st : NodeDB) (v : Nat) : Option Nat := (findRow st v).bind (fun r => r.RowPrev)

/-- `Height` of the row with identifier `v`. -/
def heightOf (st : NodeDB) (v : Nat) : Option Nat := (findRow st v).map (fun r => r.Height)

/-- The identifier reached from `v` by following `RowPrev` `k` times. -/
def ancestor (st : NodeDB) : Nat → Nat → Option Nat
  | 0, v => some v
  | k + 1, v => (ancestor st k v).bind (parentOf st)

/-- One more call in a sequence of calls of the walk: `acc` is the list of visits so far and
the result so far; the call `f` on the row `r` is made only if no call before it has raised. -/
def walkNext (f : NodeDB → Nat → List (Nat × Nat) × Except Err NodeDB)
    (acc : List (Nat × Nat) × Except Err NodeDB) (r : StateRow) :
    List (Nat × Nat) × Except Err NodeDB :=
  match acc.2 with
  | .error _ => acc
  | .ok s => (acc.1 ++ (f s r.rowid).1, (f s r.rowid).2)

/-- `OnStateReachable` together with the list of its visits: the pairs `(rowid, h)` with which a
turn of the `while (true)` loop starts, in the order of the run, over all recursive calls.  The
second component is the result of `OnStateReachable`. -/
def OnStateReachableWalk :
    Nat → NodeDB → Nat → Nat → Nat → Bool → List (Nat × Nat) × Except Err NodeDB
  | 0, _, _, _, _, _ => ([], .error .fuel)
  | fuel + 1, st, rowid, rowPrev, h, b =>
    match (if b then BuildMmr st rowid rowPrev h else .ok st) with
    | .error e => ([(rowid, h)], .error e)
    | .ok st1 =>
      let rows := nextFunctional st1 rowid h
      if rows.all (fun r => hasFlag r.Flags StateFlags.Functional
          && ((!hasFlag r.Flags StateFlags.Reachable) == b)) then
        match rows with
        | [] => ([(rowid, h)],
            if b then TipReachableAdd st1 rowid h else TipReachableDel st1 rowid h)
        | r0 :: rest =>
          match (r0 :: rest).foldlM
              (fun s r => SetFlags s r.rowid (r.Flags ^^^ StateFlags.Reachable)) st1 with
          | .error e => ([(rowid, h)], .error e)
          | .ok st2 =>
            let w := (rest ++ [r0]).foldl
              (walkNext (fun s i => OnStateReachableWalk fuel s i rowid (heightInc h) b))
              ([], .ok st2)
            ((rowid, h) :: w.1, w.2)
      else ([(rowid, h)], .error .assertion)

/-- What holds of a visit `e` in the list `t` of visits of a walk that starts at `(rowid, h)`:
`e.1` is a row at height `e.2`, `rowid` is its ancestor `e.2 - h` links up, and `e` is the
start or is entered from a visit of its parent, one height below. -/
def Visit (st : NodeDB) (rowid h : Nat) (t : List (Nat × Nat)) (e : Nat × Nat) : Prop :=
  (∃ k, e.2 = h + k ∧ heightOf st e.1 = some e.2 ∧ ancestor st k e.1 = some rowid) ∧
  (e = (rowid, h) ∨ ∃ e1 ∈ t, parentOf st e.1 = some e1.1 ∧ e.2 = e1.2 + 1)

/-- No row is visited twice, and every visit is as `Visit` says. -/
def GoodWalk (st : NodeDB) (rowid h : Nat) (t : List (Nat × Nat)) : Prop :=
  (t.map Prod.fst).Nodup ∧ ∀ e ∈ t, Visit st rowid h t e

/-- The visits of the calls on the children with identifiers in `D`. -/
def GoodWalks (st : NodeDB) (D : List Nat) (h : Nat) (t : List (Nat × Nat)) : Prop :=
  (t.map Prod.fst).Nodup ∧ ∀ e ∈ t, ∃ c ∈ D, Visit st c h t e

/-! ## Basic facts about the primitives -/

theorem bind_ok_iff {ε α β : Type} (x : Except ε α) (f : α → Except ε β) (b : β) :
    (x >>= f) = .ok b ↔ ∃ a, x = .ok a ∧ f a = .ok b := by
  cases x with
  | error e => simp [bind, Except.bind]
  | ok a => simp [bind, Except.bind]

theorem ite_ok_iff {ε α : Type} (c : Prop) [Decidable c] (x : Except ε α) (a b : α) :
    (if c then x else .ok a) = .ok b ↔ (c ∧ x = .ok b) ∨ (¬c ∧ a = b) := by
  by_cases hc : c <;> simp [hc]

theorem updateRow_ok {st st1 : NodeDB} {rowid : Nat} {f : StateRow → StateRow}
    (h : updateRow st rowid f = .ok st1) :
    (st.States.filter (fun r => r.rowid == rowid)).length = 1 ∧
    st1 = { st with States := st.States.map (fun r => if r.rowid == rowid then f r else r) } := by
  unfold updateRow at h
  split at h
  · rename_i hlen
    injection h with h
    exact ⟨hlen, h.symm⟩
  · cases h

theorem deleteRow_ok {st st1 : NodeDB} {rowid : Nat} (h : deleteRow st rowid = .ok st1) :
    (st.States.filter (fun r => r.rowid == rowid)).length = 1 ∧
    st1 = { st with States := st.States.filter (fun r => r.rowid != rowid) } := by
  unfold deleteRow at h
  split at h
  · rename_i hlen
    injection h with h
    exact ⟨hlen, h.symm⟩
  · cases h

theorem TipAdd_ok {st st1 : NodeDB} {rowid h : Nat} (hok : TipAdd st rowid h = .ok st1) :
    (h, rowid) ∉ st.Tips ∧ st1 = { st with Tips := st.Tips ++ [(h, rowid)] } := by
  unfold TipAdd at hok
  split at hok
  · cases hok
  · rename_i hn
    injection hok with hok
    exact ⟨hn, hok.symm⟩

theorem TipDel_ok {st st1 : NodeDB} {rowid h : Nat} (hok : TipDel st rowid h = .ok st1) :
    st.Tips.count (h, rowid) = 1 ∧
    st1 = { st with Tips := st.Tips.filter (fun p => p != (h, rowid)) } := by
  unfold TipDel at hok
  split at hok
  · rename_i hn
    injection hok with hok
    exact ⟨hn, hok.symm⟩
  · cases hok

theorem TipReachableAdd_ok {st st1 : NodeDB} {rowid h : Nat}
    (hok : TipReachableAdd st rowid h = .ok st1) :
    (h, rowid) ∉ st.TipsReachable ∧
    st1 = { st with TipsReachable := st.TipsReachable ++ [(h, rowid)] } := by
  unfold TipReachableAdd at hok
  split at hok
  · cases hok
  · rename_i hn
    injection hok with hok
    exact ⟨hn, hok.symm⟩

theorem TipReachableDel_ok {st st1 : NodeDB} {rowid h : Nat}
    (hok : TipReachableDel st rowid h = .ok st1) :
    st.TipsReachable.count (h, rowid) = 1 ∧
    st1 = { st with TipsReachable := st.TipsReachable.filter (fun p => p != (h, rowid)) } := by
  unfold TipReachableDel at hok
  split at hok
  · rename_i hn
    injection hok with hok
    exact ⟨hn, hok.symm⟩
  · cases hok

theorem ParamIntSet_ok {st st1 : NodeDB} {ID val : Nat} (hok : ParamIntSet st ID val = .ok st1) :
    st1.States = st.States ∧ st1.Tips = st.Tips ∧ st1.TipsReachable = st.TipsReachable
      ∧ st1.Spendable = st.Spendable := by
  unfold ParamIntSet at hok
  split at hok <;> (injection hok with hok; subst hok; exact ⟨rfl, rfl, rfl, rfl⟩)

theorem put_Cursor_ok {st st1 : NodeDB} {sid : StateID} (hok : put_Cursor st sid = .ok st1) :
    st1.States = st.States ∧ st1.Tips = st.Tips ∧ st1.TipsReachable = st.TipsReachable
      ∧ st1.Spendable = st.Spendable := by
  unfold put_Cursor at hok
  rw [bind_ok_iff] at hok
  obtain ⟨s1, h1, h2⟩ := hok
  have a := ParamIntSet_ok h1
  have b := ParamIntSet_ok h2
  exact ⟨b.1.trans a.1, b.2.1.trans a.2.1, b.2.2.1.trans a.2.2.1, b.2.2.2.trans a.2.2.2⟩

theorem findRow_some {st : NodeDB} {rowid : Nat} {x : StateRow}
    (h : findRow st rowid = some x) : x ∈ st.States ∧ x.rowid = rowid := by
  unfold findRow at h
  have h1 := List.mem_of_find?_eq_some h
  have h2 := List.find?_some h
  simp only [beq_iff_eq] at h2
  exact ⟨h1, h2⟩

theorem findKey_some {st : NodeDB} {h : Nat} {hash : MerkleHash} {x : StateRow}
    (hf : findKey st h hash = some x) : x ∈ st.States ∧ x.Height = h ∧ x.Hash = hash := by
  unfold findKey at hf
  have h1 := List.mem_of_find?_eq_some hf
  have h2 := List.find?_some hf
  simp only [Bool.and_eq_true, beq_iff_eq] at h2
  exact ⟨h1, h2.1, h2.2⟩

theorem findKey_none {st : NodeDB} {h : Nat} {hash : MerkleHash}
    (hf : findKey st h hash = none) : ∀ x ∈ st.States, ¬(x.Height = h ∧ x.Hash = hash) := by
  unfold findKey at hf
  intro x hx hk
  have := List.find?_eq_none.mp hf x hx
  simp [hk.1, hk.2] at this

theorem nextFunctional_mem {st : NodeDB} {rowid h : Nat} {r : StateRow}
    (hr : r ∈ nextFunctional st rowid h) :
    r ∈ st.States ∧ r.Height = heightInc h ∧ r.RowPrev = some rowid
      ∧ hasFlag r.Flags StateFlags.Functional = true := by
  unfold nextFunctional at hr
  simp only [List.mem_filter, Bool.and_eq_true, beq_iff_eq] at hr
  exact ⟨hr.1, hr.2.1.1, hr.2.1.2, hr.2.2⟩

/-! ## Flag bits -/

theorem hasFlag_two_pow (f i : Nat) : hasFlag f (2 ^ i) = f.testBit i := by
  unfold hasFlag
  rw [Nat.and_two_pow]
  cases f.testBit i <;> simp

theorem isBit_Functional : IsBit StateFlags.Functional := ⟨0, rfl⟩
theorem isBit_Reachable : IsBit StateFlags.Reachable := ⟨1, rfl⟩
theorem isBit_Active : IsBit StateFlags.Active := ⟨2, rfl⟩

theorem hasFlag_lor {m : Nat} (hm : IsBit m) (a b : Nat) :
    hasFlag (a ||| b) m = (hasFlag a m || hasFlag b m) := by
  obtain ⟨i, rfl⟩ := hm
  simp only [hasFlag_two_pow, Nat.testBit_lor]

theorem hasFlag_land {m : Nat} (hm : IsBit m) (a b : Nat) :
    hasFlag (a &&& b) m = (hasFlag a m && hasFlag b m) := by
  obtain ⟨i, rfl⟩ := hm
  simp only [hasFlag_two_pow, Nat.testBit_land]

theorem hasFlag_xor {m : Nat} (hm : IsBit m) (a b : Nat) :
    hasFlag (a ^^^ b) m = (hasFlag a m ^^ hasFlag b m) := by
  obtain ⟨i, rfl⟩ := hm
  simp only [hasFlag_two_pow, Nat.testBit_xor]

@[simp] theorem hasFlag_F_lor (a b : Nat) : hasFlag (a ||| b) StateFlags.Functional
    = (hasFlag a StateFlags.Functional || hasFlag b StateFlags.Functional) :=
  hasFlag_lor isBit_Functional a b
@[simp] theorem hasFlag_R_lor (a b : Nat) : hasFlag (a ||| b) StateFlags.Reachable
    = (hasFlag a StateFlags.Reachable || hasFlag b StateFlags.Reachable) :=
  hasFlag_lor isBit_Reachable a b
@[simp] theorem hasFlag_A_lor (a b : Nat) : hasFlag (a ||| b) StateFlags.Active
    = (hasFlag a StateFlags.Active || hasFlag b StateFlags.Active) :=
  hasFlag_lor isBit_Active a b
@[simp] theorem hasFlag_F_land (a b : Nat) : hasFlag (a &&& b) StateFlags.Functional
    = (hasFlag a StateFlags.Functional && hasFlag b StateFlags.Functional) :=
  hasFlag_land isBit_Functional a b
@[simp] theorem hasFlag_R_land (a b : Nat) : hasFlag (a &&& b) StateFlags.Reachable
    = (hasFlag a StateFlags.Reachable && hasFlag b StateFlags.Reachable) :=
  hasFlag_land isBit_Reachable a b
@[simp] theorem hasFlag_A_land (a b : Nat) : hasFlag (a &&& b) StateFlags.Active
    = (hasFlag a StateFlags.Active && hasFlag b StateFlags.Active) :=
  hasFlag_land isBit_Active a b
@[simp] theorem hasFlag_F_xor (a b : Nat) : hasFlag (a ^^^ b) StateFlags.Functional
    = (hasFlag a StateFlags.Functional ^^ hasFlag b StateFlags.Functional) :=
  hasFlag_xor isBit_Functional a b
@[simp] theorem hasFlag_R_xor (a b : Nat) : hasFlag (a ^^^ b) StateFlags.Reachable
    = (hasFlag a StateFlags.Reachable ^^ hasFlag b StateFlags.Reachable) :=
  hasFlag_xor isBit_Reachable a b
@[simp] theorem hasFlag_A_xor (a b : Nat) : hasFlag (a ^^^ b) StateFlags.Active
    = (hasFlag a StateFlags.Active ^^ hasFlag b StateFlags.Active) :=
  hasFlag_xor isBit_Active a b

@[simp] theorem hasFlag_F_F : hasFlag StateFlags.Functional StateFlags.Functional = true := by
  decide
@[simp] theorem hasFlag_F_R : hasFlag StateFlags.Functional StateFlags.Reachable = false := by
  decide
@[simp] theorem hasFlag_F_A : hasFlag StateFlags.Functional StateFlags.Active = false := by
  decide
@[simp] theorem hasFlag_R_F : hasFlag StateFlags.Reachable StateFlags.Functional = false := by
  decide
@[simp] theorem hasFlag_R_R : hasFlag StateFlags.Reachable StateFlags.Reachable = true := by
  decide
@[simp] theorem hasFlag_R_A : hasFlag StateFlags.Reachable StateFlags.Active = false := by
  decide
@[simp] theorem hasFlag_A_F : hasFlag StateFlags.Active StateFlags.Functional = false := by
  decide
@[simp] theorem hasFlag_A_R : hasFlag StateFlags.Active StateFlags.Reachable = false := by
  decide
@[simp] theorem hasFlag_A_A : hasFlag StateFlags.Active StateFlags.Active = true := by
  decide
@[simp] theorem hasFlag_notF_F :
    hasFlag (notU32 StateFlags.Functional) StateFlags.Functional = false := by decide
@[simp] theorem hasFlag_notF_R :
    hasFlag (notU32 StateFlags.Functional) StateFlags.Reachable = true := by decide
@[simp] theorem hasFlag_notF_A :
    hasFlag (notU32 StateFlags.Functional) StateFlags.Active = true := by decide
@[simp] theorem hasFlag_notR_F :
    hasFlag (notU32 StateFlags.Reachable) StateFlags.Functional = true := by decide
@[simp] theorem hasFlag_notR_R :
    hasFlag (notU32 StateFlags.Reachable) StateFlags.Reachable = false := by decide
@[simp] theorem hasFlag_notR_A :
    hasFlag (notU32 StateFlags.Reachable) StateFlags.Active = true := by decide
@[simp] theorem hasFlag_notA_F :
    hasFlag (notU32 StateFlags.Active) StateFlags.Functional = true := by decide
@[simp] theorem hasFlag_notA_R :
    hasFlag (notU32 StateFlags.Active) StateFlags.Reachable = true := by decide
@[simp] theorem hasFlag_notA_A :
    hasFlag (notU32 StateFlags.Active) StateFlags.Active = false := by decide
@[simp] theorem hasFlag_zero (m : Nat) : hasFlag 0 m = false := by
  simp [hasFlag]

theorem newFlags_F (f : Nat) :
    hasFlag (SetStateNotFunctional.newFlags f) StateFlags.Functional = false := by
  unfold SetStateNotFunctional.newFlags
  simp only
  split <;> simp

theorem newFlags_R (f : Nat) :
    hasFlag (SetStateNotFunctional.newFlags f) StateFlags.Reachable = false := by
  unfold SetStateNotFunctional.newFlags
  simp only
  split
  · simp
  · rename_i h; simpa using h

theorem newFlags_A (f : Nat) :
    hasFlag (SetStateNotFunctional.newFlags f) StateFlags.Active = hasFlag f StateFlags.Active := by
  unfold SetStateNotFunctional.newFlags
  simp only
  split <;> simp

/-! ## What a completed call did -/

theorem InsertState_inv {st st1 : NodeDB} {s : Full} {rowid : Nat}
    (hok : InsertState st s = .ok (st1, rowid)) :
    findKey st s.m_Height s.hash = none ∧ rowid = newRowid st ∧
    ∃ st3, InsertState.prevStep { st with States := st.States ++ [InsertState.newRow st s] }
        (findKey st (heightDec s.m_Height) s.m_Prev) s.m_Height = .ok st3 ∧
      InsertState.adoptStep st3 rowid s.m_Height s.hash = .ok st1 := by
  unfold InsertState at hok
  try simp only at hok
  split at hok
  · cases hok
  · rename_i hkey
    split at hok
    · cases hok
    · rw [bind_ok_iff] at hok
      obtain ⟨st3, h3, hok⟩ := hok
      rw [bind_ok_iff] at hok
      obtain ⟨st5, h5, hok⟩ := hok
      injection hok with hok
      injection hok with ha hb
      subst ha
      refine ⟨by simpa using hkey, hb.symm, st3, h3, ?_⟩
      rw [← hb]; exact h5

theorem DeleteState_inv {st st1 : NodeDB} {rowid : Nat} {res : Bool × Nat}
    (hok : DeleteState st rowid = .ok (st1, res)) :
    ∃ x, findRow st rowid = some x ∧ res.2 = x.RowPrev.getD 0 ∧
      ((x.CountNext ≠ 0 ∧ st1 = st ∧ res.1 = false) ∨
       (x.CountNext = 0 ∧ hasFlag x.Flags StateFlags.Active = false ∧ res.1 = true ∧
        ∃ st4 st5 st6, DeleteState.prevStep st x = .ok st4 ∧
          TipDel st4 rowid x.Height = .ok st5 ∧
          (if hasFlag x.Flags StateFlags.Reachable then TipReachableDel st5 rowid x.Height
           else .ok st5) = .ok st6 ∧
          deleteRow st6 rowid = .ok st1)) := by
  unfold DeleteState at hok
  split at hok
  · cases hok
  · rename_i x hx
    refine ⟨x, hx, ?_⟩
    try simp only at hok
    split at hok
    · rename_i hc
      injection hok with hok
      injection hok with ha hb
      subst ha hb
      exact ⟨rfl, Or.inl ⟨by simpa using hc, rfl, rfl⟩⟩
    · rename_i hc
      split at hok
      · cases hok
      · rename_i hA
        rw [bind_ok_iff] at hok
        obtain ⟨st4, h4, hok⟩ := hok
        rw [bind_ok_iff] at hok
        obtain ⟨st5, h5, hok⟩ := hok
        rw [bind_ok_iff] at hok
        obtain ⟨st6, h6, hok⟩ := hok
        rw [bind_ok_iff] at hok
        obtain ⟨st7, h7, hok⟩ := hok
        injection hok with hok
        injection hok with ha hb
        subst ha hb
        exact ⟨rfl, Or.inr ⟨by simpa using hc, by simpa using hA, rfl, st4, st5, st6, h4, h5, h6, h7⟩⟩

theorem SetStateFunctional_inv {fuel : Nat} {st st1 : NodeDB} {rowid : Nat}
    (hok : SetStateFunctional fuel st rowid = .ok st1) :
    ∃ x, findRow st rowid = some x ∧
      ((hasFlag x.Flags StateFlags.Functional = true ∧ st1 = st) ∨
       (hasFlag x.Flags StateFlags.Functional = false ∧
          ∃ st3 nFlags rowPrev st4, SetStateFunctional.prevStep st x = .ok (st3, nFlags, rowPrev) ∧
            SetFlags st3 rowid nFlags = .ok st4 ∧
            (if hasFlag nFlags StateFlags.Reachable then
               OnStateReachable fuel st4 rowid rowPrev x.Height true
             else .ok st4) = .ok st1)) := by
  unfold SetStateFunctional at hok
  split at hok
  · cases hok
  · rename_i x hx
    refine ⟨x, hx, ?_⟩
    try simp only at hok
    split at hok
    · left
      rename_i hF
      injection hok with hok
      exact ⟨hF, hok.symm⟩
    · right
      rename_i hF
      simp only [Bool.not_eq_true] at hF
      refine ⟨hF, ?_⟩
      rw [bind_ok_iff] at hok
      obtain ⟨⟨st3, nFlags, rowPrev⟩, hpre, hok⟩ := hok
      try simp only at hok
      rw [bind_ok_iff] at hok
      obtain ⟨st4, h4, hok⟩ := hok
      exact ⟨st3, nFlags, rowPrev, st4, hpre, h4, hok⟩

theorem SetStateFunctional_prevStep_inv {st st3 : NodeDB} {x : StateRow} {nFlags rowPrev : Nat}
    (hok : SetStateFunctional.prevStep st x = .ok (st3, nFlags, rowPrev)) :
    (x.Height ≠ 0 ∧ x.RowPrev = none ∧ st3 = st ∧ nFlags = x.Flags ||| StateFlags.Functional
        ∧ rowPrev = 0) ∨
    (x.Height = 0 ∧ x.RowPrev = none ∧ st3 = st
        ∧ nFlags = x.Flags ||| StateFlags.Functional ||| StateFlags.Reachable ∧ rowPrev = 0) ∨
    (x.Height ≠ 0 ∧ x.RowPrev = some rowPrev ∧
      ∃ st1, SetNextCountFunctional st rowPrev (prvCountNextF st x + 1) = .ok st1 ∧
        ((hasFlag (prvFlags st x) StateFlags.Reachable = false ∧ st3 = st1
            ∧ nFlags = x.Flags ||| StateFlags.Functional) ∨
         (hasFlag (prvFlags st x) StateFlags.Reachable = true
            ∧ nFlags = x.Flags ||| StateFlags.Functional ||| StateFlags.Reachable
            ∧ (if prvCountNextF st x = 0 then TipReachableDel st1 rowPrev (heightDec x.Height)
               else .ok st1) = .ok st3))) := by
  unfold SetStateFunctional.prevStep at hok
  try simp only at hok
  split at hok
  · rename_i hh
    have hh' : x.Height ≠ 0 := by simpa using hh
    split at hok
    · rename_i p hp
      right; right
      rw [bind_ok_iff] at hok
      obtain ⟨st1, h1, hok⟩ := hok
      split at hok
      · rename_i hR
        rw [bind_ok_iff] at hok
        obtain ⟨st2, h2, hok⟩ := hok
        injection hok with hok
        injection hok with ha hb
        injection hb with hb hc
        subst ha hb hc
        refine ⟨hh', hp, st1, h1, Or.inr ⟨hR, rfl, ?_⟩⟩
        simpa using h2
      · rename_i hR
        injection hok with hok
        injection hok with ha hb
        injection hb with hb hc
        subst ha hb hc
        exact ⟨hh', hp, st1, h1, Or.inl ⟨by simpa using hR, rfl, rfl⟩⟩
    · rename_i hp
      left
      injection hok with hok
      injection hok with ha hb
      injection hb with hb hc
      subst ha hb hc
      exact ⟨hh', hp, rfl, rfl, rfl⟩
  · rename_i hh
    have hh' : x.Height = 0 := by simpa using hh
    split at hok
    · rename_i hp
      right; left
      injection hok with hok
      injection hok with ha hb
      injection hb with hb hc
      subst ha hb hc
      exact ⟨hh', by simpa using hp, rfl, rfl, rfl⟩
    · cases hok

theorem SetStateNotFunctional_inv {fuel : Nat} {st st1 : NodeDB} {rowid : Nat}
    (hok : SetStateNotFunctional fuel st rowid = .ok st1) :
    ∃ x, findRow st rowid = some x ∧
      ((hasFlag x.Flags StateFlags.Functional = false ∧ st1 = st) ∨
       (hasFlag x.Flags StateFlags.Functional = true ∧
          ∃ st3 rowPrev st4, SetStateNotFunctional.prevStep st x = .ok (st3, rowPrev) ∧
            SetFlags st3 rowid (SetStateNotFunctional.newFlags x.Flags) = .ok st4 ∧
            (if hasFlag x.Flags StateFlags.Reachable then
               OnStateReachable fuel st4 rowid rowPrev x.Height false
             else .ok st4) = .ok st1)) := by
  unfold SetStateNotFunctional at hok
  split at hok
  · cases hok
  · rename_i x hx
    refine ⟨x, hx, ?_⟩
    try simp only at hok
    split at hok
    · left
      rename_i hF
      injection hok with hok
      exact ⟨by simpa using hF, hok.symm⟩
    · right
      rename_i hF
      simp only [Bool.not_eq_true, Bool.not_eq_false'] at hF
      refine ⟨by simpa using hF, ?_⟩
      rw [bind_ok_iff] at hok
      obtain ⟨⟨st3, rowPrev⟩, hpre, hok⟩ := hok
      try simp only at hok
      rw [bind_ok_iff] at hok
      obtain ⟨st4, h4, hok⟩ := hok
      refine ⟨st3, rowPrev, st4, hpre, h4, ?_⟩
      simpa using hok

theorem SetStateNotFunctional_prevStep_inv {st st3 : NodeDB} {x : StateRow} {rowPrev : Nat}
    (hok : SetStateNotFunctional.prevStep st x = .ok (st3, rowPrev)) :
    (x.Height ≠ 0 ∧ x.RowPrev = none ∧ hasFlag x.Flags StateFlags.Reachable = false
        ∧ st3 = st ∧ rowPrev = 0) ∨
    (x.Height = 0 ∧ x.RowPrev = none ∧ hasFlag x.Flags StateFlags.Reachable = true
        ∧ st3 = st ∧ rowPrev = 0) ∨
    (x.Height ≠ 0 ∧ x.RowPrev = some rowPrev ∧ prvCountNextF st x ≠ 0 ∧
      ∃ st1, SetNextCountFunctional st rowPrev (prvCountNextF st x - 1) = .ok st1 ∧
        (if prvCountNextF st x - 1 = 0 ∧ hasFlag x.Flags StateFlags.Reachable = true then
           TipReachableAdd st1 rowPrev (heightDec x.Height)
         else .ok st1) = .ok st3) := by
  unfold SetStateNotFunctional.prevStep at hok
  try simp only at hok
  split at hok
  · rename_i hh
    have hh' : x.Height ≠ 0 := by simpa using hh
    split at hok
    · rename_i hp
      left
      split at hok
      · rename_i hR
        injection hok with hok
        injection hok with ha hb
        subst ha hb
        exact ⟨hh', hp, by simpa using hR, rfl, rfl⟩
      · cases hok
    · rename_i p hp
      right; right
      split at hok
      · cases hok
      · rename_i hc
        rw [bind_ok_iff] at hok
        obtain ⟨st1, h1, hok⟩ := hok
        rw [bind_ok_iff] at hok
        obtain ⟨st2, h2, hok⟩ := hok
        injection hok with hok
        injection hok with ha hb
        subst ha hb
        refine ⟨hh', hp, by simpa using hc, st1, h1, ?_⟩
        simpa using h2
  · rename_i hh
    have hh' : x.Height = 0 := by simpa using hh
    split at hok
    · rename_i hp
      right; left
      injection hok with hok
      injection hok with ha hb
      subst ha hb
      simp only [Bool.and_eq_true, Option.isNone_iff_eq_none] at hp
      exact ⟨hh', hp.1, by simpa using hp.2, rfl, rfl⟩
    · cases hok

theorem MoveFwd_inv {st st1 : NodeDB} {sid : StateID} (hok : MoveFwd st sid = .ok st1) :
    ∃ s1, updateRow st sid.m_Row
        (fun r => { r with Flags := r.Flags ||| StateFlags.Active }) = .ok s1 ∧
      put_Cursor s1 sid = .ok st1 := by
  unfold MoveFwd at hok
  rw [bind_ok_iff] at hok
  exact hok

theorem MoveBack_inv {st st1 : NodeDB} {sid sid1 : StateID}
    (hok : MoveBack st sid = .ok (st1, sid1)) :
    ∃ s1 r, updateRow st sid.m_Row
        (fun r => { r with Flags := r.Flags &&& notU32 StateFlags.Active }) = .ok s1 ∧
      get_PrevSid s1 sid = .ok r ∧
      sid1 = (match r with
        | some s => s
        | none => { m_Height := 0, m_Row := 0 }) ∧
      put_Cursor s1 sid1 = .ok st1 := by
  unfold MoveBack at hok
  rw [bind_ok_iff] at hok
  obtain ⟨s1, h1, hok⟩ := hok
  rw [bind_ok_iff] at hok
  obtain ⟨r, h2, hok⟩ := hok
  try simp only at hok
  rw [bind_ok_iff] at hok
  obtain ⟨s2, h3, hok⟩ := hok
  injection hok with hok
  injection hok with ha hb
  subst ha
  refine ⟨s1, r, h1, h2, hb.symm, ?_⟩
  rw [← hb]; exact h3

/-! ## Properties of the flags of every row -/

theorem FlagsKept.kept_refl (st : NodeDB) : FlagsKept st st := fun r hr => ⟨r, hr, rfl⟩

theorem FlagsKept.kept_trans {a b c : NodeDB} (h1 : FlagsKept a b) (h2 : FlagsKept b c) :
    FlagsKept a c := by
  intro r hr
  obtain ⟨r1, hr1, e1⟩ := h2 r hr
  obtain ⟨r0, hr0, e0⟩ := h1 r1 hr1
  exact ⟨r0, hr0, e1.trans e0⟩

theorem FlagsKept.kept_of_states_eq {st st1 : NodeDB} (h : st1.States = st.States) :
    FlagsKept st st1 := by
  intro r hr; rw [h] at hr; exact ⟨r, hr, rfl⟩

theorem FlagsKept.allFlags {Q : Nat → Prop} {st st1 : NodeDB} (h : FlagsKept st st1)
    (hQ : AllFlags Q st) : AllFlags Q st1 := by
  intro r hr
  obtain ⟨r0, hr0, e⟩ := h r hr
  rw [e]; exact hQ r0 hr0

theorem flagsKept_updateRow {st st1 : NodeDB} {rowid : Nat} {f : StateRow → StateRow}
    (h : updateRow st rowid f = .ok st1) (hf : ∀ r, (f r).Flags = r.Flags) :
    FlagsKept st st1 := by
  obtain ⟨-, rfl⟩ := updateRow_ok h
  intro r hr
  simp only [List.mem_map] at hr
  obtain ⟨r0, hr0, rfl⟩ := hr
  refine ⟨r0, hr0, ?_⟩
  split
  · exact hf r0
  · rfl

theorem flagsKept_SetNextCount {st st1 : NodeDB} {rowid n : Nat}
    (h : SetNextCount st rowid n = .ok st1) : FlagsKept st st1 :=
  flagsKept_updateRow h (fun _ => rfl)

theorem flagsKept_SetNextCountFunctional {st st1 : NodeDB} {rowid n : Nat}
    (h : SetNextCountFunctional st rowid n = .ok st1) : FlagsKept st st1 :=
  flagsKept_updateRow h (fun _ => rfl)

theorem flagsKept_TipAdd {st st1 : NodeDB} {rowid h : Nat} (hok : TipAdd st rowid h = .ok st1) :
    FlagsKept st st1 := by
  obtain ⟨-, rfl⟩ := TipAdd_ok hok; exact FlagsKept.kept_refl _

theorem flagsKept_TipDel {st st1 : NodeDB} {rowid h : Nat} (hok : TipDel st rowid h = .ok st1) :
    FlagsKept st st1 := by
  obtain ⟨-, rfl⟩ := TipDel_ok hok; exact FlagsKept.kept_refl _

theorem flagsKept_TipReachableAdd {st st1 : NodeDB} {rowid h : Nat}
    (hok : TipReachableAdd st rowid h = .ok st1) : FlagsKept st st1 := by
  obtain ⟨-, rfl⟩ := TipReachableAdd_ok hok; exact FlagsKept.kept_refl _

theorem flagsKept_TipReachableDel {st st1 : NodeDB} {rowid h : Nat}
    (hok : TipReachableDel st rowid h = .ok st1) : FlagsKept st st1 := by
  obtain ⟨-, rfl⟩ := TipReachableDel_ok hok; exact FlagsKept.kept_refl _

theorem flagsKept_deleteRow {st st1 : NodeDB} {rowid : Nat} (hok : deleteRow st rowid = .ok st1) :
    FlagsKept st st1 := by
  obtain ⟨-, rfl⟩ := deleteRow_ok hok
  intro r hr
  exact ⟨r, (List.mem_filter.mp hr).1, rfl⟩

theorem flagsKept_InsertState_prevStep {st1 st3 : NodeDB} {prev : Option StateRow} {h : Nat}
    (hok : InsertState.prevStep st1 prev h = .ok st3) : FlagsKept st1 st3 := by
  unfold InsertState.prevStep at hok
  simp only at hok
  split at hok
  · rw [bind_ok_iff] at hok
    obtain ⟨st2, h2, hok⟩ := hok
    have k2 := flagsKept_SetNextCount h2
    split at hok
    · exact k2.kept_trans (flagsKept_TipDel hok)
    · injection hok with hok; subst hok; exact k2
  · injection hok with hok; subst hok; exact FlagsKept.kept_refl _

theorem flagsKept_InsertState_adoptStep {st3 st5 : NodeDB} {rowid h : Nat} {hash : MerkleHash}
    (hok : InsertState.adoptStep st3 rowid h hash = .ok st5) : FlagsKept st3 st5 := by
  unfold InsertState.adoptStep at hok
  simp only at hok
  have k4 : FlagsKept st3 { st3 with
      States := st3.States.map
        (fun r => if isNextOf h hash r then { r with RowPrev := some rowid } else r) } := by
    intro r hr
    simp only [List.mem_map] at hr
    obtain ⟨r0, hr0, rfl⟩ := hr
    refine ⟨r0, hr0, ?_⟩
    split <;> rfl
  split at hok
  · exact k4.kept_trans (flagsKept_SetNextCount hok)
  · exact k4.kept_trans (flagsKept_TipAdd hok)

theorem allFlags_InsertState {Q : Nat → Prop} (h0 : Q 0) {st st1 : NodeDB} {s : Full}
    {rowid : Nat} (hQ : AllFlags Q st) (hok : InsertState st s = .ok (st1, rowid)) :
    AllFlags Q st1 := by
  obtain ⟨-, -, st3, h3, h5⟩ := InsertState_inv hok
  have hQ1 : AllFlags Q { st with States := st.States ++ [InsertState.newRow st s] } := by
    intro r hr
    simp only [List.mem_append, List.mem_singleton] at hr
    rcases hr with hr | rfl
    · exact hQ r hr
    · exact h0
  exact (flagsKept_InsertState_adoptStep h5).allFlags
    ((flagsKept_InsertState_prevStep h3).allFlags hQ1)

theorem flagsKept_DeleteState_prevStep {st st4 : NodeDB} {x : StateRow}
    (hok : DeleteState.prevStep st x = .ok st4) : FlagsKept st st4 := by
  unfold DeleteState.prevStep at hok
  simp only at hok
  split at hok
  · split at hok
    · cases hok
    · rw [bind_ok_iff] at hok
      obtain ⟨s1, h1, hok⟩ := hok
      rw [bind_ok_iff] at hok
      obtain ⟨s2, h2, hok⟩ := hok
      have k1 := flagsKept_SetNextCount h1
      have k2 : FlagsKept s1 s2 := by
        split at h2
        · exact flagsKept_TipAdd h2
        · injection h2 with h2; subst h2; exact FlagsKept.kept_refl _
      split at hok
      · split at hok
        · cases hok
        · rw [bind_ok_iff] at hok
          obtain ⟨s3, h3, hok⟩ := hok
          have k3 := flagsKept_SetNextCountFunctional h3
          split at hok
          · exact ((k1.kept_trans k2).kept_trans k3).kept_trans (flagsKept_TipReachableAdd hok)
          · injection hok with hok; subst hok; exact (k1.kept_trans k2).kept_trans k3
      · injection hok with hok; subst hok; exact k1.kept_trans k2
  · injection hok with hok; subst hok; exact FlagsKept.kept_refl _

theorem flagsKept_DeleteState {st st1 : NodeDB} {rowid : Nat} {res : Bool × Nat}
    (hok : DeleteState st rowid = .ok (st1, res)) : FlagsKept st st1 := by
  obtain ⟨x, -, -, h | ⟨-, -, -, st4, st5, st6, h4, h5, h6, h7⟩⟩ := DeleteState_inv hok
  · rw [h.2.1]; exact FlagsKept.kept_refl _
  · have k6 : FlagsKept st5 st6 := by
      split at h6
      · exact flagsKept_TipReachableDel h6
      · injection h6 with h6; subst h6; exact FlagsKept.kept_refl _
    exact (((flagsKept_DeleteState_prevStep h4).kept_trans (flagsKept_TipDel h5)).kept_trans k6).kept_trans
      (flagsKept_deleteRow h7)

theorem allFlags_SetFlags {Q : Nat → Prop} {st st1 : NodeDB} {rowid n : Nat} (hn : Q n)
    (hQ : AllFlags Q st) (h : SetFlags st rowid n = .ok st1) : AllFlags Q st1 := by
  obtain ⟨-, rfl⟩ := updateRow_ok h
  intro r hr
  simp only [List.mem_map] at hr
  obtain ⟨r0, hr0, rfl⟩ := hr
  split
  · exact hn
  · exact hQ r0 hr0

theorem flagsKept_BuildMmr {st st1 : NodeDB} {rowid rowPrev h : Nat}
    (hok : BuildMmr st rowid rowPrev h = .ok st1) : FlagsKept st st1 := by
  unfold BuildMmr at hok
  split at hok
  · cases hok
  split at hok
  · cases hok
  split at hok
  · cases hok
  split at hok
  · injection hok with hok; subst hok; exact FlagsKept.kept_refl _
  · exact flagsKept_updateRow hok (fun _ => rfl)

theorem allFlags_flipFold {Q : Nat → Prop}
    (hflip : ∀ f, Q f → hasFlag f StateFlags.Functional = true → Q (f ^^^ StateFlags.Reachable))
    (rows : List StateRow)
    (hrows : ∀ r ∈ rows, Q r.Flags ∧ hasFlag r.Flags StateFlags.Functional = true) :
    ∀ (st st1 : NodeDB), AllFlags Q st →
      rows.foldlM (fun s r => SetFlags s r.rowid (r.Flags ^^^ StateFlags.Reachable)) st = .ok st1 →
      AllFlags Q st1 := by
  induction rows with
  | nil =>
    intro st st1 hQ h
    simp only [List.foldlM, pure, Except.pure] at h
    injection h with h; subst h; exact hQ
  | cons r rest ih =>
    intro st st1 hQ h
    rw [List.foldlM_cons, bind_ok_iff] at h
    obtain ⟨s1, h1, h2⟩ := h
    have hr := hrows r (List.mem_cons_self _ _)
    exact ih (fun x hx => hrows x (List.mem_cons_of_mem _ hx)) s1 st1
      (allFlags_SetFlags (hflip _ hr.1 hr.2) hQ h1) h2

/-- A property of single states that every step of a list of calls keeps is kept by the fold. -/
theorem foldlM_invariant {α : Type} (P : NodeDB → Prop) (f : NodeDB → α → Except Err NodeDB)
    (l : List α) (hf : ∀ s a s1, a ∈ l → P s → f s a = .ok s1 → P s1) :
    ∀ (st st1 : NodeDB), P st → l.foldlM f st = .ok st1 → P st1 := by
  induction l with
  | nil =>
    intro st st1 hP h
    simp only [List.foldlM, pure, Except.pure] at h
    injection h with h; subst h; exact hP
  | cons a rest ih =>
    intro st st1 hP h
    rw [List.foldlM_cons, bind_ok_iff] at h
    obtain ⟨s1, h1, h2⟩ := h
    exact ih (fun s b s2 hb => hf s b s2 (List.mem_cons_of_mem _ hb)) s1 st1
      (hf st a s1 (List.mem_cons_self _ _) hP h1) h2

theorem allFlags_OnStateReachable {Q : Nat → Prop}
    (hflip : ∀ f, Q f → hasFlag f StateFlags.Functional = true → Q (f ^^^ StateFlags.Reachable)) :
    ∀ (fuel : Nat) (st st1 : NodeDB) (rowid rowPrev h : Nat) (b : Bool), AllFlags Q st →
      OnStateReachable fuel st rowid rowPrev h b = .ok st1 → AllFlags Q st1 := by
  intro fuel
  induction fuel with
  | zero => intro st st1 rowid rowPrev h b _ hok; simp [OnStateReachable] at hok
  | succ fuel ih =>
    intro st st1 rowid rowPrev h b hQ hok
    rw [OnStateReachable, bind_ok_iff] at hok
    obtain ⟨sA, hA, hok⟩ := hok
    have hQA : AllFlags Q sA := by
      split at hA
      · exact (flagsKept_BuildMmr hA).allFlags hQ
      · injection hA with hA; subst hA; exact hQ
    simp only at hok
    split at hok
    · split at hok
      · split at hok
        · exact (flagsKept_TipReachableAdd hok).allFlags hQA
        · exact (flagsKept_TipReachableDel hok).allFlags hQA
      · rename_i r0 rest hrows
        rw [bind_ok_iff] at hok
        obtain ⟨sB, hB, hok⟩ := hok
        rw [bind_ok_iff] at hok
        obtain ⟨sC, hC, hok⟩ := hok
        have hmem : ∀ r ∈ r0 :: rest,
            Q r.Flags ∧ hasFlag r.Flags StateFlags.Functional = true := by
          intro r hr
          rw [← hrows] at hr
          have := nextFunctional_mem hr
          exact ⟨hQA r this.1, this.2.2.2⟩
        have hQB := allFlags_flipFold hflip _ hmem sA sB hQA hB
        have hQC : AllFlags Q sC :=
          foldlM_invariant (AllFlags Q) _ rest
            (fun s a s1 _ hP hs => ih _ _ _ _ _ _ hP hs) sB sC hQB hC
        exact ih _ _ _ _ _ _ hQC hok
    · cases hok

theorem flagsKept_SetStateFunctional_prevStep {st st3 : NodeDB} {x : StateRow}
    {nFlags rowPrev : Nat}
    (hok : SetStateFunctional.prevStep st x = .ok (st3, nFlags, rowPrev)) :
    FlagsKept st st3 := by
  rcases SetStateFunctional_prevStep_inv hok with h | h | ⟨-, -, st1, h1, h | h⟩
  · rw [h.2.2.1]; exact FlagsKept.kept_refl _
  · rw [h.2.2.1]; exact FlagsKept.kept_refl _
  · rw [h.2.1]; exact flagsKept_SetNextCountFunctional h1
  · have k1 := flagsKept_SetNextCountFunctional h1
    obtain ⟨-, -, h3⟩ := h
    split at h3
    · exact k1.kept_trans (flagsKept_TipReachableDel h3)
    · injection h3 with h3; subst h3; exact k1

theorem flagsKept_SetStateNotFunctional_prevStep {st st3 : NodeDB} {x : StateRow}
    {rowPrev : Nat} (hok : SetStateNotFunctional.prevStep st x = .ok (st3, rowPrev)) :
    FlagsKept st st3 := by
  rcases SetStateNotFunctional_prevStep_inv hok with h | h | ⟨-, -, -, st1, h1, h3⟩
  · rw [h.2.2.2.1]; exact FlagsKept.kept_refl _
  · rw [h.2.2.2.1]; exact FlagsKept.kept_refl _
  · have k1 := flagsKept_SetNextCountFunctional h1
    split at h3
    · exact k1.kept_trans (flagsKept_TipReachableAdd h3)
    · injection h3 with h3; subst h3; exact k1

theorem rif_flip (f : Nat) (_ : ReachableImpFunctional f)
    (hF : hasFlag f StateFlags.Functional = true) :
    ReachableImpFunctional (f ^^^ StateFlags.Reachable) := by
  intro _
  simp [hF]

theorem allFlags_rif_SetStateFunctional {fuel : Nat} {st st1 : NodeDB} {rowid : Nat}
    (hQ : AllFlags ReachableImpFunctional st)
    (hok : SetStateFunctional fuel st rowid = .ok st1) :
    AllFlags ReachableImpFunctional st1 := by
  obtain ⟨x, hx, h | ⟨-, st3, nFlags, rowPrev, st4, hpre, h4, hcas⟩⟩ :=
    SetStateFunctional_inv hok
  · rw [h.2]; exact hQ
  · have hQ3 := (flagsKept_SetStateFunctional_prevStep hpre).allFlags hQ
    have hn : ReachableImpFunctional nFlags := by
      intro _
      rcases SetStateFunctional_prevStep_inv hpre with h | h | ⟨-, -, s1, -, h | h⟩
      · rw [h.2.2.2.1]; simp
      · rw [h.2.2.2.1]; simp
      · rw [h.2.2]; simp
      · rw [h.2.1]; simp
    have hQ4 := allFlags_SetFlags hn hQ3 h4
    split at hcas
    · exact allFlags_OnStateReachable rif_flip _ _ _ _ _ _ _ hQ4 hcas
    · injection hcas with hcas; subst hcas; exact hQ4

theorem allFlags_rif_SetStateNotFunctional {fuel : Nat} {st st1 : NodeDB} {rowid : Nat}
    (hQ : AllFlags ReachableImpFunctional st)
    (hok : SetStateNotFunctional fuel st rowid = .ok st1) :
    AllFlags ReachableImpFunctional st1 := by
  obtain ⟨x, hx, h | ⟨-, st3, rowPrev, st4, hpre, h4, hcas⟩⟩ :=
    SetStateNotFunctional_inv hok
  · rw [h.2]; exact hQ
  · have hQ3 := (flagsKept_SetStateNotFunctional_prevStep hpre).allFlags hQ
    have hn : ReachableImpFunctional (SetStateNotFunctional.newFlags x.Flags) := by
      intro hR
      rw [newFlags_R] at hR; cases hR
    have hQ4 := allFlags_SetFlags hn hQ3 h4
    split at hcas
    · exact allFlags_OnStateReachable rif_flip _ _ _ _ _ _ _ hQ4 hcas
    · injection hcas with hcas; subst hcas; exact hQ4

theorem allFlags_updateFlags {Q : Nat → Prop} {st st1 : NodeDB} {rowid : Nat}
    {g : Nat → Nat} (hg : ∀ f, Q f → Q (g f)) (hQ : AllFlags Q st)
    (h : updateRow st rowid (fun r => { r with Flags := g r.Flags }) = .ok st1) :
    AllFlags Q st1 := by
  obtain ⟨-, rfl⟩ := updateRow_ok h
  intro r hr
  simp only [List.mem_map] at hr
  obtain ⟨r0, hr0, rfl⟩ := hr
  split
  · exact hg _ (hQ r0 hr0)
  · exact hQ r0 hr0

theorem allFlags_rif_MoveFwd {st st1 : NodeDB} {sid : StateID}
    (hQ : AllFlags ReachableImpFunctional st) (hok : MoveFwd st sid = .ok st1) :
    AllFlags ReachableImpFunctional st1 := by
  obtain ⟨s1, h1, h2⟩ := MoveFwd_inv hok
  have hQ1 : AllFlags ReachableImpFunctional s1 := by
    refine allFlags_updateFlags (g := fun f => f ||| StateFlags.Active) ?_ hQ h1
    intro f hf hR
    simp only [hasFlag_R_lor, hasFlag_A_R, Bool.or_false] at hR
    simp [hf hR]
  exact (FlagsKept.kept_of_states_eq (put_Cursor_ok h2).1).allFlags hQ1

theorem allFlags_rif_MoveBack {st st1 : NodeDB} {sid sid1 : StateID}
    (hQ : AllFlags ReachableImpFunctional st) (hok : MoveBack st sid = .ok (st1, sid1)) :
    AllFlags ReachableImpFunctional st1 := by
  obtain ⟨s1, r, h1, -, -, h2⟩ := MoveBack_inv hok
  have hQ1 : AllFlags ReachableImpFunctional s1 := by
    refine allFlags_updateFlags (g := fun f => f &&& notU32 StateFlags.Active) ?_ hQ h1
    intro f hf hR
    simp only [hasFlag_R_land, hasFlag_notA_R, Bool.and_true] at hR
    simp [hf hR]
  exact (FlagsKept.kept_of_states_eq (put_Cursor_ok h2).1).allFlags hQ1

theorem reached_allFlags_rif {cursor : Bool} {st : NodeDB} (h : Reached cursor st) :
    AllFlags ReachableImpFunctional st := by
  induction h with
  | empty => intro r hr; simp [NodeDB.empty] at hr
  | insertState _ _ hok ih =>
    exact allFlags_InsertState (by intro h; simp at h) ih hok
  | deleteState _ hok ih => exact (flagsKept_DeleteState hok).allFlags ih
  | setStateFunctional _ hok ih => exact allFlags_rif_SetStateFunctional ih hok
  | setStateNotFunctional _ hok ih => exact allFlags_rif_SetStateNotFunctional ih hok
  | moveFwd _ _ hok ih => exact allFlags_rif_MoveFwd ih hok
  | moveBack _ _ hok ih => exact allFlags_rif_MoveBack ih hok

/-! ## The structural invariant -/

theorem newRowid_gt (st : NodeDB) : ∀ r ∈ st.States, r.rowid < newRowid st := by
  unfold newRowid
  have key : ∀ (l : List StateRow) (m : Nat),
      m ≤ l.foldl (fun m r => max m r.rowid) m ∧
      ∀ r ∈ l, r.rowid ≤ l.foldl (fun m r => max m r.rowid) m := by
    intro l
    induction l with
    | nil => intro m; simp
    | cons a l ih =>
      intro m
      simp only [List.foldl_cons, List.mem_cons, forall_eq_or_imp]
      obtain ⟨h1, h2⟩ := ih (max m a.rowid)
      refine ⟨le_trans (le_max_left _ _) h1, le_trans (le_max_right _ _) h1, h2⟩
  intro r hr
  exact Nat.lt_succ_of_le ((key st.States 0).2 r hr)

theorem eq_of_rowid_eq {st : NodeDB} (hnd : (st.States.map (fun r => r.rowid)).Nodup)
    {r1 r2 : StateRow} (h1 : r1 ∈ st.States) (h2 : r2 ∈ st.States) (h : r1.rowid = r2.rowid) :
    r1 = r2 :=
  List.inj_on_of_nodup_map hnd h1 h2 h

theorem filter_rowid_length {st : NodeDB} (hnd : (st.States.map (fun r => r.rowid)).Nodup)
    {x : StateRow} (hx : x ∈ st.States) :
    (st.States.filter (fun r => r.rowid == x.rowid)).length = 1 := by
  have h1 : (st.States.filter (fun r => r.rowid == x.rowid)).length
      = (st.States.map (fun r => r.rowid)).count x.rowid := by
    rw [← List.countP_eq_length_filter, List.count, List.countP_map]
    rfl
  rw [h1]
  exact List.count_eq_one_of_mem hnd (List.mem_map_of_mem _ hx)

theorem findRow_of_mem {st : NodeDB} (hnd : (st.States.map (fun r => r.rowid)).Nodup)
    {x : StateRow} (hx : x ∈ st.States) : findRow st x.rowid = some x := by
  unfold findRow
  cases hf : st.States.find? (fun r => r.rowid == x.rowid) with
  | none =>
    have := List.find?_eq_none.mp hf x hx
    simp at this
  | some y =>
    have h1 := List.mem_of_find?_eq_some hf
    have h2 := List.find?_some hf
    simp only [beq_iff_eq] at h2
    rw [eq_of_rowid_eq hnd h1 hx h2]


theorem heightInc_ne (h : Nat) : heightInc h ≠ h := by
  unfold heightInc; omega

theorem heightDec_ne (h : Nat) : heightDec h ≠ h := by
  unfold heightDec; omega

theorem heightDec_inc {h : Nat} (hh : h < 2 ^ 64) : heightDec (heightInc h) = h := by
  unfold heightDec heightInc; omega

theorem heightInc_dec {h : Nat} (hh : h < 2 ^ 64) : heightInc (heightDec h) = h := by
  unfold heightDec heightInc; omega

theorem heightDec_lt (h : Nat) : heightDec h < 2 ^ 64 := by
  unfold heightDec; omega

theorem heightInc_lt (h : Nat) : heightInc h < 2 ^ 64 := by
  unfold heightInc; omega

theorem isNextOf_newRow (st : NodeDB) (s : Full) :
    isNextOf s.m_Height s.hash (InsertState.newRow st s) = false := by
  unfold isNextOf InsertState.newRow
  simp only [Bool.and_eq_false_imp, beq_iff_eq]
  intro h
  exact absurd h.symm (heightInc_ne _)

theorem InsertState_closed {st st1 : NodeDB} {s : Full} {rowid : Nat} (hS : StructInv st)
    (hok : InsertState st s = .ok (st1, rowid)) :
    rowid = newRowid st ∧ findKey st s.m_Height s.hash = none ∧
    st1.States = st.States.map
        (insertedOld (findKey st (heightDec s.m_Height) s.m_Prev) rowid s.m_Height s.hash)
      ++ [{ InsertState.newRow st s with
            CountNext := st.States.countP (isNextOf s.m_Height s.hash) }] ∧
    (∀ a b, (a, b) ∈ st1.Tips ↔
      ((a, b) ∈ st.Tips ∧ ¬(∃ P, findKey st (heightDec s.m_Height) s.m_Prev = some P
          ∧ P.CountNext = 0 ∧ a = heightDec s.m_Height ∧ b = P.rowid))
      ∨ (st.States.countP (isNextOf s.m_Height s.hash) = 0 ∧ a = s.m_Height ∧ b = rowid)) ∧
    st1.TipsReachable = st.TipsReachable ∧ st1.Params = st.Params
      ∧ st1.Spendable = st.Spendable := by
  obtain ⟨hkey, rfl, st3, h3, h5⟩ := InsertState_inv hok
  refine ⟨rfl, hkey, ?_⟩
  -- the parent step
  have hfresh := newRowid_gt st
  have h3' : st3.States = (st.States.map (fun r =>
        match findKey st (heightDec s.m_Height) s.m_Prev with
        | some p => if r.rowid == p.rowid then { r with CountNext := p.CountNext + 1 } else r
        | none => r)) ++ [InsertState.newRow st s]
      ∧ (∀ a b, (a, b) ∈ st3.Tips ↔ ((a, b) ∈ st.Tips
          ∧ ¬(∃ P, findKey st (heightDec s.m_Height) s.m_Prev = some P
          ∧ P.CountNext = 0 ∧ a = heightDec s.m_Height ∧ b = P.rowid)))
      ∧ st3.TipsReachable = st.TipsReachable ∧ st3.Params = st.Params
      ∧ st3.Spendable = st.Spendable := by
    unfold InsertState.prevStep at h3
    cases hprev : findKey st (heightDec s.m_Height) s.m_Prev with
    | none =>
      rw [hprev] at h3
      simp only [bne_self_eq_false, Bool.false_eq_true, ↓reduceIte] at h3
      injection h3 with h3
      subst h3
      simp
    | some P =>
      rw [hprev] at h3
      have hP := findKey_some hprev
      have hP0 : P.rowid ≠ 0 := hS.rowid_ne_zero P hP.1
      simp only [bne_iff_ne, ne_eq, hP0, not_false_eq_true, ↓reduceIte] at h3
      rw [bind_ok_iff] at h3
      obtain ⟨st2, h2, h3⟩ := h3
      obtain ⟨-, rfl⟩ := updateRow_ok h2
      have hnew : (InsertState.newRow st s).rowid ≠ P.rowid := by
        have := hfresh P hP.1
        show newRowid st ≠ P.rowid
        omega
      have hst : (List.map (fun r => if (r.rowid == P.rowid) = true then
            { r with CountNext := P.CountNext + 1 } else r)
            (st.States ++ [InsertState.newRow st s]))
          = (st.States.map (fun r => if r.rowid == P.rowid then
              { r with CountNext := P.CountNext + 1 } else r)) ++ [InsertState.newRow st s] := by
        rw [List.map_append]
        congr 1
        simp [hnew]
      split at h3
      · rename_i hc
        have hc' : P.CountNext = 0 := by simpa using hc
        obtain ⟨-, rfl⟩ := TipDel_ok h3
        refine ⟨hst, ?_, rfl, rfl, rfl⟩
        intro a b
        simp only [List.mem_filter, bne_iff_ne, ne_eq, Prod.mk.injEq, Option.some.injEq]
        constructor
        · rintro ⟨h1, h2⟩
          refine ⟨h1, ?_⟩
          rintro ⟨Q, rfl, -, ha, hb⟩
          exact h2 ⟨ha, hb⟩
        · rintro ⟨h1, h2⟩
          refine ⟨h1, ?_⟩
          rintro ⟨ha, hb⟩
          exact h2 ⟨P, rfl, hc', ha, hb⟩
      · rename_i hc
        have hc' : P.CountNext ≠ 0 := by simpa using hc
        injection h3 with h3
        subst h3
        refine ⟨hst, ?_, rfl, rfl, rfl⟩
        intro a b
        simp only [Option.some.injEq]
        constructor
        · intro h1
          refine ⟨h1, ?_⟩
          rintro ⟨Q, rfl, hQ, -, -⟩
          exact hc' hQ
        · exact fun h => h.1
  obtain ⟨e3, t3, r3, p3, s3⟩ := h3'
  -- the adoption step
  unfold InsertState.adoptStep at h5
  simp only at h5
  have hcnt : (st3.States.filter (isNextOf s.m_Height s.hash)).length
      = st.States.countP (isNextOf s.m_Height s.hash) := by
    rw [← List.countP_eq_length_filter, e3, List.countP_append, List.countP_map]
    have : List.countP (isNextOf s.m_Height s.hash) [InsertState.newRow st s] = 0 := by
      simp [List.countP_cons, isNextOf_newRow]
    rw [this, Nat.add_zero]
    apply List.countP_congr
    intro r hr
    simp only [Function.comp]
    cases findKey st (heightDec s.m_Height) s.m_Prev with
    | none => simp
    | some P =>
      simp only
      split <;> simp [isNextOf]
  rw [hcnt] at h5
  have hmap : (st3.States.map (fun r => if isNextOf s.m_Height s.hash r then
        { r with RowPrev := some (newRowid st) } else r))
      = st.States.map (insertedOld (findKey st (heightDec s.m_Height) s.m_Prev) (newRowid st)
          s.m_Height s.hash) ++ [InsertState.newRow st s] := by
    rw [e3, List.map_append, List.map_map]
    congr 1
    simp [isNextOf_newRow]
  split at h5
  · rename_i hc
    have hc' : st.States.countP (isNextOf s.m_Height s.hash) ≠ 0 := by simpa using hc
    obtain ⟨-, rfl⟩ := updateRow_ok h5
    refine ⟨?_, ?_, r3, p3, s3⟩
    · simp only
      rw [hmap, List.map_append]
      congr 1
      · rw [List.map_map]
        apply List.map_congr_left
        intro r0 hr0
        simp only [Function.comp]
        have : (insertedOld (findKey st (heightDec s.m_Height) s.m_Prev) (newRowid st)
            s.m_Height s.hash r0).rowid = r0.rowid := by
          unfold insertedOld
          cases findKey st (heightDec s.m_Height) s.m_Prev with
          | none => simp only; split <;> rfl
          | some P => simp only; split <;> split <;> rfl
        have hlt := hfresh r0 hr0
        have hne : ¬ (r0.rowid = newRowid st) := by omega
        simp [this, hne]
      · simp [InsertState.newRow]
    · intro a b
      simp only
      rw [t3]
      simp [hc']
  · rename_i hc
    have hc' : st.States.countP (isNextOf s.m_Height s.hash) = 0 := by simpa using hc
    obtain ⟨-, rfl⟩ := TipAdd_ok h5
    refine ⟨?_, ?_, r3, p3, s3⟩
    · simp only
      rw [hmap, hc']
      rfl
    · intro a b
      simp only [List.mem_append, List.mem_singleton, Prod.mk.injEq]
      rw [t3]
      simp [hc']

theorem insertedOld_rowid (prev : Option StateRow) (n h : Nat) (hash : MerkleHash)
    (r : StateRow) : (insertedOld prev n h hash r).rowid = r.rowid := by
  unfold insertedOld
  cases prev with
  | none => simp only; split <;> rfl
  | some P => simp only; split <;> split <;> rfl

theorem insertedOld_Height (prev : Option StateRow) (n h : Nat) (hash : MerkleHash)
    (r : StateRow) : (insertedOld prev n h hash r).Height = r.Height := by
  unfold insertedOld
  cases prev with
  | none => simp only; split <;> rfl
  | some P => simp only; split <;> split <;> rfl

theorem insertedOld_Hash (prev : Option StateRow) (n h : Nat) (hash : MerkleHash)
    (r : StateRow) : (insertedOld prev n h hash r).Hash = r.Hash := by
  unfold insertedOld
  cases prev with
  | none => simp only; split <;> rfl
  | some P => simp only; split <;> split <;> rfl

theorem insertedOld_HashPrev (prev : Option StateRow) (n h : Nat) (hash : MerkleHash)
    (r : StateRow) : (insertedOld prev n h hash r).HashPrev = r.HashPrev := by
  unfold insertedOld
  cases prev with
  | none => simp only; split <;> rfl
  | some P => simp only; split <;> split <;> rfl

theorem insertedOld_Flags (prev : Option StateRow) (n h : Nat) (hash : MerkleHash)
    (r : StateRow) : (insertedOld prev n h hash r).Flags = r.Flags := by
  unfold insertedOld
  cases prev with
  | none => simp only; split <;> rfl
  | some P => simp only; split <;> split <;> rfl

theorem insertedOld_CountNextFunctional (prev : Option StateRow) (n h : Nat) (hash : MerkleHash)
    (r : StateRow) :
    (insertedOld prev n h hash r).CountNextFunctional = r.CountNextFunctional := by
  unfold insertedOld
  cases prev with
  | none => simp only; split <;> rfl
  | some P => simp only; split <;> split <;> rfl

theorem insertedOld_Mmr (prev : Option StateRow) (n h : Nat) (hash : MerkleHash)
    (r : StateRow) : (insertedOld prev n h hash r).Mmr = r.Mmr := by
  unfold insertedOld
  cases prev with
  | none => simp only; split <;> rfl
  | some P => simp only; split <;> split <;> rfl

theorem insertedOld_RowPrev (prev : Option StateRow) (n h : Nat) (hash : MerkleHash)
    (r : StateRow) : (insertedOld prev n h hash r).RowPrev
      = if isNextOf h hash r then some n else r.RowPrev := by
  unfold insertedOld
  cases prev with
  | none => simp only; split <;> rfl
  | some P =>
    simp only [isNextOf]
    split <;> split <;> rfl

theorem insertedOld_CountNext (prev : Option StateRow) (n h : Nat) (hash : MerkleHash)
    (r : StateRow) : (insertedOld prev n h hash r).CountNext
      = match prev with
        | some P => if r.rowid = P.rowid then P.CountNext + 1 else r.CountNext
        | none => r.CountNext := by
  unfold insertedOld
  cases prev with
  | none => simp only; split <;> rfl
  | some P =>
    simp only [isNextOf, beq_iff_eq]
    split <;> split <;> rfl

theorem newRow_RowPrev {st : NodeDB} (hS : StructInv st) (s : Full) :
    (InsertState.newRow st s).RowPrev
      = (findKey st (heightDec s.m_Height) s.m_Prev).map (fun p => p.rowid) := by
  unfold InsertState.newRow
  cases hprev : findKey st (heightDec s.m_Height) s.m_Prev with
  | none => simp
  | some P =>
    have hP0 : P.rowid ≠ 0 := hS.rowid_ne_zero P (findKey_some hprev).1
    simp [hP0]

theorem isNextOf_iff (h : Nat) (hash : MerkleHash) (r : StateRow) :
    isNextOf h hash r = true ↔ r.Height = heightInc h ∧ r.HashPrev = hash := by
  unfold isNextOf
  simp

/-- Under the structural invariant a row that names an absent key as predecessor has no
`RowPrev`. -/
theorem rowPrev_none_of_isNextOf {st : NodeDB} (hS : StructInv st) {h : Nat} (hh : h < 2 ^ 64)
    {hash : MerkleHash} (hkey : findKey st h hash = none) {r : StateRow} (hr : r ∈ st.States)
    (hn : isNextOf h hash r = true) : r.RowPrev = none := by
  rw [isNextOf_iff] at hn
  cases hp : r.RowPrev with
  | none => rfl
  | some p =>
    obtain ⟨P, hP, -, hPh, hPhash⟩ := (hS.rowPrev_iff r hr p).mp hp
    rw [hn.1, heightDec_inc hh] at hPh
    exact absurd ⟨hPh, hPhash.trans hn.2⟩ (findKey_none hkey P hP)

theorem rowPrev_mem {st : NodeDB} (hS : StructInv st) {r : StateRow} (hr : r ∈ st.States)
    {p : Nat} (hp : r.RowPrev = some p) : ∃ P ∈ st.States, P.rowid = p :=
  let ⟨P, hP, e, _⟩ := (hS.rowPrev_iff r hr p).mp hp
  ⟨P, hP, e⟩

theorem structInv_InsertState {st st1 : NodeDB} {s : Full} {rowid : Nat} (hS : StructInv st)
    (hh : s.m_Height < 2 ^ 64) (hok : InsertState st s = .ok (st1, rowid)) :
    StructInv st1 := by
  obtain ⟨rfl, hkey, eS, eT, -, -, -⟩ := InsertState_closed hS hok
  have hfresh := newRowid_gt st
  have hnokey := findKey_none hkey
  have hrp := newRow_RowPrev hS s
  generalize hprev : findKey st (heightDec s.m_Height) s.m_Prev = prev at eS eT hrp
  have hprevmem : ∀ P, prev = some P →
      P ∈ st.States ∧ P.Height = heightDec s.m_Height ∧ P.Hash = s.m_Prev := by
    intro P hP; rw [← hprev] at hP; exact findKey_some hP
  have hprevnone : prev = none →
      ∀ x ∈ st.States, ¬(x.Height = heightDec s.m_Height ∧ x.Hash = s.m_Prev) := by
    intro hP; rw [← hprev] at hP; exact findKey_none hP
  have mem1 : ∀ r1, r1 ∈ st1.States ↔
      (∃ r ∈ st.States, r1 = insertedOld prev (newRowid st) s.m_Height s.hash r) ∨
      r1 = { InsertState.newRow st s with
              CountNext := st.States.countP (isNextOf s.m_Height s.hash) } := by
    intro r1
    rw [eS]
    simp only [List.mem_append, List.mem_map, List.mem_singleton]
    constructor
    · rintro (⟨r, hr, rfl⟩ | h)
      · exact Or.inl ⟨r, hr, rfl⟩
      · exact Or.inr h
    · rintro (⟨r, hr, rfl⟩ | h)
      · exact Or.inl ⟨r, hr, rfl⟩
      · exact Or.inr h
  constructor
  · -- rowid_ne_zero
    intro r1 hr1
    rcases (mem1 r1).mp hr1 with ⟨r, hr, rfl⟩ | rfl
    · rw [insertedOld_rowid]; exact hS.rowid_ne_zero r hr
    · show newRowid st ≠ 0
      unfold newRowid; omega
  · -- rowid_nodup
    rw [eS, List.map_append, List.map_map]
    have e : (insertedOld prev (newRowid st) s.m_Height s.hash) = fun r =>
        insertedOld prev (newRowid st) s.m_Height s.hash r := rfl
    have hm : List.map ((fun r => r.rowid) ∘ insertedOld prev (newRowid st) s.m_Height s.hash)
        st.States = st.States.map (fun r => r.rowid) := by
      apply List.map_congr_left
      intro r _
      simp [Function.comp, insertedOld_rowid]
    rw [hm]
    simp only [List.map_cons, List.map_nil]
    rw [List.nodup_append]
    refine ⟨hS.rowid_nodup, List.nodup_singleton _, ?_⟩
    intro a ha hb
    simp only [List.mem_singleton] at hb
    simp only [List.mem_map] at ha
    obtain ⟨r, hr, rfl⟩ := ha
    have := hfresh r hr
    have hb' : r.rowid = newRowid st := hb
    omega
  · -- key_unique
    intro r1 hr1 r2 hr2 hH hHash
    rcases (mem1 r1).mp hr1 with ⟨a, ha, rfl⟩ | rfl <;>
      rcases (mem1 r2).mp hr2 with ⟨b, hb, rfl⟩ | rfl
    · simp only [insertedOld_rowid, insertedOld_Height, insertedOld_Hash] at *
      exact hS.key_unique a ha b hb hH hHash
    · simp only [insertedOld_Height, insertedOld_Hash] at hH hHash
      exact absurd ⟨hH, hHash⟩ (hnokey a ha)
    · simp only [insertedOld_Height, insertedOld_Hash] at hH hHash
      exact absurd ⟨hH.symm, hHash.symm⟩ (hnokey b hb)
    · rfl
  · -- height_lt
    intro r1 hr1
    rcases (mem1 r1).mp hr1 with ⟨r, hr, rfl⟩ | rfl
    · rw [insertedOld_Height]; exact hS.height_lt r hr
    · exact hh
  · -- rowPrev_iff
    intro c1 hc1 p
    rcases (mem1 c1).mp hc1 with ⟨c, hc, rfl⟩ | rfl
    · rw [insertedOld_RowPrev, insertedOld_Height, insertedOld_HashPrev]
      by_cases hn : isNextOf s.m_Height s.hash c = true
      · simp only [hn, ↓reduceIte, Option.some.injEq]
        have hn' := (isNextOf_iff _ _ _).mp hn
        constructor
        · rintro rfl
          refine ⟨_, (mem1 _).mpr (Or.inr rfl), rfl, ?_, ?_⟩
          · show s.m_Height = heightDec c.Height
            rw [hn'.1, heightDec_inc hh]
          · exact hn'.2.symm
        · rintro ⟨P1, hP1, rfl, hPh, hPhash⟩
          rcases (mem1 P1).mp hP1 with ⟨P, hP, rfl⟩ | rfl
          · rw [insertedOld_Height] at hPh
            rw [insertedOld_Hash] at hPhash
            rw [hn'.1, heightDec_inc hh] at hPh
            exact absurd ⟨hPh, hPhash.trans hn'.2⟩ (hnokey P hP)
          · rfl
      · simp only [hn, Bool.false_eq_true, ↓reduceIte]
        rw [hS.rowPrev_iff c hc p]
        constructor
        · rintro ⟨P, hP, e1, e2, e3⟩
          refine ⟨_, (mem1 _).mpr (Or.inl ⟨P, hP, rfl⟩), ?_, ?_, ?_⟩
          · rw [insertedOld_rowid]; exact e1
          · rw [insertedOld_Height]; exact e2
          · rw [insertedOld_Hash]; exact e3
        · rintro ⟨P1, hP1, e1, e2, e3⟩
          rcases (mem1 P1).mp hP1 with ⟨P, hP, rfl⟩ | rfl
          · rw [insertedOld_rowid] at e1
            rw [insertedOld_Height] at e2
            rw [insertedOld_Hash] at e3
            exact ⟨P, hP, e1, e2, e3⟩
          · exfalso
            apply hn
            rw [isNextOf_iff]
            have e2' : s.m_Height = heightDec c.Height := e2
            have e3' : s.hash = c.HashPrev := e3
            refine ⟨?_, e3'.symm⟩
            rw [e2', heightInc_dec (hS.height_lt c hc)]
    · show (InsertState.newRow st s).RowPrev = some p ↔ _
      rw [hrp]
      constructor
      · intro hp
        cases hprev' : prev with
        | none => rw [hprev'] at hp; simp at hp
        | some P =>
          rw [hprev'] at hp
          simp only [Option.map_some', Option.some.injEq] at hp
          obtain ⟨hPm, hPh, hPhash⟩ := hprevmem P hprev'
          refine ⟨_, (mem1 _).mpr (Or.inl ⟨P, hPm, rfl⟩), ?_, ?_, ?_⟩
          · rw [insertedOld_rowid]; exact hp
          · rw [insertedOld_Height]; exact hPh
          · rw [insertedOld_Hash]; exact hPhash
      · rintro ⟨P1, hP1, e1, e2, e3⟩
        rcases (mem1 P1).mp hP1 with ⟨P, hP, rfl⟩ | rfl
        · rw [insertedOld_rowid] at e1
          rw [insertedOld_Height] at e2
          rw [insertedOld_Hash] at e3
          have e2' : P.Height = heightDec s.m_Height := e2
          have e3' : P.Hash = s.m_Prev := e3
          cases hprev' : prev with
          | none => exact absurd ⟨e2', e3'⟩ (hprevnone hprev' P hP)
          | some Q =>
            obtain ⟨hQm, hQh, hQhash⟩ := hprevmem Q hprev'
            simp only [Option.map_some', Option.some.injEq]
            rw [← e1]
            exact hS.key_unique Q hQm P hP (hQh.trans e2'.symm) (hQhash.trans e3'.symm)
        · exfalso
          have e2' : s.m_Height = heightDec s.m_Height := e2
          exact heightDec_ne _ e2'.symm
  · -- countNext
    intro p1 hp1
    rw [eS, List.countP_append, List.countP_map]
    rcases (mem1 p1).mp hp1 with ⟨p0, hp0, rfl⟩ | rfl
    · rw [insertedOld_rowid, insertedOld_CountNext]
      have hcong : List.countP ((fun c => c.RowPrev == some p0.rowid) ∘
            insertedOld prev (newRowid st) s.m_Height s.hash) st.States
          = List.countP (fun c => c.RowPrev == some p0.rowid) st.States := by
        apply List.countP_congr
        intro r hr
        simp only [Function.comp, insertedOld_RowPrev]
        by_cases hn : isNextOf s.m_Height s.hash r = true
        · have hnone := rowPrev_none_of_isNextOf hS hh hkey hr hn
          have hlt := hfresh p0 hp0
          have hne : ¬ (newRowid st = p0.rowid) := by omega
          simp [hn, hnone, hne]
        · simp [hn]
      rw [hcong, ← hS.countNext p0 hp0]
      simp only [List.countP_cons, List.countP_nil, Nat.zero_add]
      have hrp' : ({ InsertState.newRow st s with
          CountNext := st.States.countP (isNextOf s.m_Height s.hash) } : StateRow).RowPrev
            = prev.map (fun p => p.rowid) := hrp
      rw [hrp']
      cases hprev' : prev with
      | none => simp
      | some P =>
        obtain ⟨hPm, -, -⟩ := hprevmem P hprev'
        simp only [Option.map_some', beq_iff_eq, Option.some.injEq]
        by_cases he : p0.rowid = P.rowid
        · have : p0 = P := eq_of_rowid_eq hS.rowid_nodup hp0 hPm he
          subst this
          simp
        · have he' : ¬ (P.rowid = p0.rowid) := fun h => he h.symm
          simp [he, he']
    · show st.States.countP (isNextOf s.m_Height s.hash) = _
      have hcong : List.countP ((fun c => c.RowPrev == some (newRowid st)) ∘
            insertedOld prev (newRowid st) s.m_Height s.hash) st.States
          = List.countP (isNextOf s.m_Height s.hash) st.States := by
        apply List.countP_congr
        intro r hr
        simp only [Function.comp, insertedOld_RowPrev]
        by_cases hn : isNextOf s.m_Height s.hash r = true
        · simp [hn]
        · simp only [hn, Bool.false_eq_true, ↓reduceIte, beq_iff_eq, iff_false]
          intro hp
          obtain ⟨P, hP, e⟩ := rowPrev_mem hS hr hp
          have := hfresh P hP
          omega
      have hlast : List.countP (fun c => c.RowPrev == some (newRowid st))
          [{ InsertState.newRow st s with
              CountNext := st.States.countP (isNextOf s.m_Height s.hash) }] = 0 := by
        simp only [List.countP_cons, List.countP_nil, Nat.zero_add]
        have hrp' : ({ InsertState.newRow st s with
            CountNext := st.States.countP (isNextOf s.m_Height s.hash) } : StateRow).RowPrev
              = prev.map (fun p => p.rowid) := hrp
        rw [hrp']
        cases hprev' : prev with
        | none => simp
        | some P =>
          obtain ⟨hPm, -, -⟩ := hprevmem P hprev'
          have := hfresh P hPm
          have hne : ¬ (P.rowid = newRowid st) := by omega
          simp [hne]
      have hid : ({ InsertState.newRow st s with
            CountNext := st.States.countP (isNextOf s.m_Height s.hash) } : StateRow).rowid
          = newRowid st := rfl
      rw [hid, hcong, hlast, Nat.add_zero]
  · -- tips
    intro a b
    rw [eT]
    constructor
    · rintro (⟨hmem, hnot⟩ | ⟨hc, rfl, rfl⟩)
      · obtain ⟨r, hr, rfl, rfl, hc⟩ := (hS.tips a b).mp hmem
        refine ⟨_, (mem1 _).mpr (Or.inl ⟨r, hr, rfl⟩), insertedOld_rowid .., insertedOld_Height ..,
          ?_⟩
        rw [insertedOld_CountNext]
        cases hprev' : prev with
        | none => exact hc
        | some P =>
          simp only
          obtain ⟨hPm, hPh, -⟩ := hprevmem P hprev'
          by_cases he : r.rowid = P.rowid
          · exfalso
            have : r = P := eq_of_rowid_eq hS.rowid_nodup hr hPm he
            subst this
            exact hnot ⟨r, hprev', hc, hPh, rfl⟩
          · simp [he, hc]
      · exact ⟨_, (mem1 _).mpr (Or.inr rfl), rfl, rfl, hc⟩
    · rintro ⟨r1, hr1, rfl, rfl, hc⟩
      rcases (mem1 r1).mp hr1 with ⟨r, hr, rfl⟩ | rfl
      · left
        rw [insertedOld_CountNext] at hc
        rw [insertedOld_rowid, insertedOld_Height]
        cases hprev' : prev with
        | none =>
          rw [hprev'] at hc
          refine ⟨(hS.tips _ _).mpr ⟨r, hr, rfl, rfl, hc⟩, ?_⟩
          rintro ⟨P, hP, -⟩
          cases hP
        | some P =>
          rw [hprev'] at hc
          simp only at hc
          by_cases he : r.rowid = P.rowid
          · simp [he] at hc
          · simp only [he, ↓reduceIte] at hc
            refine ⟨(hS.tips _ _).mpr ⟨r, hr, rfl, rfl, hc⟩, ?_⟩
            rintro ⟨Q, hQ, -, -, hb⟩
            injection hQ with hQ
            subst hQ
            exact he hb
      · right
        exact ⟨hc, rfl, rfl⟩

theorem DeleteState_prevStep_inv {st st4 : NodeDB} {x : StateRow}
    (hok : DeleteState.prevStep st x = .ok st4) :
    (x.RowPrev = none ∧ st4 = st) ∨
    (∃ p, x.RowPrev = some p ∧ prvCountNext st x ≠ 0 ∧
      ∃ st1 st2, SetNextCount st p (prvCountNext st x - 1) = .ok st1 ∧
        (if prvCountNext st x - 1 = 0 then TipAdd st1 p (heightDec x.Height) else .ok st1)
          = .ok st2 ∧
        ((hasFlag x.Flags StateFlags.Functional = false ∧ st4 = st2) ∨
         (hasFlag x.Flags StateFlags.Functional = true ∧ prvCountNextF st x ≠ 0 ∧
          ∃ st3, SetNextCountFunctional st2 p (prvCountNextF st x - 1) = .ok st3 ∧
            (if prvCountNextF st x - 1 = 0 ∧ hasFlag x.Flags StateFlags.Reachable = true then
               TipReachableAdd st3 p (heightDec x.Height)
             else .ok st3) = .ok st4))) := by
  unfold DeleteState.prevStep at hok
  simp only at hok
  cases hp : x.RowPrev with
  | none =>
    rw [hp] at hok
    simp only [Option.isSome_none, Bool.false_eq_true, ↓reduceIte] at hok
    injection hok with hok
    exact Or.inl ⟨rfl, hok.symm⟩
  | some p =>
    rw [hp] at hok
    simp only [Option.isSome_some, ↓reduceIte, Option.getD_some] at hok
    right
    refine ⟨p, rfl, ?_⟩
    split at hok
    · cases hok
    · rename_i hc
      rw [bind_ok_iff] at hok
      obtain ⟨s1, h1, hok⟩ := hok
      rw [bind_ok_iff] at hok
      obtain ⟨s2, h2, hok⟩ := hok
      refine ⟨by simpa using hc, s1, s2, h1, by simpa using h2, ?_⟩
      split at hok
      · rename_i hF
        right
        split at hok
        · cases hok
        · rename_i hcF
          rw [bind_ok_iff] at hok
          obtain ⟨s3, h3, hok⟩ := hok
          exact ⟨hF, by simpa using hcF, s3, h3, by simpa using hok⟩
      · rename_i hF
        left
        injection hok with hok
        exact ⟨by simpa using hF, hok.symm⟩

theorem deletedOld_rowid (x r : StateRow) : (deletedOld x r).rowid = r.rowid := by
  unfold deletedOld
  cases x.RowPrev with
  | none => rfl
  | some p => simp only; split <;> [split <;> rfl; rfl]

theorem deletedOld_Height (x r : StateRow) : (deletedOld x r).Height = r.Height := by
  unfold deletedOld
  cases x.RowPrev with
  | none => rfl
  | some p => simp only; split <;> [split <;> rfl; rfl]

theorem deletedOld_Hash (x r : StateRow) : (deletedOld x r).Hash = r.Hash := by
  unfold deletedOld
  cases x.RowPrev with
  | none => rfl
  | some p => simp only; split <;> [split <;> rfl; rfl]

theorem deletedOld_HashPrev (x r : StateRow) : (deletedOld x r).HashPrev = r.HashPrev := by
  unfold deletedOld
  cases x.RowPrev with
  | none => rfl
  | some p => simp only; split <;> [split <;> rfl; rfl]

theorem deletedOld_Flags (x r : StateRow) : (deletedOld x r).Flags = r.Flags := by
  unfold deletedOld
  cases x.RowPrev with
  | none => rfl
  | some p => simp only; split <;> [split <;> rfl; rfl]

theorem deletedOld_RowPrev (x r : StateRow) : (deletedOld x r).RowPrev = r.RowPrev := by
  unfold deletedOld
  cases x.RowPrev with
  | none => rfl
  | some p => simp only; split <;> [split <;> rfl; rfl]

theorem deletedOld_Mmr (x r : StateRow) : (deletedOld x r).Mmr = r.Mmr := by
  unfold deletedOld
  cases x.RowPrev with
  | none => rfl
  | some p => simp only; split <;> [split <;> rfl; rfl]

theorem deletedOld_CountNext (x r : StateRow) :
    (deletedOld x r).CountNext
      = if x.RowPrev = some r.rowid then r.CountNext - 1 else r.CountNext := by
  unfold deletedOld
  cases x.RowPrev with
  | none => simp
  | some p =>
    simp only [beq_iff_eq, Option.some.injEq]
    by_cases h : r.rowid = p
    · have h' : p = r.rowid := h.symm
      simp only [h, ↓reduceIte]
      split <;> rfl
    · have h' : ¬ (p = r.rowid) := fun e => h e.symm
      simp [h, h']

theorem deletedOld_CountNextFunctional (x r : StateRow) :
    (deletedOld x r).CountNextFunctional
      = if x.RowPrev = some r.rowid ∧ hasFlag x.Flags StateFlags.Functional = true then
          r.CountNextFunctional - 1
        else r.CountNextFunctional := by
  unfold deletedOld
  cases x.RowPrev with
  | none => simp
  | some p =>
    simp only [beq_iff_eq, Option.some.injEq]
    by_cases h : r.rowid = p
    · have h' : p = r.rowid := h.symm
      simp only [h, ↓reduceIte, true_and]
      split <;> rfl
    · have h' : ¬ (p = r.rowid) := fun e => h e.symm
      simp [h, h']

theorem prvRow_of_rowPrev {st : NodeDB} (hS : StructInv st) {x : StateRow}
    (hx : x ∈ st.States) {p : Nat} (hp : x.RowPrev = some p) :
    ∃ P ∈ st.States, P.rowid = p ∧ P.Height = heightDec x.Height ∧ P.Hash = x.HashPrev
      ∧ prvRow st x = some P := by
  obtain ⟨P, hP, e1, e2, e3⟩ := (hS.rowPrev_iff x hx p).mp hp
  refine ⟨P, hP, e1, e2, e3, ?_⟩
  unfold prvRow
  rw [hp]
  simp only [Option.some_bind]
  rw [← e1]
  exact findRow_of_mem hS.rowid_nodup hP

theorem prvCountNext_eq {st : NodeDB} {x P : StateRow} (h : prvRow st x = some P) :
    prvCountNext st x = P.CountNext := by
  unfold prvCountNext; rw [h]

theorem prvCountNextF_eq {st : NodeDB} {x P : StateRow} (h : prvRow st x = some P) :
    prvCountNextF st x = P.CountNextFunctional := by
  unfold prvCountNextF; rw [h]

theorem prvFlags_eq {st : NodeDB} {x P : StateRow} (h : prvRow st x = some P) :
    prvFlags st x = P.Flags := by
  unfold prvFlags; rw [h]

theorem StructInv.toLink {st : NodeDB} (hS : StructInv st) : LinkInv st :=
  ⟨hS.rowid_ne_zero, hS.rowid_nodup, hS.height_lt, fun c hc p e => by
    obtain ⟨P, hP, e1, e2, -⟩ := (hS.rowPrev_iff c hc p).mp e
    exact ⟨P, hP, e1, e2⟩⟩

theorem prvRow_of_link {st : NodeDB} (hS : LinkInv st) {x : StateRow}
    (hx : x ∈ st.States) {p : Nat} (hp : x.RowPrev = some p) :
    ∃ P ∈ st.States, P.rowid = p ∧ P.Height = heightDec x.Height ∧ prvRow st x = some P := by
  obtain ⟨P, hP, e1, e2⟩ := hS.link x hx p hp
  refine ⟨P, hP, e1, e2, ?_⟩
  unfold prvRow
  rw [hp]
  simp only [Option.some_bind]
  rw [← e1]
  exact findRow_of_mem hS.rowid_nodup hP

theorem DeleteState_prevStep_closed {st st4 : NodeDB} {x : StateRow} (hS : LinkInv st)
    (hx : x ∈ st.States) (hok : DeleteState.prevStep st x = .ok st4) :
    st4.States = st.States.map (deletedOld x) ∧
    (∀ a b, (a, b) ∈ st4.Tips ↔ ((a, b) ∈ st.Tips ∨
      ∃ P ∈ st.States, x.RowPrev = some P.rowid ∧ P.CountNext = 1
        ∧ a = heightDec x.Height ∧ b = P.rowid)) ∧
    (∀ a b, (a, b) ∈ st4.TipsReachable ↔ ((a, b) ∈ st.TipsReachable ∨
      ∃ P ∈ st.States, x.RowPrev = some P.rowid ∧ hasFlag x.Flags StateFlags.Functional = true
        ∧ hasFlag x.Flags StateFlags.Reachable = true ∧ P.CountNextFunctional = 1
        ∧ a = heightDec x.Height ∧ b = P.rowid)) ∧
    st4.Params = st.Params ∧ st4.Spendable = st.Spendable := by
  rcases DeleteState_prevStep_inv hok with ⟨hp, rfl⟩ | ⟨p, hp, hc, s1, s2, h1, h2, hrest⟩
  · refine ⟨?_, ?_, ?_, rfl, rfl⟩
    · have : deletedOld x = id := by
        funext r; unfold deletedOld; rw [hp]; rfl
      rw [this, List.map_id]
    · intro a b; simp [hp]
    · intro a b; simp [hp]
  · obtain ⟨P, hP, rfl, hPh, hprv⟩ := prvRow_of_link hS hx hp
    rw [prvCountNext_eq hprv] at hc h1 h2
    have huniq : ∀ r ∈ st.States, r.rowid = P.rowid → r = P :=
      fun r hr e => eq_of_rowid_eq hS.rowid_nodup hr hP e
    have hPex : ∀ (Q : StateRow), Q ∈ st.States → x.RowPrev = some Q.rowid → Q = P := by
      intro Q hQ e
      rw [hp] at e
      injection e with e
      exact huniq Q hQ e.symm
    obtain ⟨-, rfl⟩ := updateRow_ok h1
    have hT2 : s2.States = st.States.map (fun r => if r.rowid == P.rowid then
          { r with CountNext := P.CountNext - 1 } else r)
        ∧ (∀ a b, (a, b) ∈ s2.Tips ↔ ((a, b) ∈ st.Tips ∨
            (P.CountNext = 1 ∧ a = heightDec x.Height ∧ b = P.rowid)))
        ∧ s2.TipsReachable = st.TipsReachable ∧ s2.Params = st.Params
        ∧ s2.Spendable = st.Spendable := by
      split at h2
      · rename_i hc1
        obtain ⟨-, rfl⟩ := TipAdd_ok h2
        refine ⟨rfl, ?_, rfl, rfl, rfl⟩
        intro a b
        have : P.CountNext = 1 := by omega
        simp [this]
      · rename_i hc1
        injection h2 with h2
        subst h2
        refine ⟨rfl, ?_, rfl, rfl, rfl⟩
        intro a b
        have : ¬ (P.CountNext = 1) := by omega
        simp [this]
    obtain ⟨e2, t2, r2, p2, sp2⟩ := hT2
    have tipsGoal : ∀ (T : List (Nat × Nat)), (∀ a b, (a, b) ∈ T ↔ ((a, b) ∈ st.Tips ∨
            (P.CountNext = 1 ∧ a = heightDec x.Height ∧ b = P.rowid))) →
        ∀ a b, (a, b) ∈ T ↔ ((a, b) ∈ st.Tips ∨
          ∃ Q ∈ st.States, x.RowPrev = some Q.rowid ∧ Q.CountNext = 1
            ∧ a = heightDec x.Height ∧ b = Q.rowid) := by
      intro T hT a b
      rw [hT]
      constructor
      · rintro (h | ⟨k1, k2, k3⟩)
        · exact Or.inl h
        · exact Or.inr ⟨P, hP, hp, k1, k2, k3⟩
      · rintro (h | ⟨Q, hQ, e, k1, k2, k3⟩)
        · exact Or.inl h
        · have := hPex Q hQ e
          subst this
          exact Or.inr ⟨k1, k2, k3⟩
    rcases hrest with ⟨hF, rfl⟩ | ⟨hF, hcF, s3, h3, h4⟩
    · refine ⟨?_, tipsGoal _ t2, ?_, p2, sp2⟩
      · rw [e2]
        apply List.map_congr_left
        intro r hr
        unfold deletedOld
        rw [hp]
        simp only [hF, Bool.false_eq_true, ↓reduceIte]
        by_cases he : r.rowid = P.rowid
        · have := huniq r hr he
          subst this
          simp
        · simp [he]
      · intro a b
        rw [r2]
        simp [hF]
    · rw [prvCountNextF_eq hprv] at hcF h3 h4
      obtain ⟨-, rfl⟩ := updateRow_ok h3
      have hst : List.map (fun r => if (r.rowid == P.rowid) = true then
            { r with CountNextFunctional := P.CountNextFunctional - 1 } else r) s2.States
          = st.States.map (deletedOld x) := by
        rw [e2, List.map_map]
        apply List.map_congr_left
        intro r hr
        unfold deletedOld
        rw [hp]
        simp only [Function.comp, hF, ↓reduceIte]
        by_cases he : r.rowid = P.rowid
        · have := huniq r hr he
          subst this
          simp
        · simp [he]
      split at h4
      · rename_i hc1
        obtain ⟨-, rfl⟩ := TipReachableAdd_ok h4
        refine ⟨hst, tipsGoal _ t2, ?_, p2, sp2⟩
        intro a b
        simp only [List.mem_append, List.mem_singleton, Prod.mk.injEq]
        rw [r2]
        have hc2 : P.CountNextFunctional = 1 := by omega
        constructor
        · rintro (h | ⟨k2, k3⟩)
          · exact Or.inl h
          · exact Or.inr ⟨P, hP, hp, hF, hc1.2, hc2, k2, k3⟩
        · rintro (h | ⟨Q, hQ, e, -, -, -, k2, k3⟩)
          · exact Or.inl h
          · have := hPex Q hQ e
            subst this
            exact Or.inr ⟨k2, k3⟩
      · rename_i hc1
        injection h4 with h4
        subst h4
        refine ⟨hst, tipsGoal _ t2, ?_, p2, sp2⟩
        intro a b
        simp only
        rw [r2]
        constructor
        · exact fun h => Or.inl h
        · rintro (h | ⟨Q, hQ, e, -, hR, hcQ, -, -⟩)
          · exact h
          · have := hPex Q hQ e
            subst this
            exfalso
            apply hc1
            exact ⟨by omega, hR⟩

theorem findRow_mem_iff {st : NodeDB} (hS : StructInv st) {rowid : Nat} {x : StateRow} :
    findRow st rowid = some x ↔ x ∈ st.States ∧ x.rowid = rowid := by
  constructor
  · exact findRow_some
  · rintro ⟨hx, rfl⟩
    exact findRow_of_mem hS.rowid_nodup hx

theorem DeleteState_closed {st st1 : NodeDB} {rowid : Nat} {res : Bool × Nat}
    (hS : LinkInv st) (hok : DeleteState st rowid = .ok (st1, res)) :
    ∃ x ∈ st.States, x.rowid = rowid ∧ res.2 = x.RowPrev.getD 0 ∧
      ((x.CountNext ≠ 0 ∧ st1 = st ∧ res.1 = false) ∨
       (x.CountNext = 0 ∧ hasFlag x.Flags StateFlags.Active = false ∧ res.1 = true ∧
        st1.States = (st.States.map (deletedOld x)).filter (fun r => r.rowid != rowid) ∧
        (∀ a b, (a, b) ∈ st1.Tips ↔ ((a, b) ∈ st.Tips ∨
            ∃ P ∈ st.States, x.RowPrev = some P.rowid ∧ P.CountNext = 1
              ∧ a = heightDec x.Height ∧ b = P.rowid) ∧ (a, b) ≠ (x.Height, rowid)) ∧
        (∀ a b, (a, b) ∈ st1.TipsReachable ↔ ((a, b) ∈ st.TipsReachable ∨
            ∃ P ∈ st.States, x.RowPrev = some P.rowid
              ∧ hasFlag x.Flags StateFlags.Functional = true
              ∧ hasFlag x.Flags StateFlags.Reachable = true ∧ P.CountNextFunctional = 1
              ∧ a = heightDec x.Height ∧ b = P.rowid)
          ∧ ¬(hasFlag x.Flags StateFlags.Reachable = true ∧ (a, b) = (x.Height, rowid))) ∧
        st1.Params = st.Params ∧ st1.Spendable = st.Spendable)) := by
  obtain ⟨x, hx, hres, h | ⟨hc, hA, hb, st4, st5, st6, h4, h5, h6, h7⟩⟩ := DeleteState_inv hok
  · obtain ⟨hxm, hxid⟩ := findRow_some hx
    exact ⟨x, hxm, hxid, hres, Or.inl h⟩
  · obtain ⟨hxm, hxid⟩ := findRow_some hx
    refine ⟨x, hxm, hxid, hres, Or.inr ⟨hc, hA, hb, ?_⟩⟩
    obtain ⟨e4, t4, r4, p4, s4⟩ := DeleteState_prevStep_closed hS hxm h4
    obtain ⟨-, rfl⟩ := TipDel_ok h5
    have h6' : st6.States = st4.States ∧ st6.Tips = st4.Tips.filter (fun p => p != (x.Height, rowid))
        ∧ (∀ a b, (a, b) ∈ st6.TipsReachable ↔ ((a, b) ∈ st4.TipsReachable
            ∧ ¬(hasFlag x.Flags StateFlags.Reachable = true ∧ (a, b) = (x.Height, rowid)))) ∧
        st6.Params = st4.Params ∧ st6.Spendable = st4.Spendable := by
      split at h6
      · rename_i hR
        obtain ⟨-, rfl⟩ := TipReachableDel_ok h6
        refine ⟨rfl, rfl, ?_, rfl, rfl⟩
        intro a b
        simp [hR]
      · rename_i hR
        injection h6 with h6
        subst h6
        refine ⟨rfl, rfl, ?_, rfl, rfl⟩
        intro a b
        simp [hR]
    obtain ⟨e6, t6, r6, p6, s6⟩ := h6'
    obtain ⟨-, rfl⟩ := deleteRow_ok h7
    refine ⟨?_, ?_, ?_, p6.trans p4, s6.trans s4⟩
    · simp only; rw [e6, e4]
    · intro a b
      simp only
      rw [t6]
      simp only [List.mem_filter, bne_iff_ne, ne_eq, decide_eq_true_eq]
      rw [t4]
    · intro a b
      simp only
      rw [r6, r4]

theorem filter_rowid_eq_singleton {st : NodeDB}
    (hnd : (st.States.map (fun r => r.rowid)).Nodup) {x : StateRow} (hx : x ∈ st.States) :
    st.States.filter (fun r => r.rowid == x.rowid) = [x] := by
  have hlen := filter_rowid_length hnd hx
  have hmem : x ∈ st.States.filter (fun r => r.rowid == x.rowid) := by
    simp [List.mem_filter, hx]
  cases hl : st.States.filter (fun r => r.rowid == x.rowid) with
  | nil => rw [hl] at hmem; simp at hmem
  | cons a t =>
    rw [hl] at hlen hmem
    cases t with
    | nil => simp only [List.mem_singleton] at hmem; rw [hmem]
    | cons b t => simp at hlen

/-- Counting the rows that satisfy `q` while leaving out the row `x`. -/
theorem countP_without {st : NodeDB} (hnd : (st.States.map (fun r => r.rowid)).Nodup)
    {x : StateRow} (hx : x ∈ st.States) (q : StateRow → Bool) :
    st.States.countP q
      = st.States.countP (fun r => q r && (r.rowid != x.rowid)) + (if q x then 1 else 0) := by
  rw [List.countP_eq_countP_filter_add st.States q (fun r => r.rowid == x.rowid)]
  rw [filter_rowid_eq_singleton hnd hx, Nat.add_comm]
  congr 1
  · rw [List.countP_filter]
    apply List.countP_congr
    intro r _
    simp [bne, Bool.and_comm]
  · simp [List.countP_cons]

theorem no_children_of_countNext_zero {st : NodeDB} (hS : StructInv st) {x : StateRow}
    (hx : x ∈ st.States) (hc : x.CountNext = 0) :
    ∀ c ∈ st.States, c.RowPrev ≠ some x.rowid := by
  have h := hS.countNext x hx
  rw [hc] at h
  have h0 := List.countP_eq_zero.mp h.symm
  intro c hc' e
  have := h0 c hc'
  simp [e] at this

set_option maxRecDepth 4000 in
theorem structInv_DeleteState {st st1 : NodeDB} {rowid : Nat} {res : Bool × Nat}
    (hS : StructInv st) (hok : DeleteState st rowid = .ok (st1, res)) : StructInv st1 := by
  obtain ⟨x, hx, rfl, -, h | ⟨hc, -, -, eS, eT, -, -, -⟩⟩ := DeleteState_closed hS.toLink hok
  · rw [h.2.1]; exact hS
  have hnoch := no_children_of_countNext_zero hS hx hc
  have mem1 : ∀ r1, r1 ∈ st1.States ↔
      ∃ r ∈ st.States, r.rowid ≠ x.rowid ∧ r1 = deletedOld x r := by
    intro r1
    rw [eS]
    simp only [List.mem_filter, List.mem_map, bne_iff_ne, ne_eq]
    constructor
    · rintro ⟨⟨r, hr, rfl⟩, hne⟩
      rw [deletedOld_rowid] at hne
      exact ⟨r, hr, hne, rfl⟩
    · rintro ⟨r, hr, hne, rfl⟩
      refine ⟨⟨r, hr, rfl⟩, ?_⟩
      rw [deletedOld_rowid]; exact hne
  constructor
  · intro r1 hr1
    obtain ⟨r, hr, -, rfl⟩ := (mem1 r1).mp hr1
    rw [deletedOld_rowid]; exact hS.rowid_ne_zero r hr
  · rw [eS]
    have hsub : List.Sublist
        ((List.filter (fun r => r.rowid != x.rowid) (st.States.map (deletedOld x))).map
          (fun r => r.rowid))
        ((st.States.map (deletedOld x)).map (fun r => r.rowid)) :=
      (List.filter_sublist _).map _
    have hm : (st.States.map (deletedOld x)).map (fun r => r.rowid)
        = st.States.map (fun r => r.rowid) := by
      rw [List.map_map]
      apply List.map_congr_left
      intro r _
      simp [Function.comp, deletedOld_rowid]
    rw [hm] at hsub
    exact hS.rowid_nodup.sublist hsub
  · intro r1 hr1 r2 hr2 hH hHash
    obtain ⟨a, ha, -, rfl⟩ := (mem1 r1).mp hr1
    obtain ⟨b, hb, -, rfl⟩ := (mem1 r2).mp hr2
    simp only [deletedOld_rowid, deletedOld_Height, deletedOld_Hash] at *
    exact hS.key_unique a ha b hb hH hHash
  · intro r1 hr1
    obtain ⟨r, hr, -, rfl⟩ := (mem1 r1).mp hr1
    rw [deletedOld_Height]; exact hS.height_lt r hr
  · intro c1 hc1 p
    obtain ⟨c, hcm, hcne, rfl⟩ := (mem1 c1).mp hc1
    rw [deletedOld_RowPrev, deletedOld_Height, deletedOld_HashPrev, hS.rowPrev_iff c hcm p]
    constructor
    · rintro ⟨P, hP, e1, e2, e3⟩
      have hPne : P.rowid ≠ x.rowid := by
        intro e
        apply hnoch c hcm
        rw [(hS.rowPrev_iff c hcm p).mpr ⟨P, hP, e1, e2, e3⟩, ← e1, e]
      refine ⟨_, (mem1 _).mpr ⟨P, hP, hPne, rfl⟩, ?_, ?_, ?_⟩
      · rw [deletedOld_rowid]; exact e1
      · rw [deletedOld_Height]; exact e2
      · rw [deletedOld_Hash]; exact e3
    · rintro ⟨P1, hP1, e1, e2, e3⟩
      obtain ⟨P, hP, -, rfl⟩ := (mem1 P1).mp hP1
      rw [deletedOld_rowid] at e1
      rw [deletedOld_Height] at e2
      rw [deletedOld_Hash] at e3
      exact ⟨P, hP, e1, e2, e3⟩
  · intro p1 hp1
    obtain ⟨p0, hp0, hp0ne, rfl⟩ := (mem1 p1).mp hp1
    rw [deletedOld_rowid, deletedOld_CountNext, eS, List.countP_filter, List.countP_map]
    have hold := hS.countNext p0 hp0
    rw [countP_without hS.rowid_nodup hx] at hold
    have hcong : List.countP ((fun c => (c.RowPrev == some p0.rowid) && (c.rowid != x.rowid))
          ∘ deletedOld x) st.States
        = List.countP (fun r => (r.RowPrev == some p0.rowid) && (r.rowid != x.rowid))
            st.States := by
      apply List.countP_congr
      intro r _
      simp [Function.comp, deletedOld_RowPrev, deletedOld_rowid]
    rw [hcong]
    by_cases he : x.RowPrev = some p0.rowid
    · simp only [he, ↓reduceIte]
      simp only [he, beq_self_eq_true, ↓reduceIte] at hold
      omega
    · simp only [he, ↓reduceIte]
      have : (x.RowPrev == some p0.rowid) = false := by simpa using he
      simp only [this, Bool.false_eq_true, ↓reduceIte, Nat.add_zero] at hold
      exact hold
  · intro a b
    rw [eT]
    constructor
    · rintro ⟨hmem | ⟨P, hP, e, hcP, ha, hb⟩, hne⟩
      · obtain ⟨r, hr, rfl, rfl, hcr⟩ := (hS.tips a b).mp hmem
        have hrne : r.rowid ≠ x.rowid := by
          intro e
          have hrx : r = x := eq_of_rowid_eq hS.rowid_nodup hr hx e
          apply hne
          rw [hrx]
        refine ⟨_, (mem1 _).mpr ⟨r, hr, hrne, rfl⟩, deletedOld_rowid .., deletedOld_Height .., ?_⟩
        rw [deletedOld_CountNext]
        split
        · omega
        · exact hcr
      · rw [ha, hb]
        obtain ⟨Q, hQ, e1, e2, -⟩ := (hS.rowPrev_iff x hx P.rowid).mp e
        have hQP : Q = P := eq_of_rowid_eq hS.rowid_nodup hQ hP e1
        subst hQP
        have hPne : Q.rowid ≠ x.rowid := by
          intro e'
          have := eq_of_rowid_eq hS.rowid_nodup hQ hx e'
          subst this
          exact heightDec_ne _ e2.symm
        refine ⟨_, (mem1 _).mpr ⟨Q, hQ, hPne, rfl⟩, deletedOld_rowid .., ?_, ?_⟩
        · rw [deletedOld_Height]; exact e2
        · rw [deletedOld_CountNext]
          simp only [e, ↓reduceIte]
          omega
    · rintro ⟨r1, hr1, rfl, rfl, hcr⟩
      obtain ⟨r, hr, hrne, rfl⟩ := (mem1 r1).mp hr1
      rw [deletedOld_CountNext] at hcr
      rw [deletedOld_rowid, deletedOld_Height]
      refine ⟨?_, ?_⟩
      · by_cases he : x.RowPrev = some r.rowid
        · simp only [he, ↓reduceIte] at hcr
          right
          have hge : 1 ≤ r.CountNext := by
            rw [hS.countNext r hr]
            apply List.countP_pos_iff.mpr
            exact ⟨x, hx, by simp [he]⟩
          obtain ⟨Q, hQ, e1, e2, -⟩ := (hS.rowPrev_iff x hx r.rowid).mp he
          have hQr : Q = r := eq_of_rowid_eq hS.rowid_nodup hQ hr e1
          subst hQr
          exact ⟨Q, hQ, he, by omega, e2, rfl⟩
        · simp only [he, ↓reduceIte] at hcr
          left
          exact (hS.tips _ _).mpr ⟨r, hr, rfl, rfl, hcr⟩
      · intro e
        injection e with e1 e2
        exact hrne e2

theorem SameSkeleton.skel_refl (st : NodeDB) : SameSkeleton st st := ⟨rfl, rfl⟩

theorem SameSkeleton.skel_trans {a b c : NodeDB} (h1 : SameSkeleton a b) (h2 : SameSkeleton b c) :
    SameSkeleton a c := ⟨h2.1.trans h1.1, h2.2.trans h1.2⟩

theorem SameSkeleton.skel_of_eq {st st1 : NodeDB} (h1 : st1.States = st.States)
    (h2 : st1.Tips = st.Tips) : SameSkeleton st st1 := by
  unfold SameSkeleton; rw [h1, h2]; exact ⟨rfl, rfl⟩

theorem sameSkeleton_updateRow {st st1 : NodeDB} {rowid : Nat} {f : StateRow → StateRow}
    (h : updateRow st rowid f = .ok st1) (hf : ∀ r, skeleton (f r) = skeleton r) :
    SameSkeleton st st1 := by
  obtain ⟨-, rfl⟩ := updateRow_ok h
  refine ⟨?_, rfl⟩
  simp only
  rw [List.map_map]
  apply List.map_congr_left
  intro r _
  simp only [Function.comp]
  split
  · exact hf r
  · rfl

theorem sameSkeleton_SetFlags {st st1 : NodeDB} {rowid n : Nat}
    (h : SetFlags st rowid n = .ok st1) : SameSkeleton st st1 :=
  sameSkeleton_updateRow h (fun _ => rfl)

theorem sameSkeleton_SetNextCountFunctional {st st1 : NodeDB} {rowid n : Nat}
    (h : SetNextCountFunctional st rowid n = .ok st1) : SameSkeleton st st1 :=
  sameSkeleton_updateRow h (fun _ => rfl)

theorem sameSkeleton_TipReachableAdd {st st1 : NodeDB} {rowid h : Nat}
    (hok : TipReachableAdd st rowid h = .ok st1) : SameSkeleton st st1 := by
  obtain ⟨-, rfl⟩ := TipReachableAdd_ok hok; exact SameSkeleton.skel_refl _

theorem sameSkeleton_TipReachableDel {st st1 : NodeDB} {rowid h : Nat}
    (hok : TipReachableDel st rowid h = .ok st1) : SameSkeleton st st1 := by
  obtain ⟨-, rfl⟩ := TipReachableDel_ok hok; exact SameSkeleton.skel_refl _

theorem sameSkeleton_BuildMmr {st st1 : NodeDB} {rowid rowPrev h : Nat}
    (hok : BuildMmr st rowid rowPrev h = .ok st1) : SameSkeleton st st1 := by
  unfold BuildMmr at hok
  split at hok
  · cases hok
  split at hok
  · cases hok
  split at hok
  · cases hok
  split at hok
  · injection hok with hok; subst hok; exact SameSkeleton.skel_refl _
  · exact sameSkeleton_updateRow hok (fun _ => rfl)

theorem sameSkeleton_OnStateReachable :
    ∀ (fuel : Nat) (st st1 : NodeDB) (rowid rowPrev h : Nat) (b : Bool),
      OnStateReachable fuel st rowid rowPrev h b = .ok st1 → SameSkeleton st st1 := by
  intro fuel
  induction fuel with
  | zero => intro st st1 rowid rowPrev h b hok; simp [OnStateReachable] at hok
  | succ fuel ih =>
    intro st st1 rowid rowPrev h b hok
    rw [OnStateReachable, bind_ok_iff] at hok
    obtain ⟨sA, hA, hok⟩ := hok
    have kA : SameSkeleton st sA := by
      split at hA
      · exact sameSkeleton_BuildMmr hA
      · injection hA with hA; subst hA; exact SameSkeleton.skel_refl _
    simp only at hok
    split at hok
    · split at hok
      · split at hok
        · exact kA.skel_trans (sameSkeleton_TipReachableAdd hok)
        · exact kA.skel_trans (sameSkeleton_TipReachableDel hok)
      · rw [bind_ok_iff] at hok
        obtain ⟨sB, hB, hok⟩ := hok
        rw [bind_ok_iff] at hok
        obtain ⟨sC, hC, hok⟩ := hok
        have kB : SameSkeleton st sB :=
          foldlM_invariant (SameSkeleton st) _ _
            (fun s a s1 _ hP hs => hP.skel_trans (sameSkeleton_SetFlags hs)) sA sB kA hB
        have kC : SameSkeleton st sC :=
          foldlM_invariant (SameSkeleton st) _ _
            (fun s a s1 _ hP hs => hP.skel_trans (ih _ _ _ _ _ _ hs)) sB sC kB hC
        exact kC.skel_trans (ih _ _ _ _ _ _ hok)
    · cases hok

theorem sameSkeleton_ite {st st1 : NodeDB} {c : Prop} [Decidable c] {x : Except Err NodeDB}
    (h : (if c then x else .ok st) = .ok st1) (hx : x = .ok st1 → SameSkeleton st st1) :
    SameSkeleton st st1 := by
  split at h
  · exact hx h
  · injection h with h; subst h; exact SameSkeleton.skel_refl _

theorem sameSkeleton_SetStateFunctional {fuel : Nat} {st st1 : NodeDB} {rowid : Nat}
    (hok : SetStateFunctional fuel st rowid = .ok st1) : SameSkeleton st st1 := by
  obtain ⟨x, hx, h | ⟨-, st3, nFlags, rowPrev, st4, hpre, h4, hcas⟩⟩ :=
    SetStateFunctional_inv hok
  · rw [h.2]; exact SameSkeleton.skel_refl _
  · have k3 : SameSkeleton st st3 := by
      rcases SetStateFunctional_prevStep_inv hpre with h | h | ⟨-, -, s1, h1, h | h⟩
      · rw [h.2.2.1]; exact SameSkeleton.skel_refl _
      · rw [h.2.2.1]; exact SameSkeleton.skel_refl _
      · rw [h.2.1]; exact sameSkeleton_SetNextCountFunctional h1
      · exact (sameSkeleton_SetNextCountFunctional h1).skel_trans
          (sameSkeleton_ite h.2.2 sameSkeleton_TipReachableDel)
    have k4 := k3.skel_trans (sameSkeleton_SetFlags h4)
    split at hcas
    · exact k4.skel_trans (sameSkeleton_OnStateReachable _ _ _ _ _ _ _ hcas)
    · injection hcas with hcas; subst hcas; exact k4

theorem sameSkeleton_SetStateNotFunctional {fuel : Nat} {st st1 : NodeDB} {rowid : Nat}
    (hok : SetStateNotFunctional fuel st rowid = .ok st1) : SameSkeleton st st1 := by
  obtain ⟨x, hx, h | ⟨-, st3, rowPrev, st4, hpre, h4, hcas⟩⟩ :=
    SetStateNotFunctional_inv hok
  · rw [h.2]; exact SameSkeleton.skel_refl _
  · have k3 : SameSkeleton st st3 := by
      rcases SetStateNotFunctional_prevStep_inv hpre with h | h | ⟨-, -, -, s1, h1, h3⟩
      · rw [h.2.2.2.1]; exact SameSkeleton.skel_refl _
      · rw [h.2.2.2.1]; exact SameSkeleton.skel_refl _
      · exact (sameSkeleton_SetNextCountFunctional h1).skel_trans
          (sameSkeleton_ite h3 sameSkeleton_TipReachableAdd)
    have k4 := k3.skel_trans (sameSkeleton_SetFlags h4)
    split at hcas
    · exact k4.skel_trans (sameSkeleton_OnStateReachable _ _ _ _ _ _ _ hcas)
    · injection hcas with hcas; subst hcas; exact k4

theorem sameSkeleton_MoveFwd {st st1 : NodeDB} {sid : StateID}
    (hok : MoveFwd st sid = .ok st1) : SameSkeleton st st1 := by
  obtain ⟨s1, h1, h2⟩ := MoveFwd_inv hok
  have c := put_Cursor_ok h2
  exact (sameSkeleton_updateRow h1 (fun _ => rfl)).skel_trans (SameSkeleton.skel_of_eq c.1 c.2.1)

theorem sameSkeleton_MoveBack {st st1 : NodeDB} {sid sid1 : StateID}
    (hok : MoveBack st sid = .ok (st1, sid1)) : SameSkeleton st st1 := by
  obtain ⟨s1, r, h1, -, -, h2⟩ := MoveBack_inv hok
  have c := put_Cursor_ok h2
  exact (sameSkeleton_updateRow h1 (fun _ => rfl)).skel_trans (SameSkeleton.skel_of_eq c.1 c.2.1)

/-! Transfer of the structural invariant along `SameSkeleton`. -/

theorem skeleton_mem_of_map_eq {l l1 : List StateRow}
    (h : l1.map skeleton = l.map skeleton) {r1 : StateRow} (hr1 : r1 ∈ l1) :
    ∃ r ∈ l, skeleton r1 = skeleton r := by
  have : skeleton r1 ∈ l.map skeleton := by
    rw [← h]; exact List.mem_map_of_mem _ hr1
  obtain ⟨r, hr, e⟩ := List.mem_map.mp this
  exact ⟨r, hr, e.symm⟩

theorem skeleton_fields {r1 r : StateRow} (h : skeleton r1 = skeleton r) :
    r1.rowid = r.rowid ∧ r1.Height = r.Height ∧ r1.Hash = r.Hash ∧ r1.HashPrev = r.HashPrev
      ∧ r1.RowPrev = r.RowPrev ∧ r1.CountNext = r.CountNext :=
  ⟨congrArg (fun x => x.rowid) h, congrArg (fun x => x.Height) h, congrArg (fun x => x.Hash) h,
    congrArg (fun x => x.HashPrev) h, congrArg (fun x => x.RowPrev) h,
    congrArg (fun x => x.CountNext) h⟩

theorem countP_skeleton_eq {l l1 : List StateRow} (h : l1.map skeleton = l.map skeleton)
    (q : StateRow → Bool) :
    l1.countP (fun r => q (skeleton r)) = l.countP (fun r => q (skeleton r)) := by
  have e1 := List.countP_map q skeleton l1
  have e2 := List.countP_map q skeleton l
  rw [h] at e1
  exact e1.symm.trans e2

theorem structInv_of_sameSkeleton {st st1 : NodeDB} (hS : StructInv st)
    (hk : SameSkeleton st st1) : StructInv st1 := by
  obtain ⟨hm, ht⟩ := hk
  have fwd : ∀ r1 ∈ st1.States, ∃ r ∈ st.States, skeleton r1 = skeleton r :=
    fun r1 hr1 => skeleton_mem_of_map_eq hm hr1
  have bwd : ∀ r ∈ st.States, ∃ r1 ∈ st1.States, skeleton r = skeleton r1 :=
    fun r hr => skeleton_mem_of_map_eq hm.symm hr
  constructor
  · intro r1 hr1
    obtain ⟨r, hr, e⟩ := fwd r1 hr1
    rw [(skeleton_fields e).1]; exact hS.rowid_ne_zero r hr
  · have e : st1.States.map (fun r => r.rowid) = st.States.map (fun r => r.rowid) := by
      have := congrArg (List.map (fun r => r.rowid)) hm
      simpa [List.map_map, Function.comp, skeleton] using this
    rw [e]; exact hS.rowid_nodup
  · intro a1 ha1 b1 hb1 hH hHash
    obtain ⟨a, ha, ea⟩ := fwd a1 ha1
    obtain ⟨b, hb, eb⟩ := fwd b1 hb1
    have fa := skeleton_fields ea
    have fb := skeleton_fields eb
    rw [fa.1, fb.1]
    apply hS.key_unique a ha b hb
    · rw [← fa.2.1, ← fb.2.1]; exact hH
    · rw [← fa.2.2.1, ← fb.2.2.1]; exact hHash
  · intro r1 hr1
    obtain ⟨r, hr, e⟩ := fwd r1 hr1
    rw [(skeleton_fields e).2.1]; exact hS.height_lt r hr
  · intro c1 hc1 p
    obtain ⟨c, hc, e⟩ := fwd c1 hc1
    have fc := skeleton_fields e
    rw [fc.2.2.2.2.1, fc.2.1, fc.2.2.2.1, hS.rowPrev_iff c hc p]
    constructor
    · rintro ⟨P, hP, e1, e2, e3⟩
      obtain ⟨P1, hP1, eP⟩ := bwd P hP
      have fP := skeleton_fields eP
      exact ⟨P1, hP1, fP.1 ▸ e1, fP.2.1 ▸ e2, fP.2.2.1 ▸ e3⟩
    · rintro ⟨P1, hP1, e1, e2, e3⟩
      obtain ⟨P, hP, eP⟩ := fwd P1 hP1
      have fP := skeleton_fields eP
      exact ⟨P, hP, fP.1 ▸ e1, fP.2.1 ▸ e2, fP.2.2.1 ▸ e3⟩
  · intro p1 hp1
    obtain ⟨p, hp, e⟩ := fwd p1 hp1
    have fp := skeleton_fields e
    rw [fp.2.2.2.2.2, fp.1, hS.countNext p hp]
    exact (countP_skeleton_eq hm (fun c => c.RowPrev == some p.rowid)).symm
  · intro a b
    rw [ht, hS.tips a b]
    constructor
    · rintro ⟨r, hr, e1, e2, e3⟩
      obtain ⟨r1, hr1, er⟩ := bwd r hr
      have fr := skeleton_fields er
      exact ⟨r1, hr1, fr.1 ▸ e1, fr.2.1 ▸ e2, fr.2.2.2.2.2 ▸ e3⟩
    · rintro ⟨r1, hr1, e1, e2, e3⟩
      obtain ⟨r, hr, er⟩ := fwd r1 hr1
      have fr := skeleton_fields er
      exact ⟨r, hr, fr.1 ▸ e1, fr.2.1 ▸ e2, fr.2.2.2.2.2 ▸ e3⟩

theorem linkInv_of_sameSkeleton {st st1 : NodeDB} (hS : LinkInv st)
    (hk : SameSkeleton st st1) : LinkInv st1 := by
  obtain ⟨hm, -⟩ := hk
  have fwd : ∀ r1 ∈ st1.States, ∃ r ∈ st.States, skeleton r1 = skeleton r :=
    fun r1 hr1 => skeleton_mem_of_map_eq hm hr1
  have bwd : ∀ r ∈ st.States, ∃ r1 ∈ st1.States, skeleton r = skeleton r1 :=
    fun r hr => skeleton_mem_of_map_eq hm.symm hr
  constructor
  · intro r1 hr1
    obtain ⟨r, hr, e⟩ := fwd r1 hr1
    rw [(skeleton_fields e).1]; exact hS.rowid_ne_zero r hr
  · have e : st1.States.map (fun r => r.rowid) = st.States.map (fun r => r.rowid) := by
      have := congrArg (List.map (fun r => r.rowid)) hm
      simpa [List.map_map, Function.comp, skeleton] using this
    rw [e]; exact hS.rowid_nodup
  · intro r1 hr1
    obtain ⟨r, hr, e⟩ := fwd r1 hr1
    rw [(skeleton_fields e).2.1]; exact hS.height_lt r hr
  · intro c1 hc1 p hp
    obtain ⟨c, hc, e⟩ := fwd c1 hc1
    have fc := skeleton_fields e
    rw [fc.2.2.2.2.1] at hp
    obtain ⟨P, hP, e1, e2⟩ := hS.link c hc p hp
    obtain ⟨P1, hP1, eP⟩ := bwd P hP
    have fP := skeleton_fields eP
    exact ⟨P1, hP1, fP.1 ▸ e1, by rw [fc.2.1, ← fP.2.1]; exact e2⟩

theorem structInv_empty : StructInv NodeDB.empty := by
  constructor <;> simp [NodeDB.empty]

theorem reached_structInv {cursor : Bool} {st : NodeDB} (h : Reached cursor st) :
    StructInv st := by
  induction h with
  | empty => exact structInv_empty
  | insertState _ hh hok ih => exact structInv_InsertState ih hh hok
  | deleteState _ hok ih => exact structInv_DeleteState ih hok
  | setStateFunctional _ hok ih =>
    exact structInv_of_sameSkeleton ih (sameSkeleton_SetStateFunctional hok)
  | setStateNotFunctional _ hok ih =>
    exact structInv_of_sameSkeleton ih (sameSkeleton_SetStateNotFunctional hok)
  | moveFwd _ _ hok ih => exact structInv_of_sameSkeleton ih (sameSkeleton_MoveFwd hok)
  | moveBack _ _ hok ih => exact structInv_of_sameSkeleton ih (sameSkeleton_MoveBack hok)

/-! ## The invariant on the `Reachable` flags -/

theorem eff_congr {P P1 : Nat → Prop} {r r1 : StateRow} (hid : P1 r1.rowid ↔ P r.rowid)
    (hR : r1.Flags = r.Flags) : Eff P1 r1 ↔ Eff P r := by
  unfold Eff RowReachable
  rw [hid, hR]

theorem eff_empty (r : StateRow) : Eff (fun _ => False) r ↔ RowReachable r := by
  unfold Eff; simp

theorem flagsInvP_congr {st : NodeDB} {P P1 : Nat → Prop} {b : Bool}
    (h : FlagsInvP st P b) (hP : ∀ i, P1 i ↔ P i) : FlagsInvP st P1 b := by
  have e : ∀ r, Eff P1 r ↔ Eff P r := fun r => eff_congr (hP _) rfl
  constructor
  · intro r hr hp; exact h.pend r hr ((hP _).mp hp)
  · intro c hc hh
    rw [h.up c hc hh]
    constructor
    · rintro ⟨hF, p, hp, e1, e2⟩; exact ⟨hF, p, hp, e1, (e p).mpr e2⟩
    · rintro ⟨hF, p, hp, e1, e2⟩; exact ⟨hF, p, hp, e1, (e p).mp e2⟩
  · exact h.zero
  · intro c hc hh hF p hp e1 e2
    exact h.zeroPrev c hc hh hF p hp e1 ((e p).mp e2)

theorem parent_unique {st : NodeDB} (hS : LinkInv st) {c p q : StateRow}
    (hp : p ∈ st.States) (hq : q ∈ st.States) (e1 : c.RowPrev = some p.rowid)
    (e2 : c.RowPrev = some q.rowid) : p = q := by
  rw [e1] at e2
  injection e2 with e2
  exact eq_of_rowid_eq hS.rowid_nodup hp hq e2

/-- The generic step of the flag invariant: the new rows are the old ones under `φ`, which keeps
`rowid`, `Height` and `RowPrev`; outside of `C` the flags are kept; outside of `X` the effective
reachability is kept.  Then the clauses of the invariant only need checking for the rows of `C`
and for the children of the rows of `X`. -/
theorem flagsInvP_step {st st1 : NodeDB} {P P1 : Nat → Prop} {b : Bool}
    (φ : StateRow → StateRow) (C : StateRow → Prop) (X : Nat → Prop)
    (hI : FlagsInvP st P b)
    (hmap : st1.States = st.States.map φ)
    (hφ : ∀ r, (φ r).rowid = r.rowid ∧ (φ r).Height = r.Height ∧ (φ r).RowPrev = r.RowPrev)
    (hflags : ∀ r ∈ st.States, ¬C r → (φ r).Flags = r.Flags)
    (hEff : ∀ p ∈ st.States, ¬X p.rowid → (Eff P1 (φ p) ↔ Eff P p))
    (hpend : ∀ r ∈ st.States, P1 r.rowid → hasFlag (φ r).Flags StateFlags.Reachable = b)
    (hup : ∀ c ∈ st.States, (C c ∨ ∃ i, c.RowPrev = some i ∧ X i) → c.Height ≠ 0 →
      (RowReachable (φ c) ↔ RowFunctional (φ c) ∧
        ∃ p ∈ st.States, c.RowPrev = some p.rowid ∧ Eff P1 (φ p)))
    (hzero : ∀ c ∈ st.States, C c → c.Height = 0 → (RowReachable (φ c) ↔ RowFunctional (φ c)))
    (hzeroPrev : ∀ c ∈ st.States, (C c ∨ ∃ i, c.RowPrev = some i ∧ X i) → c.Height = 0 →
      RowFunctional (φ c) → ∀ p ∈ st.States, c.RowPrev = some p.rowid → ¬Eff P1 (φ p)) :
    FlagsInvP st1 P1 b := by
  have mem1 : ∀ r1, r1 ∈ st1.States ↔ ∃ r ∈ st.States, r1 = φ r := by
    intro r1; rw [hmap, List.mem_map]
    constructor
    · rintro ⟨r, hr, rfl⟩; exact ⟨r, hr, rfl⟩
    · rintro ⟨r, hr, rfl⟩; exact ⟨r, hr, rfl⟩
  have hRF : ∀ r ∈ st.States, ¬C r →
      ((RowReachable (φ r) ↔ RowReachable r) ∧ (RowFunctional (φ r) ↔ RowFunctional r)) := by
    intro r hr hC
    unfold RowReachable RowFunctional
    rw [hflags r hr hC]
    exact ⟨Iff.rfl, Iff.rfl⟩
  constructor
  · intro r1 hr1 hp
    obtain ⟨r, hr, rfl⟩ := (mem1 r1).mp hr1
    rw [(hφ r).1] at hp
    exact hpend r hr hp
  · intro c1 hc1 hh
    obtain ⟨c, hc, rfl⟩ := (mem1 c1).mp hc1
    rw [(hφ c).2.1] at hh
    have key : RowReachable (φ c) ↔ RowFunctional (φ c) ∧
        ∃ p ∈ st.States, c.RowPrev = some p.rowid ∧ Eff P1 (φ p) := by
      by_cases hsp : C c ∨ ∃ i, c.RowPrev = some i ∧ X i
      · exact hup c hc hsp hh
      · have hC : ¬C c := fun h => hsp (Or.inl h)
        rw [(hRF c hc hC).1, (hRF c hc hC).2, hI.up c hc hh]
        constructor
        · rintro ⟨hF, p, hp, e1, e2⟩
          have hX : ¬X p.rowid := fun h => hsp (Or.inr ⟨_, e1, h⟩)
          exact ⟨hF, p, hp, e1, (hEff p hp hX).mpr e2⟩
        · rintro ⟨hF, p, hp, e1, e2⟩
          have hX : ¬X p.rowid := fun h => hsp (Or.inr ⟨_, e1, h⟩)
          exact ⟨hF, p, hp, e1, (hEff p hp hX).mp e2⟩
    rw [key, (hφ c).2.2]
    constructor
    · rintro ⟨hF, p, hp, e1, e2⟩
      exact ⟨hF, φ p, (mem1 _).mpr ⟨p, hp, rfl⟩, by rw [(hφ p).1]; exact e1, e2⟩
    · rintro ⟨hF, p1, hp1, e1, e2⟩
      obtain ⟨p, hp, rfl⟩ := (mem1 p1).mp hp1
      rw [(hφ p).1] at e1
      exact ⟨hF, p, hp, e1, e2⟩
  · intro c1 hc1 hh
    obtain ⟨c, hc, rfl⟩ := (mem1 c1).mp hc1
    rw [(hφ c).2.1] at hh
    by_cases hC : C c
    · exact hzero c hc hC hh
    · rw [(hRF c hc hC).1, (hRF c hc hC).2]
      exact hI.zero c hc hh
  · intro c1 hc1 hh hF p1 hp1 e1
    obtain ⟨c, hc, rfl⟩ := (mem1 c1).mp hc1
    obtain ⟨p, hp, rfl⟩ := (mem1 p1).mp hp1
    rw [(hφ c).2.1] at hh
    rw [(hφ c).2.2, (hφ p).1] at e1
    by_cases hsp : C c ∨ ∃ i, c.RowPrev = some i ∧ X i
    · exact hzeroPrev c hc hsp hh hF p hp e1
    · have hC : ¬C c := fun h => hsp (Or.inl h)
      have hX : ¬X p.rowid := fun h => hsp (Or.inr ⟨_, e1, h⟩)
      rw [(hRF c hc hC).2] at hF
      rw [hEff p hp hX]
      exact hI.zeroPrev c hc hh hF p hp e1

theorem flagsInvP_map_same {st st1 : NodeDB} {P : Nat → Prop} {b : Bool}
    (φ : StateRow → StateRow) (hI : FlagsInvP st P b)
    (hmap : st1.States = st.States.map φ)
    (hφ : ∀ r, (φ r).rowid = r.rowid ∧ (φ r).Height = r.Height ∧ (φ r).RowPrev = r.RowPrev
      ∧ (φ r).Flags = r.Flags) :
    FlagsInvP st1 P b := by
  refine flagsInvP_step φ (fun _ => False) (fun _ => False) hI hmap
    (fun r => ⟨(hφ r).1, (hφ r).2.1, (hφ r).2.2.1⟩) (fun r _ _ => (hφ r).2.2.2) ?_ ?_ ?_ ?_ ?_
  · intro p _ _
    exact eff_congr (by rw [(hφ p).1]) (hφ p).2.2.2
  · intro r hr hp
    rw [(hφ r).2.2.2]; exact hI.pend r hr hp
  · rintro c _ (h | ⟨i, _, h⟩) <;> exact absurd h id
  · intro c _ h; exact absurd h id
  · rintro c _ (h | ⟨i, _, h⟩) <;> exact absurd h id

theorem flagsInvP_states_eq {st st1 : NodeDB} {P : Nat → Prop} {b : Bool}
    (hI : FlagsInvP st P b) (h : st1.States = st.States) : FlagsInvP st1 P b :=
  flagsInvP_map_same id hI (by rw [h, List.map_id]) (fun _ => ⟨rfl, rfl, rfl, rfl⟩)

theorem flagsInvP_updateRow {st st1 : NodeDB} {P : Nat → Prop} {b : Bool} {rowid : Nat}
    {f : StateRow → StateRow} (hI : FlagsInvP st P b) (h : updateRow st rowid f = .ok st1)
    (hf : ∀ r, (f r).rowid = r.rowid ∧ (f r).Height = r.Height ∧ (f r).RowPrev = r.RowPrev
      ∧ (f r).Flags = r.Flags) :
    FlagsInvP st1 P b := by
  obtain ⟨-, rfl⟩ := updateRow_ok h
  refine flagsInvP_map_same _ hI rfl ?_
  intro r
  split
  · exact hf r
  · exact ⟨rfl, rfl, rfl, rfl⟩

theorem flagsInvP_SetNextCountFunctional {st st1 : NodeDB} {P : Nat → Prop} {b : Bool}
    {rowid n : Nat} (hI : FlagsInvP st P b)
    (h : SetNextCountFunctional st rowid n = .ok st1) : FlagsInvP st1 P b :=
  flagsInvP_updateRow hI h (fun _ => ⟨rfl, rfl, rfl, rfl⟩)

theorem flagsInvP_TipReachableAdd {st st1 : NodeDB} {P : Nat → Prop} {b : Bool}
    {rowid h : Nat} (hI : FlagsInvP st P b)
    (hok : TipReachableAdd st rowid h = .ok st1) : FlagsInvP st1 P b := by
  obtain ⟨-, rfl⟩ := TipReachableAdd_ok hok; exact flagsInvP_states_eq hI rfl

theorem flagsInvP_TipReachableDel {st st1 : NodeDB} {P : Nat → Prop} {b : Bool}
    {rowid h : Nat} (hI : FlagsInvP st P b)
    (hok : TipReachableDel st rowid h = .ok st1) : FlagsInvP st1 P b := by
  obtain ⟨-, rfl⟩ := TipReachableDel_ok hok; exact flagsInvP_states_eq hI rfl

theorem flagsInvP_BuildMmr {st st1 : NodeDB} {P : Nat → Prop} {b : Bool}
    {rowid rowPrev h : Nat} (hI : FlagsInvP st P b)
    (hok : BuildMmr st rowid rowPrev h = .ok st1) : FlagsInvP st1 P b := by
  unfold BuildMmr at hok
  split at hok
  · cases hok
  split at hok
  · cases hok
  split at hok
  · cases hok
  split at hok
  · injection hok with hok; subst hok; exact hI
  · exact flagsInvP_updateRow hI hok (fun _ => ⟨rfl, rfl, rfl, rfl⟩)

theorem flagsInvP_ite {st st1 : NodeDB} {P : Nat → Prop} {b : Bool} {c : Prop} [Decidable c]
    {x : Except Err NodeDB} (hI : FlagsInvP st P b)
    (h : (if c then x else .ok st) = .ok st1) (hx : x = .ok st1 → FlagsInvP st1 P b) :
    FlagsInvP st1 P b := by
  split at h
  · exact hx h
  · injection h with h; subst h; exact hI

theorem flagsInvP_SetStateFunctional_prevStep {st st3 : NodeDB} {P : Nat → Prop} {b : Bool}
    {x : StateRow} {nFlags rowPrev : Nat} (hI : FlagsInvP st P b)
    (hok : SetStateFunctional.prevStep st x = .ok (st3, nFlags, rowPrev)) :
    FlagsInvP st3 P b := by
  rcases SetStateFunctional_prevStep_inv hok with h | h | ⟨-, -, s1, h1, h | h⟩
  · rw [h.2.2.1]; exact hI
  · rw [h.2.2.1]; exact hI
  · rw [h.2.1]; exact flagsInvP_SetNextCountFunctional hI h1
  · exact flagsInvP_ite (flagsInvP_SetNextCountFunctional hI h1) h.2.2
      (flagsInvP_TipReachableDel (flagsInvP_SetNextCountFunctional hI h1))

theorem flagsInvP_SetStateNotFunctional_prevStep {st st3 : NodeDB} {P : Nat → Prop} {b : Bool}
    {x : StateRow} {rowPrev : Nat} (hI : FlagsInvP st P b)
    (hok : SetStateNotFunctional.prevStep st x = .ok (st3, rowPrev)) :
    FlagsInvP st3 P b := by
  rcases SetStateNotFunctional_prevStep_inv hok with h | h | ⟨-, -, -, s1, h1, h3⟩
  · rw [h.2.2.2.1]; exact hI
  · rw [h.2.2.2.1]; exact hI
  · exact flagsInvP_ite (flagsInvP_SetNextCountFunctional hI h1) h3
      (flagsInvP_TipReachableAdd (flagsInvP_SetNextCountFunctional hI h1))

theorem flagsInv_empty : FlagsInv NodeDB.empty := by
  constructor <;> simp [NodeDB.empty]

theorem flagsInv_InsertState {st st1 : NodeDB} {s : Full} {rowid : Nat} (hS : StructInv st)
    (hI : FlagsInv st) (hh : s.m_Height < 2 ^ 64) (hok : InsertState st s = .ok (st1, rowid)) :
    FlagsInv st1 := by
  obtain ⟨rfl, hkey, eS, -, -, -, -⟩ := InsertState_closed hS hok
  have hfresh := newRowid_gt st
  generalize hprev : findKey st (heightDec s.m_Height) s.m_Prev = prev at eS
  have mem1 : ∀ r1, r1 ∈ st1.States ↔
      (∃ r ∈ st.States, r1 = insertedOld prev (newRowid st) s.m_Height s.hash r) ∨
      r1 = { InsertState.newRow st s with
              CountNext := st.States.countP (isNextOf s.m_Height s.hash) } := by
    intro r1
    rw [eS]
    simp only [List.mem_append, List.mem_map, List.mem_singleton]
    constructor
    · rintro (⟨r, hr, rfl⟩ | h)
      · exact Or.inl ⟨r, hr, rfl⟩
      · exact Or.inr h
    · rintro (⟨r, hr, rfl⟩ | h)
      · exact Or.inl ⟨r, hr, rfl⟩
      · exact Or.inr h
  have hnewR : ¬RowReachable ({ InsertState.newRow st s with
      CountNext := st.States.countP (isNextOf s.m_Height s.hash) } : StateRow) := by
    show ¬(hasFlag 0 StateFlags.Reachable = true)
    simp
  have hnewF : ¬RowFunctional ({ InsertState.newRow st s with
      CountNext := st.States.countP (isNextOf s.m_Height s.hash) } : StateRow) := by
    show ¬(hasFlag 0 StateFlags.Functional = true)
    simp
  have hR : ∀ r, RowReachable (insertedOld prev (newRowid st) s.m_Height s.hash r)
      ↔ RowReachable r := by
    intro r; unfold RowReachable; rw [insertedOld_Flags]
  have hF : ∀ r, RowFunctional (insertedOld prev (newRowid st) s.m_Height s.hash r)
      ↔ RowFunctional r := by
    intro r; unfold RowFunctional; rw [insertedOld_Flags]
  -- the parent of an old row after the call: the new row for an adopted row, the old parent
  -- otherwise; in both cases it is reachable only if the old parent was
  have hpar : ∀ c ∈ st.States, ∀ p1 ∈ st1.States,
      (insertedOld prev (newRowid st) s.m_Height s.hash c).RowPrev = some p1.rowid →
      RowReachable p1 → ∃ p ∈ st.States, c.RowPrev = some p.rowid ∧ RowReachable p := by
    intro c hc p1 hp1 e1 hRp
    rcases (mem1 p1).mp hp1 with ⟨p, hp, rfl⟩ | rfl
    · rw [insertedOld_RowPrev, insertedOld_rowid] at e1
      by_cases hn : isNextOf s.m_Height s.hash c = true
      · simp only [hn, ↓reduceIte, Option.some.injEq] at e1
        have := hfresh p hp
        omega
      · simp only [hn, Bool.false_eq_true, ↓reduceIte] at e1
        exact ⟨p, hp, e1, (hR p).mp hRp⟩
    · exact absurd hRp hnewR
  unfold FlagsInv at *
  constructor
  · intro r _ h; exact absurd h id
  · intro c1 hc1 hne
    rcases (mem1 c1).mp hc1 with ⟨c, hc, rfl⟩ | rfl
    · rw [insertedOld_Height] at hne
      rw [hR, hF, hI.up c hc hne]
      constructor
      · rintro ⟨hFc, p, hp, e1, e2⟩
        refine ⟨hFc, _, (mem1 _).mpr (Or.inl ⟨p, hp, rfl⟩), ?_, ?_⟩
        · rw [insertedOld_RowPrev, insertedOld_rowid]
          have hn : ¬ (isNextOf s.m_Height s.hash c = true) := by
            intro hn
            rw [rowPrev_none_of_isNextOf hS hh hkey hc hn] at e1
            cases e1
          simp only [hn, Bool.false_eq_true, ↓reduceIte]
          exact e1
        · rw [eff_empty] at e2 ⊢
          exact (hR p).mpr e2
      · rintro ⟨hFc, p1, hp1, e1, e2⟩
        rw [eff_empty] at e2
        obtain ⟨p, hp, e3, e4⟩ := hpar c hc p1 hp1 e1 e2
        exact ⟨hFc, p, hp, e3, (eff_empty p).mpr e4⟩
    · constructor
      · intro h; exact absurd h hnewR
      · rintro ⟨h, -⟩; exact absurd h hnewF
  · intro c1 hc1 h0
    rcases (mem1 c1).mp hc1 with ⟨c, hc, rfl⟩ | rfl
    · rw [insertedOld_Height] at h0
      rw [hR, hF]; exact hI.zero c hc h0
    · constructor
      · intro h; exact absurd h hnewR
      · intro h; exact absurd h hnewF
  · intro c1 hc1 h0 hFc p1 hp1 e1 e2
    rw [eff_empty] at e2
    rcases (mem1 c1).mp hc1 with ⟨c, hc, rfl⟩ | rfl
    · rw [insertedOld_Height] at h0
      rw [hF] at hFc
      obtain ⟨p, hp, e3, e4⟩ := hpar c hc p1 hp1 e1 e2
      exact hI.zeroPrev c hc h0 hFc p hp e3 ((eff_empty p).mpr e4)
    · exact absurd hFc hnewF

theorem flagsInv_DeleteState {st st1 : NodeDB} {rowid : Nat} {res : Bool × Nat}
    (hS : StructInv st) (hI : FlagsInv st) (hok : DeleteState st rowid = .ok (st1, res)) :
    FlagsInv st1 := by
  obtain ⟨x, hx, rfl, -, h | ⟨hc, -, -, eS, -, -, -, -⟩⟩ := DeleteState_closed hS.toLink hok
  · rw [h.2.1]; exact hI
  have hnoch := no_children_of_countNext_zero hS hx hc
  have mem1 : ∀ r1, r1 ∈ st1.States ↔
      ∃ r ∈ st.States, r.rowid ≠ x.rowid ∧ r1 = deletedOld x r := by
    intro r1
    rw [eS]
    simp only [List.mem_filter, List.mem_map, bne_iff_ne, ne_eq]
    constructor
    · rintro ⟨⟨r, hr, rfl⟩, hne⟩
      rw [deletedOld_rowid] at hne
      exact ⟨r, hr, hne, rfl⟩
    · rintro ⟨r, hr, hne, rfl⟩
      refine ⟨⟨r, hr, rfl⟩, ?_⟩
      rw [deletedOld_rowid]; exact hne
  have hR : ∀ r, RowReachable (deletedOld x r) ↔ RowReachable r := by
    intro r; unfold RowReachable; rw [deletedOld_Flags]
  have hF : ∀ r, RowFunctional (deletedOld x r) ↔ RowFunctional r := by
    intro r; unfold RowFunctional; rw [deletedOld_Flags]
  unfold FlagsInv at *
  constructor
  · intro r _ h; exact absurd h id
  · intro c1 hc1 hne
    obtain ⟨c, hcm, hcne, rfl⟩ := (mem1 c1).mp hc1
    rw [deletedOld_Height] at hne
    rw [hR, hF, hI.up c hcm hne]
    constructor
    · rintro ⟨hFc, p, hp, e1, e2⟩
      have hpne : p.rowid ≠ x.rowid := by
        intro e; exact hnoch c hcm (by rw [e1, e])
      refine ⟨hFc, _, (mem1 _).mpr ⟨p, hp, hpne, rfl⟩, ?_, ?_⟩
      · rw [deletedOld_RowPrev, deletedOld_rowid]; exact e1
      · rw [eff_empty] at e2 ⊢; exact (hR p).mpr e2
    · rintro ⟨hFc, p1, hp1, e1, e2⟩
      obtain ⟨p, hp, -, rfl⟩ := (mem1 p1).mp hp1
      rw [deletedOld_RowPrev, deletedOld_rowid] at e1
      rw [eff_empty] at e2
      exact ⟨hFc, p, hp, e1, (eff_empty p).mpr ((hR p).mp e2)⟩
  · intro c1 hc1 h0
    obtain ⟨c, hcm, -, rfl⟩ := (mem1 c1).mp hc1
    rw [deletedOld_Height] at h0
    rw [hR, hF]; exact hI.zero c hcm h0
  · intro c1 hc1 h0 hFc p1 hp1 e1 e2
    obtain ⟨c, hcm, -, rfl⟩ := (mem1 c1).mp hc1
    obtain ⟨p, hp, -, rfl⟩ := (mem1 p1).mp hp1
    rw [deletedOld_Height] at h0
    rw [hF] at hFc
    rw [deletedOld_RowPrev, deletedOld_rowid] at e1
    rw [eff_empty] at e2
    exact hI.zeroPrev c hcm h0 hFc p hp e1 ((eff_empty p).mpr ((hR p).mp e2))

theorem flipRows_rowid (rows : List StateRow) (r : StateRow) :
    (flipRows rows r).rowid = r.rowid := by
  unfold flipRows; split <;> rfl

theorem flipRows_fields (rows : List StateRow) (r : StateRow) :
    (flipRows rows r).rowid = r.rowid ∧ (flipRows rows r).Height = r.Height
      ∧ (flipRows rows r).RowPrev = r.RowPrev := by
  unfold flipRows; split <;> exact ⟨rfl, rfl, rfl⟩

theorem flipRows_skeleton (rows : List StateRow) (r : StateRow) :
    skeleton (flipRows rows r) = skeleton r := by
  unfold flipRows; split <;> rfl

theorem flipRows_CountNextFunctional (rows : List StateRow) (r : StateRow) :
    (flipRows rows r).CountNextFunctional = r.CountNextFunctional := by
  unfold flipRows; split <;> rfl

theorem flipRows_of_not_mem {rows : List StateRow} {r : StateRow} (h : r ∉ rows) :
    flipRows rows r = r := by
  unfold flipRows; simp [h]

theorem flipRows_Functional (rows : List StateRow) (r : StateRow) :
    RowFunctional (flipRows rows r) ↔ RowFunctional r := by
  unfold flipRows RowFunctional
  split
  · simp
  · rfl

theorem flipFold_closed : ∀ (rows : List StateRow) (s sB : NodeDB),
    (s.States.map (fun r => r.rowid)).Nodup → rows.Nodup → (∀ c ∈ rows, c ∈ s.States) →
    rows.foldlM (fun s r => SetFlags s r.rowid (r.Flags ^^^ StateFlags.Reachable)) s = .ok sB →
    sB.States = s.States.map (flipRows rows) ∧ sB.Tips = s.Tips
      ∧ sB.TipsReachable = s.TipsReachable ∧ sB.Params = s.Params
      ∧ sB.Spendable = s.Spendable := by
  intro rows
  induction rows with
  | nil =>
    intro s sB _ _ _ h
    simp only [List.foldlM, pure, Except.pure] at h
    injection h with h; subst h
    refine ⟨?_, rfl, rfl, rfl, rfl⟩
    have : flipRows [] = id := by
      funext r; unfold flipRows; simp
    rw [this, List.map_id]
  | cons c rest ih =>
    intro s sB hnd hrows hmem h
    rw [List.foldlM_cons, bind_ok_iff] at h
    obtain ⟨s1, h1, h2⟩ := h
    obtain ⟨-, rfl⟩ := updateRow_ok h1
    have hc : c ∈ s.States := hmem c (List.mem_cons_self _ _)
    have hcrest : c ∉ rest := (List.nodup_cons.mp hrows).1
    have hstep : ∀ r ∈ s.States,
        (if (r.rowid == c.rowid) = true then
          ({ r with Flags := c.Flags ^^^ StateFlags.Reachable } : StateRow) else r)
        = flipRows [c] r := by
      intro r hr
      unfold flipRows
      by_cases e : r.rowid = c.rowid
      · have : r = c := List.inj_on_of_nodup_map hnd hr hc e
        subst this
        simp
      · have : r ≠ c := fun h => e (by rw [h])
        simp [e, this]
    have hmapeq : List.map (fun r => if (r.rowid == c.rowid) = true then
          ({ r with Flags := c.Flags ^^^ StateFlags.Reachable } : StateRow) else r) s.States
        = s.States.map (flipRows [c]) := List.map_congr_left hstep
    rw [hmapeq] at h2
    have hnd1 : (List.map (fun r => r.rowid) (s.States.map (flipRows [c]))).Nodup := by
      rw [List.map_map]
      have : ((fun r => r.rowid) ∘ flipRows [c]) = fun r => r.rowid := by
        funext r; simp [Function.comp, flipRows_rowid]
      rw [this]; exact hnd
    have hmem1 : ∀ d ∈ rest, d ∈ s.States.map (flipRows [c]) := by
      intro d hd
      rw [List.mem_map]
      have hds : d ∈ s.States := hmem d (List.mem_cons_of_mem _ hd)
      have e : d ≠ c := fun h => hcrest (h ▸ hd)
      refine ⟨d, hds, ?_⟩
      unfold flipRows
      simp [e]
    obtain ⟨e1, e2, e3, e4, e5⟩ := ih _ sB hnd1 (List.nodup_cons.mp hrows).2 hmem1 h2
    refine ⟨?_, e2, e3, e4, e5⟩
    rw [e1]
    simp only
    rw [List.map_map]
    apply List.map_congr_left
    intro r hr
    simp only [Function.comp]
    by_cases e : r = c
    · subst e
      have hflip : flipRows [r] r = { r with Flags := r.Flags ^^^ StateFlags.Reachable } := by
        unfold flipRows; simp
      have hnot : ({ r with Flags := r.Flags ^^^ StateFlags.Reachable } : StateRow) ∉ rest := by
        intro hin
        have h1 := hmem _ (List.mem_cons_of_mem _ hin)
        have : ({ r with Flags := r.Flags ^^^ StateFlags.Reachable } : StateRow) = r :=
          List.inj_on_of_nodup_map hnd h1 hr rfl
        rw [this] at hin
        exact hcrest hin
      rw [hflip, flipRows_of_not_mem hnot]
      unfold flipRows
      simp
    · have h1 : flipRows [c] r = r := flipRows_of_not_mem (by simpa using e)
      rw [h1]
      unfold flipRows
      simp [e]

theorem nextFunctional_iff {st : NodeDB} {rowid h : Nat} {r : StateRow} :
    r ∈ nextFunctional st rowid h ↔
      r ∈ st.States ∧ r.Height = heightInc h ∧ r.RowPrev = some rowid ∧ RowFunctional r := by
  unfold nextFunctional RowFunctional
  simp only [List.mem_filter, Bool.and_eq_true, beq_iff_eq]
  constructor
  · rintro ⟨h1, ⟨h2, h3⟩, h4⟩; exact ⟨h1, h2, h3, h4⟩
  · rintro ⟨h1, h2, h3, h4⟩; exact ⟨h1, ⟨h2, h3⟩, h4⟩

theorem states_nodup {st : NodeDB} (hS : LinkInv st) : st.States.Nodup :=
  List.Nodup.of_map _ hS.rowid_nodup

theorem nextFunctional_nodup {st : NodeDB} (hS : LinkInv st) (rowid h : Nat) :
    (nextFunctional st rowid h).Nodup := by
  unfold nextFunctional
  exact (states_nodup hS).filter _

theorem child_height {st : NodeDB} (hS : LinkInv st) {x c : StateRow} (hx : x ∈ st.States)
    (hc : c ∈ st.States) (e : c.RowPrev = some x.rowid) : c.Height = heightInc x.Height := by
  obtain ⟨p, hp, e1, e2⟩ := hS.link c hc x.rowid e
  have : p = x := eq_of_rowid_eq hS.rowid_nodup hp hx e1
  subst this
  rw [e2, heightInc_dec (hS.height_lt c hc)]

theorem hasFlag_R_flip (f : Nat) :
    hasFlag (f ^^^ StateFlags.Reachable) StateFlags.Reachable
      = !hasFlag f StateFlags.Reachable := by
  simp

/-- One turn of the loop of `OnStateReachable` on the pending row `x`: its functional children
`rows`, all with `Reachable` different from `b`, get the flag flipped and become pending; `x`
is pending no more. -/
theorem flagsInvP_flip {sA sB : NodeDB} {P : Nat → Prop} {b : Bool} {x : StateRow}
    (hS : LinkInv sA) (hI : FlagsInvP sA P b) (hP : P x.rowid) (hx : x ∈ sA.States)
    (hassert : ∀ c ∈ nextFunctional sA x.rowid x.Height,
      hasFlag c.Flags StateFlags.Reachable = !b)
    (hB : sB.States = sA.States.map (flipRows (nextFunctional sA x.rowid x.Height))) :
    FlagsInvP sB
      (fun i => (P i ∧ i ≠ x.rowid) ∨ ∃ c ∈ nextFunctional sA x.rowid x.Height, c.rowid = i)
      b := by
  generalize hrows : nextFunctional sA x.rowid x.Height = rows at hassert hB
  have hrow : ∀ c, c ∈ rows ↔ c ∈ sA.States ∧ c.Height = heightInc x.Height
      ∧ c.RowPrev = some x.rowid ∧ RowFunctional c := by
    intro c; rw [← hrows]; exact nextFunctional_iff
  have hxR : hasFlag x.Flags StateFlags.Reachable = b := hI.pend x hx hP
  have hxrows : x ∉ rows := by
    intro h
    exact heightInc_ne _ ((hrow x).mp h).2.1.symm
  have hnotP : ∀ c ∈ rows, ¬P c.rowid := by
    intro c hc hPc
    have h1 := hI.pend c ((hrow c).mp hc).1 hPc
    have h2 := hassert c hc
    rw [h1] at h2
    cases b <;> simp at h2
  have hidrows : ∀ r ∈ sA.States, (∃ c ∈ rows, c.rowid = r.rowid) → r ∈ rows := by
    rintro r hr ⟨c, hc, e⟩
    have : c = r := eq_of_rowid_eq hS.rowid_nodup ((hrow c).mp hc).1 hr e
    rw [← this]; exact hc
  -- the effective reachability of `x` before and after
  have hEffx_old : Eff P x ↔ b = false := by
    unfold Eff RowReachable
    rw [hxR]
    constructor
    · rintro (⟨-, h⟩ | ⟨h, -⟩)
      · cases b <;> simp at h ⊢
      · exact absurd hP h
    · intro h; left; exact ⟨hP, by rw [h]; simp⟩
  have hEffx_new : Eff (fun i => (P i ∧ i ≠ x.rowid) ∨ ∃ c ∈ rows, c.rowid = i)
      (flipRows rows x) ↔ b = true := by
    rw [flipRows_of_not_mem hxrows]
    unfold Eff RowReachable
    rw [hxR]
    have hnP : ¬((P x.rowid ∧ x.rowid ≠ x.rowid) ∨ ∃ c ∈ rows, c.rowid = x.rowid) := by
      rintro (⟨-, h⟩ | h)
      · exact h rfl
      · exact hxrows (hidrows x hx h)
    constructor
    · rintro (⟨h, -⟩ | ⟨-, h⟩)
      · exact absurd h hnP
      · exact h
    · intro h; right; exact ⟨hnP, h⟩
  -- a functional child of `x` of height 0 cannot occur
  have hzero_absurd : ∀ c ∈ rows, c.Height = 0 → False := by
    intro c hc h0
    obtain ⟨hcm, -, hcp, hcF⟩ := (hrow c).mp hc
    have hcR : RowReachable c := (hI.zero c hcm h0).mpr hcF
    have h2 := hassert c hc
    unfold RowReachable at hcR
    rw [hcR] at h2
    have hb : b = false := by cases b <;> simp at h2 ⊢
    exact hI.zeroPrev c hcm h0 hcF x hx hcp (hEffx_old.mpr hb)
  -- the children of `x`
  have hchild : ∀ c ∈ sA.States, (c ∈ rows ∨ ∃ i, c.RowPrev = some i ∧ i = x.rowid) →
      c.RowPrev = some x.rowid := by
    rintro c hc (h | ⟨i, e, rfl⟩)
    · exact ((hrow c).mp h).2.2.1
    · exact e
  refine flagsInvP_step (flipRows rows) (fun r => r ∈ rows) (fun i => i = x.rowid) hI hB
    (flipRows_fields rows) (fun r _ h => by rw [flipRows_of_not_mem h]) ?_ ?_ ?_ ?_ ?_
  · -- effective reachability of the rows other than `x`
    intro p hp hne
    by_cases hpr : p ∈ rows
    · have h2 := hassert p hpr
      have hflip : RowReachable (flipRows rows p) ↔ ¬RowReachable p := by
        unfold flipRows RowReachable
        simp only [hpr, ↓reduceIte, hasFlag_R_flip]
        cases hasFlag p.Flags StateFlags.Reachable <;> simp
      unfold Eff
      rw [flipRows_rowid, hflip]
      have h1 : (P p.rowid ∧ p.rowid ≠ x.rowid) ∨ ∃ c ∈ rows, c.rowid = p.rowid :=
        Or.inr ⟨p, hpr, rfl⟩
      have h3 := hnotP p hpr
      constructor
      · rintro (⟨-, h⟩ | ⟨h, -⟩)
        · exact Or.inr ⟨h3, not_not.mp h⟩
        · exact absurd h1 h
      · rintro (⟨h, -⟩ | ⟨-, h⟩)
        · exact absurd h h3
        · exact Or.inl ⟨h1, not_not.mpr h⟩
    · rw [flipRows_of_not_mem hpr]
      apply eff_congr _ rfl
      constructor
      · rintro (⟨h, -⟩ | h)
        · exact h
        · exact absurd (hidrows p hp h) hpr
      · intro h; exact Or.inl ⟨h, hne⟩
  · -- pending rows
    intro r hr hp
    by_cases hrr : r ∈ rows
    · have h2 := hassert r hrr
      unfold flipRows
      simp only [hrr, ↓reduceIte, hasFlag_R_flip, h2, Bool.not_not]
    · rw [flipRows_of_not_mem hrr]
      rcases hp with ⟨h, -⟩ | h
      · exact hI.pend r hr h
      · exact absurd (hidrows r hr h) hrr
  · -- rows of nonzero height: the flipped rows and the other children of `x`
    intro c hc hsp hne
    have hcp := hchild c hc hsp
    have hpar : (∃ p ∈ sA.States, c.RowPrev = some p.rowid ∧
        Eff (fun i => (P i ∧ i ≠ x.rowid) ∨ ∃ c ∈ rows, c.rowid = i) (flipRows rows p))
        ↔ b = true := by
      rw [← hEffx_new]
      constructor
      · rintro ⟨p, hp, e1, e2⟩
        have : p = x := parent_unique hS hp hx e1 hcp
        rw [this] at e2; exact e2
      · intro h; exact ⟨x, hx, hcp, h⟩
    rw [hpar, flipRows_Functional]
    by_cases hcr : c ∈ rows
    · have h2 := hassert c hcr
      have hF := ((hrow c).mp hcr).2.2.2
      unfold flipRows RowReachable
      simp only [hcr, ↓reduceIte, hasFlag_R_flip, h2, Bool.not_not]
      exact ⟨fun h => ⟨hF, h⟩, fun h => h.2⟩
    · rw [flipRows_of_not_mem hcr]
      have hnF : ¬RowFunctional c := by
        intro hF
        exact hcr ((hrow c).mpr ⟨hc, child_height hS hx hc hcp, hcp, hF⟩)
      constructor
      · intro hR
        exact absurd ((hI.up c hc hne).mp hR).1 hnF
      · rintro ⟨hF, -⟩; exact absurd hF hnF
  · intro c _ hcr h0
    exact absurd (hzero_absurd c hcr h0) id
  · intro c hc hsp h0 hF
    rw [flipRows_Functional] at hF
    have hcp := hchild c hc hsp
    have hcr : c ∈ rows := (hrow c).mpr ⟨hc, child_height hS hx hc hcp, hcp, hF⟩
    exact absurd (hzero_absurd c hcr h0) id

theorem exists_row_of_sameSkeleton {s s1 : NodeDB} (hk : SameSkeleton s s1) {i k : Nat}
    (h : ∃ y ∈ s.States, y.rowid = i ∧ y.Height = k) :
    ∃ y ∈ s1.States, y.rowid = i ∧ y.Height = k := by
  obtain ⟨y, hy, e1, e2⟩ := h
  obtain ⟨y1, hy1, e⟩ := skeleton_mem_of_map_eq hk.1.symm hy
  have f := skeleton_fields e
  exact ⟨y1, hy1, f.1 ▸ e1, f.2.1 ▸ e2⟩

theorem sameSkeleton_of_map {s s1 : NodeDB} {φ : StateRow → StateRow}
    (h : s1.States = s.States.map φ) (hφ : ∀ r, skeleton (φ r) = skeleton r)
    (ht : s1.Tips = s.Tips) : SameSkeleton s s1 := by
  refine ⟨?_, ht⟩
  rw [h, List.map_map]
  apply List.map_congr_left
  intro r _
  exact hφ r

theorem rows_assert {rows : List StateRow} {b : Bool}
    (h : rows.all (fun r => hasFlag r.Flags StateFlags.Functional
        && ((!hasFlag r.Flags StateFlags.Reachable) == b)) = true) :
    ∀ c ∈ rows, hasFlag c.Flags StateFlags.Reachable = !b := by
  intro c hc
  have := List.all_eq_true.mp h c hc
  simp only [Bool.and_eq_true, beq_iff_eq] at this
  rw [← this.2]; simp

/-- The recursive calls of `OnStateReachable` on the siblings, given the statement for one
call. -/
theorem cascade_fold {fuel : Nat} {b : Bool} {rp h1 : Nat}
    (ih : ∀ (st st1 : NodeDB) (rowid rowPrev h : Nat) (P : Nat → Prop),
      LinkInv st → FlagsInvP st P b → P rowid →
      (∃ x ∈ st.States, x.rowid = rowid ∧ x.Height = h) →
      OnStateReachable fuel st rowid rowPrev h b = .ok st1 →
      FlagsInvP st1 (fun i => P i ∧ i ≠ rowid) b) :
    ∀ (l : List StateRow) (s s1 : NodeDB) (Q : Nat → Prop), LinkInv s → FlagsInvP s Q b →
      (∀ c ∈ l, Q c.rowid ∧ ∃ y ∈ s.States, y.rowid = c.rowid ∧ y.Height = h1) →
      (l.map (fun r => r.rowid)).Nodup →
      l.foldlM (fun s r => OnStateReachable fuel s r.rowid rp h1 b) s = .ok s1 →
      FlagsInvP s1 (fun i => Q i ∧ i ∉ l.map (fun r => r.rowid)) b ∧ SameSkeleton s s1 := by
  intro l
  induction l with
  | nil =>
    intro s s1 Q _ hI _ _ h
    simp only [List.foldlM, pure, Except.pure] at h
    injection h with h; subst h
    exact ⟨flagsInvP_congr hI (by intro i; simp), SameSkeleton.skel_refl _⟩
  | cons c rest ihl =>
    intro s s1 Q hS hI hl hnd h
    rw [List.foldlM_cons, bind_ok_iff] at h
    obtain ⟨s2, h2, h3⟩ := h
    obtain ⟨hQc, hex⟩ := hl c (List.mem_cons_self _ _)
    have hI2 := ih s s2 c.rowid rp h1 Q hS hI hQc hex h2
    have hk2 := sameSkeleton_OnStateReachable _ _ _ _ _ _ _ h2
    have hS2 := linkInv_of_sameSkeleton hS hk2
    simp only [List.map_cons, List.nodup_cons] at hnd
    have hl2 : ∀ d ∈ rest, (Q d.rowid ∧ d.rowid ≠ c.rowid) ∧
        ∃ y ∈ s2.States, y.rowid = d.rowid ∧ y.Height = h1 := by
      intro d hd
      obtain ⟨hQd, hexd⟩ := hl d (List.mem_cons_of_mem _ hd)
      refine ⟨⟨hQd, ?_⟩, exists_row_of_sameSkeleton hk2 hexd⟩
      intro e
      exact hnd.1 (e ▸ List.mem_map_of_mem _ hd)
    obtain ⟨hI3, hk3⟩ := ihl s2 s1 _ hS2 hI2 hl2 hnd.2 h3
    refine ⟨flagsInvP_congr hI3 ?_, hk2.skel_trans hk3⟩
    intro i
    simp only [List.map_cons, List.mem_cons, not_or]
    constructor
    · rintro ⟨h1, h2, h3⟩; exact ⟨⟨h1, h2⟩, h3⟩
    · rintro ⟨⟨h1, h2⟩, h3⟩; exact ⟨h1, h2, h3⟩

theorem flagsInvP_OnStateReachable : ∀ (fuel : Nat) {b : Bool} (st st1 : NodeDB)
    (rowid rowPrev h : Nat) (P : Nat → Prop),
    LinkInv st → FlagsInvP st P b → P rowid →
    (∃ x ∈ st.States, x.rowid = rowid ∧ x.Height = h) →
    OnStateReachable fuel st rowid rowPrev h b = .ok st1 →
    FlagsInvP st1 (fun i => P i ∧ i ≠ rowid) b := by
  intro fuel b
  induction fuel with
  | zero => intro st st1 rowid rowPrev h P _ _ _ _ hok; simp [OnStateReachable] at hok
  | succ fuel ih =>
    intro st st1 rowid rowPrev h P hS hI hP hex hok
    rw [OnStateReachable, bind_ok_iff] at hok
    obtain ⟨sA, hA, hok⟩ := hok
    have hkA : SameSkeleton st sA := by
      split at hA
      · exact sameSkeleton_BuildMmr hA
      · injection hA with hA; subst hA; exact SameSkeleton.skel_refl _
    have hIA : FlagsInvP sA P b := by
      split at hA
      · exact flagsInvP_BuildMmr hI hA
      · injection hA with hA; subst hA; exact hI
    have hSA := linkInv_of_sameSkeleton hS hkA
    obtain ⟨x, hx, rfl, rfl⟩ := exists_row_of_sameSkeleton hkA hex
    simp only at hok
    split at hok
    · rename_i hall
      have hassert := rows_assert hall
      split at hok
      · rename_i hrows
        have hst : st1.States = sA.States := by
          split at hok
          · obtain ⟨-, rfl⟩ := TipReachableAdd_ok hok; rfl
          · obtain ⟨-, rfl⟩ := TipReachableDel_ok hok; rfl
        have hB : st1.States
            = sA.States.map (flipRows (nextFunctional sA x.rowid x.Height)) := by
          rw [hst, hrows]
          have : flipRows [] = id := by
            funext r; unfold flipRows; simp
          rw [this, List.map_id]
        have := flagsInvP_flip hSA hIA hP hx hassert hB
        refine flagsInvP_congr this ?_
        intro i
        rw [hrows]
        simp
      · rename_i r0 rest hrows
        rw [bind_ok_iff] at hok
        obtain ⟨sB, hB, hok⟩ := hok
        rw [bind_ok_iff] at hok
        obtain ⟨sC, hC, hok⟩ := hok
        have hnd := nextFunctional_nodup hSA x.rowid x.Height
        have hmemA : ∀ c ∈ nextFunctional sA x.rowid x.Height, c ∈ sA.States :=
          fun c hc => (nextFunctional_iff.mp hc).1
        rw [← hrows] at hB
        obtain ⟨eB, tB, -, -, -⟩ := flipFold_closed _ sA sB hSA.rowid_nodup hnd hmemA hB
        have hIB := flagsInvP_flip hSA hIA hP hx hassert eB
        have hkB : SameSkeleton sA sB := sameSkeleton_of_map eB (flipRows_skeleton _) tB
        have hSB := linkInv_of_sameSkeleton hSA hkB
        -- the rows read by the query, in the store after the flips
        have hrowsB : ∀ c ∈ nextFunctional sA x.rowid x.Height,
            ∃ y ∈ sB.States, y.rowid = c.rowid ∧ y.Height = heightInc x.Height := by
          intro c hc
          obtain ⟨hcm, hch, -, -⟩ := nextFunctional_iff.mp hc
          exact exists_row_of_sameSkeleton hkB ⟨c, hcm, rfl, hch⟩
        have hndid : ((nextFunctional sA x.rowid x.Height).map (fun r => r.rowid)).Nodup := by
          have hsub : List.Sublist ((nextFunctional sA x.rowid x.Height).map (fun r => r.rowid))
              (sA.States.map (fun r => r.rowid)) :=
            (List.filter_sublist _).map _
          exact hSA.rowid_nodup.sublist hsub
        rw [hrows] at hrowsB hndid
        simp only [List.map_cons, List.nodup_cons] at hndid
        have hlrest : ∀ c ∈ rest,
            ((P c.rowid ∧ c.rowid ≠ x.rowid) ∨
              ∃ d ∈ nextFunctional sA x.rowid x.Height, d.rowid = c.rowid) ∧
            ∃ y ∈ sB.States, y.rowid = c.rowid ∧ y.Height = heightInc x.Height := by
          intro c hc
          refine ⟨Or.inr ⟨c, ?_, rfl⟩, hrowsB c (List.mem_cons_of_mem _ hc)⟩
          rw [hrows]; exact List.mem_cons_of_mem _ hc
        obtain ⟨hIC, hkC⟩ := cascade_fold ih rest sB sC _ hSB hIB hlrest hndid.2 hC
        have hSC := linkInv_of_sameSkeleton hSB hkC
        have hP0 : ((P r0.rowid ∧ r0.rowid ≠ x.rowid) ∨
              ∃ d ∈ nextFunctional sA x.rowid x.Height, d.rowid = r0.rowid) ∧
            r0.rowid ∉ rest.map (fun r => r.rowid) := by
          refine ⟨Or.inr ⟨r0, ?_, rfl⟩, hndid.1⟩
          rw [hrows]; exact List.mem_cons_self _ _
        have hex0 := exists_row_of_sameSkeleton hkC (hrowsB r0 (List.mem_cons_self _ _))
        have hI1 := ih sC st1 r0.rowid x.rowid (heightInc x.Height) _ hSC hIC hP0 hex0 hok
        refine flagsInvP_congr hI1 ?_
        intro i
        -- a pending row is none of the rows read by the query
        have hnotP : ∀ c ∈ nextFunctional sA x.rowid x.Height, ¬P c.rowid := by
          intro c hc hPc
          have h1 := hIA.pend c (hmemA c hc) hPc
          have h2 := hassert c hc
          rw [h1] at h2
          cases b <;> simp at h2
        rw [hrows] at hnotP
        simp only [hrows, List.mem_cons, List.mem_map, exists_eq_or_imp]
        constructor
        · rintro ⟨h1, h2⟩
          refine ⟨⟨Or.inl ⟨h1, h2⟩, ?_⟩, ?_⟩
          · rintro ⟨d, hd, e⟩
            exact hnotP d (List.mem_cons_of_mem _ hd) (e ▸ h1)
          · intro e
            exact hnotP r0 (List.mem_cons_self _ _) (e ▸ h1)
        · rintro ⟨⟨h1 | h1 | ⟨d, hd, e⟩, h2⟩, h3⟩
          · exact h1
          · exact absurd h1.symm h3
          · exact absurd ⟨d, hd, e⟩ h2
    · cases hok

theorem FlagViewMap.view_refl (st : NodeDB) : FlagViewMap st st :=
  ⟨id, by rw [List.map_id], fun _ => rfl⟩

theorem FlagViewMap.view_trans {a b c : NodeDB} (h1 : FlagViewMap a b) (h2 : FlagViewMap b c) :
    FlagViewMap a c := by
  obtain ⟨f, e1, hf⟩ := h1
  obtain ⟨g, e2, hg⟩ := h2
  refine ⟨g ∘ f, ?_, ?_⟩
  · rw [e2, e1, List.map_map]
  · intro r; simp only [Function.comp]; rw [hg, hf]

theorem FlagViewMap.view_of_states_eq {st st1 : NodeDB} (h : st1.States = st.States) :
    FlagViewMap st st1 :=
  ⟨id, by rw [h, List.map_id], fun _ => rfl⟩

theorem flagViewMap_updateRow {st st1 : NodeDB} {rowid : Nat} {f : StateRow → StateRow}
    (h : updateRow st rowid f = .ok st1) (hf : ∀ r, flagView (f r) = flagView r) :
    FlagViewMap st st1 := by
  obtain ⟨-, rfl⟩ := updateRow_ok h
  refine ⟨_, rfl, ?_⟩
  intro r
  split
  · exact hf r
  · rfl

theorem flagViewMap_ite {st st1 : NodeDB} {c : Prop} [Decidable c] {x : Except Err NodeDB}
    (h : (if c then x else .ok st) = .ok st1) (hx : x = .ok st1 → FlagViewMap st st1) :
    FlagViewMap st st1 := by
  split at h
  · exact hx h
  · injection h with h; subst h; exact FlagViewMap.view_refl _

theorem flagViewMap_TipReachableAdd {st st1 : NodeDB} {rowid h : Nat}
    (hok : TipReachableAdd st rowid h = .ok st1) : FlagViewMap st st1 := by
  obtain ⟨-, rfl⟩ := TipReachableAdd_ok hok; exact FlagViewMap.view_refl _

theorem flagViewMap_TipReachableDel {st st1 : NodeDB} {rowid h : Nat}
    (hok : TipReachableDel st rowid h = .ok st1) : FlagViewMap st st1 := by
  obtain ⟨-, rfl⟩ := TipReachableDel_ok hok; exact FlagViewMap.view_refl _

theorem flagViewMap_SetStateFunctional_prevStep {st st3 : NodeDB} {x : StateRow}
    {nFlags rowPrev : Nat}
    (hok : SetStateFunctional.prevStep st x = .ok (st3, nFlags, rowPrev)) :
    FlagViewMap st st3 := by
  rcases SetStateFunctional_prevStep_inv hok with h | h | ⟨-, -, s1, h1, h | h⟩
  · rw [h.2.2.1]; exact FlagViewMap.view_refl _
  · rw [h.2.2.1]; exact FlagViewMap.view_refl _
  · rw [h.2.1]; exact flagViewMap_updateRow h1 (fun _ => rfl)
  · exact (flagViewMap_updateRow h1 (fun _ => rfl)).view_trans
      (flagViewMap_ite h.2.2 flagViewMap_TipReachableDel)

theorem flagViewMap_SetStateNotFunctional_prevStep {st st3 : NodeDB} {x : StateRow}
    {rowPrev : Nat} (hok : SetStateNotFunctional.prevStep st x = .ok (st3, rowPrev)) :
    FlagViewMap st st3 := by
  rcases SetStateNotFunctional_prevStep_inv hok with h | h | ⟨-, -, -, s1, h1, h3⟩
  · rw [h.2.2.2.1]; exact FlagViewMap.view_refl _
  · rw [h.2.2.2.1]; exact FlagViewMap.view_refl _
  · exact (flagViewMap_updateRow h1 (fun _ => rfl)).view_trans
      (flagViewMap_ite h3 flagViewMap_TipReachableAdd)

theorem sameSkeleton_SetStateFunctional_prevStep {st st3 : NodeDB} {x : StateRow}
    {nFlags rowPrev : Nat}
    (hok : SetStateFunctional.prevStep st x = .ok (st3, nFlags, rowPrev)) :
    SameSkeleton st st3 := by
  rcases SetStateFunctional_prevStep_inv hok with h | h | ⟨-, -, s1, h1, h | h⟩
  · rw [h.2.2.1]; exact SameSkeleton.skel_refl _
  · rw [h.2.2.1]; exact SameSkeleton.skel_refl _
  · rw [h.2.1]; exact sameSkeleton_SetNextCountFunctional h1
  · exact (sameSkeleton_SetNextCountFunctional h1).skel_trans
      (sameSkeleton_ite h.2.2 sameSkeleton_TipReachableDel)

theorem sameSkeleton_SetStateNotFunctional_prevStep {st st3 : NodeDB} {x : StateRow}
    {rowPrev : Nat} (hok : SetStateNotFunctional.prevStep st x = .ok (st3, rowPrev)) :
    SameSkeleton st st3 := by
  rcases SetStateNotFunctional_prevStep_inv hok with h | h | ⟨-, -, -, s1, h1, h3⟩
  · rw [h.2.2.2.1]; exact SameSkeleton.skel_refl _
  · rw [h.2.2.2.1]; exact SameSkeleton.skel_refl _
  · exact (sameSkeleton_SetNextCountFunctional h1).skel_trans
      (sameSkeleton_ite h3 sameSkeleton_TipReachableAdd)

theorem flagView_fields {r1 r : StateRow} (h : flagView r1 = flagView r) :
    r1.rowid = r.rowid ∧ r1.Height = r.Height ∧ r1.RowPrev = r.RowPrev ∧ r1.Flags = r.Flags := by
  unfold flagView at h
  simp only [Prod.mk.injEq] at h
  exact h

/-- The rows after `SetFlags` that follows a step which kept the flag view. -/
theorem setFlags_after_view {st st3 st4 : NodeDB} {rowid n : Nat} (hv : FlagViewMap st st3)
    (h4 : SetFlags st3 rowid n = .ok st4) :
    ∃ Φ : StateRow → StateRow, st4.States = st.States.map Φ ∧
      ∀ r, (Φ r).rowid = r.rowid ∧ (Φ r).Height = r.Height ∧ (Φ r).RowPrev = r.RowPrev
        ∧ (Φ r).Flags = if r.rowid = rowid then n else r.Flags := by
  obtain ⟨ψ, e, hψ⟩ := hv
  obtain ⟨-, rfl⟩ := updateRow_ok h4
  refine ⟨fun r => if (ψ r).rowid == rowid then { ψ r with Flags := n } else ψ r, ?_, ?_⟩
  · simp only
    rw [e, List.map_map]
    rfl
  · intro r
    have f := flagView_fields (hψ r)
    by_cases hr : r.rowid = rowid
    · simp [f.1, hr, f.2.1, f.2.2.1]
    · simp [f.1, hr, f.2.1, f.2.2.1, f.2.2.2]

theorem parent_ne_self {st : NodeDB} (hS : LinkInv st) {x p : StateRow}
    (hx : x ∈ st.States) (hp : p ∈ st.States) (e : x.RowPrev = some p.rowid) :
    p.rowid ≠ x.rowid := by
  intro h
  have hpx : p = x := eq_of_rowid_eq hS.rowid_nodup hp hx h
  obtain ⟨q, hq, e1, e2⟩ := hS.link x hx p.rowid e
  have hqp : q = p := eq_of_rowid_eq hS.rowid_nodup hq hp e1
  rw [hqp, hpx] at e2
  exact heightDec_ne _ e2.symm

theorem flagsInvP_empty_any {st : NodeDB} {b : Bool} (hI : FlagsInvP st (fun _ => False) b)
    (b1 : Bool) : FlagsInvP st (fun _ => False) b1 :=
  ⟨fun _ _ h => absurd h id, hI.up, hI.zero, hI.zeroPrev⟩

/-- The flag invariant after the flags of the one row `x` have been set to `n`, the row becoming
pending when `P1` holds of it. -/
theorem flagsInvP_setRoot {st st4 : NodeDB} {Φ : StateRow → StateRow} {x : StateRow}
    {n : Nat} {P1 : Nat → Prop} {b : Bool}
    (hS : LinkInv st) (hI : FlagsInv st) (hx : x ∈ st.States)
    (e4 : st4.States = st.States.map Φ)
    (hΦ : ∀ r, (Φ r).rowid = r.rowid ∧ (Φ r).Height = r.Height ∧ (Φ r).RowPrev = r.RowPrev
        ∧ (Φ r).Flags = if r.rowid = x.rowid then n else r.Flags)
    (hP1 : ∀ i, P1 i → i = x.rowid)
    (heff : ((P1 x.rowid ∧ ¬(hasFlag n StateFlags.Reachable = true))
        ∨ (¬P1 x.rowid ∧ hasFlag n StateFlags.Reachable = true)) ↔ RowReachable x)
    (hpend : P1 x.rowid → hasFlag n StateFlags.Reachable = b)
    (hup : x.Height ≠ 0 → (hasFlag n StateFlags.Reachable = true ↔
      hasFlag n StateFlags.Functional = true ∧
        ∃ p ∈ st.States, x.RowPrev = some p.rowid ∧ RowReachable p))
    (hzero : x.Height = 0 → (hasFlag n StateFlags.Reachable = true ↔
      hasFlag n StateFlags.Functional = true))
    (hzeroPrev : x.Height = 0 → hasFlag n StateFlags.Functional = true → x.RowPrev = none) :
    FlagsInvP st4 P1 b := by
  unfold FlagsInv at hI
  have hflagsx : (Φ x).Flags = n := by rw [(hΦ x).2.2.2]; simp
  have hflags : ∀ r ∈ st.States, ¬(r.rowid = x.rowid) → (Φ r).Flags = r.Flags := by
    intro r _ h; rw [(hΦ r).2.2.2]; simp [h]
  have hEff : ∀ p ∈ st.States, (Eff P1 (Φ p) ↔ Eff (fun _ => False) p) := by
    intro p hp
    by_cases hpx : p.rowid = x.rowid
    · have : p = x := eq_of_rowid_eq hS.rowid_nodup hp hx hpx
      subst this
      rw [eff_empty, ← heff]
      unfold Eff RowReachable
      rw [(hΦ p).1, hflagsx]
    · apply eff_congr
      · rw [(hΦ p).1]
        constructor
        · intro h; exact hpx (hP1 _ h)
        · intro h; exact absurd h id
      · exact hflags p hp hpx
  have hcx : ∀ c ∈ st.States,
      (c.rowid = x.rowid ∨ ∃ i, c.RowPrev = some i ∧ False) → c = x := by
    rintro c hc (h | ⟨i, -, h⟩)
    · exact eq_of_rowid_eq hS.rowid_nodup hc hx h
    · exact absurd h id
  refine flagsInvP_step Φ (fun r => r.rowid = x.rowid) (fun _ => False)
    (flagsInvP_empty_any hI b) e4
    (fun r => ⟨(hΦ r).1, (hΦ r).2.1, (hΦ r).2.2.1⟩) hflags (fun p hp _ => hEff p hp)
    ?_ ?_ ?_ ?_
  · intro r hr hp
    have : r = x := eq_of_rowid_eq hS.rowid_nodup hr hx (hP1 _ hp)
    subst this
    rw [hflagsx]; exact hpend hp
  · intro c hc hsp hne
    have := hcx c hc hsp
    subst this
    unfold RowReachable RowFunctional
    rw [hflagsx, hup hne]
    constructor
    · rintro ⟨hF, p, hp, e1, e2⟩
      exact ⟨hF, p, hp, e1, (hEff p hp).mpr ((eff_empty p).mpr e2)⟩
    · rintro ⟨hF, p, hp, e1, e2⟩
      exact ⟨hF, p, hp, e1, (eff_empty p).mp ((hEff p hp).mp e2)⟩
  · intro c hc hsp h0
    have := hcx c hc (Or.inl hsp)
    subst this
    unfold RowReachable RowFunctional
    rw [hflagsx]; exact hzero h0
  · intro c hc hsp h0 hF p hp e1
    have := hcx c hc hsp
    subst this
    unfold RowFunctional at hF
    rw [hflagsx] at hF
    rw [hzeroPrev h0 hF] at e1
    cases e1

theorem not_reachable_of_not_functional {st : NodeDB} (hI : FlagsInv st) {x : StateRow}
    (hx : x ∈ st.States) (hF : hasFlag x.Flags StateFlags.Functional = false) :
    hasFlag x.Flags StateFlags.Reachable = false := by
  unfold FlagsInv at hI
  cases hR : hasFlag x.Flags StateFlags.Reachable with
  | false => rfl
  | true =>
    exfalso
    by_cases h0 : x.Height = 0
    · have := (hI.zero x hx h0).mp hR
      unfold RowFunctional at this
      rw [hF] at this; cases this
    · have := ((hI.up x hx h0).mp hR).1
      unfold RowFunctional at this
      rw [hF] at this; cases this

theorem flagsInv_of_pending_removed {st : NodeDB} {b : Bool} {rowid : Nat}
    (h : FlagsInvP st (fun i => i = rowid ∧ i ≠ rowid) b) : FlagsInv st := by
  unfold FlagsInv
  exact flagsInvP_empty_any (flagsInvP_congr h (by intro i; simp)) true

theorem flagsInv_SetStateFunctional {fuel : Nat} {st st1 : NodeDB} {rowid : Nat}
    (hS : LinkInv st) (hI : FlagsInv st)
    (hok : SetStateFunctional fuel st rowid = .ok st1) : FlagsInv st1 := by
  obtain ⟨x, hx, h | ⟨hF, st3, nFlags, rowPrev, st4, hpre, h4, hcas⟩⟩ :=
    SetStateFunctional_inv hok
  · rw [h.2]; exact hI
  obtain ⟨hxm, rfl⟩ := findRow_some hx
  have hxR := not_reachable_of_not_functional hI hxm hF
  obtain ⟨Φ, e4, hΦ⟩ := setFlags_after_view (flagViewMap_SetStateFunctional_prevStep hpre) h4
  have hk4 : SameSkeleton st st4 :=
    (sameSkeleton_SetStateFunctional_prevStep hpre).skel_trans (sameSkeleton_SetFlags h4)
  have hS4 := linkInv_of_sameSkeleton hS hk4
  have hex4 : ∃ y ∈ st4.States, y.rowid = x.rowid ∧ y.Height = x.Height :=
    exists_row_of_sameSkeleton hk4 ⟨x, hxm, rfl, rfl⟩
  have hxRP : ¬RowReachable x := by unfold RowReachable; rw [hxR]; simp
  -- the two outcomes: the row becomes reachable and pending, or it does not
  have withCascade : nFlags = x.Flags ||| StateFlags.Functional ||| StateFlags.Reachable →
      (x.Height ≠ 0 → ∃ p ∈ st.States, x.RowPrev = some p.rowid ∧ RowReachable p) →
      (x.Height = 0 → x.RowPrev = none) → FlagsInv st1 := by
    intro hn hpar h0
    have hnR : hasFlag nFlags StateFlags.Reachable = true := by rw [hn]; simp
    have hnF : hasFlag nFlags StateFlags.Functional = true := by rw [hn]; simp
    have hI4 : FlagsInvP st4 (fun i => i = x.rowid) true := by
      refine flagsInvP_setRoot hS hI hxm e4 hΦ (fun i h => h) ?_ (fun _ => hnR) ?_ ?_ ?_
      · rw [hnR]
        constructor
        · rintro (⟨-, h⟩ | ⟨h, -⟩)
          · exact absurd rfl h
          · exact absurd rfl h
        · intro h; exact absurd h hxRP
      · intro hne
        rw [hnR, hnF]
        exact ⟨fun _ => ⟨rfl, hpar hne⟩, fun _ => rfl⟩
      · intro _; rw [hnR, hnF]
      · intro h _; exact h0 h
    rw [hnR] at hcas
    simp only [↓reduceIte] at hcas
    exact flagsInv_of_pending_removed
      (flagsInvP_OnStateReachable fuel st4 st1 x.rowid rowPrev x.Height _ hS4 hI4 rfl hex4 hcas)
  have withoutCascade : nFlags = x.Flags ||| StateFlags.Functional → x.Height ≠ 0 →
      (∀ p ∈ st.States, x.RowPrev = some p.rowid → ¬RowReachable p) → FlagsInv st1 := by
    intro hn hne hpar
    have hnR : hasFlag nFlags StateFlags.Reachable = false := by rw [hn]; simp [hxR]
    have hI4 : FlagsInvP st4 (fun _ => False) true := by
      refine flagsInvP_setRoot hS hI hxm e4 hΦ (fun i h => absurd h id) ?_
        (fun h => absurd h id) ?_ ?_ ?_
      · rw [hnR]
        constructor
        · rintro (⟨h, -⟩ | ⟨-, h⟩)
          · exact absurd h id
          · cases h
        · intro h; exact absurd h hxRP
      · intro _
        rw [hnR]
        constructor
        · intro h; cases h
        · rintro ⟨-, p, hp, e1, e2⟩; exact absurd e2 (hpar p hp e1)
      · intro h; exact absurd h hne
      · intro h; exact absurd h hne
    rw [hnR] at hcas
    simp only [Bool.false_eq_true, ↓reduceIte] at hcas
    injection hcas with hcas
    subst hcas
    exact hI4
  rcases SetStateFunctional_prevStep_inv hpre with h | h | ⟨hne, hp, s1, h1, h | h⟩
  · refine withoutCascade h.2.2.2.1 h.1 ?_
    intro p _ e; rw [h.2.1] at e; cases e
  · refine withCascade h.2.2.2.1 (fun hne => absurd h.1 hne) (fun _ => h.2.1)
  · obtain ⟨P, hP, e1, -, hprv⟩ := prvRow_of_link hS hxm hp
    refine withoutCascade h.2.2 hne ?_
    intro p hpm e hR
    have : p = P := parent_unique hS hpm hP e (by rw [hp, e1])
    subst this
    rw [prvFlags_eq hprv] at h
    unfold RowReachable at hR
    rw [h.1] at hR; cases hR
  · obtain ⟨P, hP, e1, -, hprv⟩ := prvRow_of_link hS hxm hp
    rw [prvFlags_eq hprv] at h
    refine withCascade h.2.1 (fun _ => ⟨P, hP, by rw [hp, e1], h.1⟩) (fun h0 => absurd h0 hne)

theorem flagsInv_SetStateNotFunctional {fuel : Nat} {st st1 : NodeDB} {rowid : Nat}
    (hS : LinkInv st) (hI : FlagsInv st)
    (hok : SetStateNotFunctional fuel st rowid = .ok st1) : FlagsInv st1 := by
  obtain ⟨x, hx, h | ⟨hF, st3, rowPrev, st4, hpre, h4, hcas⟩⟩ :=
    SetStateNotFunctional_inv hok
  · rw [h.2]; exact hI
  obtain ⟨hxm, rfl⟩ := findRow_some hx
  obtain ⟨Φ, e4, hΦ⟩ :=
    setFlags_after_view (flagViewMap_SetStateNotFunctional_prevStep hpre) h4
  have hk4 : SameSkeleton st st4 :=
    (sameSkeleton_SetStateNotFunctional_prevStep hpre).skel_trans (sameSkeleton_SetFlags h4)
  have hS4 := linkInv_of_sameSkeleton hS hk4
  have hex4 : ∃ y ∈ st4.States, y.rowid = x.rowid ∧ y.Height = x.Height :=
    exists_row_of_sameSkeleton hk4 ⟨x, hxm, rfl, rfl⟩
  have hnR := newFlags_R x.Flags
  have hnF := newFlags_F x.Flags
  by_cases hR : hasFlag x.Flags StateFlags.Reachable = true
  · have hI4 : FlagsInvP st4 (fun i => i = x.rowid) false := by
      refine flagsInvP_setRoot hS hI hxm e4 hΦ (fun i h => h) ?_ (fun _ => hnR) ?_ ?_ ?_
      · rw [hnR]
        unfold RowReachable
        constructor
        · intro _; exact hR
        · intro _; left; exact ⟨rfl, by simp⟩
      · intro _
        rw [hnR, hnF]
        constructor
        · intro h; cases h
        · rintro ⟨h, -⟩; cases h
      · intro _; rw [hnR, hnF]
      · intro _ h; rw [hnF] at h; cases h
    rw [hR] at hcas
    simp only [↓reduceIte] at hcas
    exact flagsInv_of_pending_removed
      (flagsInvP_OnStateReachable fuel st4 st1 x.rowid rowPrev x.Height _ hS4 hI4 rfl hex4 hcas)
  · have hR' : hasFlag x.Flags StateFlags.Reachable = false := by simpa using hR
    have hI4 : FlagsInvP st4 (fun _ => False) true := by
      refine flagsInvP_setRoot hS hI hxm e4 hΦ (fun i h => absurd h id) ?_
        (fun h => absurd h id) ?_ ?_ ?_
      · rw [hnR]
        unfold RowReachable
        rw [hR']
        constructor
        · rintro (⟨h, -⟩ | ⟨-, h⟩)
          · exact absurd h id
          · cases h
        · intro h; cases h
      · intro _
        rw [hnR, hnF]
        constructor
        · intro h; cases h
        · rintro ⟨h, -⟩; cases h
      · intro _; rw [hnR, hnF]
      · intro _ h; rw [hnF] at h; cases h
    rw [hR'] at hcas
    simp only [Bool.false_eq_true, ↓reduceIte] at hcas
    injection hcas with hcas
    subst hcas
    exact hI4

theorem reached_flagsInv {st : NodeDB} (h : Reached false st) : FlagsInv st := by
  induction h with
  | empty => exact flagsInv_empty
  | insertState hr hh hok ih => exact flagsInv_InsertState (reached_structInv hr) ih hh hok
  | deleteState hr hok ih => exact flagsInv_DeleteState (reached_structInv hr) ih hok
  | setStateFunctional hr hok ih =>
    exact flagsInv_SetStateFunctional (reached_structInv hr).toLink ih hok
  | setStateNotFunctional hr hok ih =>
    exact flagsInv_SetStateNotFunctional (reached_structInv hr).toLink ih hok
  | moveFwd hc _ _ _ => cases hc
  | moveBack hc _ _ _ => cases hc

/-! ## Round trip of the `Functional` flag -/

theorem heightDec_succ {h : Nat} (hh : h + 1 < 2 ^ 64) : heightDec (h + 1) = h := by
  unfold heightDec
  omega

theorem heightInc_eq_succ {h : Nat} (hh : h < 2 ^ 64) (hne : heightInc h ≠ 0) :
    heightInc h = h + 1 := by
  unfold heightInc at *
  omega

theorem graphInv_link {st : NodeDB} (hG : GraphInv st) : LinkInv st := by
  refine ⟨hG.rowid_ne_zero, hG.rowid_nodup, hG.height_lt, ?_⟩
  intro c hc p e
  obtain ⟨P, hP, e1, e2, -⟩ := (hG.rowPrev_iff c hc p).mp e
  refine ⟨P, hP, e1, ?_⟩
  have := hG.height_lt c hc
  rw [← e2] at this ⊢
  exact (heightDec_succ this).symm

theorem graphInv_noWrap {st : NodeDB} (hG : GraphInv st) : NoWrap st := by
  intro c hc h0
  cases hp : c.RowPrev with
  | none => rfl
  | some p =>
    obtain ⟨P, -, -, e2, -⟩ := (hG.rowPrev_iff c hc p).mp hp
    omega

theorem graphInv_countF {st : NodeDB} (hG : GraphInv st) : CountF st := by
  intro p hp
  rw [hG.countNextFunctional p hp]
  apply List.countP_congr
  intro c hc
  have key : (c.HashPrev = p.Hash ∧ c.Height = p.Height + 1) ↔ c.RowPrev = some p.rowid := by
    rw [hG.rowPrev_iff c hc p.rowid]
    constructor
    · rintro ⟨h1, h2⟩; exact ⟨p, hp, rfl, h2.symm, h1.symm⟩
    · rintro ⟨P, hP, e1, e2, e3⟩
      have : P = p := eq_of_rowid_eq hG.rowid_nodup hP hp e1
      subst this
      exact ⟨e3.symm, e2.symm⟩
  simp only [Bool.and_eq_true, beq_iff_eq]
  rw [key]

theorem graphInv_flags {st : NodeDB} (hG : GraphInv st) : FlagsInv st := by
  have hW := graphInv_noWrap hG
  have hL := graphInv_link hG
  refine ⟨fun _ _ h => absurd h id, ?_, ?_, ?_⟩
  · intro c hc hne
    cases hp : c.RowPrev with
    | none =>
      rw [(hG.reachable c hc).2 hp]
      constructor
      · rintro ⟨h, -⟩; exact absurd h hne
      · rintro ⟨-, p, -, e, -⟩; cases e
    | some i =>
      obtain ⟨P, hP, e1, -⟩ := hL.link c hc i hp
      rw [(hG.reachable c hc).1 P hP (by rw [hp, e1])]
      constructor
      · rintro ⟨hF, hR⟩
        exact ⟨hF, P, hP, by rw [e1], (eff_empty P).mpr hR⟩
      · rintro ⟨hF, p, hpm, e, hR⟩
        injection e with e
        have : p = P := eq_of_rowid_eq hG.rowid_nodup hpm hP (by rw [← e, e1])
        subst this
        exact ⟨hF, (eff_empty p).mp hR⟩
  · intro c hc h0
    rw [(hG.reachable c hc).2 (hW c hc h0)]
    constructor
    · rintro ⟨-, h⟩; exact h
    · intro h; exact ⟨h0, h⟩
  · intro c hc h0 _ p _ e
    rw [hW c hc h0] at e
    cases e

theorem graphInv_tips {st : NodeDB} (hG : GraphInv st) : TipsP st (fun _ => False) := by
  refine ⟨hG.tipsReachable_nodup, ?_, ?_⟩
  · rintro ⟨h, i⟩ he
    obtain ⟨r, hr, e1, e2, -⟩ := (hG.tipsReachable h i).mp he
    exact ⟨r, hr, by rw [e1, e2]⟩
  · intro r hr
    rw [hG.tipsReachable, eff_empty]
    constructor
    · rintro ⟨r1, hr1, e1, e2, h⟩
      have : r1 = r := eq_of_rowid_eq hG.rowid_nodup hr1 hr e1
      subst this
      exact h
    · intro h; exact ⟨r, hr, rfl, rfl, h⟩

theorem graphInv_cascInv {st : NodeDB} (hG : GraphInv st) :
    CascInv st (fun _ => False) true :=
  ⟨graphInv_link hG, graphInv_noWrap hG, graphInv_flags hG, graphInv_countF hG,
    graphInv_tips hG⟩

theorem testBit_Reachable (i : Nat) : StateFlags.Reachable.testBit i = decide (i = 1) := by
  have : StateFlags.Reachable = 2 ^ 1 := rfl
  rw [this, Nat.testBit_two_pow]
  by_cases h : i = 1
  · simp [h]
  · have : ¬ (1 = i) := fun e => h e.symm
    simp [h, this]

theorem testBit_Functional (i : Nat) : StateFlags.Functional.testBit i = decide (i = 0) := by
  have : StateFlags.Functional = 2 ^ 0 := rfl
  rw [this, Nat.testBit_two_pow]
  by_cases h : i = 0
  · simp [h]
  · have : ¬ (0 = i) := fun e => h e.symm
    simp [h, this]

theorem testBit_flip {f i : Nat} (h : i ≠ 1) :
    (f ^^^ StateFlags.Reachable).testBit i = f.testBit i := by
  rw [Nat.testBit_xor, testBit_Reachable]
  simp [h]

theorem hasFlag_F_testBit (f : Nat) : hasFlag f StateFlags.Functional = f.testBit 0 :=
  hasFlag_two_pow f 0

theorem hasFlag_R_testBit (f : Nat) : hasFlag f StateFlags.Reachable = f.testBit 1 :=
  hasFlag_two_pow f 1

theorem CascadeFrame.frame_refl (st : NodeDB) : CascadeFrame st st :=
  ⟨⟨id, by rw [List.map_id], fun _ => ⟨rfl, rfl, fun _ _ => rfl⟩⟩, rfl⟩

theorem CascadeFrame.frame_trans {a b c : NodeDB} (h1 : CascadeFrame a b) (h2 : CascadeFrame b c) :
    CascadeFrame a c := by
  obtain ⟨⟨ψ1, e1, p1⟩, t1⟩ := h1
  obtain ⟨⟨ψ2, e2, p2⟩, t2⟩ := h2
  refine ⟨⟨ψ2 ∘ ψ1, by rw [e2, e1, List.map_map], ?_⟩, t2.trans t1⟩
  intro r
  refine ⟨(p2 (ψ1 r)).1.trans (p1 r).1, (p2 (ψ1 r)).2.1.trans (p1 r).2.1, ?_⟩
  intro i hi
  exact ((p2 (ψ1 r)).2.2 i hi).trans ((p1 r).2.2 i hi)

theorem CascadeFrame.sameSkeleton {st st1 : NodeDB} (h : CascadeFrame st st1) :
    SameSkeleton st st1 := by
  obtain ⟨⟨ψ, e, p⟩, t⟩ := h
  exact sameSkeleton_of_map e (fun r => (p r).1) t

theorem cascadeFrame_of_map {st st1 : NodeDB} {φ : StateRow → StateRow}
    (e : st1.States = st.States.map φ)
    (hφ : ∀ r, skeleton (φ r) = skeleton r ∧ (φ r).CountNextFunctional = r.CountNextFunctional
      ∧ ∀ i, i ≠ 1 → (φ r).Flags.testBit i = r.Flags.testBit i)
    (t : st1.Tips = st.Tips) : CascadeFrame st st1 := ⟨⟨φ, e, hφ⟩, t⟩

theorem flipRows_testBit (rows : List StateRow) (r : StateRow) {i : Nat} (hi : i ≠ 1) :
    (flipRows rows r).Flags.testBit i = r.Flags.testBit i := by
  unfold flipRows
  split
  · exact testBit_flip hi
  · rfl

theorem cascadeFrame_flip {st st1 : NodeDB} {rows : List StateRow}
    (e : st1.States = st.States.map (flipRows rows)) (t : st1.Tips = st.Tips) :
    CascadeFrame st st1 :=
  cascadeFrame_of_map e
    (fun r => ⟨flipRows_skeleton rows r, flipRows_CountNextFunctional rows r,
      fun _ hi => flipRows_testBit rows r hi⟩) t

/-- The counter invariant only reads `rowid`, `RowPrev`, the `Functional` bit and the counter. -/
theorem countF_of_map {st st1 : NodeDB} {φ : StateRow → StateRow} (hC : CountF st)
    (e : st1.States = st.States.map φ)
    (hφ : ∀ r ∈ st.States, (φ r).rowid = r.rowid ∧ (φ r).RowPrev = r.RowPrev
      ∧ (φ r).CountNextFunctional = r.CountNextFunctional
      ∧ hasFlag (φ r).Flags StateFlags.Functional = hasFlag r.Flags StateFlags.Functional) :
    CountF st1 := by
  intro p1 hp1
  rw [e] at hp1
  obtain ⟨p, hp, rfl⟩ := List.mem_map.mp hp1
  rw [(hφ p hp).2.2.1, (hφ p hp).1, hC p hp, e, List.countP_map]
  apply List.countP_congr
  intro c hc
  simp only [Function.comp]
  rw [(hφ c hc).2.1, (hφ c hc).2.2.2]

theorem countF_of_frame {st st1 : NodeDB} (hC : CountF st) (h : CascadeFrame st st1) :
    CountF st1 := by
  obtain ⟨⟨ψ, e, p⟩, -⟩ := h
  refine countF_of_map hC e ?_
  intro r _
  have f := skeleton_fields (p r).1
  refine ⟨f.1, f.2.2.2.2.1, (p r).2.1, ?_⟩
  rw [hasFlag_F_testBit, hasFlag_F_testBit]
  exact (p r).2.2 0 (by decide)

theorem noWrap_of_sameSkeleton {st st1 : NodeDB} (hW : NoWrap st) (hk : SameSkeleton st st1) :
    NoWrap st1 := by
  intro r1 hr1 h0
  obtain ⟨r, hr, e⟩ := skeleton_mem_of_map_eq hk.1 hr1
  have f := skeleton_fields e
  rw [f.2.2.2.2.1]
  exact hW r hr (by rw [← f.2.1]; exact h0)

/-- Transfer of the invariant on `TipsReachable` along a map of the rows. -/
theorem tipsP_map {st st1 : NodeDB} {P P1 : Nat → Prop} {φ : StateRow → StateRow}
    (hT : TipsP st P) (e : st1.States = st.States.map φ)
    (hφ : ∀ r, (φ r).rowid = r.rowid ∧ (φ r).Height = r.Height)
    (hN : st1.TipsReachable.Nodup)
    (hrows : ∀ e ∈ st1.TipsReachable,
      e ∈ st.TipsReachable ∨ ∃ r ∈ st.States, e = (r.Height, r.rowid))
    (hmem : ∀ r ∈ st.States, ((r.Height, r.rowid) ∈ st1.TipsReachable ↔
      Eff P1 (φ r) ∧ (φ r).CountNextFunctional = 0)) : TipsP st1 P1 := by
  refine ⟨hN, ?_, ?_⟩
  · intro p hp
    have : ∃ r ∈ st.States, p = (r.Height, r.rowid) := by
      rcases hrows p hp with h | h
      · exact hT.rows p h
      · exact h
    obtain ⟨r, hr, rfl⟩ := this
    refine ⟨φ r, ?_, by rw [(hφ r).1, (hφ r).2]⟩
    rw [e]; exact List.mem_map_of_mem _ hr
  · intro r1 hr1
    rw [e] at hr1
    obtain ⟨r, hr, rfl⟩ := List.mem_map.mp hr1
    rw [(hφ r).1, (hφ r).2]
    exact hmem r hr

/-- The invariant on `TipsReachable` when the table is untouched and the rows keep what it
reads. -/
theorem tipsP_same {st st1 : NodeDB} {P P1 : Nat → Prop} {φ : StateRow → StateRow}
    (hT : TipsP st P) (e : st1.States = st.States.map φ)
    (hφ : ∀ r, (φ r).rowid = r.rowid ∧ (φ r).Height = r.Height)
    (t : st1.TipsReachable = st.TipsReachable)
    (hmem : ∀ r ∈ st.States, (Eff P1 (φ r) ∧ (φ r).CountNextFunctional = 0 ↔
      Eff P r ∧ r.CountNextFunctional = 0)) : TipsP st1 P1 := by
  refine tipsP_map hT e hφ (by rw [t]; exact hT.nodup) (fun p hp => Or.inl (by rw [← t]; exact hp))
    ?_
  intro r hr
  rw [t, hT.mem r hr, hmem r hr]

theorem updateRow_total {st : NodeDB} (hnd : (st.States.map (fun r => r.rowid)).Nodup)
    {y : StateRow} (hy : y ∈ st.States) (f : StateRow → StateRow) :
    updateRow st y.rowid f = .ok { st with
      States := st.States.map (fun r => if r.rowid == y.rowid then f r else r) } := by
  unfold updateRow
  rw [if_pos (filter_rowid_length hnd hy)]

theorem rowid_map_update (l : List StateRow) (i : Nat) (f : StateRow → StateRow)
    (hf : ∀ r, (f r).rowid = r.rowid) :
    (l.map (fun r => if r.rowid == i then f r else r)).map (fun r => r.rowid)
      = l.map (fun r => r.rowid) := by
  rw [List.map_map]
  apply List.map_congr_left
  intro r _
  simp only [Function.comp]
  split
  · exact hf r
  · rfl

theorem flipFold_total : ∀ (rows : List StateRow) (s : NodeDB),
    (s.States.map (fun r => r.rowid)).Nodup →
    (∀ c ∈ rows, c.rowid ∈ s.States.map (fun r => r.rowid)) →
    ∃ sB, rows.foldlM
      (fun s r => SetFlags s r.rowid (r.Flags ^^^ StateFlags.Reachable)) s = .ok sB := by
  intro rows
  induction rows with
  | nil => intro s _ _; exact ⟨s, rfl⟩
  | cons c rest ih =>
    intro s hnd hmem
    obtain ⟨y, hy, e⟩ := List.mem_map.mp (hmem c (List.mem_cons_self _ _))
    have h1 := updateRow_total hnd hy
      (fun r => { r with Flags := c.Flags ^^^ StateFlags.Reachable })
    rw [e] at h1
    have hids : ({ s with States := s.States.map (fun r => if r.rowid == c.rowid then
          { r with Flags := c.Flags ^^^ StateFlags.Reachable } else r) } : NodeDB).States.map
          (fun r => r.rowid) = s.States.map (fun r => r.rowid) :=
      rowid_map_update s.States c.rowid
        (fun r => { r with Flags := c.Flags ^^^ StateFlags.Reachable }) (fun _ => rfl)
    obtain ⟨sB, hB⟩ := ih _ (by rw [hids]; exact hnd)
      (fun d hd => by rw [hids]; exact hmem d (List.mem_cons_of_mem _ hd))
    refine ⟨sB, ?_⟩
    rw [List.foldlM_cons, bind_ok_iff]
    exact ⟨_, h1, hB⟩

theorem BuildMmr_total {st : NodeDB} (hL : LinkInv st) {x : StateRow} (hx : x ∈ st.States)
    {rowPrev : Nat} (h0 : x.Height = 0 ↔ rowPrev = 0) (hne : x.rowid ≠ rowPrev) :
    ∃ sA, BuildMmr st x.rowid rowPrev x.Height = .ok sA := by
  unfold BuildMmr
  have c1 : ((x.Height == 0) != (rowPrev == 0)) = false := by
    by_cases h : x.Height = 0
    · simp [h, h0.mp h]
    · have : ¬ rowPrev = 0 := fun e => h (h0.mpr e)
      simp [h, this]
  have c2 : (x.rowid == rowPrev) = false := by simp [hne]
  rw [c1, c2, findRow_of_mem hL.rowid_nodup hx]
  simp only [Bool.false_eq_true, ↓reduceIte]
  split
  · exact ⟨_, rfl⟩
  · exact ⟨_, updateRow_total hL.rowid_nodup hx _⟩

theorem BuildMmr_closed {st sA : NodeDB} {rowid rowPrev h : Nat}
    (hok : BuildMmr st rowid rowPrev h = .ok sA) :
    ∃ φ : StateRow → StateRow, sA.States = st.States.map φ ∧
      (∀ r, skeleton (φ r) = skeleton r ∧ (φ r).Flags = r.Flags
        ∧ (φ r).CountNextFunctional = r.CountNextFunctional) ∧
      sA.Tips = st.Tips ∧ sA.TipsReachable = st.TipsReachable := by
  unfold BuildMmr at hok
  split at hok
  · cases hok
  split at hok
  · cases hok
  split at hok
  · cases hok
  split at hok
  · injection hok with hok; subst hok
    exact ⟨id, by rw [List.map_id], fun _ => ⟨rfl, rfl, rfl⟩, rfl, rfl⟩
  · obtain ⟨-, rfl⟩ := updateRow_ok hok
    refine ⟨_, rfl, ?_, rfl, rfl⟩
    intro r
    split
    · exact ⟨rfl, rfl, rfl⟩
    · exact ⟨rfl, rfl, rfl⟩

theorem tipsP_congr {st : NodeDB} {P P1 : Nat → Prop} (h : TipsP st P)
    (hP : ∀ i, P1 i ↔ P i) : TipsP st P1 := by
  refine ⟨h.nodup, h.rows, ?_⟩
  intro r hr
  rw [h.mem r hr, eff_congr (hP r.rowid) rfl]

theorem cascInv_congr {st : NodeDB} {P P1 : Nat → Prop} {b : Bool} (h : CascInv st P b)
    (hP : ∀ i, P1 i ↔ P i) : CascInv st P1 b :=
  ⟨h.link, h.noWrap, flagsInvP_congr h.flags hP, h.countF, tipsP_congr h.tips hP⟩

theorem cascInv_BuildMmr {st sA : NodeDB} {P : Nat → Prop} {b : Bool} {rowid rowPrev h : Nat}
    (hI : CascInv st P b) (hok : BuildMmr st rowid rowPrev h = .ok sA) :
    CascInv sA P b ∧ CascadeFrame st sA := by
  obtain ⟨φ, e, hφ, t, tr⟩ := BuildMmr_closed hok
  have hF : CascadeFrame st sA :=
    cascadeFrame_of_map e (fun r => ⟨(hφ r).1, (hφ r).2.2, fun i _ => by rw [(hφ r).2.1]⟩) t
  have hk := hF.sameSkeleton
  refine ⟨⟨linkInv_of_sameSkeleton hI.link hk, noWrap_of_sameSkeleton hI.noWrap hk,
    flagsInvP_BuildMmr hI.flags hok, countF_of_frame hI.countF hF, ?_⟩, hF⟩
  refine tipsP_same hI.tips e
    (fun r => ⟨(skeleton_fields (hφ r).1).1, (skeleton_fields (hφ r).1).2.1⟩) tr ?_
  intro r _
  rw [(hφ r).2.2, eff_congr (by rw [(skeleton_fields (hφ r).1).1]) (hφ r).2.1]

/-- The rows read by the query of `OnStateReachable` on a pending row pass the two checks. -/
theorem rows_check {st : NodeDB} {P : Nat → Prop} {b : Bool} (hI : CascInv st P b)
    {x : StateRow} (hx : x ∈ st.States) (hP : P x.rowid) :
    (nextFunctional st x.rowid x.Height).all (fun r => hasFlag r.Flags StateFlags.Functional
        && ((!hasFlag r.Flags StateFlags.Reachable) == b)) = true := by
  rw [List.all_eq_true]
  intro c hc
  obtain ⟨hcm, hch, hcp, hcF⟩ := nextFunctional_iff.mp hc
  have hne : c.Height ≠ 0 := by
    intro h0
    rw [hI.noWrap c hcm h0] at hcp
    cases hcp
  have hxR := hI.flags.pend x hx hP
  have hup := hI.flags.up c hcm hne
  unfold RowFunctional at hcF
  rw [hcF]
  simp only [Bool.true_and, beq_iff_eq]
  cases b with
  | true =>
    have : ¬RowReachable c := by
      rw [hup]
      rintro ⟨-, p, hp, e1, e2⟩
      have : p = x := parent_unique hI.link hp hx e1 hcp
      subst this
      unfold Eff RowReachable at e2
      rcases e2 with ⟨-, h⟩ | ⟨h, -⟩
      · exact h hxR
      · exact h hP
    unfold RowReachable at this
    simpa using this
  | false =>
    have : RowReachable c := by
      rw [hup]
      refine ⟨hcF, x, hx, hcp, Or.inl ⟨hP, ?_⟩⟩
      unfold RowReachable
      rw [hxR]; simp
    unfold RowReachable at this
    rw [this]; rfl

/-- A row without functional children has `CountNextFunctional` 0, and conversely. -/
theorem countNextFunctional_eq_zero_iff {st : NodeDB} (hL : LinkInv st) (hC : CountF st)
    {x : StateRow} (hx : x ∈ st.States) :
    x.CountNextFunctional = 0 ↔ nextFunctional st x.rowid x.Height = [] := by
  rw [hC x hx, List.countP_eq_zero, List.eq_nil_iff_forall_not_mem]
  constructor
  · intro h c hc
    obtain ⟨hcm, -, hcp, hcF⟩ := nextFunctional_iff.mp hc
    apply h c hcm
    unfold RowFunctional at hcF
    simp [hcp, hcF]
  · intro h c hcm hq
    simp only [Bool.and_eq_true, beq_iff_eq] at hq
    exact h c (nextFunctional_iff.mpr ⟨hcm, child_height hL hx hcm hq.1, hq.1, hq.2⟩)

theorem count_pair_one {l : List (Nat × Nat)} {a : Nat × Nat} (hn : l.Nodup) (h : a ∈ l) :
    @List.count (Nat × Nat) instBEqProd a l = 1 := by
  induction l with
  | nil => cases h
  | cons b t ih =>
    rw [List.nodup_cons] at hn
    rw [List.count_cons]
    rcases List.mem_cons.mp h with e | e
    · subst e
      have : @List.count (Nat × Nat) instBEqProd a t = 0 := List.count_eq_zero_of_not_mem hn.1
      rw [this]
      simp
    · rw [ih hn.2 e]
      have hne : b ≠ a := fun e1 => hn.1 (e1 ▸ e)
      have h1 : (@BEq.beq (Nat × Nat) instBEqProd b a) = false := by
        cases hb : (@BEq.beq (Nat × Nat) instBEqProd b a) with
        | false => rfl
        | true => exact absurd (eq_of_beq hb) hne
      rw [h1]
      simp

theorem eff_pending {P : Nat → Prop} {x : StateRow} (hP : P x.rowid) :
    Eff P x ↔ ¬RowReachable x := by
  unfold Eff
  constructor
  · rintro (⟨-, h⟩ | ⟨h, -⟩)
    · exact h
    · exact absurd hP h
  · intro h; exact Or.inl ⟨hP, h⟩

theorem eff_not_pending {P : Nat → Prop} {x : StateRow} (hP : ¬P x.rowid) :
    Eff P x ↔ RowReachable x := by
  unfold Eff
  constructor
  · rintro (⟨h, -⟩ | ⟨-, h⟩)
    · exact absurd h hP
    · exact h
  · intro h; exact Or.inr ⟨hP, h⟩

/-- The end of the loop with `b = true`: the row enters `TipsReachable`. -/
theorem leafAdd_total {st : NodeDB} {P : Nat → Prop} (hI : CascInv st P true)
    {x : StateRow} (hx : x ∈ st.States) (hP : P x.rowid)
    (hrows : nextFunctional st x.rowid x.Height = []) :
    ∃ st1, TipReachableAdd st x.rowid x.Height = .ok st1 ∧
      TipsP st1 (fun i => P i ∧ i ≠ x.rowid) ∧ st1.States = st.States ∧ st1.Tips = st.Tips := by
  have hxR : RowReachable x := hI.flags.pend x hx hP
  have hc0 := (countNextFunctional_eq_zero_iff hI.link hI.countF hx).mpr hrows
  have hnot : (x.Height, x.rowid) ∉ st.TipsReachable := by
    rw [hI.tips.mem x hx, eff_pending hP]
    rintro ⟨h, -⟩; exact h hxR
  refine ⟨{ st with TipsReachable := st.TipsReachable ++ [(x.Height, x.rowid)] }, ?_, ?_,
    rfl, rfl⟩
  · unfold TipReachableAdd
    rw [if_neg hnot]
  · refine tipsP_map (φ := id) hI.tips (by rw [List.map_id]) (fun _ => ⟨rfl, rfl⟩) ?_ ?_ ?_
    · simp only
      rw [List.nodup_append]
      refine ⟨hI.tips.nodup, List.nodup_singleton _, ?_⟩
      intro a ha hb
      rw [List.mem_singleton] at hb
      subst hb
      exact hnot ha
    · intro e he
      simp only [List.mem_append, List.mem_singleton] at he
      rcases he with h | h
      · exact Or.inl h
      · exact Or.inr ⟨x, hx, h⟩
    · intro r hr
      simp only [List.mem_append, List.mem_singleton, id]
      by_cases hrx : r.rowid = x.rowid
      · have : r = x := eq_of_rowid_eq hI.link.rowid_nodup hr hx hrx
        subst this
        have : Eff (fun i => P i ∧ i ≠ r.rowid) r :=
          (eff_not_pending (fun h => h.2 rfl)).mpr hxR
        simp [this, hc0]
      · have hne : (r.Height, r.rowid) ≠ (x.Height, x.rowid) := by
          intro e; injection e with _ e2; exact hrx e2
        rw [hI.tips.mem r hr]
        have : Eff (fun i => P i ∧ i ≠ x.rowid) r ↔ Eff P r :=
          eff_congr (by simp [hrx]) rfl
        rw [this]
        simp [hne]

/-- The end of the loop with `b = false`: the row leaves `TipsReachable`. -/
theorem leafDel_total {st : NodeDB} {P : Nat → Prop} (hI : CascInv st P false)
    {x : StateRow} (hx : x ∈ st.States) (hP : P x.rowid)
    (hrows : nextFunctional st x.rowid x.Height = []) :
    ∃ st1, TipReachableDel st x.rowid x.Height = .ok st1 ∧
      TipsP st1 (fun i => P i ∧ i ≠ x.rowid) ∧ st1.States = st.States ∧ st1.Tips = st.Tips := by
  have hxR : ¬RowReachable x := by
    unfold RowReachable; rw [hI.flags.pend x hx hP]; simp
  have hc0 := (countNextFunctional_eq_zero_iff hI.link hI.countF hx).mpr hrows
  have hin : (x.Height, x.rowid) ∈ st.TipsReachable := by
    rw [hI.tips.mem x hx, eff_pending hP]
    exact ⟨hxR, hc0⟩
  refine ⟨{ st with TipsReachable :=
      st.TipsReachable.filter (fun p => p != (x.Height, x.rowid)) }, ?_, ?_, rfl, rfl⟩
  · unfold TipReachableDel
    rw [if_pos (count_pair_one hI.tips.nodup hin)]
  · refine tipsP_map (φ := id) hI.tips (by rw [List.map_id]) (fun _ => ⟨rfl, rfl⟩) ?_ ?_ ?_
    · exact hI.tips.nodup.filter _
    · intro e he
      exact Or.inl (List.mem_filter.mp he).1
    · intro r hr
      simp only [List.mem_filter, id, bne_iff_ne, ne_eq]
      by_cases hrx : r.rowid = x.rowid
      · have : r = x := eq_of_rowid_eq hI.link.rowid_nodup hr hx hrx
        subst this
        have : ¬Eff (fun i => P i ∧ i ≠ r.rowid) r := by
          rw [eff_not_pending (fun h => h.2 rfl)]; exact hxR
        simp [this]
      · have hne : (r.Height, r.rowid) ≠ (x.Height, x.rowid) := by
          intro e; injection e with _ e2; exact hrx e2
        rw [hI.tips.mem r hr]
        have : Eff (fun i => P i ∧ i ≠ x.rowid) r ↔ Eff P r :=
          eff_congr (by simp [hrx]) rfl
        rw [this]
        simp [hne]

/-- The invariant on `TipsReachable` across the loop that flips the rows read by the query. -/
theorem tipsP_flip {sA sB : NodeDB} {P : Nat → Prop} {b : Bool} {x : StateRow}
    (hI : CascInv sA P b) (hP : P x.rowid) (hx : x ∈ sA.States)
    (hne : nextFunctional sA x.rowid x.Height ≠ [])
    (hB : sB.States = sA.States.map (flipRows (nextFunctional sA x.rowid x.Height)))
    (tB : sB.TipsReachable = sA.TipsReachable) :
    TipsP sB
      (fun i => (P i ∧ i ≠ x.rowid) ∨ ∃ c ∈ nextFunctional sA x.rowid x.Height, c.rowid = i) := by
  have hassert := rows_assert (rows_check hI hx hP)
  have hmemA : ∀ c ∈ nextFunctional sA x.rowid x.Height, c ∈ sA.States :=
    fun c hc => (nextFunctional_iff.mp hc).1
  have hnotP : ∀ c ∈ nextFunctional sA x.rowid x.Height, ¬P c.rowid := by
    intro c hc hPc
    have h1 := hI.flags.pend c (hmemA c hc) hPc
    have h2 := hassert c hc
    rw [h1] at h2
    cases b <;> simp at h2
  have hxc : x.CountNextFunctional ≠ 0 := fun h =>
    hne ((countNextFunctional_eq_zero_iff hI.link hI.countF hx).mp h)
  refine tipsP_same hI.tips hB
    (fun r => ⟨(flipRows_fields _ r).1, (flipRows_fields _ r).2.1⟩) tB ?_
  intro r hr
  rw [flipRows_CountNextFunctional]
  by_cases hrx : r.rowid = x.rowid
  · have : r = x := eq_of_rowid_eq hI.link.rowid_nodup hr hx hrx
    subst this
    constructor
    · rintro ⟨-, h⟩; exact absurd h hxc
    · rintro ⟨-, h⟩; exact absurd h hxc
  · by_cases hrr : r ∈ nextFunctional sA x.rowid x.Height
    · have e1 : Eff P r ↔ RowReachable r := eff_not_pending (hnotP r hrr)
      have e2 : Eff (fun i => (P i ∧ i ≠ x.rowid) ∨
          ∃ c ∈ nextFunctional sA x.rowid x.Height, c.rowid = i) (flipRows _ r)
            ↔ ¬RowReachable (flipRows (nextFunctional sA x.rowid x.Height) r) :=
        eff_pending (Or.inr ⟨r, hrr, (flipRows_fields _ r).1.symm⟩)
      rw [e1, e2]
      have : RowReachable (flipRows (nextFunctional sA x.rowid x.Height) r)
          ↔ ¬RowReachable r := by
        unfold RowReachable flipRows
        rw [if_pos hrr]
        simp
      rw [this, not_not]
    · rw [flipRows_of_not_mem hrr]
      have : Eff (fun i => (P i ∧ i ≠ x.rowid) ∨
          ∃ c ∈ nextFunctional sA x.rowid x.Height, c.rowid = i) r ↔ Eff P r := by
        apply eff_congr _ rfl
        constructor
        · rintro (⟨h, -⟩ | ⟨c, hc, e⟩)
          · exact h
          · have : c = r := eq_of_rowid_eq hI.link.rowid_nodup (hmemA c hc) hr e
            subst this
            exact absurd hc hrr
        · intro h; exact Or.inl ⟨h, hrx⟩
      rw [this]

/-- The recursive calls of `OnStateReachable` on the siblings complete, given that one call
does. -/
theorem cascade_fold_total {fuel : Nat} {b : Bool} {rp h1 : Nat}
    (ih : ∀ (st : NodeDB) (x : StateRow) (rowPrev : Nat) (P : Nat → Prop),
      CascInv st P b → x ∈ st.States → P x.rowid →
      (b = true → ((x.Height = 0 ↔ rowPrev = 0) ∧ x.rowid ≠ rowPrev)) →
      2 ^ 64 ≤ fuel + x.Height →
      ∃ st1, OnStateReachable fuel st x.rowid rowPrev x.Height b = .ok st1 ∧
        CascInv st1 (fun i => P i ∧ i ≠ x.rowid) b ∧ CascadeFrame st st1)
    (hb : h1 = 0 ↔ rp = 0) (hfuel : 2 ^ 64 ≤ fuel + h1) :
    ∀ (l : List StateRow) (s : NodeDB) (Q : Nat → Prop), CascInv s Q b →
      (∀ c ∈ l, Q c.rowid ∧ c.rowid ≠ rp ∧ ∃ y ∈ s.States, y.rowid = c.rowid ∧ y.Height = h1) →
      (l.map (fun r => r.rowid)).Nodup →
      ∃ s1, l.foldlM (fun s r => OnStateReachable fuel s r.rowid rp h1 b) s = .ok s1 ∧
        CascInv s1 (fun i => Q i ∧ i ∉ l.map (fun r => r.rowid)) b ∧ CascadeFrame s s1 := by
  intro l
  induction l with
  | nil =>
    intro s Q hI _ _
    exact ⟨s, rfl, cascInv_congr hI (by intro i; simp), CascadeFrame.frame_refl _⟩
  | cons c rest ihl =>
    intro s Q hI hl hnd
    obtain ⟨hQc, hcrp, y, hy, e1, e2⟩ := hl c (List.mem_cons_self _ _)
    obtain ⟨s2, h2, hI2, hF2⟩ := ih s y rp Q hI hy (by rw [e1]; exact hQc)
      (fun _ => ⟨by rw [e2]; exact hb, by rw [e1]; exact hcrp⟩) (by rw [e2]; exact hfuel)
    rw [e1, e2] at h2
    rw [e1] at hI2
    simp only [List.map_cons, List.nodup_cons] at hnd
    have hl2 : ∀ d ∈ rest, (Q d.rowid ∧ d.rowid ≠ c.rowid) ∧ d.rowid ≠ rp ∧
        ∃ y ∈ s2.States, y.rowid = d.rowid ∧ y.Height = h1 := by
      intro d hd
      obtain ⟨hQd, hdrp, hexd⟩ := hl d (List.mem_cons_of_mem _ hd)
      refine ⟨⟨hQd, ?_⟩, hdrp, exists_row_of_sameSkeleton hF2.sameSkeleton hexd⟩
      intro e
      exact hnd.1 (e ▸ List.mem_map_of_mem _ hd)
    obtain ⟨s1, h3, hI3, hF3⟩ := ihl s2 _ hI2 hl2 hnd.2
    refine ⟨s1, ?_, cascInv_congr hI3 ?_, hF2.frame_trans hF3⟩
    · rw [List.foldlM_cons, bind_ok_iff]
      exact ⟨s2, h2, h3⟩
    · intro i
      simp only [List.map_cons, List.mem_cons, not_or]
      constructor
      · rintro ⟨h1, h2, h3⟩; exact ⟨⟨h1, h2⟩, h3⟩
      · rintro ⟨⟨h1, h2⟩, h3⟩; exact ⟨h1, h2, h3⟩

/-- `OnStateReachable` completes on a pending row, given fuel for the heights above it; it
leaves the invariants in place with the row pending no more, and changes nothing but `Mmr`,
`Reachable` bits and `TipsReachable`. -/
theorem cascade_total : ∀ (fuel : Nat) (b : Bool) (st : NodeDB) (x : StateRow) (rowPrev : Nat)
    (P : Nat → Prop),
    CascInv st P b → x ∈ st.States → P x.rowid →
    (b = true → ((x.Height = 0 ↔ rowPrev = 0) ∧ x.rowid ≠ rowPrev)) →
    2 ^ 64 ≤ fuel + x.Height →
    ∃ st1, OnStateReachable fuel st x.rowid rowPrev x.Height b = .ok st1 ∧
      CascInv st1 (fun i => P i ∧ i ≠ x.rowid) b ∧ CascadeFrame st st1 := by
  intro fuel b
  induction fuel with
  | zero =>
    intro st x rowPrev P hI hx _ _ hfuel
    have := hI.link.height_lt x hx
    omega
  | succ fuel ih =>
    intro st x0 rowPrev P hI hx0 hP hb hfuel
    -- the invariants once the whole call has completed
    have hpost : ∀ st1, OnStateReachable (fuel + 1) st x0.rowid rowPrev x0.Height b = .ok st1 →
        TipsP st1 (fun i => P i ∧ i ≠ x0.rowid) → CascadeFrame st st1 →
        CascInv st1 (fun i => P i ∧ i ≠ x0.rowid) b := by
      intro st1 hok hT hF
      exact ⟨linkInv_of_sameSkeleton hI.link hF.sameSkeleton,
        noWrap_of_sameSkeleton hI.noWrap hF.sameSkeleton,
        flagsInvP_OnStateReachable (fuel + 1) st st1 x0.rowid rowPrev x0.Height P hI.link
          hI.flags hP ⟨x0, hx0, rfl, rfl⟩ hok,
        countF_of_frame hI.countF hF, hT⟩
    -- `BuildMmr`
    have hA : ∃ sA, (if b = true then BuildMmr st x0.rowid rowPrev x0.Height else .ok st)
        = .ok sA ∧ CascInv sA P b ∧ CascadeFrame st sA := by
      cases b with
      | true =>
        obtain ⟨sA, h⟩ := BuildMmr_total hI.link hx0 (hb rfl).1 (hb rfl).2
        exact ⟨sA, h, cascInv_BuildMmr hI h⟩
      | false => exact ⟨st, rfl, hI, CascadeFrame.frame_refl _⟩
    obtain ⟨sA, hA, hIA, hFA⟩ := hA
    obtain ⟨x, hx, e1, e2⟩ :=
      exists_row_of_sameSkeleton hFA.sameSkeleton ⟨x0, hx0, rfl, rfl⟩
    rw [← e1, ← e2] at hpost hA ⊢
    rw [← e2] at hfuel
    rw [← e1] at hP
    have hall := rows_check hIA hx hP
    cases hrows : nextFunctional sA x.rowid x.Height with
    | nil =>
      have hleaf : ∃ st1, (if b = true then TipReachableAdd sA x.rowid x.Height
          else TipReachableDel sA x.rowid x.Height) = .ok st1 ∧
          TipsP st1 (fun i => P i ∧ i ≠ x.rowid) ∧ st1.States = sA.States
            ∧ st1.Tips = sA.Tips := by
        cases b with
        | true => exact leafAdd_total hIA hx hP hrows
        | false => exact leafDel_total hIA hx hP hrows
      obtain ⟨st1, hok1, hT1, eS, eT⟩ := hleaf
      have hF1 : CascadeFrame st st1 :=
        hFA.frame_trans (cascadeFrame_of_map (φ := id) (by rw [eS, List.map_id])
          (fun _ => ⟨rfl, rfl, fun _ _ => rfl⟩) eT)
      have hok : OnStateReachable (fuel + 1) st x.rowid rowPrev x.Height b = .ok st1 := by
        rw [OnStateReachable, bind_ok_iff]
        refine ⟨sA, hA, ?_⟩
        dsimp only
        rw [hrows]
        simpa using hok1
      exact ⟨st1, hok, hpost st1 hok hT1 hF1, hF1⟩
    | cons r0 rest =>
      have hxlt := hIA.link.height_lt x hx
      have hne : nextFunctional sA x.rowid x.Height ≠ [] := by rw [hrows]; simp
      have hmemA : ∀ c ∈ nextFunctional sA x.rowid x.Height, c ∈ sA.States :=
        fun c hc => (nextFunctional_iff.mp hc).1
      have hassert := rows_assert hall
      have hnd := nextFunctional_nodup hIA.link x.rowid x.Height
      -- the flips
      obtain ⟨sB, hB⟩ := flipFold_total (nextFunctional sA x.rowid x.Height) sA
        hIA.link.rowid_nodup (fun c hc => List.mem_map_of_mem _ (hmemA c hc))
      obtain ⟨eB, tB, trB, -, -⟩ := flipFold_closed _ sA sB hIA.link.rowid_nodup hnd hmemA hB
      have hFB : CascadeFrame sA sB := cascadeFrame_flip eB tB
      have hIB : CascInv sB (fun i => (P i ∧ i ≠ x.rowid) ∨
          ∃ c ∈ nextFunctional sA x.rowid x.Height, c.rowid = i) b :=
        ⟨linkInv_of_sameSkeleton hIA.link hFB.sameSkeleton,
          noWrap_of_sameSkeleton hIA.noWrap hFB.sameSkeleton,
          flagsInvP_flip hIA.link hIA.flags hP hx hassert eB,
          countF_of_frame hIA.countF hFB,
          tipsP_flip hIA hP hx hne eB trB⟩
      -- the height of the children
      have hr0 := nextFunctional_iff.mp (hrows ▸ List.mem_cons_self r0 rest :
        r0 ∈ nextFunctional sA x.rowid x.Height)
      have hh1 : heightInc x.Height ≠ 0 := by
        intro h0
        have := hIA.noWrap r0 hr0.1 (by rw [hr0.2.1]; exact h0)
        rw [this] at hr0
        cases hr0.2.2.1
      have hh2 := heightInc_eq_succ hxlt hh1
      have hfuel1 : 2 ^ 64 ≤ fuel + heightInc x.Height := by rw [hh2]; omega
      have hx0ne : x.rowid ≠ 0 := hIA.link.rowid_ne_zero x hx
      have hb1 : heightInc x.Height = 0 ↔ x.rowid = 0 :=
        ⟨fun h => absurd h hh1, fun h => absurd h hx0ne⟩
      have hrowsB : ∀ c ∈ nextFunctional sA x.rowid x.Height,
          ∃ y ∈ sB.States, y.rowid = c.rowid ∧ y.Height = heightInc x.Height := by
        intro c hc
        obtain ⟨hcm, hch, -, -⟩ := nextFunctional_iff.mp hc
        exact exists_row_of_sameSkeleton hFB.sameSkeleton ⟨c, hcm, rfl, hch⟩
      have hcne : ∀ c ∈ nextFunctional sA x.rowid x.Height, c.rowid ≠ x.rowid := by
        intro c hc
        obtain ⟨hcm, -, hcp, -⟩ := nextFunctional_iff.mp hc
        exact (parent_ne_self hIA.link hcm hx hcp).symm
      have hndid : ((nextFunctional sA x.rowid x.Height).map (fun r => r.rowid)).Nodup := by
        have hsub : List.Sublist ((nextFunctional sA x.rowid x.Height).map (fun r => r.rowid))
            (sA.States.map (fun r => r.rowid)) :=
          (List.filter_sublist _).map _
        exact hIA.link.rowid_nodup.sublist hsub
      have hnotP : ∀ c ∈ nextFunctional sA x.rowid x.Height, ¬P c.rowid := by
        intro c hc hPc
        have h1 := hIA.flags.pend c (hmemA c hc) hPc
        have h2 := hassert c hc
        rw [h1] at h2
        cases b <;> simp at h2
      rw [hrows] at hrowsB hndid hnotP hcne
      simp only [List.map_cons, List.nodup_cons] at hndid
      -- the siblings
      have hlrest : ∀ c ∈ rest,
          ((P c.rowid ∧ c.rowid ≠ x.rowid) ∨
            ∃ d ∈ nextFunctional sA x.rowid x.Height, d.rowid = c.rowid) ∧ c.rowid ≠ x.rowid ∧
          ∃ y ∈ sB.States, y.rowid = c.rowid ∧ y.Height = heightInc x.Height := by
        intro c hc
        refine ⟨Or.inr ⟨c, ?_, rfl⟩, hcne c (List.mem_cons_of_mem _ hc),
          hrowsB c (List.mem_cons_of_mem _ hc)⟩
        rw [hrows]; exact List.mem_cons_of_mem _ hc
      obtain ⟨sC, hC, hIC, hFC⟩ :=
        cascade_fold_total ih hb1 hfuel1 rest sB _ hIB hlrest hndid.2
      -- the first row, with which the loop goes on
      obtain ⟨y0, hy0, f1, f2⟩ :=
        exists_row_of_sameSkeleton hFC.sameSkeleton (hrowsB r0 (List.mem_cons_self _ _))
      have hP0 : ((P y0.rowid ∧ y0.rowid ≠ x.rowid) ∨
            ∃ d ∈ nextFunctional sA x.rowid x.Height, d.rowid = y0.rowid) ∧
          y0.rowid ∉ rest.map (fun r => r.rowid) := by
        rw [f1]
        refine ⟨Or.inr ⟨r0, ?_, rfl⟩, hndid.1⟩
        rw [hrows]; exact List.mem_cons_self _ _
      obtain ⟨st1, h0, hI1, hF1⟩ := ih sC y0 x.rowid _ hIC hy0 hP0
        (fun _ => ⟨by rw [f2]; exact hb1, by rw [f1]; exact hcne r0 (List.mem_cons_self _ _)⟩)
        (by rw [f2]; exact hfuel1)
      rw [f1, f2] at h0
      rw [f1] at hI1
      have hFall : CascadeFrame st st1 := ((hFA.frame_trans hFB).frame_trans hFC).frame_trans hF1
      have hok : OnStateReachable (fuel + 1) st x.rowid rowPrev x.Height b = .ok st1 := by
        rw [OnStateReachable, bind_ok_iff]
        refine ⟨sA, hA, ?_⟩
        dsimp only
        rw [if_pos hall, hrows]
        dsimp only
        rw [bind_ok_iff]
        rw [hrows] at hB
        refine ⟨sB, hB, ?_⟩
        rw [bind_ok_iff]
        exact ⟨sC, hC, h0⟩
      refine ⟨st1, hok, hpost st1 hok (tipsP_congr hI1.tips ?_) hFall, hFall⟩
      intro i
      simp only [hrows, List.mem_cons, List.mem_map, exists_eq_or_imp]
      constructor
      · rintro ⟨h1, h2⟩
        refine ⟨⟨Or.inl ⟨h1, h2⟩, ?_⟩, ?_⟩
        · rintro ⟨d, hd, e⟩
          exact hnotP d (List.mem_cons_of_mem _ hd) (e ▸ h1)
        · intro e
          exact hnotP r0 (List.mem_cons_self _ _) (e ▸ h1)
      · rintro ⟨⟨h | h, hrest⟩, h0⟩
        · exact h
        · exfalso
          rcases h with e | ⟨d, hd, e⟩
          · exact h0 e.symm
          · exact hrest ⟨d, hd, e⟩

theorem rootMap_skeleton (par : Option (Nat × Nat)) (i n : Nat) (r : StateRow) :
    skeleton (rootMap par i n r) = skeleton r := by
  unfold rootMap
  rcases par with _ | ⟨p, c⟩
  · simp only; split <;> rfl
  · simp only; split <;> split <;> rfl

theorem rootMap_rowid (par : Option (Nat × Nat)) (i n : Nat) (r : StateRow) :
    (rootMap par i n r).rowid = r.rowid :=
  (skeleton_fields (rootMap_skeleton par i n r)).1

theorem rootMap_Flags (par : Option (Nat × Nat)) (i n : Nat) (r : StateRow) :
    (rootMap par i n r).Flags = if r.rowid = i then n else r.Flags := by
  unfold rootMap
  rcases par with _ | ⟨p, c⟩
  · simp only
    by_cases h : r.rowid = i <;> simp [h]
  · simp only
    split <;> split <;> simp_all

theorem rootMap_CountNextFunctional_none (i n : Nat) (r : StateRow) :
    (rootMap none i n r).CountNextFunctional = r.CountNextFunctional := by
  unfold rootMap
  simp only
  split <;> rfl

theorem rootMap_CountNextFunctional_some (p c i n : Nat) (r : StateRow) :
    (rootMap (some (p, c)) i n r).CountNextFunctional
      = if r.rowid = p then c else r.CountNextFunctional := by
  unfold rootMap
  simp only
  split <;> split <;> simp_all

theorem rootMap_fields (par : Option (Nat × Nat)) (i n : Nat) (r : StateRow) :
    (rootMap par i n r).rowid = r.rowid ∧ (rootMap par i n r).Height = r.Height
      ∧ (rootMap par i n r).RowPrev = r.RowPrev
      ∧ (rootMap par i n r).Flags = if r.rowid = i then n else r.Flags := by
  have f := skeleton_fields (rootMap_skeleton par i n r)
  exact ⟨f.1, f.2.1, f.2.2.2.2.1, rootMap_Flags par i n r⟩

/-- The counter invariant after the `Functional` flag of `x` has been toggled and the counter of
its parent adjusted. -/
theorem countF_root {st st4 : NodeDB} {Φ : StateRow → StateRow} {x : StateRow}
    (hL : LinkInv st) (hC : CountF st) (hx : x ∈ st.States)
    (e4 : st4.States = st.States.map Φ)
    (hid : ∀ r, (Φ r).rowid = r.rowid ∧ (Φ r).RowPrev = r.RowPrev)
    (hF : ∀ r ∈ st.States, r.rowid ≠ x.rowid →
      hasFlag (Φ r).Flags StateFlags.Functional = hasFlag r.Flags StateFlags.Functional)
    (hFx : hasFlag (Φ x).Flags StateFlags.Functional = !hasFlag x.Flags StateFlags.Functional)
    (hc : ∀ r ∈ st.States, (Φ r).CountNextFunctional =
      if x.RowPrev = some r.rowid then
        (if hasFlag x.Flags StateFlags.Functional then r.CountNextFunctional - 1
          else r.CountNextFunctional + 1)
      else r.CountNextFunctional) :
    CountF st4 := by
  intro p4 hp4
  rw [e4] at hp4
  obtain ⟨p, hp, rfl⟩ := List.mem_map.mp hp4
  rw [e4, List.countP_map, hc p hp, (hid p).1]
  have hold := hC p hp
  rw [countP_without hL.rowid_nodup hx] at hold
  rw [countP_without hL.rowid_nodup hx]
  have hrest : List.countP (fun r => ((fun c => c.RowPrev == some p.rowid
        && hasFlag c.Flags StateFlags.Functional) ∘ Φ) r && (r.rowid != x.rowid)) st.States
      = List.countP (fun r => (r.RowPrev == some p.rowid
        && hasFlag r.Flags StateFlags.Functional) && (r.rowid != x.rowid)) st.States := by
    apply List.countP_congr
    intro c hcm
    simp only [Function.comp, (hid c).2]
    by_cases hcx : c.rowid = x.rowid
    · simp [hcx]
    · rw [hF c hcm hcx]
  rw [hrest]
  simp only [Function.comp, (hid x).2, hFx]
  by_cases hxp : x.RowPrev = some p.rowid
  · rw [if_pos hxp]
    simp only [hxp, beq_self_eq_true, Bool.true_and] at hold ⊢
    cases hFl : hasFlag x.Flags StateFlags.Functional with
    | true =>
      rw [hFl] at hold
      simp only [↓reduceIte] at hold
      simp only [Bool.not_true, Bool.false_eq_true, ↓reduceIte]
      omega
    | false =>
      rw [hFl] at hold
      simp only [Bool.false_eq_true, ↓reduceIte] at hold
      simp only [Bool.not_false, ↓reduceIte, Bool.false_eq_true]
      omega
  · rw [if_neg hxp]
    have : (x.RowPrev == some p.rowid) = false := by simpa using hxp
    rw [this] at hold ⊢
    simpa using hold

/-- The invariant on `TipsReachable` after the flags of `x` have been set and the counter of the
row `q` adjusted, the row `x` being pending afterwards when `P1` holds of it. -/
theorem tipsP_root {st st4 : NodeDB} {Φ : StateRow → StateRow} {x : StateRow} {q : Nat}
    {P1 : Nat → Prop}
    (hL : LinkInv st) (hT : TipsP st (fun _ => False)) (hx : x ∈ st.States)
    (e4 : st4.States = st.States.map Φ)
    (hid : ∀ r, (Φ r).rowid = r.rowid ∧ (Φ r).Height = r.Height)
    (hfl : ∀ r ∈ st.States, r.rowid ≠ x.rowid → (Φ r).Flags = r.Flags)
    (hP1 : ∀ i, P1 i → i = x.rowid)
    (heff : Eff P1 (Φ x) ↔ RowReachable x)
    (hqx : q ≠ x.rowid)
    (hN : st4.TipsReachable.Nodup)
    (hsub : ∀ e ∈ st4.TipsReachable,
      e ∈ st.TipsReachable ∨ ∃ r ∈ st.States, e = (r.Height, r.rowid))
    (hcnf : ∀ r ∈ st.States, r.rowid ≠ q → (Φ r).CountNextFunctional = r.CountNextFunctional)
    (hmem : ∀ r ∈ st.States, r.rowid ≠ q →
      ((r.Height, r.rowid) ∈ st4.TipsReachable ↔ (r.Height, r.rowid) ∈ st.TipsReachable))
    (hpar : ∀ r ∈ st.States, r.rowid = q →
      ((r.Height, r.rowid) ∈ st4.TipsReachable ↔
        RowReachable r ∧ (Φ r).CountNextFunctional = 0)) :
    TipsP st4 P1 := by
  have hEff : ∀ r ∈ st.States, (Eff P1 (Φ r) ↔ RowReachable r) := by
    intro r hr
    by_cases hrx : r.rowid = x.rowid
    · have : r = x := eq_of_rowid_eq hL.rowid_nodup hr hx hrx
      subst this
      exact heff
    · rw [← eff_empty r]
      apply eff_congr
      · rw [(hid r).1]
        constructor
        · intro h; exact hrx (hP1 _ h)
        · intro h; exact absurd h id
      · exact hfl r hr hrx
  refine tipsP_map hT e4 hid hN hsub ?_
  intro r hr
  rw [hEff r hr]
  by_cases hrq : r.rowid = q
  · exact hpar r hr hrq
  · rw [hmem r hr hrq, hcnf r hr hrq, hT.mem r hr, eff_empty]

/-- The invariants after the first half of `SetStateFunctional` or `SetStateNotFunctional` on
the row `x`: the counter of the parent adjusted, `TipsReachable` adjusted for the parent, the
flags of `x` set to `n`. -/
theorem cascInv_root {st st4 : NodeDB} {x : StateRow} {par : Option (Nat × Nat)} {n : Nat}
    {P1 : Nat → Prop} {b : Bool}
    (hI : CascInv st (fun _ => False) true) (hx : x ∈ st.States)
    (e4 : st4.States = st.States.map (rootMap par x.rowid n)) (t4 : st4.Tips = st.Tips)
    (hP1 : ∀ i, P1 i → i = x.rowid)
    (heff : ((P1 x.rowid ∧ ¬(hasFlag n StateFlags.Reachable = true))
        ∨ (¬P1 x.rowid ∧ hasFlag n StateFlags.Reachable = true)) ↔ RowReachable x)
    (hpend : P1 x.rowid → hasFlag n StateFlags.Reachable = b)
    (hup : x.Height ≠ 0 → (hasFlag n StateFlags.Reachable = true ↔
      hasFlag n StateFlags.Functional = true ∧
        ∃ p ∈ st.States, x.RowPrev = some p.rowid ∧ RowReachable p))
    (hzero : x.Height = 0 → (hasFlag n StateFlags.Reachable = true ↔
      hasFlag n StateFlags.Functional = true))
    (hFx : hasFlag n StateFlags.Functional = !hasFlag x.Flags StateFlags.Functional)
    (hpar : parentCounter st x par)
    (hN : st4.TipsReachable.Nodup)
    (hsub : ∀ e ∈ st4.TipsReachable,
      e ∈ st.TipsReachable ∨ ∃ r ∈ st.States, e = (r.Height, r.rowid))
    (hmem : ∀ r ∈ st.States, x.RowPrev ≠ some r.rowid →
      ((r.Height, r.rowid) ∈ st4.TipsReachable ↔ (r.Height, r.rowid) ∈ st.TipsReachable))
    (hparT : ∀ r ∈ st.States, x.RowPrev = some r.rowid →
      ((r.Height, r.rowid) ∈ st4.TipsReachable ↔ RowReachable r ∧
        (if hasFlag x.Flags StateFlags.Functional then r.CountNextFunctional - 1
          else r.CountNextFunctional + 1) = 0)) :
    CascInv st4 P1 b := by
  have hL := hI.link
  have hk : SameSkeleton st st4 := sameSkeleton_of_map e4 (rootMap_skeleton _ _ _) t4
  have hfl : ∀ r ∈ st.States, r.rowid ≠ x.rowid →
      (rootMap par x.rowid n r).Flags = r.Flags := by
    intro r _ h; rw [rootMap_Flags, if_neg h]
  have hflx : (rootMap par x.rowid n x).Flags = n := by rw [rootMap_Flags, if_pos rfl]
  -- the counter written by the map
  have hcn : ∀ r ∈ st.States, (rootMap par x.rowid n r).CountNextFunctional =
      if x.RowPrev = some r.rowid then
        (if hasFlag x.Flags StateFlags.Functional then r.CountNextFunctional - 1
          else r.CountNextFunctional + 1)
      else r.CountNextFunctional := by
    intro r hr
    rcases par with _ | ⟨p, c⟩
    · unfold parentCounter at hpar
      rw [rootMap_CountNextFunctional_none, hpar]
      simp
    · unfold parentCounter at hpar
      obtain ⟨hxp, Pp, hPp, e1, ec⟩ := hpar
      rw [rootMap_CountNextFunctional_some, hxp]
      by_cases hrp : r.rowid = p
      · have : r = Pp := eq_of_rowid_eq hL.rowid_nodup hr hPp (by rw [hrp, e1])
        subst this
        rw [if_pos hrp, if_pos (by rw [hrp]), ec]
      · have : ¬(some p = some r.rowid) := by
          intro e; injection e with e; exact hrp e.symm
        rw [if_neg hrp, if_neg this]
  refine ⟨linkInv_of_sameSkeleton hL hk, noWrap_of_sameSkeleton hI.noWrap hk, ?_, ?_, ?_⟩
  · exact flagsInvP_setRoot hL hI.flags hx e4 (rootMap_fields par x.rowid n) hP1 heff hpend hup
      hzero (fun h0 _ => hI.noWrap x hx h0)
  · refine countF_root hL hI.countF hx e4
      (fun r => ⟨(rootMap_fields par x.rowid n r).1, (rootMap_fields par x.rowid n r).2.2.1⟩)
      ?_ ?_ hcn
    · intro r hr h; rw [hfl r hr h]
    · rw [hflx]; exact hFx
  · have hq : ∀ r ∈ st.States, (r.rowid = x.RowPrev.getD 0 ↔ x.RowPrev = some r.rowid) := by
      intro r hr
      cases hp : x.RowPrev with
      | none =>
        simp only [Option.getD_none]
        constructor
        · intro h; exact absurd h (hL.rowid_ne_zero r hr)
        · intro h; cases h
      | some p =>
        simp only [Option.getD_some, Option.some.injEq]
        exact ⟨fun h => h.symm, fun h => h.symm⟩
    refine tipsP_root (q := x.RowPrev.getD 0) hL hI.tips hx e4
      (fun r => ⟨(rootMap_fields par x.rowid n r).1, (rootMap_fields par x.rowid n r).2.1⟩)
      hfl hP1 ?_ ?_ hN hsub ?_ ?_ ?_
    · unfold Eff RowReachable
      rw [rootMap_rowid, hflx]
      exact heff
    · intro h
      have := (hq x hx).mp h.symm
      cases hp : x.RowPrev with
      | none => rw [hp] at this; cases this
      | some p =>
        obtain ⟨Pp, hPp, e1, -⟩ := hL.link x hx p hp
        rw [hp] at this
        injection this with this
        exact parent_ne_self hL hx hPp (by rw [hp, e1]) (by rw [e1, this])
    · intro r hr h
      rw [hcn r hr, if_neg (fun e => h ((hq r hr).mpr e))]
    · intro r hr h
      exact hmem r hr (fun e => h ((hq r hr).mpr e))
    · intro r hr h
      rw [hcn r hr, if_pos ((hq r hr).mp h)]
      exact hparT r hr ((hq r hr).mp h)

theorem updateRow_total_id {st : NodeDB} (hnd : (st.States.map (fun r => r.rowid)).Nodup)
    {i : Nat} (hi : i ∈ st.States.map (fun r => r.rowid)) (f : StateRow → StateRow) :
    updateRow st i f = .ok { st with
      States := st.States.map (fun r => if r.rowid == i then f r else r) } := by
  obtain ⟨y, hy, rfl⟩ := List.mem_map.mp hi
  exact updateRow_total hnd hy f

theorem SetNextCountFunctional_total {st : NodeDB}
    (hnd : (st.States.map (fun r => r.rowid)).Nodup) {p : Nat}
    (hi : p ∈ st.States.map (fun r => r.rowid)) (c : Nat) :
    ∃ s1, SetNextCountFunctional st p c = .ok s1 ∧
      s1.States = st.States.map
        (fun r => if r.rowid == p then { r with CountNextFunctional := c } else r) ∧
      s1.Tips = st.Tips ∧ s1.TipsReachable = st.TipsReachable :=
  ⟨_, updateRow_total_id hnd hi _, rfl, rfl, rfl⟩

theorem SetFlags_total (st : NodeDB)
    (hnd : (st.States.map (fun r => r.rowid)).Nodup) {i : Nat}
    (hi : i ∈ st.States.map (fun r => r.rowid)) (n : Nat) :
    ∃ s1, SetFlags st i n = .ok s1 ∧
      s1.States = st.States.map (fun r => if r.rowid == i then { r with Flags := n } else r) ∧
      s1.Tips = st.Tips ∧ s1.TipsReachable = st.TipsReachable :=
  ⟨_, updateRow_total_id hnd hi _, rfl, rfl, rfl⟩

/-- The flags are set on the store `s3` that has the counter of the parent adjusted. -/
theorem SetFlags_after {st : NodeDB} (s3 : NodeDB) (par : Option (Nat × Nat))
    (hnd : (st.States.map (fun r => r.rowid)).Nodup)
    {i : Nat} (hi : i ∈ st.States.map (fun r => r.rowid))
    (e3 : s3.States = st.States.map (fun r => match par with
      | some (p, c) => if r.rowid == p then { r with CountNextFunctional := c } else r
      | none => r)) (n : Nat) :
    ∃ s4, SetFlags s3 i n = .ok s4 ∧ s4.States = st.States.map (rootMap par i n) ∧
      s4.Tips = s3.Tips ∧ s4.TipsReachable = s3.TipsReachable := by
  have hids : s3.States.map (fun r => r.rowid) = st.States.map (fun r => r.rowid) := by
    rw [e3, List.map_map]
    apply List.map_congr_left
    intro r _
    simp only [Function.comp]
    rcases par with _ | ⟨p, c⟩
    · rfl
    · simp only; split <;> rfl
  obtain ⟨s4, h4, e4, t4, tr4⟩ := SetFlags_total s3 (by rw [hids]; exact hnd)
    (by rw [hids]; exact hi) n
  refine ⟨s4, h4, ?_, t4, tr4⟩
  rw [e4, e3, List.map_map]
  rfl

theorem TipReachableDel_total {st : NodeDB} (hN : st.TipsReachable.Nodup) {rowid h : Nat}
    (hin : (h, rowid) ∈ st.TipsReachable) :
    ∃ s1, TipReachableDel st rowid h = .ok s1 ∧ s1.States = st.States ∧ s1.Tips = st.Tips ∧
      s1.TipsReachable = st.TipsReachable.filter (fun p => p != (h, rowid)) := by
  refine ⟨{ st with TipsReachable := st.TipsReachable.filter (fun p => p != (h, rowid)) },
    ?_, rfl, rfl, rfl⟩
  unfold TipReachableDel
  rw [if_pos (count_pair_one hN hin)]

theorem TipReachableAdd_total {st : NodeDB} {rowid h : Nat}
    (hin : (h, rowid) ∉ st.TipsReachable) :
    ∃ s1, TipReachableAdd st rowid h = .ok s1 ∧ s1.States = st.States ∧ s1.Tips = st.Tips ∧
      s1.TipsReachable = st.TipsReachable ++ [(h, rowid)] := by
  refine ⟨{ st with TipsReachable := st.TipsReachable ++ [(h, rowid)] }, ?_, rfl, rfl, rfl⟩
  unfold TipReachableAdd
  rw [if_neg hin]

theorem rootFrame_of {st st4 st1 : NodeDB} {par : Option (Nat × Nat)} {i n m : Nat}
    (e4 : st4.States = st.States.map (rootMap par i n)) (t4 : st4.Tips = st.Tips)
    (hF : CascadeFrame st4 st1) (hn : ∀ j, j ≠ 1 → n.testBit j = m.testBit j) :
    RootFrame st st1 i m := by
  obtain ⟨⟨ψ, e, p⟩, t⟩ := hF
  refine ⟨⟨ψ ∘ rootMap par i n, by rw [e, e4, List.map_map], ?_⟩, t.trans t4⟩
  intro r
  refine ⟨(p _).1.trans (rootMap_skeleton par i n r), ?_⟩
  intro j hj
  simp only [Function.comp]
  rw [(p _).2.2 j hj, rootMap_Flags]
  by_cases h : r.rowid = i
  · rw [if_pos h, if_pos h]; exact hn j hj
  · rw [if_neg h, if_neg h]

theorem testBit_lor_R {f j : Nat} (hj : j ≠ 1) :
    (f ||| StateFlags.Reachable).testBit j = f.testBit j := by
  rw [Nat.testBit_or, testBit_Reachable]
  simp [hj]

/-- The first half of `SetStateFunctional` on a row that is not `Functional`: it completes, and
the invariants hold afterwards, with the row pending when it has become `Reachable`. -/
theorem SetStateFunctional_root {st : NodeDB} (hI : CascInv st (fun _ => False) true)
    {x : StateRow} (hx : x ∈ st.States)
    (hF : hasFlag x.Flags StateFlags.Functional = false) :
    ∃ st3 n rp st4 par, SetStateFunctional.prevStep st x = .ok (st3, n, rp) ∧
      SetFlags st3 x.rowid n = .ok st4 ∧
      st4.States = st.States.map (rootMap par x.rowid n) ∧ st4.Tips = st.Tips ∧
      (∀ j, j ≠ 1 → n.testBit j = (x.Flags ||| StateFlags.Functional).testBit j) ∧
      ((hasFlag n StateFlags.Reachable = true ∧ CascInv st4 (fun i => i = x.rowid) true
          ∧ (x.Height = 0 ↔ rp = 0) ∧ x.rowid ≠ rp) ∨
        (hasFlag n StateFlags.Reachable = false ∧ CascInv st4 (fun _ => False) true)) := by
  have hL := hI.link
  have hxR := not_reachable_of_not_functional hI.flags hx hF
  have hxRP : ¬RowReachable x := by unfold RowReachable; rw [hxR]; simp
  have hxid : x.rowid ∈ st.States.map (fun r => r.rowid) := List.mem_map_of_mem _ hx
  -- the outcome in which the row becomes reachable and pending
  have withCascade : ∀ (st4 : NodeDB) (par : Option (Nat × Nat)),
      st4.States = st.States.map (rootMap par x.rowid
        (x.Flags ||| StateFlags.Functional ||| StateFlags.Reachable)) → st4.Tips = st.Tips →
      (x.Height ≠ 0 → ∃ p ∈ st.States, x.RowPrev = some p.rowid ∧ RowReachable p) →
      parentCounter st x par →
      st4.TipsReachable.Nodup →
      (∀ e ∈ st4.TipsReachable, e ∈ st.TipsReachable) →
      (∀ r ∈ st.States, x.RowPrev ≠ some r.rowid →
        ((r.Height, r.rowid) ∈ st4.TipsReachable ↔ (r.Height, r.rowid) ∈ st.TipsReachable)) →
      (∀ r ∈ st.States, x.RowPrev = some r.rowid → (r.Height, r.rowid) ∉ st4.TipsReachable) →
      CascInv st4 (fun i => i = x.rowid) true := by
    intro st4 par e4 t4 hpar hparc hN hsub hmem hparT
    have hnR : hasFlag (x.Flags ||| StateFlags.Functional ||| StateFlags.Reachable)
        StateFlags.Reachable = true := by simp
    have hnF : hasFlag (x.Flags ||| StateFlags.Functional ||| StateFlags.Reachable)
        StateFlags.Functional = true := by simp
    refine cascInv_root hI hx e4 t4 (fun i h => h) ?_ (fun _ => hnR) ?_ ?_ ?_ hparc hN
      (fun e he => Or.inl (hsub e he)) hmem ?_
    · rw [hnR]
      constructor
      · rintro (⟨-, h⟩ | ⟨h, -⟩)
        · exact absurd rfl h
        · exact absurd rfl h
      · intro h; exact absurd h hxRP
    · intro hne
      rw [hnR, hnF]
      exact ⟨fun _ => ⟨rfl, hpar hne⟩, fun _ => rfl⟩
    · intro _; rw [hnR, hnF]
    · rw [hnF, hF]; rfl
    · intro r hr h
      rw [hF]
      simp only [Bool.false_eq_true, ↓reduceIte]
      constructor
      · intro h1; exact absurd h1 (hparT r hr h)
      · rintro ⟨-, h1⟩; omega
  -- the outcome in which it does not
  have withoutCascade : ∀ (st4 : NodeDB) (par : Option (Nat × Nat)),
      st4.States = st.States.map (rootMap par x.rowid (x.Flags ||| StateFlags.Functional)) →
      st4.Tips = st.Tips → st4.TipsReachable = st.TipsReachable → x.Height ≠ 0 →
      (∀ p ∈ st.States, x.RowPrev = some p.rowid → ¬RowReachable p) →
      parentCounter st x par →
      CascInv st4 (fun _ => False) true := by
    intro st4 par e4 t4 tr4 hne hpar hparc
    have hnR : hasFlag (x.Flags ||| StateFlags.Functional) StateFlags.Reachable = false := by
      simp [hxR]
    have hnF : hasFlag (x.Flags ||| StateFlags.Functional) StateFlags.Functional = true := by
      simp
    refine cascInv_root hI hx e4 t4 (fun i h => absurd h id) ?_ (fun h => absurd h id) ?_ ?_ ?_
      hparc (by rw [tr4]; exact hI.tips.nodup) (fun e he => Or.inl (by rw [← tr4]; exact he))
      (fun r hr _ => by rw [tr4]) ?_
    · rw [hnR]
      constructor
      · rintro (⟨h, -⟩ | ⟨-, h⟩)
        · exact absurd h id
        · cases h
      · intro h; exact absurd h hxRP
    · intro _
      rw [hnR]
      constructor
      · intro h; cases h
      · rintro ⟨-, p, hp, e1, e2⟩; exact absurd e2 (hpar p hp e1)
    · intro h; exact absurd h hne
    · rw [hnF, hF]; rfl
    · intro r hr h
      rw [hF, tr4, hI.tips.mem r hr, eff_empty]
      simp only [Bool.false_eq_true, ↓reduceIte]
      constructor
      · rintro ⟨h1, -⟩; exact absurd h1 (hpar r hr h)
      · rintro ⟨-, h1⟩; omega
  have hbitsR : ∀ j, j ≠ 1 →
      (x.Flags ||| StateFlags.Functional ||| StateFlags.Reachable).testBit j
        = (x.Flags ||| StateFlags.Functional).testBit j := fun j hj => testBit_lor_R hj
  by_cases h0 : x.Height = 0
  · -- a row at height 0
    have hnone := hI.noWrap x hx h0
    have hpre : SetStateFunctional.prevStep st x
        = .ok (st, x.Flags ||| StateFlags.Functional ||| StateFlags.Reachable, 0) := by
      unfold SetStateFunctional.prevStep
      simp [h0, hnone]
    obtain ⟨st4, h4, e4, t4, tr4⟩ :=
      SetFlags_after st none
        hL.rowid_nodup hxid (by simp) (x.Flags ||| StateFlags.Functional ||| StateFlags.Reachable)
    refine ⟨st, _, 0, st4, none, hpre, h4, e4, t4, hbitsR,
      Or.inl ⟨by simp, ?_, ⟨fun _ => rfl, fun _ => h0⟩, hL.rowid_ne_zero x hx⟩⟩
    refine withCascade _ none e4 t4 (fun h => absurd h0 h) hnone
      (by rw [tr4]; exact hI.tips.nodup) (fun e he => by rw [← tr4]; exact he)
      (fun _ _ _ => by rw [tr4]) ?_
    intro r _ h; rw [hnone] at h; cases h
  · cases hp : x.RowPrev with
    | none =>
      -- an orphan
      have hpre : SetStateFunctional.prevStep st x
          = .ok (st, x.Flags ||| StateFlags.Functional, 0) := by
        unfold SetStateFunctional.prevStep
        simp [h0, hp]
      obtain ⟨st4, h4, e4, t4, tr4⟩ :=
        SetFlags_after st none
          hL.rowid_nodup hxid (by simp) (x.Flags ||| StateFlags.Functional)
      refine ⟨st, _, 0, st4, none, hpre, h4, e4, t4, fun _ _ => rfl,
        Or.inr ⟨by simp [hxR], ?_⟩⟩
      refine withoutCascade _ none e4 t4 tr4 h0 ?_ hp
      intro p _ e; rw [hp] at e; cases e
    | some p =>
      obtain ⟨Pp, hPp, e1, ePh, hprv⟩ := prvRow_of_link hL hx hp
      have hpid : p ∈ st.States.map (fun r => r.rowid) := e1 ▸ List.mem_map_of_mem _ hPp
      have hcnt := prvCountNextF_eq hprv
      have hflg := prvFlags_eq hprv
      obtain ⟨s1, h1, es1, ts1, trs1⟩ :=
        SetNextCountFunctional_total hL.rowid_nodup hpid (Pp.CountNextFunctional + 1)
      have hparc : parentCounter st x (some (p, Pp.CountNextFunctional + 1)) :=
        ⟨hp, Pp, hPp, e1, by rw [hF]; rfl⟩
      have hparent : ∀ r ∈ st.States, x.RowPrev = some r.rowid → r = Pp := by
        intro r hr h
        rw [hp] at h
        injection h with h
        exact eq_of_rowid_eq hL.rowid_nodup hr hPp (by rw [← h, e1])
      cases hPR : hasFlag Pp.Flags StateFlags.Reachable with
      | false =>
        have hpre : SetStateFunctional.prevStep st x
            = .ok (s1, x.Flags ||| StateFlags.Functional, p) := by
          unfold SetStateFunctional.prevStep
          simp only [hp, hcnt, hflg, hPR, h1]
          simp [h0]
          rfl
        obtain ⟨st4, h4, e4, t4, tr4⟩ :=
          SetFlags_after s1 (some (p, Pp.CountNextFunctional + 1))
            hL.rowid_nodup hxid es1 (x.Flags ||| StateFlags.Functional)
        refine ⟨s1, _, p, st4, _, hpre, h4, e4, t4.trans ts1, fun _ _ => rfl,
          Or.inr ⟨by simp [hxR], ?_⟩⟩
        refine withoutCascade _ _ e4 (t4.trans ts1) (tr4.trans trs1) h0 ?_ hparc
        intro r hr h
        rw [hparent r hr h]
        unfold RowReachable
        rw [hPR]; simp
      | true =>
        have hPRR : RowReachable Pp := hPR
        have hpair : ∀ r ∈ st.States, x.RowPrev ≠ some r.rowid →
            (r.Height, r.rowid) ≠ (heightDec x.Height, p) := by
          intro r _ h e
          injection e with _ e
          exact h (by rw [hp, e])
        by_cases hc0 : Pp.CountNextFunctional = 0
        · have hin : (heightDec x.Height, p) ∈ s1.TipsReachable := by
            rw [trs1, ← ePh, ← e1, hI.tips.mem Pp hPp, eff_empty]
            exact ⟨hPRR, hc0⟩
          obtain ⟨s2, h2, es2, ts2, trs2⟩ :=
            TipReachableDel_total (by rw [trs1]; exact hI.tips.nodup) hin
          have hpre : SetStateFunctional.prevStep st x
              = .ok (s2, x.Flags ||| StateFlags.Functional ||| StateFlags.Reachable, p) := by
            unfold SetStateFunctional.prevStep
            simp only [hp, hcnt, hflg, hPR]
            rw [if_pos (by simpa using h0), bind_ok_iff]
            refine ⟨s1, h1, ?_⟩
            rw [if_pos True.intro, bind_ok_iff]
            refine ⟨s2, ?_, rfl⟩
            rw [if_pos (by simp [hc0])]
            exact h2
          obtain ⟨st4, h4, e4, t4, tr4⟩ :=
            SetFlags_after s2 (some (p, Pp.CountNextFunctional + 1))
              hL.rowid_nodup hxid (es2.trans es1)
              (x.Flags ||| StateFlags.Functional ||| StateFlags.Reachable)
          have tr : st4.TipsReachable
              = st.TipsReachable.filter (fun q => q != (heightDec x.Height, p)) := by
            rw [tr4, trs2, trs1]
          refine ⟨s2, _, p, st4, _, hpre, h4, e4, (t4.trans ts2).trans ts1, hbitsR,
            Or.inl ⟨by simp, ?_, ⟨fun h => absurd h h0,
              fun h => absurd (e1.trans h) (hL.rowid_ne_zero Pp hPp)⟩,
              fun h => parent_ne_self hL hx hPp (by rw [hp, e1]) (by rw [e1, h])⟩⟩
          refine withCascade _ _ e4 ((t4.trans ts2).trans ts1)
            (fun _ => ⟨Pp, hPp, by rw [hp, e1], hPRR⟩) hparc
            (by rw [tr]; exact hI.tips.nodup.filter _)
            (fun e he => by rw [tr] at he; exact (List.mem_filter.mp he).1) ?_ ?_
          · intro r hr h
            rw [tr, List.mem_filter]
            have := hpair r hr h
            simp [this]
          · intro r hr h
            rw [hparent r hr h, tr, List.mem_filter, ePh, e1]
            simp
        · have hpre : SetStateFunctional.prevStep st x
              = .ok (s1, x.Flags ||| StateFlags.Functional ||| StateFlags.Reachable, p) := by
            unfold SetStateFunctional.prevStep
            simp only [hp, hcnt, hflg, hPR]
            rw [if_pos (by simpa using h0), bind_ok_iff]
            refine ⟨s1, h1, ?_⟩
            rw [if_pos True.intro, bind_ok_iff]
            refine ⟨s1, ?_, rfl⟩
            rw [if_neg (by simp [hc0])]
          obtain ⟨st4, h4, e4, t4, tr4⟩ :=
            SetFlags_after s1 (some (p, Pp.CountNextFunctional + 1))
              hL.rowid_nodup hxid es1 (x.Flags ||| StateFlags.Functional ||| StateFlags.Reachable)
          have tr : st4.TipsReachable = st.TipsReachable := tr4.trans trs1
          refine ⟨s1, _, p, st4, _, hpre, h4, e4, t4.trans ts1, hbitsR,
            Or.inl ⟨by simp, ?_, ⟨fun h => absurd h h0,
              fun h => absurd (e1.trans h) (hL.rowid_ne_zero Pp hPp)⟩,
              fun h => parent_ne_self hL hx hPp (by rw [hp, e1]) (by rw [e1, h])⟩⟩
          refine withCascade _ _ e4 (t4.trans ts1)
            (fun _ => ⟨Pp, hPp, by rw [hp, e1], hPRR⟩) hparc
            (by rw [tr]; exact hI.tips.nodup) (fun e he => by rw [← tr]; exact he)
            (fun _ _ _ => by rw [tr]) ?_
          intro r hr h
          rw [hparent r hr h, tr, hI.tips.mem Pp hPp]
          rintro ⟨-, h⟩; exact hc0 h

/-- `SetStateFunctional` on a row that is not `Functional` completes, keeps the invariants, and
changes no column but `Flags` (of the row itself, and `Reachable` bits), `CountNextFunctional`
and `Mmr`. -/
theorem SetStateFunctional_total {st : NodeDB} (hI : CascInv st (fun _ => False) true)
    {x : StateRow} (hx : x ∈ st.States)
    (hF : hasFlag x.Flags StateFlags.Functional = false) {fuel : Nat} (hfuel : 2 ^ 64 ≤ fuel) :
    ∃ st1, SetStateFunctional fuel st x.rowid = .ok st1 ∧
      CascInv st1 (fun _ => False) true ∧
      RootFrame st st1 x.rowid (x.Flags ||| StateFlags.Functional) := by
  obtain ⟨st3, n, rp, st4, par, hpre, h4, e4, t4, hbits, hcase⟩ :=
    SetStateFunctional_root hI hx hF
  have hfind := findRow_of_mem hI.link.rowid_nodup hx
  have hx4 : rootMap par x.rowid n x ∈ st4.States := by
    rw [e4]; exact List.mem_map_of_mem _ hx
  have hstart : ∀ st1, (if hasFlag n StateFlags.Reachable = true then
        OnStateReachable fuel st4 x.rowid rp x.Height true else .ok st4) = .ok st1 →
      SetStateFunctional fuel st x.rowid = .ok st1 := by
    intro st1 h
    unfold SetStateFunctional
    rw [hfind]
    simp only [hF, Bool.false_eq_true, ↓reduceIte]
    rw [bind_ok_iff]
    refine ⟨(st3, n, rp), hpre, ?_⟩
    rw [bind_ok_iff]
    exact ⟨st4, h4, h⟩
  rcases hcase with ⟨hnR, hI4, hrp⟩ | ⟨hnR, hI4⟩
  · have f := rootMap_fields par x.rowid n x
    obtain ⟨st1, hok, hI1, hF1⟩ := cascade_total fuel true st4 _ rp _ hI4 hx4 f.1
      (fun _ => by rw [f.1, f.2.1]; exact hrp) (by omega)
    rw [f.1, f.2.1] at hok
    rw [f.1] at hI1
    refine ⟨st1, hstart st1 (by rw [if_pos hnR]; exact hok),
      cascInv_congr hI1 (by intro i; simp), rootFrame_of e4 t4 hF1 hbits⟩
  · refine ⟨st4, hstart st4 (by rw [hnR]; rfl), hI4,
      rootFrame_of e4 t4 (CascadeFrame.frame_refl _) hbits⟩

theorem cascInv_empty_any {st : NodeDB} {b : Bool} (hI : CascInv st (fun _ => False) b)
    (b1 : Bool) : CascInv st (fun _ => False) b1 :=
  ⟨hI.link, hI.noWrap, flagsInvP_empty_any hI.flags b1, hI.countF, hI.tips⟩

/-- The first half of `SetStateNotFunctional` on a `Functional` row: it completes, and the
invariants hold afterwards, with the row pending when it was `Reachable`. -/
theorem SetStateNotFunctional_root {st : NodeDB} (hI : CascInv st (fun _ => False) true)
    {x : StateRow} (hx : x ∈ st.States)
    (hF : hasFlag x.Flags StateFlags.Functional = true) :
    ∃ st3 rp st4 par, SetStateNotFunctional.prevStep st x = .ok (st3, rp) ∧
      SetFlags st3 x.rowid (SetStateNotFunctional.newFlags x.Flags) = .ok st4 ∧
      st4.States = st.States.map
        (rootMap par x.rowid (SetStateNotFunctional.newFlags x.Flags)) ∧
      st4.Tips = st.Tips ∧
      ((hasFlag x.Flags StateFlags.Reachable = true
          ∧ CascInv st4 (fun i => i = x.rowid) false) ∨
        (hasFlag x.Flags StateFlags.Reachable = false
          ∧ CascInv st4 (fun _ => False) true)) := by
  have hL := hI.link
  have hxid : x.rowid ∈ st.States.map (fun r => r.rowid) := List.mem_map_of_mem _ hx
  have hnR := newFlags_R x.Flags
  have hnF := newFlags_F x.Flags
  have hbR : hasFlag (x.Flags &&& notU32 StateFlags.Functional) StateFlags.Reachable
      = hasFlag x.Flags StateFlags.Reachable := by simp
  -- the invariants, from what the first half did to `TipsReachable`
  have close : ∀ (st4 : NodeDB) (par : Option (Nat × Nat)),
      st4.States = st.States.map
        (rootMap par x.rowid (SetStateNotFunctional.newFlags x.Flags)) →
      st4.Tips = st.Tips → parentCounter st x par →
      st4.TipsReachable.Nodup →
      (∀ e ∈ st4.TipsReachable,
        e ∈ st.TipsReachable ∨ ∃ r ∈ st.States, e = (r.Height, r.rowid)) →
      (∀ r ∈ st.States, x.RowPrev ≠ some r.rowid →
        ((r.Height, r.rowid) ∈ st4.TipsReachable ↔ (r.Height, r.rowid) ∈ st.TipsReachable)) →
      (∀ r ∈ st.States, x.RowPrev = some r.rowid →
        ((r.Height, r.rowid) ∈ st4.TipsReachable ↔
          RowReachable r ∧ r.CountNextFunctional - 1 = 0)) →
      ((hasFlag x.Flags StateFlags.Reachable = true
          ∧ CascInv st4 (fun i => i = x.rowid) false) ∨
        (hasFlag x.Flags StateFlags.Reachable = false
          ∧ CascInv st4 (fun _ => False) true)) := by
    intro st4 par e4 t4 hparc hN hsub hmem hparT
    have hparT1 : ∀ r ∈ st.States, x.RowPrev = some r.rowid →
        ((r.Height, r.rowid) ∈ st4.TipsReachable ↔ RowReachable r ∧
          (if hasFlag x.Flags StateFlags.Functional then r.CountNextFunctional - 1
            else r.CountNextFunctional + 1) = 0) := by
      intro r hr h
      rw [hF, if_pos rfl]
      exact hparT r hr h
    cases hR : hasFlag x.Flags StateFlags.Reachable with
    | true =>
      refine Or.inl ⟨rfl, ?_⟩
      refine cascInv_root hI hx e4 t4 (fun i h => h) ?_ (fun _ => hnR) ?_ ?_ ?_ hparc hN hsub
        hmem hparT1
      · rw [hnR]
        unfold RowReachable
        constructor
        · intro _; exact hR
        · intro _; left; exact ⟨rfl, by simp⟩
      · intro _
        rw [hnR, hnF]
        constructor
        · intro h; cases h
        · rintro ⟨h, -⟩; cases h
      · intro _; rw [hnR, hnF]
      · rw [hnF, hF]; rfl
    | false =>
      refine Or.inr ⟨rfl, ?_⟩
      refine cascInv_root hI hx e4 t4 (fun i h => absurd h id) ?_ (fun h => absurd h id) ?_ ?_
        ?_ hparc hN hsub hmem hparT1
      · rw [hnR]
        unfold RowReachable
        rw [hR]
        constructor
        · rintro (⟨h, -⟩ | ⟨-, h⟩)
          · exact absurd h id
          · cases h
        · intro h; cases h
      · intro _
        rw [hnR, hnF]
        constructor
        · intro h; cases h
        · rintro ⟨h, -⟩; cases h
      · intro _; rw [hnR, hnF]
      · rw [hnF, hF]; rfl
  by_cases h0 : x.Height = 0
  · -- a row at height 0
    have hnone := hI.noWrap x hx h0
    have hR : hasFlag x.Flags StateFlags.Reachable = true :=
      (hI.flags.zero x hx h0).mpr hF
    have hpre : SetStateNotFunctional.prevStep st x = .ok (st, 0) := by
      unfold SetStateNotFunctional.prevStep
      simp [h0, hnone, hR]
    obtain ⟨st4, h4, e4, t4, tr4⟩ :=
      SetFlags_after st none
        hL.rowid_nodup hxid (by simp) (SetStateNotFunctional.newFlags x.Flags)
    refine ⟨st, 0, st4, none, hpre, h4, e4, t4, ?_⟩
    refine close st4 none e4 t4 hnone (by rw [tr4]; exact hI.tips.nodup)
      (fun e he => Or.inl (by rw [← tr4]; exact he)) (fun _ _ _ => by rw [tr4]) ?_
    intro r _ h; rw [hnone] at h; cases h
  · cases hp : x.RowPrev with
    | none =>
      -- an orphan
      have hR : hasFlag x.Flags StateFlags.Reachable = false := by
        cases hR : hasFlag x.Flags StateFlags.Reachable with
        | false => rfl
        | true =>
          obtain ⟨-, p, -, e, -⟩ := (hI.flags.up x hx h0).mp hR
          rw [hp] at e; cases e
      have hpre : SetStateNotFunctional.prevStep st x = .ok (st, 0) := by
        unfold SetStateNotFunctional.prevStep
        simp [h0, hp, hR]
      obtain ⟨st4, h4, e4, t4, tr4⟩ :=
        SetFlags_after st none
          hL.rowid_nodup hxid (by simp) (SetStateNotFunctional.newFlags x.Flags)
      refine ⟨st, 0, st4, none, hpre, h4, e4, t4, ?_⟩
      refine close st4 none e4 t4 hp (by rw [tr4]; exact hI.tips.nodup)
        (fun e he => Or.inl (by rw [← tr4]; exact he)) (fun _ _ _ => by rw [tr4]) ?_
      intro r _ h; rw [hp] at h; cases h
    | some p =>
      obtain ⟨Pp, hPp, e1, ePh, hprv⟩ := prvRow_of_link hL hx hp
      have hpid : p ∈ st.States.map (fun r => r.rowid) := e1 ▸ List.mem_map_of_mem _ hPp
      have hcnt := prvCountNextF_eq hprv
      -- the parent counts the row
      have hcpos : Pp.CountNextFunctional ≠ 0 := by
        rw [hI.countF Pp hPp]
        intro h
        rw [List.countP_eq_zero] at h
        apply h x hx
        simp [hp, e1, hF]
      obtain ⟨s1, h1, es1, ts1, trs1⟩ :=
        SetNextCountFunctional_total hL.rowid_nodup hpid (Pp.CountNextFunctional - 1)
      have hparc : parentCounter st x (some (p, Pp.CountNextFunctional - 1)) :=
        ⟨hp, Pp, hPp, e1, by rw [hF]; rfl⟩
      have hparent : ∀ r ∈ st.States, x.RowPrev = some r.rowid → r = Pp := by
        intro r hr h
        rw [hp] at h
        injection h with h
        exact eq_of_rowid_eq hL.rowid_nodup hr hPp (by rw [← h, e1])
      have hpair : ∀ r ∈ st.States, x.RowPrev ≠ some r.rowid →
          (r.Height, r.rowid) ≠ (heightDec x.Height, p) := by
        intro r _ h e
        injection e with _ e
        exact h (by rw [hp, e])
      have hnotin : (heightDec x.Height, p) ∉ st.TipsReachable := by
        rw [← ePh, ← e1, hI.tips.mem Pp hPp]
        rintro ⟨-, h⟩; exact hcpos h
      -- the parent is reachable iff the row is
      have hPR : RowReachable Pp ↔ hasFlag x.Flags StateFlags.Reachable = true := by
        have hup := hI.flags.up x hx h0
        unfold RowReachable at hup
        rw [hup]
        constructor
        · intro h; exact ⟨hF, Pp, hPp, by rw [hp, e1], (eff_empty Pp).mpr h⟩
        · rintro ⟨-, q, hq, e, h⟩
          rw [hparent q hq e] at h
          exact (eff_empty Pp).mp h
      by_cases hadd : Pp.CountNextFunctional - 1 = 0
          ∧ hasFlag x.Flags StateFlags.Reachable = true
      · obtain ⟨s2, h2, es2, ts2, trs2⟩ :=
          TipReachableAdd_total
            (show (heightDec x.Height, p) ∉ s1.TipsReachable by rw [trs1]; exact hnotin)
        have hpre : SetStateNotFunctional.prevStep st x = .ok (s2, p) := by
          unfold SetStateNotFunctional.prevStep
          simp only [hp, hcnt, hbR]
          rw [if_pos (by simpa using h0), if_neg (by simpa using hcpos), bind_ok_iff]
          refine ⟨s1, h1, ?_⟩
          rw [bind_ok_iff]
          refine ⟨s2, ?_, rfl⟩
          rw [if_pos (by simp [hadd.1, hadd.2])]
          exact h2
        obtain ⟨st4, h4, e4, t4, tr4⟩ :=
          SetFlags_after s2 (some (p, Pp.CountNextFunctional - 1))
            hL.rowid_nodup hxid (es2.trans es1) (SetStateNotFunctional.newFlags x.Flags)
        have tr : st4.TipsReachable = st.TipsReachable ++ [(heightDec x.Height, p)] := by
          rw [tr4, trs2, trs1]
        refine ⟨s2, p, st4, _, hpre, h4, e4, (t4.trans ts2).trans ts1, ?_⟩
        refine close st4 _ e4 ((t4.trans ts2).trans ts1) hparc ?_ ?_ ?_ ?_
        · rw [tr, List.nodup_append]
          refine ⟨hI.tips.nodup, List.nodup_singleton _, ?_⟩
          intro a ha hb
          rw [List.mem_singleton] at hb
          subst hb
          exact hnotin ha
        · intro e he
          rw [tr] at he
          simp only [List.mem_append, List.mem_singleton] at he
          rcases he with h | h
          · exact Or.inl h
          · exact Or.inr ⟨Pp, hPp, by rw [h, ePh, e1]⟩
        · intro r hr h
          rw [tr]
          have := hpair r hr h
          simp [this]
        · intro r hr h
          rw [hparent r hr h, tr, ePh, e1]
          simp only [List.mem_append, List.mem_singleton, or_true, true_iff]
          exact ⟨hPR.mpr hadd.2, hadd.1⟩
      · have hpre : SetStateNotFunctional.prevStep st x = .ok (s1, p) := by
          unfold SetStateNotFunctional.prevStep
          simp only [hp, hcnt, hbR]
          rw [if_pos (by simpa using h0), if_neg (by simpa using hcpos), bind_ok_iff]
          refine ⟨s1, h1, ?_⟩
          rw [bind_ok_iff]
          refine ⟨s1, ?_, rfl⟩
          rw [if_neg (by simpa using hadd)]
        obtain ⟨st4, h4, e4, t4, tr4⟩ :=
          SetFlags_after s1 (some (p, Pp.CountNextFunctional - 1))
            hL.rowid_nodup hxid es1 (SetStateNotFunctional.newFlags x.Flags)
        have tr : st4.TipsReachable = st.TipsReachable := tr4.trans trs1
        refine ⟨s1, p, st4, _, hpre, h4, e4, t4.trans ts1, ?_⟩
        refine close st4 _ e4 (t4.trans ts1) hparc (by rw [tr]; exact hI.tips.nodup)
          (fun e he => Or.inl (by rw [← tr]; exact he)) (fun _ _ _ => by rw [tr]) ?_
        intro r hr h
        rw [hparent r hr h, tr, hI.tips.mem Pp hPp, eff_empty]
        constructor
        · rintro ⟨-, h⟩; exact absurd h hcpos
        · rintro ⟨h1, h2⟩; exact absurd ⟨h2, hPR.mp h1⟩ hadd

/-- `SetStateNotFunctional` on a `Functional` row completes, keeps the invariants, and changes
no column but `Flags` (of the row itself, and `Reachable` bits) and `CountNextFunctional`. -/
theorem SetStateNotFunctional_total {st : NodeDB} (hI : CascInv st (fun _ => False) true)
    {x : StateRow} (hx : x ∈ st.States)
    (hF : hasFlag x.Flags StateFlags.Functional = true) {fuel : Nat} (hfuel : 2 ^ 64 ≤ fuel) :
    ∃ st1, SetStateNotFunctional fuel st x.rowid = .ok st1 ∧
      CascInv st1 (fun _ => False) true ∧
      RootFrame st st1 x.rowid (SetStateNotFunctional.newFlags x.Flags) := by
  obtain ⟨st3, rp, st4, par, hpre, h4, e4, t4, hcase⟩ := SetStateNotFunctional_root hI hx hF
  have hfind := findRow_of_mem hI.link.rowid_nodup hx
  have hbR : hasFlag (x.Flags &&& notU32 StateFlags.Functional) StateFlags.Reachable
      = hasFlag x.Flags StateFlags.Reachable := by simp
  have hx4 : rootMap par x.rowid (SetStateNotFunctional.newFlags x.Flags) x ∈ st4.States := by
    rw [e4]; exact List.mem_map_of_mem _ hx
  have hstart : ∀ st1, (if hasFlag x.Flags StateFlags.Reachable = true then
        OnStateReachable fuel st4 x.rowid rp x.Height false else .ok st4) = .ok st1 →
      SetStateNotFunctional fuel st x.rowid = .ok st1 := by
    intro st1 h
    unfold SetStateNotFunctional
    rw [hfind]
    simp only [hF, Bool.not_true, Bool.false_eq_true, ↓reduceIte, hbR]
    rw [bind_ok_iff]
    refine ⟨(st3, rp), hpre, ?_⟩
    rw [bind_ok_iff]
    exact ⟨st4, h4, h⟩
  rcases hcase with ⟨hR, hI4⟩ | ⟨hR, hI4⟩
  · have f := rootMap_fields par x.rowid (SetStateNotFunctional.newFlags x.Flags) x
    obtain ⟨st1, hok, hI1, hF1⟩ := cascade_total fuel false st4 _ rp _ hI4 hx4 f.1
      (fun h => by cases h) (by omega)
    rw [f.1, f.2.1] at hok
    rw [f.1] at hI1
    refine ⟨st1, hstart st1 (by rw [if_pos hR]; exact hok),
      cascInv_empty_any (cascInv_congr hI1 (by intro i; simp)) true,
      rootFrame_of e4 t4 hF1 (fun _ _ => rfl)⟩
  · refine ⟨st4, hstart st4 (by rw [hR]; rfl), hI4,
      rootFrame_of e4 t4 (CascadeFrame.frame_refl _) (fun _ _ => rfl)⟩

theorem testBit_notU32 (m j : Nat) :
    (notU32 m).testBit j = (decide (j < 32) ^^ m.testBit j) := by
  unfold notU32
  rw [Nat.testBit_xor, Nat.testBit_two_pow_sub_one]

theorem testBit_newFlags (f : Nat) {j : Nat} (hj : j ≠ 1) :
    (SetStateNotFunctional.newFlags f).testBit j
      = (f.testBit j && decide (j ≠ 0) && decide (j < 32)) := by
  unfold SetStateNotFunctional.newFlags
  simp only
  split
  · rw [Nat.testBit_and, Nat.testBit_and, testBit_notU32, testBit_notU32, testBit_Functional,
      testBit_Reachable]
    by_cases h0 : j = 0 <;> by_cases h32 : j < 32 <;> simp [hj, h0, h32]
  · rw [Nat.testBit_and, testBit_notU32, testBit_Functional]
    by_cases h0 : j = 0 <;> by_cases h32 : j < 32 <;> simp [h0, h32]

/-- Two stores with the same rows up to `Reachable`, `CountNextFunctional` and `Mmr` that both
satisfy the invariants have the same flags and counters: the `Reachable` bits and the counters
are determined by the rest. -/
theorem flags_determined {st st2 : NodeDB} (hI : CascInv st (fun _ => False) true)
    (hI2 : CascInv st2 (fun _ => False) true) {ψ : StateRow → StateRow}
    (e : st2.States = st.States.map ψ)
    (hψ : ∀ r ∈ st.States, skeleton (ψ r) = skeleton r ∧
      ∀ j, j ≠ 1 → (ψ r).Flags.testBit j = r.Flags.testBit j) :
    ∀ r ∈ st.States, (ψ r).Flags = r.Flags
      ∧ (ψ r).CountNextFunctional = r.CountNextFunctional := by
  have hm : ∀ r ∈ st.States, ψ r ∈ st2.States := by
    intro r hr; rw [e]; exact List.mem_map_of_mem _ hr
  have hFb : ∀ r ∈ st.States, (RowFunctional (ψ r) ↔ RowFunctional r) := by
    intro r hr
    unfold RowFunctional
    rw [hasFlag_F_testBit, hasFlag_F_testBit, (hψ r hr).2 0 (by decide)]
  have hR : ∀ n, ∀ r ∈ st.States, r.Height = n → (RowReachable (ψ r) ↔ RowReachable r) := by
    intro n
    induction n with
    | zero =>
      intro r hr h0
      have f := skeleton_fields (hψ r hr).1
      rw [hI.flags.zero r hr h0, hI2.flags.zero (ψ r) (hm r hr) (by rw [f.2.1]; exact h0)]
      exact hFb r hr
    | succ n ih =>
      intro r hr hn
      have f := skeleton_fields (hψ r hr).1
      have hne : r.Height ≠ 0 := by omega
      rw [hI.flags.up r hr hne, hI2.flags.up (ψ r) (hm r hr) (by rw [f.2.1]; exact hne),
        hFb r hr]
      have hlt := hI.link.height_lt r hr
      have hpar : ∀ p ∈ st.States, r.RowPrev = some p.rowid → p.Height = n := by
        intro p hp hrp
        obtain ⟨P, hP, e1, e2⟩ := hI.link.link r hr p.rowid hrp
        have : P = p := eq_of_rowid_eq hI.link.rowid_nodup hP hp e1
        subst this
        rw [e2, hn]
        exact heightDec_succ (by rw [← hn]; exact hlt)
      constructor
      · rintro ⟨hF, p2, hp2, e1, e2⟩
        rw [e] at hp2
        obtain ⟨p, hp, rfl⟩ := List.mem_map.mp hp2
        have fp := skeleton_fields (hψ p hp).1
        rw [f.2.2.2.2.1, fp.1] at e1
        refine ⟨hF, p, hp, e1, ?_⟩
        rw [eff_empty] at e2 ⊢
        exact (ih p hp (hpar p hp e1)).mp e2
      · rintro ⟨hF, p, hp, e1, e2⟩
        have fp := skeleton_fields (hψ p hp).1
        refine ⟨hF, ψ p, hm p hp, by rw [f.2.2.2.2.1, fp.1]; exact e1, ?_⟩
        rw [eff_empty] at e2 ⊢
        exact (ih p hp (hpar p hp e1)).mpr e2
  have hFlags : ∀ r ∈ st.States, (ψ r).Flags = r.Flags := by
    intro r hr
    apply Nat.eq_of_testBit_eq
    intro j
    by_cases hj : j = 1
    · subst hj
      have := hR r.Height r hr rfl
      unfold RowReachable at this
      rw [hasFlag_R_testBit, hasFlag_R_testBit] at this
      cases h1 : (ψ r).Flags.testBit 1 <;> cases h2 : r.Flags.testBit 1 <;> simp_all
    · exact (hψ r hr).2 j hj
  intro r hr
  refine ⟨hFlags r hr, ?_⟩
  have f := skeleton_fields (hψ r hr).1
  rw [hI2.countF (ψ r) (hm r hr), hI.countF r hr, e, List.countP_map, f.1]
  apply List.countP_congr
  intro c hc
  simp only [Function.comp]
  rw [(skeleton_fields (hψ c hc).1).2.2.2.2.1, hFlags c hc]

/-- The table `TipsReachable` is determined by the rows. -/
theorem tipsReachable_determined {st st2 : NodeDB} (hI : CascInv st (fun _ => False) true)
    (hI2 : CascInv st2 (fun _ => False) true) {ψ : StateRow → StateRow}
    (e : st2.States = st.States.map ψ)
    (hψ : ∀ r ∈ st.States, skeleton (ψ r) = skeleton r ∧ (ψ r).Flags = r.Flags
      ∧ (ψ r).CountNextFunctional = r.CountNextFunctional) :
    st2.TipsReachable.Perm st.TipsReachable := by
  rw [List.perm_ext_iff_of_nodup hI2.tips.nodup hI.tips.nodup]
  have hm : ∀ r ∈ st.States, ψ r ∈ st2.States := by
    intro r hr; rw [e]; exact List.mem_map_of_mem _ hr
  have key : ∀ r ∈ st.States, ((r.Height, r.rowid) ∈ st2.TipsReachable ↔
      (r.Height, r.rowid) ∈ st.TipsReachable) := by
    intro r hr
    have f := skeleton_fields (hψ r hr).1
    have := hI2.tips.mem (ψ r) (hm r hr)
    rw [f.1, f.2.1] at this
    rw [this, hI.tips.mem r hr, (hψ r hr).2.2,
      @eff_congr (fun _ => False) (fun _ => False) _ _ Iff.rfl (hψ r hr).2.1]
  intro a
  constructor
  · intro ha
    obtain ⟨r2, hr2, rfl⟩ := hI2.tips.rows a ha
    rw [e] at hr2
    obtain ⟨r, hr, rfl⟩ := List.mem_map.mp hr2
    have f := skeleton_fields (hψ r hr).1
    rw [f.1, f.2.1] at ha ⊢
    exact (key r hr).mp ha
  · intro ha
    obtain ⟨r, hr, rfl⟩ := hI.tips.rows a ha
    exact (key r hr).mpr ha

/-- On a store that satisfies the graph invariants, `SetStateFunctional` on a row that is not
`Functional` followed by `SetStateNotFunctional` on the same row: both calls complete, and the
columns `Flags`, `CountNext`, `CountNextFunctional` and the two tip tables are as before. -/
theorem setFunctional_roundTrip {st : NodeDB} (hG : GraphInv st) {x : StateRow} (hx : x ∈ st.States)
    (hF : hasFlag x.Flags StateFlags.Functional = false) {fuel : Nat} (hfuel : 2 ^ 64 ≤ fuel) :
    ∃ st1 st2, SetStateFunctional fuel st x.rowid = .ok st1 ∧
      SetStateNotFunctional fuel st1 x.rowid = .ok st2 ∧
      st2.States.map flagCols = st.States.map flagCols ∧
      st2.Tips = st.Tips ∧ st2.TipsReachable.Perm st.TipsReachable := by
  have hI := graphInv_cascInv hG
  obtain ⟨st1, hok1, hI1, ⟨ψ1, e1, p1⟩, t1⟩ := SetStateFunctional_total hI hx hF hfuel
  have hx1 : ψ1 x ∈ st1.States := by rw [e1]; exact List.mem_map_of_mem _ hx
  have fx := skeleton_fields (p1 x).1
  have hbit1 : ∀ j, j ≠ 1 →
      (ψ1 x).Flags.testBit j = (x.Flags ||| StateFlags.Functional).testBit j := by
    intro j hj
    rw [(p1 x).2 j hj, if_pos rfl]
  have hF1 : hasFlag (ψ1 x).Flags StateFlags.Functional = true := by
    rw [hasFlag_F_testBit, hbit1 0 (by decide), Nat.testBit_or, testBit_Functional]
    simp
  obtain ⟨st2, hok2, hI2, ⟨ψ2, e2, p2⟩, t2⟩ := SetStateNotFunctional_total hI1 hx1 hF1 hfuel
  rw [fx.1] at hok2 p2
  have hxlt := hG.flags_lt x hx
  have hx0 : x.Flags.testBit 0 = false := by
    rw [← hasFlag_F_testBit]; exact hF
  have e : st2.States = st.States.map (ψ2 ∘ ψ1) := by rw [e2, e1, List.map_map]
  have hψ : ∀ r ∈ st.States, skeleton ((ψ2 ∘ ψ1) r) = skeleton r ∧
      ∀ j, j ≠ 1 → ((ψ2 ∘ ψ1) r).Flags.testBit j = r.Flags.testBit j := by
    intro r hr
    have fr := skeleton_fields (p1 r).1
    refine ⟨(p2 _).1.trans (p1 r).1, ?_⟩
    intro j hj
    simp only [Function.comp]
    rw [(p2 _).2 j hj, fr.1]
    by_cases hrx : r.rowid = x.rowid
    · have : r = x := eq_of_rowid_eq hG.rowid_nodup hr hx hrx
      subst this
      rw [if_pos rfl, testBit_newFlags _ hj, hbit1 j hj, Nat.testBit_or, testBit_Functional]
      by_cases h0 : j = 0
      · subst h0; simp [hx0]
      · by_cases h32 : j < 32
        · simp [h0, h32]
        · have : r.Flags.testBit j = false := by
            apply Nat.testBit_eq_false_of_lt
            calc r.Flags < 2 ^ 32 := hxlt
              _ ≤ 2 ^ j := Nat.pow_le_pow_right (by decide) (by omega)
          simp [h0, h32, this]
    · rw [if_neg hrx, (p1 r).2 j hj, if_neg hrx]
  have hdet := flags_determined hI hI2 e hψ
  refine ⟨st1, st2, hok1, hok2, ?_, t2.trans t1, ?_⟩
  · rw [e, List.map_map]
    apply List.map_congr_left
    intro r hr
    have f := skeleton_fields (hψ r hr).1
    simp only [Function.comp] at f hdet ⊢
    unfold flagCols
    rw [f.1, (hdet r hr).1, f.2.2.2.2.2, (hdet r hr).2]
  · exact tipsReachable_determined hI hI2 e
      (fun r hr => ⟨(hψ r hr).1, (hdet r hr).1, (hdet r hr).2⟩)

theorem graphInv_exChildFunctional : GraphInv exChildFunctional := by
  have hnoR : ∀ r ∈ exChildFunctional.States, ¬RowReachable r := by
    unfold RowReachable; decide
  constructor
  · decide
  · decide
  · decide
  · decide
  · decide
  · intro c hc p
    simp only [exChildFunctional, exStore, exRow, List.mem_cons, List.mem_singleton,
      List.not_mem_nil, or_false] at hc
    rcases hc with rfl | rfl
    · simp [exChildFunctional, exStore, exRow]
    · simp [exChildFunctional, exStore, exRow]
  · decide
  · unfold RowReachable RowFunctional; decide
  · intro h row
    constructor
    · intro hm
      simp [exChildFunctional, exStore] at hm
    · rintro ⟨r, hr, -, -, hR, -⟩
      exact absurd hR (hnoR r hr)

/-! ## Single operations: parameters, lookups, refusals, frames -/

/-! ## Parameter store -/

theorem ParamIntSet_total (st : NodeDB) (ID val : Nat) :
    ∃ st1, ParamIntSet st ID val = .ok st1 ∧ st1.States = st.States ∧ st1.Tips = st.Tips
      ∧ st1.TipsReachable = st.TipsReachable ∧ st1.Spendable = st.Spendable := by
  unfold ParamIntSet
  split
  · exact ⟨_, rfl, rfl, rfl, rfl, rfl⟩
  · exact ⟨_, rfl, rfl, rfl, rfl, rfl⟩

theorem filter_length_eq_zero_iff {α : Type} (l : List α) (p : α → Bool) :
    (l.filter p).length = 0 ↔ ∀ a ∈ l, p a = false := by
  rw [List.length_eq_zero, List.filter_eq_nil_iff]
  constructor
  · intro h a ha
    have := h a ha
    simpa using this
  · intro h a ha
    rw [h a ha]; simp

theorem ParamIntGet_set_same {st st1 : NodeDB} {ID val : Nat}
    (hok : ParamIntSet st ID val = .ok st1) : ParamIntGet st1 ID = some val := by
  unfold ParamIntSet at hok
  unfold ParamIntGet
  split at hok
  · rename_i hne
    injection hok with hok; subst hok
    simp only
    rw [List.find?_map]
    have hcomp : ((fun p : ParamRow => p.ID == ID) ∘ fun p : ParamRow =>
        if (p.ID == ID) = true then { p with ParamInt := some val } else p)
        = fun p => p.ID == ID := by
      funext p
      simp only [Function.comp]
      split <;> rfl
    rw [hcomp]
    cases hf : st.Params.find? (fun p => p.ID == ID) with
    | none =>
      exfalso
      apply hne
      rw [filter_length_eq_zero_iff]
      intro a ha
      have := List.find?_eq_none.mp hf a ha
      simpa using this
    | some p =>
      have hp := List.find?_some hf
      simp only [Option.map_some', hp, ↓reduceIte, Option.getD_some]
  · rename_i hne
    injection hok with hok; subst hok
    simp only
    have h0 : (st.Params.filter (fun p => p.ID == ID)).length = 0 := by
      simpa using hne
    rw [filter_length_eq_zero_iff] at h0
    have hnone : st.Params.find? (fun p => p.ID == ID) = none := by
      rw [List.find?_eq_none]
      intro a ha
      rw [h0 a ha]; simp
    rw [List.find?_append, hnone]
    simp

theorem ParamIntGet_set_other {st st1 : NodeDB} {ID val : Nat}
    (hok : ParamIntSet st ID val = .ok st1) {ID1 : Nat} (hne : ID1 ≠ ID) :
    ParamIntGet st1 ID1 = ParamIntGet st ID1 := by
  unfold ParamIntSet at hok
  unfold ParamIntGet
  split at hok
  · injection hok with hok; subst hok
    simp only
    rw [List.find?_map]
    have hcomp : ((fun p : ParamRow => p.ID == ID1) ∘ fun p : ParamRow =>
        if (p.ID == ID) = true then { p with ParamInt := some val } else p)
        = fun p => p.ID == ID1 := by
      funext p
      simp only [Function.comp]
      split <;> rfl
    rw [hcomp]
    cases hf : st.Params.find? (fun p => p.ID == ID1) with
    | none => rfl
    | some p =>
      have hp := List.find?_some hf
      simp only [beq_iff_eq] at hp
      have : ¬ (p.ID = ID) := fun e => hne (hp ▸ e)
      simp [this]
  · injection hok with hok; subst hok
    simp only
    rw [List.find?_append]
    cases hf : st.Params.find? (fun p => p.ID == ID1) with
    | none =>
      have : ¬ (ID = ID1) := fun e => hne e.symm
      simp [this]
    | some p => simp

theorem ParamIntSet_ids {st st1 : NodeDB} {ID val : Nat}
    (hok : ParamIntSet st ID val = .ok st1)
    (hnd : (st.Params.map (fun p => p.ID)).Nodup) :
    (st1.Params.map (fun p => p.ID)).Nodup ∧ ID ∈ st1.Params.map (fun p => p.ID) := by
  unfold ParamIntSet at hok
  split at hok
  · rename_i hne
    injection hok with hok; subst hok
    simp only
    have hids : (st.Params.map (fun p : ParamRow =>
        if (p.ID == ID) = true then { p with ParamInt := some val } else p)).map (fun p => p.ID)
        = st.Params.map (fun p => p.ID) := by
      rw [List.map_map]
      apply List.map_congr_left
      intro p _
      simp only [Function.comp]
      split <;> rfl
    rw [hids]
    refine ⟨hnd, ?_⟩
    by_contra hcon
    apply hne
    rw [filter_length_eq_zero_iff]
    intro a ha
    have : a.ID ≠ ID := fun e => hcon (e ▸ List.mem_map_of_mem _ ha)
    simpa using this
  · rename_i hne
    injection hok with hok; subst hok
    simp only
    have h0 : (st.Params.filter (fun p => p.ID == ID)).length = 0 := by
      simpa using hne
    rw [filter_length_eq_zero_iff] at h0
    rw [List.map_append]
    refine ⟨?_, by simp⟩
    rw [List.nodup_append]
    refine ⟨hnd, List.nodup_singleton _, ?_⟩
    intro a ha hb
    simp only [List.map_cons, List.map_nil, List.mem_singleton] at hb
    subst hb
    obtain ⟨p, hp, e⟩ := List.mem_map.mp ha
    have := h0 p hp
    simp [e] at this

theorem ParamIntGet_none_iff (st : NodeDB) (ID : Nat) :
    ParamIntGet st ID = none ↔ ID ∉ st.Params.map (fun p => p.ID) := by
  unfold ParamIntGet
  cases hf : st.Params.find? (fun p => p.ID == ID) with
  | none =>
    simp only [true_iff]
    intro hin
    obtain ⟨p, hp, e⟩ := List.mem_map.mp hin
    have := List.find?_eq_none.mp hf p hp
    simp [e] at this
  | some p =>
    have h1 := List.mem_of_find?_eq_some hf
    have h2 := List.find?_some hf
    simp only [beq_iff_eq] at h2
    have hin : ID ∈ st.Params.map (fun p => p.ID) := h2 ▸ List.mem_map_of_mem _ h1
    constructor
    · intro h; cases h
    · intro hn; exact absurd hin hn

theorem ParamIntGetDef_eq (st : NodeDB) (ID d : Nat) :
    (ID ∉ st.Params.map (fun p => p.ID) → ParamIntGetDef st ID d = d) ∧
    (∀ w, ParamIntGet st ID = some w → ParamIntGetDef st ID d = w) := by
  unfold ParamIntGetDef
  constructor
  · intro h
    rw [(ParamIntGet_none_iff st ID).mpr h]; rfl
  · intro w h
    rw [h]; rfl

theorem hdr_fields {r1 r : StateRow} (h : hdr r1 = hdr r) :
    r1.rowid = r.rowid ∧ r1.Height = r.Height ∧ r1.Hash = r.Hash ∧ r1.HashPrev = r.HashPrev
      ∧ r1.Difficulty = r.Difficulty ∧ r1.Timestamp = r.Timestamp
      ∧ r1.LiveObjects = r.LiveObjects ∧ r1.History = r.History := by
  unfold hdr at h
  simp only [Prod.mk.injEq] at h
  exact h

theorem findKey_map {st st1 : NodeDB} {f : StateRow → StateRow}
    (e : st1.States = st.States.map f) (hf : ∀ r, hdr (f r) = hdr r) (h : Nat)
    (hash : MerkleHash) : findKey st1 h hash = (findKey st h hash).map f := by
  unfold findKey
  rw [e, List.find?_map]
  congr 2
  funext r
  have k := hdr_fields (hf r)
  simp only [Function.comp, k.2.1, k.2.2.1]

theorem findRow_map {st st1 : NodeDB} {f : StateRow → StateRow}
    (e : st1.States = st.States.map f) (hf : ∀ r, (f r).rowid = r.rowid) (rowid : Nat) :
    findRow st1 rowid = (findRow st rowid).map f := by
  unfold findRow
  rw [e, List.find?_map]
  congr 2
  funext r
  simp only [Function.comp, hf r]

theorem hdrMap_refl (st : NodeDB) : HdrMap st st :=
  ⟨id, by rw [List.map_id], fun _ => rfl⟩

theorem hdrMap_trans {a b c : NodeDB} (h1 : HdrMap a b) (h2 : HdrMap b c) : HdrMap a c := by
  obtain ⟨f, e1, hf⟩ := h1
  obtain ⟨g, e2, hg⟩ := h2
  exact ⟨g ∘ f, by rw [e2, e1, List.map_map], fun r => (hg (f r)).trans (hf r)⟩

theorem hdrMap_updateRow {st st1 : NodeDB} {rowid : Nat} {f : StateRow → StateRow}
    (h : updateRow st rowid f = .ok st1) (hf : ∀ r, hdr (f r) = hdr r) : HdrMap st st1 := by
  obtain ⟨-, rfl⟩ := updateRow_ok h
  refine ⟨_, rfl, ?_⟩
  intro r
  split
  · exact hf r
  · rfl

theorem hdrMap_InsertState_prevStep {st1 st3 : NodeDB} {prev : Option StateRow} {h : Nat}
    (hok : InsertState.prevStep st1 prev h = .ok st3) : HdrMap st1 st3 := by
  unfold InsertState.prevStep at hok
  simp only at hok
  split at hok
  · rw [bind_ok_iff] at hok
    obtain ⟨st2, h2, hok⟩ := hok
    have k2 : HdrMap st1 st2 := hdrMap_updateRow h2 (fun _ => rfl)
    split at hok
    · obtain ⟨-, rfl⟩ := TipDel_ok hok
      exact k2
    · injection hok with hok; subst hok; exact k2
  · injection hok with hok; subst hok; exact hdrMap_refl _

theorem hdrMap_InsertState_adoptStep {st3 st5 : NodeDB} {rowid h : Nat} {hash : MerkleHash}
    (hok : InsertState.adoptStep st3 rowid h hash = .ok st5) : HdrMap st3 st5 := by
  unfold InsertState.adoptStep at hok
  simp only at hok
  have k4 : HdrMap st3
      { st3 with
        States := st3.States.map
          (fun r => if isNextOf h hash r then { r with RowPrev := some rowid } else r) } := by
    refine ⟨_, rfl, ?_⟩
    intro r
    split <;> rfl
  split at hok
  · exact hdrMap_trans k4 (hdrMap_updateRow hok (fun _ => rfl))
  · obtain ⟨-, rfl⟩ := TipAdd_ok hok
    exact k4

/-- What a completed `InsertState` leaves, in any store: the new row is found under its key and
under the identifier returned, with the header it was given. -/
theorem InsertState_post {st st1 : NodeDB} {s : Full} {rowid : Nat}
    (hok : InsertState st s = .ok (st1, rowid)) :
    rowid ≠ 0 ∧ StateFindSafe st1 s.m_Height s.hash = rowid ∧
    get_State st1 rowid = .ok (s.m_Height, s.m_Prev, s.m_Difficulty, s.m_TimeStamp,
      s.m_LiveObjects, s.m_History) := by
  obtain ⟨hkey, rfl, st3, h3, h5⟩ := InsertState_inv hok
  obtain ⟨f, e, hf⟩ := hdrMap_trans (hdrMap_InsertState_prevStep h3)
    (hdrMap_InsertState_adoptStep h5)
  have hid : ∀ r, (f r).rowid = r.rowid := fun r => (hdr_fields (hf r)).1
  have hnewk : findKey { st with States := st.States ++ [InsertState.newRow st s] }
      s.m_Height s.hash = some (InsertState.newRow st s) := by
    unfold findKey at hkey ⊢
    rw [List.find?_append, hkey]
    simp [InsertState.newRow]
  have hnewr : findRow { st with States := st.States ++ [InsertState.newRow st s] }
      (newRowid st) = some (InsertState.newRow st s) := by
    unfold findRow
    have hnone : st.States.find? (fun r => r.rowid == newRowid st) = none := by
      rw [List.find?_eq_none]
      intro r hr
      have := newRowid_gt st r hr
      have hne : r.rowid ≠ newRowid st := by omega
      simpa using hne
    rw [List.find?_append, hnone]
    simp [InsertState.newRow]
  refine ⟨?_, ?_, ?_⟩
  · unfold newRowid; omega
  · unfold StateFindSafe
    rw [findKey_map e hf, hnewk]
    simp only [Option.map_some']
    rw [hid]
    rfl
  · unfold get_State
    rw [findRow_map e hid, hnewr]
    simp only [Option.map_some']
    have k := hdr_fields (hf (InsertState.newRow st s))
    rw [k.2.1, k.2.2.2.1, k.2.2.2.2.1, k.2.2.2.2.2.1, k.2.2.2.2.2.2.1, k.2.2.2.2.2.2.2]
    rfl

theorem StateFindSafe_absent {st : NodeDB} {h : Nat} {hash : MerkleHash}
    (hkey : findKey st h hash = none) : StateFindSafe st h hash = 0 := by
  unfold StateFindSafe
  rw [hkey]

theorem TipDel_total (st : NodeDB) (hN : st.Tips.Nodup) {rowid h : Nat}
    (hin : (h, rowid) ∈ st.Tips) :
    ∃ s1, TipDel st rowid h = .ok s1 ∧ s1.States = st.States ∧
      s1.Tips = st.Tips.filter (fun p => p != (h, rowid)) ∧
      s1.TipsReachable = st.TipsReachable ∧ s1.Params = st.Params := by
  refine ⟨{ st with Tips := st.Tips.filter (fun p => p != (h, rowid)) }, ?_, rfl, rfl, rfl, rfl⟩
  unfold TipDel
  rw [if_pos (count_pair_one hN hin)]

theorem TipAdd_total (st : NodeDB) (rowid h : Nat) (hin : (h, rowid) ∉ st.Tips) :
    ∃ s1, TipAdd st rowid h = .ok s1 ∧ s1.States = st.States ∧
      s1.Tips = st.Tips ++ [(h, rowid)] ∧ s1.TipsReachable = st.TipsReachable
      ∧ s1.Params = st.Params := by
  refine ⟨{ st with Tips := st.Tips ++ [(h, rowid)] }, ?_, rfl, rfl, rfl, rfl⟩
  unfold TipAdd
  rw [if_neg hin]

theorem SetNextCount_total (st : NodeDB)
    (hnd : (st.States.map (fun r => r.rowid)).Nodup) {p : Nat}
    (hi : p ∈ st.States.map (fun r => r.rowid)) (c : Nat) :
    ∃ s1, SetNextCount st p c = .ok s1 ∧
      s1.States = st.States.map
        (fun r => if r.rowid == p then { r with CountNext := c } else r) ∧
      s1.Tips = st.Tips ∧ s1.TipsReachable = st.TipsReachable ∧ s1.Params = st.Params :=
  ⟨_, updateRow_total_id hnd hi _, rfl, rfl, rfl, rfl⟩

theorem ids_of_hdrMap {st st1 : NodeDB} (h : HdrMap st st1) :
    st1.States.map (fun r => r.rowid) = st.States.map (fun r => r.rowid) := by
  obtain ⟨f, e, hf⟩ := h
  rw [e, List.map_map]
  apply List.map_congr_left
  intro r _
  exact (hdr_fields (hf r)).1

/-- `InsertState` completes when the key of the header is not in the table, on a store with
unique non-zero row identifiers in which `Tips` has no entry twice and holds exactly the rows
with `CountNext = 0`. -/
theorem InsertState_total_of {st : NodeDB} (h0 : ∀ r ∈ st.States, r.rowid ≠ 0)
    (hnd : (st.States.map (fun r => r.rowid)).Nodup)
    (htips : ∀ h row, (h, row) ∈ st.Tips ↔
      ∃ r ∈ st.States, r.rowid = row ∧ r.Height = h ∧ r.CountNext = 0)
    (hT : st.Tips.Nodup) {s : Full}
    (hkey : findKey st s.m_Height s.hash = none) :
    ∃ st1, InsertState st s = .ok (st1, newRowid st) := by
  have hfresh := newRowid_gt st
  have hid1 : ({ st with States := st.States ++ [InsertState.newRow st s] } : NodeDB).States.map
      (fun r => r.rowid) = st.States.map (fun r => r.rowid) ++ [newRowid st] := by
    simp [InsertState.newRow]
  have hnd1 : (st.States.map (fun r => r.rowid) ++ [newRowid st]).Nodup := by
    rw [List.nodup_append]
    refine ⟨hnd, List.nodup_singleton _, ?_⟩
    intro a ha hb
    rw [List.mem_singleton] at hb
    subst hb
    obtain ⟨r, hr, e⟩ := List.mem_map.mp ha
    have := hfresh r hr
    omega
  have htipid : ∀ a, (a, newRowid st) ∉ st.Tips := by
    intro a hin
    obtain ⟨r, hr, e, -, -⟩ := (htips a (newRowid st)).mp hin
    have := hfresh r hr
    omega
  -- the parent step
  have h3 : ∃ st3, InsertState.prevStep
      { st with States := st.States ++ [InsertState.newRow st s] }
      (findKey st (heightDec s.m_Height) s.m_Prev) s.m_Height = .ok st3 ∧
      HdrMap { st with States := st.States ++ [InsertState.newRow st s] } st3 ∧
      ∀ e ∈ st3.Tips, e ∈ st.Tips := by
    unfold InsertState.prevStep
    cases hprev : findKey st (heightDec s.m_Height) s.m_Prev with
    | none => exact ⟨_, rfl, hdrMap_refl _, fun e he => he⟩
    | some P =>
      obtain ⟨hP, hPh, -⟩ := findKey_some hprev
      have hP0 : P.rowid ≠ 0 := h0 P hP
      simp only
      rw [if_pos (by simpa using hP0)]
      obtain ⟨s2, h2, e2, t2, -, -⟩ := SetNextCount_total
        { st with States := st.States ++ [InsertState.newRow st s] }
        (by rw [hid1]; exact hnd1)
        (by rw [hid1]; exact List.mem_append_left _ (List.mem_map_of_mem _ hP))
        (P.CountNext + 1)
      have k2 : HdrMap { st with States := st.States ++ [InsertState.newRow st s] } s2 :=
        ⟨_, e2, fun r => by split <;> rfl⟩
      by_cases hc : P.CountNext = 0
      · have hin : (heightDec s.m_Height, P.rowid) ∈ s2.Tips := by
          rw [t2]
          exact (htips _ _).mpr ⟨P, hP, rfl, hPh, hc⟩
        obtain ⟨s3, h3, e3, t3, -, -⟩ := TipDel_total s2 (by rw [t2]; exact hT) hin
        refine ⟨s3, ?_, ?_, ?_⟩
        · rw [bind_ok_iff]
          refine ⟨s2, h2, ?_⟩
          rw [if_pos (by simp [hc])]
          exact h3
        · obtain ⟨f, e, hf⟩ := k2
          exact ⟨f, e3.trans e, hf⟩
        · intro e he
          rw [t3] at he
          have := (List.mem_filter.mp he).1
          rw [t2] at this
          exact this
      · refine ⟨s2, ?_, k2, ?_⟩
        · rw [bind_ok_iff]
          refine ⟨s2, h2, ?_⟩
          rw [if_neg (by simpa using hc)]
        · intro e he; rw [t2] at he; exact he
  obtain ⟨st3, h3, k3, ht3⟩ := h3
  have hid3 : st3.States.map (fun r => r.rowid)
      = st.States.map (fun r => r.rowid) ++ [newRowid st] := by
    rw [ids_of_hdrMap k3, hid1]
  -- the rows that name the new row as predecessor
  have h5 : ∃ st5, InsertState.adoptStep st3 (newRowid st) s.m_Height s.hash = .ok st5 := by
    unfold InsertState.adoptStep
    simp only
    have hid4 : ({ st3 with
        States := st3.States.map (fun r =>
          if isNextOf s.m_Height s.hash r then { r with RowPrev := some (newRowid st) }
          else r) } : NodeDB).States.map (fun r => r.rowid)
        = st.States.map (fun r => r.rowid) ++ [newRowid st] := by
      rw [← hid3]
      simp only [List.map_map]
      apply List.map_congr_left
      intro r _
      simp only [Function.comp]
      split <;> rfl
    split
    · obtain ⟨s5, h5, -⟩ := SetNextCount_total
        ({ st3 with
          States := st3.States.map (fun r =>
            if isNextOf s.m_Height s.hash r then { r with RowPrev := some (newRowid st) }
            else r) })
        (by rw [hid4]; exact hnd1) (p := newRowid st) (by rw [hid4]; simp)
        (st3.States.filter (isNextOf s.m_Height s.hash)).length
      exact ⟨s5, h5⟩
    · obtain ⟨s5, h5, -⟩ := TipAdd_total
        ({ st3 with
          States := st3.States.map (fun r =>
            if isNextOf s.m_Height s.hash r then { r with RowPrev := some (newRowid st) }
            else r) }) (newRowid st) s.m_Height
        (fun hin => htipid _ (ht3 _ hin))
      exact ⟨s5, h5⟩
  obtain ⟨st5, h5⟩ := h5
  refine ⟨st5, ?_⟩
  unfold InsertState
  simp only [hkey, Option.isSome_none, Bool.false_eq_true, ↓reduceIte]
  have hne : (newRowid st == 0) = false := by
    unfold newRowid; simp
  rw [hne]
  simp only [Bool.false_eq_true, ↓reduceIte]
  rw [bind_ok_iff]
  refine ⟨st3, h3, ?_⟩
  rw [bind_ok_iff]
  exact ⟨st5, h5, rfl⟩

/-- `InsertState` completes on a store that satisfies the structural invariant, when the key of
the header is not in the table. -/
theorem InsertState_total {st : NodeDB} (hS : StructInv st) (hT : st.Tips.Nodup) {s : Full}
    (hkey : findKey st s.m_Height s.hash = none) :
    ∃ st1, InsertState st s = .ok (st1, newRowid st) :=
  InsertState_total_of hS.rowid_ne_zero hS.rowid_nodup hS.tips hT hkey

theorem tipsNodup_updateRow {st st1 : NodeDB} {rowid : Nat} {f : StateRow → StateRow}
    (hok : updateRow st rowid f = .ok st1) (h : st.Tips.Nodup) : st1.Tips.Nodup := by
  obtain ⟨-, rfl⟩ := updateRow_ok hok
  exact h

theorem tipsNodup_TipAdd {st st1 : NodeDB} {rowid a : Nat}
    (hok : TipAdd st rowid a = .ok st1) (h : st.Tips.Nodup) : st1.Tips.Nodup := by
  obtain ⟨hn, rfl⟩ := TipAdd_ok hok
  show (st.Tips ++ [(a, rowid)]).Nodup
  rw [List.nodup_append]
  refine ⟨h, List.nodup_singleton _, ?_⟩
  intro x hx hy
  rw [List.mem_singleton] at hy
  subst hy
  exact hn hx

theorem tipsNodup_TipDel {st st1 : NodeDB} {rowid a : Nat}
    (hok : TipDel st rowid a = .ok st1) (h : st.Tips.Nodup) : st1.Tips.Nodup := by
  obtain ⟨-, rfl⟩ := TipDel_ok hok
  exact h.filter _

theorem tipsNodup_InsertState {st st1 : NodeDB} {s : Full} {rowid : Nat}
    (hok : InsertState st s = .ok (st1, rowid)) (h : st.Tips.Nodup) : st1.Tips.Nodup := by
  obtain ⟨-, -, st3, h3, h5⟩ := InsertState_inv hok
  have k3 : st3.Tips.Nodup := by
    unfold InsertState.prevStep at h3
    simp only at h3
    split at h3
    · rw [bind_ok_iff] at h3
      obtain ⟨s2, h2, h3⟩ := h3
      have k2 := tipsNodup_updateRow h2 h
      split at h3
      · exact tipsNodup_TipDel h3 k2
      · injection h3 with h3; subst h3; exact k2
    · injection h3 with h3; subst h3; exact h
  unfold InsertState.adoptStep at h5
  simp only at h5
  split at h5
  · exact tipsNodup_updateRow h5 k3
  · exact tipsNodup_TipAdd h5 k3

theorem tipsNodup_DeleteState {st st1 : NodeDB} {rowid : Nat} {res : Bool × Nat}
    (hok : DeleteState st rowid = .ok (st1, res)) (h : st.Tips.Nodup) : st1.Tips.Nodup := by
  obtain ⟨x, hx, -, ⟨-, rfl, -⟩ | ⟨-, -, -, st4, st5, st6, h4, h5, h6, h7⟩⟩ := DeleteState_inv hok
  · exact h
  · have k4 : st4.Tips.Nodup := by
      unfold DeleteState.prevStep at h4
      simp only at h4
      split at h4
      · split at h4
        · cases h4
        · rw [bind_ok_iff] at h4
          obtain ⟨s1, h1, h4⟩ := h4
          rw [bind_ok_iff] at h4
          obtain ⟨s2, h2, h4⟩ := h4
          have k1 := tipsNodup_updateRow h1 h
          have k2 : s2.Tips.Nodup := by
            split at h2
            · exact tipsNodup_TipAdd h2 k1
            · injection h2 with h2; subst h2; exact k1
          split at h4
          · split at h4
            · cases h4
            · rw [bind_ok_iff] at h4
              obtain ⟨s3, h3, h4⟩ := h4
              have k3 := tipsNodup_updateRow h3 k2
              split at h4
              · obtain ⟨-, rfl⟩ := TipReachableAdd_ok h4
                exact k3
              · injection h4 with h4; subst h4; exact k3
          · injection h4 with h4; subst h4; exact k2
      · injection h4 with h4; subst h4; exact h
    have k5 := tipsNodup_TipDel h5 k4
    have k6 : st6.Tips.Nodup := by
      split at h6
      · obtain ⟨-, rfl⟩ := TipReachableDel_ok h6
        exact k5
      · injection h6 with h6; subst h6; exact k5
    obtain ⟨-, rfl⟩ := deleteRow_ok h7
    exact k6

/-- `Tips` never holds an entry twice. -/
theorem reached_tipsNodup {cursor : Bool} {st : NodeDB} (h : Reached cursor st) :
    st.Tips.Nodup := by
  induction h with
  | empty => exact List.nodup_nil
  | insertState _ _ hok ih => exact tipsNodup_InsertState hok ih
  | deleteState _ hok ih => exact tipsNodup_DeleteState hok ih
  | setStateFunctional _ hok ih => rw [(sameSkeleton_SetStateFunctional hok).2]; exact ih
  | setStateNotFunctional _ hok ih => rw [(sameSkeleton_SetStateNotFunctional hok).2]; exact ih
  | moveFwd _ _ hok ih => rw [(sameSkeleton_MoveFwd hok).2]; exact ih
  | moveBack _ _ hok ih => rw [(sameSkeleton_MoveBack hok).2]; exact ih

theorem findKey_eq_none_of {st : NodeDB} {h : Nat} {hash : MerkleHash}
    (hn : ∀ x ∈ st.States, ¬(x.Height = h ∧ x.Hash = hash)) : findKey st h hash = none := by
  cases hf : findKey st h hash with
  | none => rfl
  | some x =>
    obtain ⟨hx, e1, e2⟩ := findKey_some hf
    exact absurd ⟨e1, e2⟩ (hn x hx)

/-- The effect of `InsertState` on a store whose rows carry no flags and no functional-child
count: it stays so, and the key columns of the header are appended to those of the rows. -/
theorem InsertState_plain {st st1 : NodeDB} {s : Full} {rowid : Nat} (hS : StructInv st)
    (h0 : ∀ r ∈ st.States, r.Flags = 0 ∧ r.CountNextFunctional = 0)
    (hok : InsertState st s = .ok (st1, rowid)) :
    (∀ r ∈ st1.States, r.Flags = 0 ∧ r.CountNextFunctional = 0) ∧
    st1.States.map keyCols = st.States.map keyCols ++ [fullCols s] ∧
    st1.TipsReachable = st.TipsReachable := by
  obtain ⟨-, -, eS, -, eR, -, -⟩ := InsertState_closed hS hok
  have hcnt : (st.States.filter (fun r => isNextOf s.m_Height s.hash r
      && hasFlag r.Flags StateFlags.Functional)).length = 0 := by
    rw [List.length_eq_zero, List.filter_eq_nil_iff]
    intro r hr
    rw [(h0 r hr).1]
    simp [hasFlag]
  refine ⟨?_, ?_, eR⟩
  · intro r hr
    rw [eS] at hr
    simp only [List.mem_append, List.mem_map, List.mem_singleton] at hr
    rcases hr with ⟨r0, hr0, rfl⟩ | rfl
    · rw [insertedOld_Flags, insertedOld_CountNextFunctional]
      exact h0 r0 hr0
    · exact ⟨rfl, hcnt⟩
  · rw [eS, List.map_append, List.map_map]
    congr 1
    apply List.map_congr_left
    intro r _
    simp only [Function.comp, keyCols, insertedOld_Height, insertedOld_Hash,
      insertedOld_HashPrev]

theorem insertAll_spec (hs : List Full) : ∀ (st : NodeDB), Reached false st →
    (∀ r ∈ st.States, r.Flags = 0 ∧ r.CountNextFunctional = 0) →
    (∀ s ∈ hs, s.m_Height < 2 ^ 64) →
    (st.States.map rowKey ++ hs.map fullKey).Nodup →
    ∃ st1, insertAll st hs = .ok st1 ∧ Reached false st1 ∧
      (∀ r ∈ st1.States, r.Flags = 0 ∧ r.CountNextFunctional = 0) ∧
      st1.States.map keyCols = st.States.map keyCols ++ hs.map fullCols ∧
      st1.TipsReachable = st.TipsReachable := by
  induction hs with
  | nil =>
    intro st hr h0 _ _
    exact ⟨st, rfl, hr, h0, by simp, rfl⟩
  | cons s ss ih =>
    intro st hr h0 hh hnd
    have hS := reached_structInv hr
    have hkey : findKey st s.m_Height s.hash = none := by
      apply findKey_eq_none_of
      intro x hx hk
      rw [List.nodup_append] at hnd
      refine hnd.2.2 (List.mem_map_of_mem rowKey hx) ?_
      have : rowKey x = fullKey s := by
        unfold rowKey fullKey
        rw [hk.1, hk.2]
      rw [this]
      exact List.mem_map_of_mem fullKey (List.mem_cons_self _ _)
    obtain ⟨st1, hok⟩ := InsertState_total hS (reached_tipsNodup hr) hkey
    obtain ⟨a1, c1, t1⟩ := InsertState_plain hS h0 hok
    have hr1 : Reached false st1 := Reached.insertState hr (hh s (List.mem_cons_self _ _)) hok
    have hk1 : st1.States.map rowKey = st.States.map rowKey ++ [fullKey s] := by
      have := congrArg (List.map (fun c : Nat × MerkleHash × MerkleHash => (c.1, c.2.1))) c1
      simpa [List.map_map, Function.comp, keyCols, rowKey, fullCols, fullKey] using this
    obtain ⟨st2, hok2, hr2, a2, c2, t2⟩ := ih st1 hr1 a1
      (fun s1 hs1 => hh s1 (List.mem_cons_of_mem _ hs1))
      (by rw [hk1]; simpa [List.append_assoc] using hnd)
    refine ⟨st2, ?_, hr2, a2, ?_, t2.trans t1⟩
    · show (InsertState st s >>= fun p => insertAll p.1 ss) = .ok st2
      rw [hok]
      exact hok2
    · rw [c2, c1]
      simp

theorem parentKey_eq {st : NodeDB} (hS : StructInv st) {r : StateRow} (hr : r ∈ st.States) :
    parentKey st r = if (heightDec r.Height, r.HashPrev) ∈ st.States.map rowKey
      then some (heightDec r.Height, r.HashPrev) else none := by
  unfold parentKey prvRow
  cases hp : r.RowPrev with
  | none =>
    rw [if_neg]
    · rfl
    · intro hin
      obtain ⟨P, hP, e⟩ := List.mem_map.mp hin
      unfold rowKey at e
      injection e with e1 e2
      have := (hS.rowPrev_iff r hr P.rowid).mpr ⟨P, hP, rfl, e1, e2⟩
      rw [hp] at this
      cases this
  | some p =>
    obtain ⟨P, hP, e0, e1, e2⟩ := (hS.rowPrev_iff r hr p).mp hp
    have hf : findRow st p = some P := by
      rw [← e0]; exact findRow_of_mem hS.rowid_nodup hP
    rw [if_pos]
    · show Option.map rowKey (findRow st p) = _
      rw [hf]
      show some (rowKey P) = _
      unfold rowKey
      rw [e1, e2]
    · exact List.mem_map.mpr ⟨P, hP, by unfold rowKey; rw [e1, e2]⟩

theorem comp_keyCols (q : Nat → MerkleHash → MerkleHash → Bool) (c : StateRow) :
    ((fun k : Nat × MerkleHash × MerkleHash => q k.1 k.2.1 k.2.2) ∘ keyCols) c
      = q c.Height c.Hash c.HashPrev := rfl

theorem countNext_eq_cols {st : NodeDB} (hS : StructInv st) {p : StateRow} (hp : p ∈ st.States) :
    p.CountNext = (st.States.map keyCols).countP
      (fun c => heightDec c.1 == p.Height && c.2.2 == p.Hash) := by
  rw [hS.countNext p hp, List.countP_map]
  apply List.countP_congr
  intro c hc
  rw [comp_keyCols (fun a _ b => heightDec a == p.Height && b == p.Hash) c]
  rw [Bool.and_eq_true, beq_iff_eq, beq_iff_eq, beq_iff_eq]
  constructor
  · intro h
    obtain ⟨P, hP, e0, e1, e2⟩ := (hS.rowPrev_iff c hc p.rowid).mp h
    have := eq_of_rowid_eq hS.rowid_nodup hP hp e0
    subst this
    exact ⟨e1.symm, e2.symm⟩
  · intro h
    exact (hS.rowPrev_iff c hc p.rowid).mpr ⟨p, hp, rfl, h.1.symm, h.2.symm⟩

theorem mem_tipKeys {st : NodeDB} (hS : StructInv st) (k : Nat × Option MerkleHash) :
    k ∈ tipKeys st ↔ ∃ r ∈ st.States, k = (r.Height, some r.Hash) ∧ r.CountNext = 0 := by
  unfold tipKeys
  rw [List.mem_map]
  constructor
  · rintro ⟨⟨h, row⟩, ht, rfl⟩
    obtain ⟨r, hr, e0, e1, e2⟩ := (hS.tips h row).mp ht
    refine ⟨r, hr, ?_, e2⟩
    have hf : findRow st row = some r := by
      rw [← e0]; exact findRow_of_mem hS.rowid_nodup hr
    simp only [hf, Option.map_some', e1]
  · rintro ⟨r, hr, rfl, e2⟩
    refine ⟨(r.Height, r.rowid), (hS.tips _ _).mpr ⟨r, hr, rfl, rfl, e2⟩, ?_⟩
    simp only [findRow_of_mem hS.rowid_nodup hr, Option.map_some']

/-- Two stores that satisfy the structural invariant and hold the same headers agree on every
derived column, with rows identified by key. -/
theorem agree_of_perm {st1 st2 : NodeDB} (h1 : StructInv st1) (h2 : StructInv st2)
    (hp : (st1.States.map keyCols).Perm (st2.States.map keyCols)) :
    (∀ r1 ∈ st1.States, ∃ r2 ∈ st2.States, rowKey r2 = rowKey r1) ∧
    (∀ r1 ∈ st1.States, ∀ r2 ∈ st2.States, rowKey r1 = rowKey r2 →
      parentKey st1 r1 = parentKey st2 r2 ∧ r1.CountNext = r2.CountNext) ∧
    (∀ k, k ∈ tipKeys st1 → k ∈ tipKeys st2) := by
  have hex : ∀ r1 ∈ st1.States, ∃ r2 ∈ st2.States, keyCols r2 = keyCols r1 := by
    intro r1 hr1
    have := hp.subset (List.mem_map_of_mem keyCols hr1)
    exact List.mem_map.mp this
  have hkeys : (st1.States.map rowKey).Perm (st2.States.map rowKey) := by
    have := hp.map (fun c : Nat × MerkleHash × MerkleHash => (c.1, c.2.1))
    simpa [List.map_map, Function.comp, keyCols, rowKey] using this
  have hcols : ∀ r1 ∈ st1.States, ∀ r2 ∈ st2.States, rowKey r1 = rowKey r2 →
      keyCols r2 = keyCols r1 := by
    intro r1 hr1 r2 hr2 hk
    obtain ⟨r3, hr3, e⟩ := hex r1 hr1
    have e3 : r3.Height = r2.Height ∧ r3.Hash = r2.Hash := by
      unfold keyCols at e
      unfold rowKey at hk
      injection e with a b
      injection b with b c
      injection hk with d f
      exact ⟨a.trans d, b.trans f⟩
    have := eq_of_rowid_eq h2.rowid_nodup hr3 hr2 (h2.key_unique r3 hr3 r2 hr2 e3.1 e3.2)
    rw [← this]; exact e
  have hpair : ∀ r1 ∈ st1.States, ∀ r2 ∈ st2.States, rowKey r1 = rowKey r2 →
      parentKey st1 r1 = parentKey st2 r2 ∧ r1.CountNext = r2.CountNext := by
    intro r1 hr1 r2 hr2 hk
    have e := hcols r1 hr1 r2 hr2 hk
    unfold keyCols at e
    injection e with a b
    injection b with b c
    constructor
    · rw [parentKey_eq h1 hr1, parentKey_eq h2 hr2, a, c]
      by_cases hin : (heightDec r1.Height, r1.HashPrev) ∈ st1.States.map rowKey
      · rw [if_pos hin, if_pos (hkeys.subset hin)]
      · rw [if_neg hin, if_neg (fun h => hin (hkeys.symm.subset h))]
    · rw [countNext_eq_cols h1 hr1, countNext_eq_cols h2 hr2, a, b]
      exact hp.countP_eq _
  refine ⟨?_, hpair, ?_⟩
  · intro r1 hr1
    obtain ⟨r2, hr2, e⟩ := hex r1 hr1
    refine ⟨r2, hr2, ?_⟩
    unfold keyCols at e
    injection e with a b
    injection b with b c
    unfold rowKey
    rw [a, b]
  · intro k hk
    obtain ⟨r1, hr1, rfl, hc⟩ := (mem_tipKeys h1 k).mp hk
    obtain ⟨r2, hr2, e⟩ := hex r1 hr1
    have e' := e
    unfold keyCols at e
    injection e with a b
    injection b with b c
    have hk2 : rowKey r1 = rowKey r2 := by unfold rowKey; rw [a, b]
    refine (mem_tipKeys h2 _).mpr ⟨r2, hr2, by rw [a, b], ?_⟩
    rw [← (hpair r1 hr1 r2 hr2 hk2).2]; exact hc

theorem graphInv_exGenesis7 : GraphInv exGenesis7 := by
  have hnoR : ∀ r ∈ exGenesis7.States, ¬RowReachable r := by
    unfold RowReachable; decide
  constructor
  · decide
  · decide
  · decide
  · decide
  · decide
  · intro c hc p
    simp only [exGenesis7, exStore, exRow, List.mem_cons, List.mem_singleton,
      List.not_mem_nil, or_false] at hc
    rcases hc with rfl
    simp [exGenesis7, exStore, exRow]
  · decide
  · unfold RowReachable RowFunctional; decide
  · intro h row
    constructor
    · intro hm
      simp [exGenesis7, exStore] at hm
    · rintro ⟨r, hr, -, -, hR, -⟩
      exact absurd hR (hnoR r hr)

theorem graphInvAll_exGenesis7 : GraphInvAll exGenesis7 := by
  refine ⟨graphInv_exGenesis7, by decide, by decide, by decide, ?_⟩
  intro h row
  simp only [exGenesis7, exStore, exRow, List.mem_cons, List.mem_singleton,
    List.not_mem_nil, or_false, exists_eq_left, Prod.mk.injEq]
  constructor
  · rintro ⟨rfl, rfl⟩; simp
  · rintro ⟨rfl, rfl, -⟩; simp

theorem graphInvAll_link {st : NodeDB} (hG : GraphInvAll st) : LinkInv st :=
  graphInv_link hG.graph

/-- The parent of a row under the graph invariants: the row `RowPrev` names is in the table,
one height below, and counts the row among its children. -/
theorem parent_of_rowPrev {st : NodeDB} (hG : GraphInvAll st) {x : StateRow}
    (hx : x ∈ st.States) {p : Nat} (hp : x.RowPrev = some p) :
    ∃ P ∈ st.States, P.rowid = p ∧ P.Height + 1 = x.Height ∧ P.Hash = x.HashPrev ∧
      prvRow st x = some P ∧ P.CountNext ≠ 0 ∧
      (hasFlag x.Flags StateFlags.Functional = true → P.CountNextFunctional ≠ 0) := by
  obtain ⟨P, hP, e1, e2, e3⟩ := (hG.graph.rowPrev_iff x hx p).mp hp
  refine ⟨P, hP, e1, e2, e3, ?_, ?_, ?_⟩
  · unfold prvRow
    rw [hp]
    simp only [Option.some_bind]
    rw [← e1]
    exact findRow_of_mem hG.graph.rowid_nodup hP
  · rw [hG.countNext P hP]
    apply Nat.pos_iff_ne_zero.mp
    rw [List.countP_pos_iff]
    exact ⟨x, hx, by rw [Bool.and_eq_true, beq_iff_eq, beq_iff_eq]; exact ⟨e3.symm, e2.symm⟩⟩
  · intro hF
    rw [hG.graph.countNextFunctional P hP]
    apply Nat.pos_iff_ne_zero.mp
    rw [List.countP_pos_iff]
    exact ⟨x, hx, by
      rw [Bool.and_eq_true, Bool.and_eq_true, beq_iff_eq, beq_iff_eq]
      exact ⟨⟨e3.symm, e2.symm⟩, hF⟩⟩

theorem DeleteState_prevStep_total {st : NodeDB} (hG : GraphInvAll st) {x : StateRow}
    (hx : x ∈ st.States) : ∃ st4, DeleteState.prevStep st x = .ok st4 := by
  unfold DeleteState.prevStep
  simp only
  cases hp : x.RowPrev with
  | none => exact ⟨st, by simp⟩
  | some p =>
    obtain ⟨P, hP, e1, e2, e3, hprv, hc, hcF⟩ := parent_of_rowPrev hG hx hp
    have hnd := hG.graph.rowid_nodup
    have hxh := hG.graph.height_lt x hx
    have hhd : heightDec x.Height = P.Height := by
      rw [← e2]; exact heightDec_succ (by omega)
    simp only [Option.isSome_some, ↓reduceIte, Option.getD_some]
    rw [prvCountNext_eq hprv, prvCountNextF_eq hprv]
    rw [if_neg (by simpa using hc)]
    have hpm : p ∈ st.States.map (fun r => r.rowid) := by
      rw [← e1]; exact List.mem_map_of_mem _ hP
    obtain ⟨s1, h1, es1, t1, r1, -⟩ := SetNextCount_total st hnd hpm (P.CountNext - 1)
    have hid1 : s1.States.map (fun r => r.rowid) = st.States.map (fun r => r.rowid) := by
      rw [es1]; exact rowid_map_update _ _ _ (fun _ => rfl)
    -- the parent becomes a tip
    have h2 : ∃ s2, (if (P.CountNext - 1 == 0) = true then TipAdd s1 p (heightDec x.Height)
        else .ok s1) = .ok s2 ∧ s2.States = s1.States ∧ s2.TipsReachable = st.TipsReachable := by
      by_cases hz : (P.CountNext - 1 == 0) = true
      · rw [if_pos hz]
        have hnin : (heightDec x.Height, p) ∉ s1.Tips := by
          rw [t1]
          intro hin
          obtain ⟨r, hr, a, -, c⟩ := (hG.tips _ _).mp hin
          have := eq_of_rowid_eq hnd hr hP (a.trans e1.symm)
          subst this
          exact hc c
        obtain ⟨s2, k2, a2, -, c2, -⟩ := TipAdd_total s1 p (heightDec x.Height) hnin
        exact ⟨s2, k2, a2, c2.trans r1⟩
      · rw [if_neg hz]
        exact ⟨s1, rfl, rfl, r1⟩
    obtain ⟨s2, h2, es2, r2⟩ := h2
    have hid2 : s2.States.map (fun r => r.rowid) = st.States.map (fun r => r.rowid) := by
      rw [es2]; exact hid1
    have h4 : ∃ st4, (if hasFlag x.Flags StateFlags.Functional = true then
        if (P.CountNextFunctional == 0) = true then .error .oops
        else SetNextCountFunctional s2 p (P.CountNextFunctional - 1) >>= fun st3 =>
          if (P.CountNextFunctional - 1 == 0 && hasFlag x.Flags StateFlags.Reachable) = true
          then TipReachableAdd st3 p (heightDec x.Height) else .ok st3
        else .ok s2) = .ok st4 := by
      by_cases hF : hasFlag x.Flags StateFlags.Functional = true
      · rw [if_pos hF, if_neg (by simpa using hcF hF)]
        obtain ⟨s3, h3, -, -, r3⟩ := SetNextCountFunctional_total
          (by rw [hid2]; exact hnd) (by rw [hid2]; exact hpm) (P.CountNextFunctional - 1)
        by_cases hz : (P.CountNextFunctional - 1 == 0
            && hasFlag x.Flags StateFlags.Reachable) = true
        · have hnin : (heightDec x.Height, p) ∉ s3.TipsReachable := by
            rw [r3, r2]
            intro hin
            obtain ⟨r, hr, a, -, -, c⟩ := (hG.graph.tipsReachable _ _).mp hin
            have := eq_of_rowid_eq hnd hr hP (a.trans e1.symm)
            subst this
            exact hcF hF c
          obtain ⟨s4, k4, -⟩ := TipReachableAdd_total hnin
          refine ⟨s4, ?_⟩
          rw [bind_ok_iff]
          exact ⟨s3, h3, by rw [if_pos hz]; exact k4⟩
        · refine ⟨s3, ?_⟩
          rw [bind_ok_iff]
          exact ⟨s3, h3, by rw [if_neg hz]⟩
      · rw [if_neg hF]
        exact ⟨s2, rfl⟩
    obtain ⟨st4, h4⟩ := h4
    refine ⟨st4, ?_⟩
    rw [bind_ok_iff]
    refine ⟨s1, h1, ?_⟩
    rw [bind_ok_iff]
    exact ⟨s2, h2, h4⟩

theorem nodup_DeleteState_prevStep {st st4 : NodeDB} {x : StateRow}
    (hok : DeleteState.prevStep st x = .ok st4) :
    (st.Tips.Nodup → st4.Tips.Nodup) ∧ (st.TipsReachable.Nodup → st4.TipsReachable.Nodup) := by
  rcases DeleteState_prevStep_inv hok with ⟨-, rfl⟩ | ⟨p, -, -, s1, s2, h1, h2, hrest⟩
  · exact ⟨id, id⟩
  · obtain ⟨-, rfl⟩ := updateRow_ok h1
    have k2 : (st.Tips.Nodup → s2.Tips.Nodup) ∧ s2.TipsReachable = st.TipsReachable := by
      split at h2
      · refine ⟨fun h => tipsNodup_TipAdd h2 h, ?_⟩
        obtain ⟨-, rfl⟩ := TipAdd_ok h2
        rfl
      · injection h2 with h2; subst h2; exact ⟨id, rfl⟩
    rcases hrest with ⟨-, rfl⟩ | ⟨-, -, s3, h3, h4⟩
    · exact ⟨k2.1, fun h => by rw [k2.2]; exact h⟩
    · obtain ⟨-, rfl⟩ := updateRow_ok h3
      split at h4
      · obtain ⟨hn, rfl⟩ := TipReachableAdd_ok h4
        refine ⟨k2.1, fun h => ?_⟩
        show (s2.TipsReachable ++ [(heightDec x.Height, p)]).Nodup
        rw [List.nodup_append]
        refine ⟨by rw [k2.2]; exact h, List.nodup_singleton _, ?_⟩
        intro a ha hb
        rw [List.mem_singleton] at hb
        subst hb
        exact hn ha
      · injection h4 with h4; subst h4
        exact ⟨k2.1, fun h => by show s2.TipsReachable.Nodup; rw [k2.2]; exact h⟩

theorem countNextFunctional_zero {st : NodeDB} (hG : GraphInvAll st) {x : StateRow}
    (hx : x ∈ st.States) (hc : x.CountNext = 0) : x.CountNextFunctional = 0 := by
  have h1 := hG.countNext x hx
  have h2 := hG.graph.countNextFunctional x hx
  have h3 : st.States.countP (fun c => c.HashPrev == x.Hash && c.Height == x.Height + 1
        && hasFlag c.Flags StateFlags.Functional)
      ≤ st.States.countP (fun c => c.HashPrev == x.Hash && c.Height == x.Height + 1) := by
    apply List.countP_mono_left
    intro c _ h
    rw [Bool.and_eq_true] at h
    exact h.1
  omega

/-- `DeleteState` of a childless row that is not `Active`, on a store that satisfies the graph
invariants: the call completes and deletes, and the tables it leaves are these. -/
theorem DeleteState_leaf {st : NodeDB} (hG : GraphInvAll st) {x : StateRow}
    (hx : x ∈ st.States) (hc : x.CountNext = 0)
    (hA : hasFlag x.Flags StateFlags.Active = false) :
    ∃ st1, DeleteState st x.rowid = .ok (st1, true, x.RowPrev.getD 0) ∧
      st1.States = (st.States.map (deletedOld x)).filter (fun r => r.rowid != x.rowid) ∧
      (∀ a b, (a, b) ∈ st1.Tips ↔ ((a, b) ∈ st.Tips ∨
          ∃ P ∈ st.States, x.RowPrev = some P.rowid ∧ P.CountNext = 1
            ∧ a = heightDec x.Height ∧ b = P.rowid) ∧ (a, b) ≠ (x.Height, x.rowid)) ∧
      (∀ a b, (a, b) ∈ st1.TipsReachable ↔ ((a, b) ∈ st.TipsReachable ∨
          ∃ P ∈ st.States, x.RowPrev = some P.rowid
            ∧ hasFlag x.Flags StateFlags.Functional = true
            ∧ hasFlag x.Flags StateFlags.Reachable = true ∧ P.CountNextFunctional = 1
            ∧ a = heightDec x.Height ∧ b = P.rowid)
        ∧ ¬(hasFlag x.Flags StateFlags.Reachable = true ∧ (a, b) = (x.Height, x.rowid))) := by
  have hL := graphInvAll_link hG
  have hnd := hG.graph.rowid_nodup
  obtain ⟨st4, h4⟩ := DeleteState_prevStep_total hG hx
  obtain ⟨e4, t4, r4, -, -⟩ := DeleteState_prevStep_closed hL hx h4
  obtain ⟨n4, m4⟩ := nodup_DeleteState_prevStep h4
  have hin5 : (x.Height, x.rowid) ∈ st4.Tips :=
    (t4 _ _).mpr (Or.inl ((hG.tips _ _).mpr ⟨x, hx, rfl, rfl, hc⟩))
  obtain ⟨st5, h5, e5, t5, r5, -⟩ := TipDel_total st4 (n4 hG.tips_nodup) hin5
  have h6 : ∃ st6, (if hasFlag x.Flags StateFlags.Reachable = true then
      TipReachableDel st5 x.rowid x.Height else .ok st5) = .ok st6 ∧ st6.States = st5.States := by
    by_cases hR : hasFlag x.Flags StateFlags.Reachable = true
    · rw [if_pos hR]
      have hin : (x.Height, x.rowid) ∈ st5.TipsReachable := by
        rw [r5]
        exact (r4 _ _).mpr (Or.inl ((hG.graph.tipsReachable _ _).mpr
          ⟨x, hx, rfl, rfl, hR, countNextFunctional_zero hG hx hc⟩))
      obtain ⟨st6, k6, a6, -⟩ := TipReachableDel_total
        (by rw [r5]; exact m4 hG.graph.tipsReachable_nodup) hin
      exact ⟨st6, k6, a6⟩
    · rw [if_neg hR]
      exact ⟨st5, rfl, rfl⟩
  obtain ⟨st6, h6, e6⟩ := h6
  have hS6 : st6.States = st.States.map (deletedOld x) := by rw [e6, e5, e4]
  have hid6 : st6.States.map (fun r => r.rowid) = st.States.map (fun r => r.rowid) := by
    rw [hS6, List.map_map]
    apply List.map_congr_left
    intro r _
    exact deletedOld_rowid x r
  have hx6 : deletedOld x x ∈ st6.States := by
    rw [hS6]; exact List.mem_map_of_mem _ hx
  have hlen := filter_rowid_length (by rw [hid6]; exact hnd) hx6
  rw [deletedOld_rowid] at hlen
  have hok : DeleteState st x.rowid
      = .ok ({ st6 with States := st6.States.filter (fun r => r.rowid != x.rowid) },
          true, x.RowPrev.getD 0) := by
    unfold DeleteState
    rw [findRow_of_mem hnd hx]
    simp only
    rw [if_neg (by simpa using hc), if_neg (by simpa using hA)]
    rw [bind_ok_iff]
    refine ⟨st4, h4, ?_⟩
    rw [bind_ok_iff]
    refine ⟨st5, h5, ?_⟩
    rw [bind_ok_iff]
    refine ⟨st6, h6, ?_⟩
    rw [bind_ok_iff]
    refine ⟨_, ?_, rfl⟩
    unfold deleteRow
    rw [if_pos hlen]
  refine ⟨_, hok, ?_⟩
  obtain ⟨y, hy, ey, -, h | ⟨-, -, -, eS, eT, eR, -, -⟩⟩ := DeleteState_closed hL hok
  · exact absurd h.2.2 (by simp)
  · have := eq_of_rowid_eq hnd hy hx ey
    subst this
    exact ⟨eS, eT, eR⟩

theorem graphInv_exTwo : GraphInv exTwo := by
  have hnoR : ∀ r ∈ exTwo.States, ¬RowReachable r := by
    unfold RowReachable; decide
  constructor
  · decide
  · decide
  · decide
  · decide
  · decide
  · intro c hc p
    simp only [exTwo, exStore, exRow, List.mem_cons, List.mem_singleton,
      List.not_mem_nil, or_false] at hc
    rcases hc with rfl | rfl
    · simp [exTwo, exStore, exRow]
    · simp [exTwo, exStore, exRow]
  · decide
  · unfold RowReachable RowFunctional; decide
  · intro h row
    constructor
    · intro hm
      simp [exTwo, exStore] at hm
    · rintro ⟨r, hr, -, -, hR, -⟩
      exact absurd hR (hnoR r hr)

theorem graphInvAll_exTwo : GraphInvAll exTwo := by
  refine ⟨graphInv_exTwo, by decide, by decide, by decide, ?_⟩
  intro h row
  simp only [exTwo, exStore, exRow, List.mem_cons, List.mem_singleton,
    List.not_mem_nil, or_false, Prod.mk.injEq]
  constructor
  · rintro ⟨rfl, rfl⟩; simp
  · rintro ⟨r, hr | hr, h1, h2, h3⟩
    · subst hr; simp at h3
    · subst hr; simp at h1 h2; exact ⟨h2.symm, h1.symm⟩

theorem BitsKept.bits_refl (m : Nat) (st : NodeDB) : BitsKept m st st :=
  fun r hr => ⟨r, hr, rfl, fun _ _ => rfl⟩

theorem BitsKept.bits_trans {m : Nat} {a b c : NodeDB} (h1 : BitsKept m a b)
    (h2 : BitsKept m b c) : BitsKept m a c := by
  intro r hr
  obtain ⟨r1, hr1, e1, b1⟩ := h2 r hr
  obtain ⟨r0, hr0, e0, b0⟩ := h1 r1 hr1
  exact ⟨r0, hr0, e1.trans e0, fun i hi => (b1 i hi).trans (b0 i hi)⟩

theorem BitsKept.bits_of_states_eq {m : Nat} {st st1 : NodeDB} (h : st1.States = st.States) :
    BitsKept m st st1 := by
  intro r hr; rw [h] at hr; exact ⟨r, hr, rfl, fun _ _ => rfl⟩

theorem BitsKept.keeps {m : Nat} {st st1 : NodeDB} (h : BitsKept m st st1)
    (hnd : (st.States.map (fun r => r.rowid)).Nodup) : KeepsBits m st st1 := by
  intro r hr r1 hr1 e i hi
  obtain ⟨r0, hr0, e0, b0⟩ := h r1 hr1
  have := eq_of_rowid_eq hnd hr0 hr (e0.symm.trans e)
  subst this
  exact b0 i hi

theorem bitsKept_updateRow {m : Nat} {st st1 : NodeDB} {rowid : Nat} {f : StateRow → StateRow}
    (h : updateRow st rowid f = .ok st1)
    (hf : ∀ r, (f r).rowid = r.rowid ∧ (f r).Flags = r.Flags) : BitsKept m st st1 := by
  obtain ⟨-, rfl⟩ := updateRow_ok h
  intro r hr
  simp only [List.mem_map] at hr
  obtain ⟨r0, hr0, rfl⟩ := hr
  refine ⟨r0, hr0, ?_⟩
  split
  · exact ⟨(hf r0).1, fun _ _ => by rw [(hf r0).2]⟩
  · exact ⟨rfl, fun _ _ => rfl⟩

/-- `SetFlags` with flags that agree outside `mask` with those of a row `x` that has the
identifier. -/
theorem bitsKept_SetFlags {m : Nat} {st0 st st1 : NodeDB} {rowid n : Nat} {x : StateRow}
    (hk : BitsKept m st0 st) (hx : x ∈ st0.States) (hxid : x.rowid = rowid)
    (hn : ∀ i, m.testBit i = false → n.testBit i = x.Flags.testBit i)
    (h : SetFlags st rowid n = .ok st1) : BitsKept m st0 st1 := by
  obtain ⟨-, rfl⟩ := updateRow_ok h
  intro r hr
  simp only [List.mem_map] at hr
  obtain ⟨y, hy, rfl⟩ := hr
  by_cases e : (y.rowid == rowid) = true
  · rw [if_pos e]
    exact ⟨x, hx, by rw [hxid]; exact beq_iff_eq.mp e, hn⟩
  · rw [if_neg e]
    exact hk y hy

theorem bitsKept_ite {m : Nat} {st st1 : NodeDB} {c : Prop} [Decidable c]
    {x : Except Err NodeDB}
    (h : (if c then x else .ok st) = .ok st1) (hx : x = .ok st1 → BitsKept m st st1) :
    BitsKept m st st1 := by
  split at h
  · exact hx h
  · injection h with h; subst h; exact BitsKept.bits_refl _ _

theorem bitsKept_TipAdd {m : Nat} {st st1 : NodeDB} {rowid h : Nat}
    (hok : TipAdd st rowid h = .ok st1) : BitsKept m st st1 := by
  obtain ⟨-, rfl⟩ := TipAdd_ok hok; exact BitsKept.bits_refl _ _

theorem bitsKept_TipDel {m : Nat} {st st1 : NodeDB} {rowid h : Nat}
    (hok : TipDel st rowid h = .ok st1) : BitsKept m st st1 := by
  obtain ⟨-, rfl⟩ := TipDel_ok hok; exact BitsKept.bits_refl _ _

theorem bitsKept_TipReachableAdd {m : Nat} {st st1 : NodeDB} {rowid h : Nat}
    (hok : TipReachableAdd st rowid h = .ok st1) : BitsKept m st st1 := by
  obtain ⟨-, rfl⟩ := TipReachableAdd_ok hok; exact BitsKept.bits_refl _ _

theorem bitsKept_TipReachableDel {m : Nat} {st st1 : NodeDB} {rowid h : Nat}
    (hok : TipReachableDel st rowid h = .ok st1) : BitsKept m st st1 := by
  obtain ⟨-, rfl⟩ := TipReachableDel_ok hok; exact BitsKept.bits_refl _ _

theorem bitsKept_deleteRow {m : Nat} {st st1 : NodeDB} {rowid : Nat}
    (hok : deleteRow st rowid = .ok st1) : BitsKept m st st1 := by
  obtain ⟨-, rfl⟩ := deleteRow_ok hok
  intro r hr
  exact ⟨r, (List.mem_filter.mp hr).1, rfl, fun _ _ => rfl⟩

theorem bitsKept_InsertState {m : Nat} {st st1 : NodeDB} {s : Full} {rowid : Nat}
    (hok : InsertState st s = .ok (st1, rowid)) :
    BitsKept m { st with States := st.States ++ [InsertState.newRow st s] } st1 := by
  obtain ⟨-, -, st3, h3, h5⟩ := InsertState_inv hok
  have k3 : BitsKept m { st with States := st.States ++ [InsertState.newRow st s] } st3 := by
    unfold InsertState.prevStep at h3
    simp only at h3
    split at h3
    · rw [bind_ok_iff] at h3
      obtain ⟨st2, h2, h3⟩ := h3
      have k2 : BitsKept m _ st2 := bitsKept_updateRow h2 (fun _ => ⟨rfl, rfl⟩)
      split at h3
      · exact k2.bits_trans (bitsKept_TipDel h3)
      · injection h3 with h3; subst h3; exact k2
    · injection h3 with h3; subst h3; exact BitsKept.bits_refl _ _
  unfold InsertState.adoptStep at h5
  simp only at h5
  have k4 : BitsKept m st3 { st3 with
      States := st3.States.map
        (fun r => if isNextOf s.m_Height s.hash r then { r with RowPrev := some rowid }
          else r) } := by
    intro r hr
    simp only [List.mem_map] at hr
    obtain ⟨r0, hr0, rfl⟩ := hr
    refine ⟨r0, hr0, ?_⟩
    split <;> exact ⟨rfl, fun _ _ => rfl⟩
  split at h5
  · exact (k3.bits_trans k4).bits_trans (bitsKept_updateRow h5 (fun _ => ⟨rfl, rfl⟩))
  · exact (k3.bits_trans k4).bits_trans (bitsKept_TipAdd h5)

theorem keepsBits_InsertState {m : Nat} {st st1 : NodeDB} {s : Full} {rowid : Nat}
    (hnd : (st.States.map (fun r => r.rowid)).Nodup)
    (hok : InsertState st s = .ok (st1, rowid)) : KeepsBits m st st1 := by
  have hk := @bitsKept_InsertState m _ _ _ _ hok
  have hfresh := newRowid_gt st
  have hnd1 : (({ st with States := st.States ++ [InsertState.newRow st s] } : NodeDB).States.map
      (fun r => r.rowid)).Nodup := by
    show ((st.States ++ [InsertState.newRow st s]).map (fun r => r.rowid)).Nodup
    rw [List.map_append, List.nodup_append]
    refine ⟨hnd, List.nodup_singleton _, ?_⟩
    intro a ha hb
    simp only [List.map_cons, List.map_nil, List.mem_singleton] at hb
    subst hb
    obtain ⟨r, hr, e⟩ := List.mem_map.mp ha
    have := hfresh r hr
    have e2 : (InsertState.newRow st s).rowid = newRowid st := rfl
    omega
  intro r hr
  exact hk.keeps hnd1 r (List.mem_append_left _ hr)

theorem bitsKept_DeleteState {m : Nat} {st st1 : NodeDB} {rowid : Nat} {res : Bool × Nat}
    (hok : DeleteState st rowid = .ok (st1, res)) : BitsKept m st st1 := by
  obtain ⟨x, -, -, h | ⟨-, -, -, st4, st5, st6, h4, h5, h6, h7⟩⟩ := DeleteState_inv hok
  · rw [h.2.1]; exact BitsKept.bits_refl _ _
  · have k4 : BitsKept m st st4 := by
      rcases DeleteState_prevStep_inv h4 with ⟨-, rfl⟩ | ⟨p, -, -, s1, s2, h1, h2, hrest⟩
      · exact BitsKept.bits_refl _ _
      · have k1 : BitsKept m st s1 := bitsKept_updateRow h1 (fun _ => ⟨rfl, rfl⟩)
        have k2 : BitsKept m s1 s2 := bitsKept_ite h2 bitsKept_TipAdd
        rcases hrest with ⟨-, rfl⟩ | ⟨-, -, s3, h3, h4⟩
        · exact k1.bits_trans k2
        · have k3 : BitsKept m s2 s3 := bitsKept_updateRow h3 (fun _ => ⟨rfl, rfl⟩)
          exact ((k1.bits_trans k2).bits_trans k3).bits_trans
            (bitsKept_ite h4 bitsKept_TipReachableAdd)
    have k6 : BitsKept m st5 st6 := bitsKept_ite h6 bitsKept_TipReachableDel
    exact ((k4.bits_trans (bitsKept_TipDel h5)).bits_trans k6).bits_trans
      (bitsKept_deleteRow h7)

theorem bitsKept_updateRow_bits {m : Nat} {st st1 : NodeDB} {rowid : Nat}
    {f : StateRow → StateRow} (h : updateRow st rowid f = .ok st1)
    (hf : ∀ r ∈ st.States, (f r).rowid = r.rowid ∧
      ∀ i, m.testBit i = false → (f r).Flags.testBit i = r.Flags.testBit i) :
    BitsKept m st st1 := by
  obtain ⟨-, rfl⟩ := updateRow_ok h
  intro r hr
  simp only [List.mem_map] at hr
  obtain ⟨r0, hr0, rfl⟩ := hr
  refine ⟨r0, hr0, ?_⟩
  split
  · exact hf r0 hr0
  · exact ⟨rfl, fun _ _ => rfl⟩

theorem bitsKept_BuildMmr {m : Nat} {st st1 : NodeDB} {rowid rowPrev h : Nat}
    (hok : BuildMmr st rowid rowPrev h = .ok st1) : BitsKept m st st1 := by
  unfold BuildMmr at hok
  split at hok
  · cases hok
  split at hok
  · cases hok
  split at hok
  · cases hok
  split at hok
  · injection hok with hok; subst hok; exact BitsKept.bits_refl _ _
  · exact bitsKept_updateRow hok (fun _ => ⟨rfl, rfl⟩)

theorem bitsKept_flipFold {m : Nat} (hm : m.testBit 1 = true) (sA : NodeDB)
    (rows : List StateRow) (hrows : ∀ r ∈ rows, r ∈ sA.States) :
    ∀ (st st1 : NodeDB), BitsKept m sA st →
      rows.foldlM (fun s r => SetFlags s r.rowid (r.Flags ^^^ StateFlags.Reachable)) st = .ok st1 →
      BitsKept m sA st1 := by
  induction rows with
  | nil =>
    intro st st1 hk h
    simp only [List.foldlM, pure, Except.pure] at h
    injection h with h; subst h; exact hk
  | cons r rest ih =>
    intro st st1 hk h
    rw [List.foldlM_cons, bind_ok_iff] at h
    obtain ⟨s1, h1, h2⟩ := h
    refine ih (fun x hx => hrows x (List.mem_cons_of_mem _ hx)) s1 st1 ?_ h2
    refine bitsKept_SetFlags hk (hrows r (List.mem_cons_self _ _)) rfl ?_ h1
    intro i hi
    apply testBit_flip
    intro e
    rw [e, hm] at hi
    cases hi

theorem bitsKept_OnStateReachable {m : Nat} (hm : m.testBit 1 = true) :
    ∀ (fuel : Nat) (st st1 : NodeDB) (rowid rowPrev h : Nat) (b : Bool),
      OnStateReachable fuel st rowid rowPrev h b = .ok st1 → BitsKept m st st1 := by
  intro fuel
  induction fuel with
  | zero => intro st st1 rowid rowPrev h b hok; simp [OnStateReachable] at hok
  | succ fuel ih =>
    intro st st1 rowid rowPrev h b hok
    rw [OnStateReachable, bind_ok_iff] at hok
    obtain ⟨sA, hA, hok⟩ := hok
    have kA : BitsKept m st sA := by
      split at hA
      · exact bitsKept_BuildMmr hA
      · injection hA with hA; subst hA; exact BitsKept.bits_refl _ _
    simp only at hok
    split at hok
    · split at hok
      · split at hok
        · exact kA.bits_trans (bitsKept_TipReachableAdd hok)
        · exact kA.bits_trans (bitsKept_TipReachableDel hok)
      · rename_i r0 rest hrows
        rw [bind_ok_iff] at hok
        obtain ⟨sB, hB, hok⟩ := hok
        rw [bind_ok_iff] at hok
        obtain ⟨sC, hC, hok⟩ := hok
        have hmem : ∀ r ∈ r0 :: rest, r ∈ sA.States := by
          intro r hr
          rw [← hrows] at hr
          exact (nextFunctional_mem hr).1
        have kB := bitsKept_flipFold hm sA _ hmem sA sB (BitsKept.bits_refl _ _) hB
        have kC : BitsKept m sA sC :=
          foldlM_invariant (BitsKept m sA) _ rest
            (fun s a s1 _ hP hs => hP.bits_trans (ih _ _ _ _ _ _ hs)) sB sC kB hC
        exact (kA.bits_trans kC).bits_trans (ih _ _ _ _ _ _ hok)
    · cases hok

theorem mask_ne_of_testBit {m i j : Nat} (hm : m.testBit j = true) (hi : m.testBit i = false) :
    i ≠ j := by
  intro e
  rw [e, hm] at hi
  cases hi

theorem bitsKept_SetStateFunctional {m : Nat} (hm0 : m.testBit 0 = true)
    (hm1 : m.testBit 1 = true) {fuel : Nat} {st st1 : NodeDB} {rowid : Nat}
    (hok : SetStateFunctional fuel st rowid = .ok st1) : BitsKept m st st1 := by
  obtain ⟨x, hx, h | ⟨-, st3, nFlags, rowPrev, st4, hpre, h4, hcas⟩⟩ :=
    SetStateFunctional_inv hok
  · rw [h.2]; exact BitsKept.bits_refl _ _
  · obtain ⟨hxm, hxid⟩ := findRow_some hx
    have hF : ∀ i, m.testBit i = false →
        (x.Flags ||| StateFlags.Functional).testBit i = x.Flags.testBit i := by
      intro i hi
      rw [Nat.testBit_or, testBit_Functional]
      simp [mask_ne_of_testBit hm0 hi]
    have hFR : ∀ i, m.testBit i = false →
        (x.Flags ||| StateFlags.Functional ||| StateFlags.Reachable).testBit i
          = x.Flags.testBit i := by
      intro i hi
      rw [testBit_lor_R (mask_ne_of_testBit hm1 hi)]
      exact hF i hi
    have k3 : BitsKept m st st3 ∧ ∀ i, m.testBit i = false →
        nFlags.testBit i = x.Flags.testBit i := by
      rcases SetStateFunctional_prevStep_inv hpre with h | h | ⟨-, -, s1, h1, h | h⟩
      · rw [h.2.2.1, h.2.2.2.1]; exact ⟨BitsKept.bits_refl _ _, hF⟩
      · rw [h.2.2.1, h.2.2.2.1]; exact ⟨BitsKept.bits_refl _ _, hFR⟩
      · rw [h.2.1, h.2.2]
        exact ⟨bitsKept_updateRow h1 (fun _ => ⟨rfl, rfl⟩), hF⟩
      · rw [h.2.1]
        exact ⟨(bitsKept_updateRow h1 (fun _ => ⟨rfl, rfl⟩)).bits_trans
          (bitsKept_ite h.2.2 bitsKept_TipReachableDel), hFR⟩
    have k4 : BitsKept m st st4 := bitsKept_SetFlags k3.1 hxm hxid k3.2 h4
    split at hcas
    · exact k4.bits_trans (bitsKept_OnStateReachable hm1 _ _ _ _ _ _ _ hcas)
    · injection hcas with hcas; subst hcas; exact k4

theorem testBit_high {f i : Nat} (hf : f < 2 ^ 32) (hi : ¬ i < 32) : f.testBit i = false := by
  apply Nat.testBit_eq_false_of_lt
  calc f < 2 ^ 32 := hf
    _ ≤ 2 ^ i := Nat.pow_le_pow_right (by decide) (by omega)

theorem bitsKept_SetStateNotFunctional {m : Nat} (hm0 : m.testBit 0 = true)
    (hm1 : m.testBit 1 = true) {fuel : Nat} {st st1 : NodeDB} {rowid : Nat}
    (hfl : ∀ r ∈ st.States, r.Flags < 2 ^ 32)
    (hok : SetStateNotFunctional fuel st rowid = .ok st1) : BitsKept m st st1 := by
  obtain ⟨x, hx, h | ⟨-, st3, rowPrev, st4, hpre, h4, hcas⟩⟩ :=
    SetStateNotFunctional_inv hok
  · rw [h.2]; exact BitsKept.bits_refl _ _
  · obtain ⟨hxm, hxid⟩ := findRow_some hx
    have hn : ∀ i, m.testBit i = false →
        (SetStateNotFunctional.newFlags x.Flags).testBit i = x.Flags.testBit i := by
      intro i hi
      have h0 := mask_ne_of_testBit hm0 hi
      rw [testBit_newFlags _ (mask_ne_of_testBit hm1 hi)]
      by_cases h32 : i < 32
      · simp [h0, h32]
      · rw [testBit_high (hfl x hxm) h32]; simp
    have k3 : BitsKept m st st3 := by
      rcases SetStateNotFunctional_prevStep_inv hpre with h | h | ⟨-, -, -, s1, h1, h3⟩
      · rw [h.2.2.2.1]; exact BitsKept.bits_refl _ _
      · rw [h.2.2.2.1]; exact BitsKept.bits_refl _ _
      · exact (bitsKept_updateRow h1 (fun _ => ⟨rfl, rfl⟩)).bits_trans
          (bitsKept_ite h3 bitsKept_TipReachableAdd)
    have k4 : BitsKept m st st4 := bitsKept_SetFlags k3 hxm hxid hn h4
    split at hcas
    · exact k4.bits_trans (bitsKept_OnStateReachable hm1 _ _ _ _ _ _ _ hcas)
    · injection hcas with hcas; subst hcas; exact k4

theorem testBit_Active (i : Nat) : StateFlags.Active.testBit i = decide (i = 2) := by
  have : StateFlags.Active = 2 ^ 2 := rfl
  rw [this, Nat.testBit_two_pow]
  by_cases h : i = 2
  · simp [h]
  · have : ¬ (2 = i) := fun e => h e.symm
    simp [h, this]

theorem bitsKept_MoveFwd {m : Nat} (hm2 : m.testBit 2 = true) {st st1 : NodeDB} {sid : StateID}
    (hok : MoveFwd st sid = .ok st1) : BitsKept m st st1 := by
  obtain ⟨s1, h1, h2⟩ := MoveFwd_inv hok
  have c := put_Cursor_ok h2
  refine (bitsKept_updateRow_bits h1 ?_).bits_trans (BitsKept.bits_of_states_eq c.1)
  intro r _
  refine ⟨rfl, fun i hi => ?_⟩
  show (r.Flags ||| StateFlags.Active).testBit i = r.Flags.testBit i
  rw [Nat.testBit_or, testBit_Active]
  simp [mask_ne_of_testBit hm2 hi]

theorem bitsKept_MoveBack {m : Nat} (hm2 : m.testBit 2 = true) {st st1 : NodeDB}
    {sid sid1 : StateID} (hfl : ∀ r ∈ st.States, r.Flags < 2 ^ 32)
    (hok : MoveBack st sid = .ok (st1, sid1)) : BitsKept m st st1 := by
  obtain ⟨s1, r, h1, -, -, h2⟩ := MoveBack_inv hok
  have c := put_Cursor_ok h2
  refine (bitsKept_updateRow_bits h1 ?_).bits_trans (BitsKept.bits_of_states_eq c.1)
  intro r hr
  refine ⟨rfl, fun i hi => ?_⟩
  show (r.Flags &&& notU32 StateFlags.Active).testBit i = r.Flags.testBit i
  rw [Nat.testBit_and, testBit_notU32, testBit_Active]
  by_cases h32 : i < 32
  · simp [mask_ne_of_testBit hm2 hi, h32]
  · rw [testBit_high (hfl r hr) h32]; simp

theorem get_Cursor_put {st st1 : NodeDB} {sid : StateID} (hok : put_Cursor st sid = .ok st1) :
    get_Cursor st1 = (sid, decide (sid.m_Row > 0)) := by
  unfold put_Cursor at hok
  rw [bind_ok_iff] at hok
  obtain ⟨s1, h1, h2⟩ := hok
  have a : ParamIntGet st1 ParamID.CursorHeight = some sid.m_Height := ParamIntGet_set_same h2
  have b : ParamIntGet st1 ParamID.CursorRow = some sid.m_Row := by
    rw [ParamIntGet_set_other h2 (by decide)]
    exact ParamIntGet_set_same h1
  unfold get_Cursor ParamIntGetDef
  rw [a, b]
  rfl

theorem put_Cursor_total (st : NodeDB) (sid : StateID) :
    ∃ st1, put_Cursor st sid = .ok st1 := by
  obtain ⟨s1, h1, -⟩ := ParamIntSet_total st ParamID.CursorRow sid.m_Row
  obtain ⟨s2, h2, -⟩ := ParamIntSet_total s1 ParamID.CursorHeight sid.m_Height
  refine ⟨s2, ?_⟩
  unfold put_Cursor
  rw [bind_ok_iff]
  exact ⟨s1, h1, h2⟩

/-- What a completed `MoveFwd` leaves. -/
theorem MoveFwd_closed {st st1 : NodeDB} {sid : StateID} (hok : MoveFwd st sid = .ok st1) :
    st1.States = st.States.map (setActive sid.m_Row) ∧
    get_Cursor st1 = (sid, decide (sid.m_Row > 0)) ∧
    (∃ x ∈ st.States, x.rowid = sid.m_Row) := by
  obtain ⟨s1, h1, h2⟩ := MoveFwd_inv hok
  obtain ⟨hlen, rfl⟩ := updateRow_ok h1
  refine ⟨(put_Cursor_ok h2).1, get_Cursor_put h2, ?_⟩
  have : 0 < (st.States.filter (fun r => r.rowid == sid.m_Row)).length := by omega
  obtain ⟨x, hx⟩ := List.exists_mem_of_length_pos this
  rw [List.mem_filter] at hx
  exact ⟨x, hx.1, beq_iff_eq.mp hx.2⟩

theorem MoveFwd_total {st : NodeDB} (hnd : (st.States.map (fun r => r.rowid)).Nodup)
    {x : StateRow} (hx : x ∈ st.States) (h : Nat) :
    ∃ st1, MoveFwd st { m_Height := h, m_Row := x.rowid } = .ok st1 := by
  obtain ⟨s2, h2⟩ := put_Cursor_total
    { st with States := st.States.map (fun r => if r.rowid == x.rowid then
        { r with Flags := r.Flags ||| StateFlags.Active } else r) }
    { m_Height := h, m_Row := x.rowid }
  refine ⟨s2, ?_⟩
  unfold MoveFwd
  rw [bind_ok_iff]
  exact ⟨_, updateRow_total hnd hx _, h2⟩

/-- What a completed `MoveBack` leaves. -/
theorem MoveBack_closed {st st1 : NodeDB} {sid sid1 : StateID}
    (hok : MoveBack st sid = .ok (st1, sid1)) :
    st1.States = st.States.map (clearActive sid.m_Row) ∧
    get_Cursor st1 = (sid1, decide (sid1.m_Row > 0)) ∧
    sid.m_Row ≠ 0 ∧
    ∃ x ∈ st.States, x.rowid = sid.m_Row ∧
      ((∃ p, rowPrevOf st sid.m_Row = some (some p) ∧
          sid1 = { m_Height := heightDec sid.m_Height, m_Row := p }) ∨
       (rowPrevOf st sid.m_Row = some none ∧ sid1 = { m_Height := 0, m_Row := 0 })) := by
  obtain ⟨s1, r, h1, hg, e1, h2⟩ := MoveBack_inv hok
  obtain ⟨hlen, rfl⟩ := updateRow_ok h1
  have hfr : ∀ a, findRow ({ st with States := st.States.map (fun r =>
      if r.rowid == sid.m_Row then { r with Flags := r.Flags &&& notU32 StateFlags.Active }
      else r) } : NodeDB) a = (findRow st a).map (clearActive sid.m_Row) :=
    fun a => findRow_map rfl (fun r => by unfold clearActive; split <;> rfl) a
  have : 0 < (st.States.filter (fun r => r.rowid == sid.m_Row)).length := by omega
  obtain ⟨x, hx⟩ := List.exists_mem_of_length_pos this
  rw [List.mem_filter] at hx
  unfold get_PrevSid get_Prev at hg
  rw [bind_ok_iff] at hg
  obtain ⟨q, hq, hg⟩ := hg
  split at hq
  · cases hq
  · rename_i h0
    rw [hfr] at hq
    refine ⟨(put_Cursor_ok h2).1, get_Cursor_put h2, by simpa using h0,
      x, hx.1, beq_iff_eq.mp hx.2, ?_⟩
    unfold rowPrevOf
    cases hf : findRow st sid.m_Row with
    | none => rw [hf] at hq; cases hq
    | some y =>
      rw [hf] at hq
      simp only [Option.map_some'] at hq
      injection hq with hq
      have hy : (clearActive sid.m_Row y).RowPrev = y.RowPrev := by
        unfold clearActive; split <;> rfl
      rw [hy] at hq
      subst hq
      cases hp : y.RowPrev with
      | none =>
        rw [hp] at hg
        injection hg with hg
        subst hg
        exact Or.inr ⟨by simp [hp], e1⟩
      | some p =>
        rw [hp] at hg
        injection hg with hg
        subst hg
        exact Or.inl ⟨p, by simp [hp], e1⟩

theorem MoveBack_total {st : NodeDB} (hnd : (st.States.map (fun r => r.rowid)).Nodup)
    {x : StateRow} (hx : x ∈ st.States) (hx0 : x.rowid ≠ 0) (h : Nat) :
    ∃ st1 sid1, MoveBack st { m_Height := h, m_Row := x.rowid } = .ok (st1, sid1) := by
  have h1 := updateRow_total hnd hx
    (fun r => { r with Flags := r.Flags &&& notU32 StateFlags.Active })
  have hfr : findRow ({ st with States := st.States.map (fun r =>
      if r.rowid == x.rowid then { r with Flags := r.Flags &&& notU32 StateFlags.Active }
      else r) } : NodeDB) x.rowid = (findRow st x.rowid).map (clearActive x.rowid) :=
    findRow_map rfl (fun r => by unfold clearActive; split <;> rfl) x.rowid
  rw [findRow_of_mem hnd hx] at hfr
  cases hp : x.RowPrev with
  | none =>
    obtain ⟨s2, h2⟩ := put_Cursor_total
      { st with States := st.States.map (fun r => if r.rowid == x.rowid then
        { r with Flags := r.Flags &&& notU32 StateFlags.Active } else r) }
      { m_Height := 0, m_Row := 0 }
    refine ⟨s2, { m_Height := 0, m_Row := 0 }, ?_⟩
    unfold MoveBack
    rw [bind_ok_iff]
    refine ⟨_, h1, ?_⟩
    rw [bind_ok_iff]
    refine ⟨none, ?_, ?_⟩
    · unfold get_PrevSid get_Prev
      simp only
      rw [if_neg (by simpa using hx0), hfr]
      simp only [Option.map_some']
      have : (clearActive x.rowid x).RowPrev = none := by
        unfold clearActive; rw [← hp]; split <;> rfl
      rw [this]
      rfl
    · simp only
      rw [bind_ok_iff]
      exact ⟨s2, h2, rfl⟩
  | some p =>
    obtain ⟨s2, h2⟩ := put_Cursor_total
      { st with States := st.States.map (fun r => if r.rowid == x.rowid then
        { r with Flags := r.Flags &&& notU32 StateFlags.Active } else r) }
      { m_Height := heightDec h, m_Row := p }
    refine ⟨s2, { m_Height := heightDec h, m_Row := p }, ?_⟩
    unfold MoveBack
    rw [bind_ok_iff]
    refine ⟨_, h1, ?_⟩
    rw [bind_ok_iff]
    refine ⟨some { m_Height := heightDec h, m_Row := p }, ?_, ?_⟩
    · unfold get_PrevSid get_Prev
      simp only
      rw [if_neg (by simpa using hx0), hfr]
      simp only [Option.map_some']
      have : (clearActive x.rowid x).RowPrev = some p := by
        unfold clearActive; rw [← hp]; split <;> rfl
      rw [this]
      rfl
    · simp only
      rw [bind_ok_iff]
      exact ⟨s2, h2, rfl⟩

theorem setActive_fields (a : Nat) (r : StateRow) :
    (setActive a r).rowid = r.rowid ∧ (setActive a r).RowPrev = r.RowPrev ∧
    (hasFlag (setActive a r).Flags StateFlags.Active = true ↔
      r.rowid = a ∨ hasFlag r.Flags StateFlags.Active = true) := by
  unfold setActive
  by_cases h : (r.rowid == a) = true
  · rw [if_pos h]
    exact ⟨rfl, rfl, by simp [beq_iff_eq.mp h]⟩
  · rw [if_neg h]
    have : ¬ r.rowid = a := fun e => h (beq_iff_eq.mpr e)
    exact ⟨rfl, rfl, by simp [this]⟩

theorem clearActive_fields (a : Nat) (r : StateRow) :
    (clearActive a r).rowid = r.rowid ∧ (clearActive a r).RowPrev = r.RowPrev ∧
    (hasFlag (clearActive a r).Flags StateFlags.Active = true ↔
      r.rowid ≠ a ∧ hasFlag r.Flags StateFlags.Active = true) := by
  unfold clearActive
  by_cases h : (r.rowid == a) = true
  · rw [if_pos h]
    exact ⟨rfl, rfl, by simp [beq_iff_eq.mp h]⟩
  · rw [if_neg h]
    have : ¬ r.rowid = a := fun e => h (beq_iff_eq.mpr e)
    exact ⟨rfl, rfl, by simp [this]⟩

theorem rowPrevOf_map {st st1 : NodeDB} {f : StateRow → StateRow}
    (e : st1.States = st.States.map f)
    (hf : ∀ r, (f r).rowid = r.rowid ∧ (f r).RowPrev = r.RowPrev) (a : Nat) :
    rowPrevOf st1 a = rowPrevOf st a := by
  unfold rowPrevOf
  rw [findRow_map e (fun r => (hf r).1)]
  cases findRow st a with
  | none => rfl
  | some r => simp only [Option.map_some', (hf r).2]

theorem ids_map {st st1 : NodeDB} {f : StateRow → StateRow}
    (e : st1.States = st.States.map f) (hf : ∀ r, (f r).rowid = r.rowid) :
    st1.States.map (fun r => r.rowid) = st.States.map (fun r => r.rowid) := by
  rw [e, List.map_map]
  apply List.map_congr_left
  intro r _
  exact hf r

theorem isRun_congr {st st1 : NodeDB} (h : ∀ a, rowPrevOf st1 a = rowPrevOf st a)
    {l : List Nat} (hl : IsRun st l) : IsRun st1 l := by
  obtain ⟨h1, h2⟩ := hl
  refine ⟨h1.imp (fun {a b} hab => by rw [h a]; exact hab), fun a ha => ?_⟩
  rw [h a]; exact h2 a ha

theorem rowPrevOf_of_mem {st : NodeDB} (hnd : (st.States.map (fun r => r.rowid)).Nodup)
    {x : StateRow} (hx : x ∈ st.States) : rowPrevOf st x.rowid = some x.RowPrev := by
  unfold rowPrevOf
  rw [findRow_of_mem hnd hx]
  rfl

theorem mem_of_rowPrevOf {st : NodeDB} {a : Nat} (h : (rowPrevOf st a).isSome) :
    ∃ x ∈ st.States, x.rowid = a := by
  unfold rowPrevOf at h
  cases hf : findRow st a with
  | none => rw [hf] at h; cases h
  | some x => exact ⟨x, (findRow_some hf).1, (findRow_some hf).2⟩

/-- The forward walk along a list of rows of the table. -/
theorem moveFwdFrom_spec : ∀ (ids : List Nat) (st : NodeDB) (i : Nat) (D : Nat → Prop),
    (st.States.map (fun r => r.rowid)).Nodup →
    (∀ a ∈ ids, ∃ x ∈ st.States, x.rowid = a) →
    (∀ r ∈ st.States, hasFlag r.Flags StateFlags.Active = true ↔ D r.rowid) →
    ∃ st1, moveFwdFrom st i ids = .ok st1 ∧
      (∀ a, rowPrevOf st1 a = rowPrevOf st a) ∧
      st1.States.map (fun r => r.rowid) = st.States.map (fun r => r.rowid) ∧
      (∀ r ∈ st1.States, hasFlag r.Flags StateFlags.Active = true ↔
        D r.rowid ∨ r.rowid ∈ ids) ∧
      (∀ l a, ids = l ++ [a] →
        get_Cursor st1 = ({ m_Height := i + l.length, m_Row := a }, decide (a > 0))) := by
  intro ids
  induction ids with
  | nil =>
    intro st i D _ _ hD
    refine ⟨st, rfl, fun _ => rfl, rfl, fun r hr => by simpa using hD r hr, ?_⟩
    intro l a e
    cases l <;> cases e
  | cons b rest ih =>
    intro st i D hnd hmem hD
    obtain ⟨x, hx, rfl⟩ := hmem b (List.mem_cons_self _ _)
    obtain ⟨s1, h1⟩ := MoveFwd_total hnd hx i
    obtain ⟨e1, c1, -⟩ := MoveFwd_closed h1
    have hid1 := ids_map e1 (fun r => (setActive_fields _ r).1)
    have hp1 : ∀ a, rowPrevOf s1 a = rowPrevOf st a :=
      rowPrevOf_map e1 (fun r => ⟨(setActive_fields _ r).1, (setActive_fields _ r).2.1⟩)
    have hD1 : ∀ r ∈ s1.States, hasFlag r.Flags StateFlags.Active = true ↔
        (D r.rowid ∨ r.rowid = x.rowid) := by
      intro r hr
      rw [e1, List.mem_map] at hr
      obtain ⟨r0, hr0, rfl⟩ := hr
      have k := setActive_fields x.rowid r0
      rw [k.2.2, k.1, hD r0 hr0]
      exact Or.comm
    have hmem1 : ∀ a ∈ rest, ∃ y ∈ s1.States, y.rowid = a := by
      intro a ha
      obtain ⟨y, hy, e⟩ := hmem a (List.mem_cons_of_mem _ ha)
      have : a ∈ s1.States.map (fun r => r.rowid) := by
        rw [hid1, ← e]; exact List.mem_map_of_mem _ hy
      obtain ⟨z, hz, ez⟩ := List.mem_map.mp this
      exact ⟨z, hz, ez⟩
    obtain ⟨s2, h2, p2, i2, d2, c2⟩ := ih s1 (i + 1) (fun j => D j ∨ j = x.rowid)
      (by rw [hid1]; exact hnd) hmem1 hD1
    refine ⟨s2, ?_, fun a => (p2 a).trans (hp1 a), i2.trans hid1, ?_, ?_⟩
    · show (MoveFwd st { m_Height := i, m_Row := x.rowid } >>= fun st1 =>
        moveFwdFrom st1 (i + 1) rest) = .ok s2
      rw [bind_ok_iff]
      exact ⟨s1, h1, h2⟩
    · intro r hr
      rw [d2 r hr, List.mem_cons, or_assoc]
    · intro l a e
      cases l with
      | nil =>
        simp only [List.nil_append, List.cons.injEq] at e
        obtain ⟨rfl, rfl⟩ := e
        have : s2 = s1 := by
          have : moveFwdFrom s1 (i + 1) [] = .ok s1 := rfl
          rw [this] at h2
          injection h2 with h2
          exact h2.symm
        rw [this, c1]
        rfl
      | cons c l1 =>
        simp only [List.cons_append, List.cons.injEq] at e
        obtain ⟨rfl, rfl⟩ := e
        rw [c2 l1 a rfl]
        simp only [List.length_cons]
        congr 2
        omega

/-- The backward walk from the head of a `RowPrev` chain whose last row has no predecessor. -/
theorem moveBackN_spec : ∀ (rest : List Nat) (a : Nat) (st : NodeDB) (h : Nat)
    (D : Nat → Prop),
    (st.States.map (fun r => r.rowid)).Nodup → (∀ r ∈ st.States, r.rowid ≠ 0) →
    IsRun st (a :: rest) →
    (∀ z, (a :: rest).getLast? = some z → rowPrevOf st z = some none) →
    (∀ r ∈ st.States, hasFlag r.Flags StateFlags.Active = true ↔ D r.rowid) →
    ∃ st1 sid1, moveBackN (a :: rest).length st { m_Height := h, m_Row := a }
        = .ok (st1, sid1) ∧
      get_Cursor st1 = ({ m_Height := 0, m_Row := 0 }, false) ∧
      (∀ r ∈ st1.States, hasFlag r.Flags StateFlags.Active = true ↔
        D r.rowid ∧ r.rowid ∉ a :: rest) := by
  intro rest
  induction rest with
  | nil =>
    intro a st h D hnd h0 hrun hlast hD
    obtain ⟨x, hx, rfl⟩ := mem_of_rowPrevOf (hrun.2 a (List.mem_cons_self _ _))
    obtain ⟨s1, sid1, h1⟩ := MoveBack_total hnd hx (h0 x hx) h
    obtain ⟨e1, c1, -, _, -, -, hcase⟩ := MoveBack_closed h1
    have hlast := hlast x.rowid rfl
    have hsid : sid1 = { m_Height := 0, m_Row := 0 } := by
      rcases hcase with ⟨p, hp, -⟩ | ⟨-, e⟩
      · simp only at hp
        rw [hlast] at hp
        cases hp
      · exact e
    subst hsid
    refine ⟨s1, { m_Height := 0, m_Row := 0 }, ?_, c1, ?_⟩
    · show (MoveBack st { m_Height := h, m_Row := x.rowid } >>= fun p =>
        moveBackN 0 p.1 p.2) = .ok (s1, { m_Height := 0, m_Row := 0 })
      rw [bind_ok_iff]
      exact ⟨_, h1, rfl⟩
    · intro r hr
      rw [e1, List.mem_map] at hr
      obtain ⟨r0, hr0, rfl⟩ := hr
      have k := clearActive_fields x.rowid r0
      rw [k.2.2, k.1, hD r0 hr0]
      simp only [List.mem_singleton]
      exact And.comm
  | cons b rest ih =>
    intro a st h D hnd h0 hrun hlast hD
    obtain ⟨x, hx, rfl⟩ := mem_of_rowPrevOf (hrun.2 a (List.mem_cons_self _ _))
    obtain ⟨s1, sid1, h1⟩ := MoveBack_total hnd hx (h0 x hx) h
    obtain ⟨e1, c1, -, _, -, -, hcase⟩ := MoveBack_closed h1
    have hab : rowPrevOf st x.rowid = some (some b) := (List.chain'_cons.mp hrun.1).1
    have hsid : sid1 = { m_Height := heightDec h, m_Row := b } := by
      rcases hcase with ⟨p, hp, e⟩ | ⟨hp, -⟩
      · simp only at hp e
        rw [hab] at hp
        injection hp with hp
        injection hp with hp
        rw [e, hp]
      · simp only at hp
        rw [hab] at hp
        cases hp
    subst hsid
    have hid1 := ids_map e1 (fun r => (clearActive_fields _ r).1)
    have hp1 : ∀ c, rowPrevOf s1 c = rowPrevOf st c :=
      rowPrevOf_map e1 (fun r => ⟨(clearActive_fields _ r).1, (clearActive_fields _ r).2.1⟩)
    have hrun1 : IsRun s1 (b :: rest) :=
      isRun_congr hp1 ⟨(List.chain'_cons.mp hrun.1).2,
        fun c hc => hrun.2 c (List.mem_cons_of_mem _ hc)⟩
    have h01 : ∀ r ∈ s1.States, r.rowid ≠ 0 := by
      intro r hr
      rw [e1, List.mem_map] at hr
      obtain ⟨r0, hr0, rfl⟩ := hr
      rw [(clearActive_fields _ r0).1]
      exact h0 r0 hr0
    have hD1 : ∀ r ∈ s1.States, hasFlag r.Flags StateFlags.Active = true ↔
        (D r.rowid ∧ r.rowid ≠ x.rowid) := by
      intro r hr
      rw [e1, List.mem_map] at hr
      obtain ⟨r0, hr0, rfl⟩ := hr
      have k := clearActive_fields x.rowid r0
      rw [k.2.2, k.1, hD r0 hr0]
      exact And.comm
    have hlast1 : ∀ z, (b :: rest).getLast? = some z → rowPrevOf s1 z = some none := by
      intro z hz
      rw [hp1]
      exact hlast z (by rw [List.getLast?_cons_cons]; exact hz)
    obtain ⟨s2, sid2, h2, c2, d2⟩ := ih b s1 (heightDec h) (fun j => D j ∧ j ≠ x.rowid)
      (by rw [hid1]; exact hnd) h01 hrun1 hlast1 hD1
    refine ⟨s2, sid2, ?_, c2, ?_⟩
    · show (MoveBack st { m_Height := h, m_Row := x.rowid } >>= fun p =>
        moveBackN (b :: rest).length p.1 p.2) = .ok (s2, sid2)
      rw [bind_ok_iff]
      exact ⟨_, h1, h2⟩
    · intro r hr
      rw [d2 r hr]
      simp only [List.mem_cons, not_or]
      constructor
      · rintro ⟨⟨a1, a2⟩, a3, a4⟩; exact ⟨a1, a2, a3, a4⟩
      · rintro ⟨a1, a2, a3, a4⟩; exact ⟨⟨a1, a2⟩, a3, a4⟩

theorem chain_rowPrevOf {st : NodeDB} (hnd : (st.States.map (fun r => r.rowid)).Nodup) :
    ∀ rows : List StateRow, (∀ r ∈ rows, r ∈ st.States) →
      List.Chain' (fun a b => b.RowPrev = some a.rowid) rows →
      List.Chain' (fun a b => rowPrevOf st b = some (some a)) (rows.map (fun r => r.rowid)) := by
  intro rows
  induction rows with
  | nil => intro _ _; exact List.chain'_nil
  | cons x rest ih =>
    intro hmem hc
    cases rest with
    | nil => exact List.chain'_singleton _
    | cons y rest1 =>
      rw [List.chain'_cons] at hc
      simp only [List.map_cons]
      rw [List.chain'_cons]
      refine ⟨?_, ih (fun r hr => hmem r (List.mem_cons_of_mem _ hr)) hc.2⟩
      rw [rowPrevOf_of_mem hnd (hmem y (List.mem_cons_of_mem _ (List.mem_cons_self _ _))), hc.1]

/-! Frame of `Params` and width of `Flags` -/

theorem params_updateRow {st st1 : NodeDB} {rowid : Nat} {f : StateRow → StateRow}
    (h : updateRow st rowid f = .ok st1) : st1.Params = st.Params := by
  obtain ⟨-, rfl⟩ := updateRow_ok h; rfl

theorem params_TipReachableAdd {st st1 : NodeDB} {rowid h : Nat}
    (hok : TipReachableAdd st rowid h = .ok st1) : st1.Params = st.Params := by
  obtain ⟨-, rfl⟩ := TipReachableAdd_ok hok; rfl

theorem params_TipReachableDel {st st1 : NodeDB} {rowid h : Nat}
    (hok : TipReachableDel st rowid h = .ok st1) : st1.Params = st.Params := by
  obtain ⟨-, rfl⟩ := TipReachableDel_ok hok; rfl

theorem params_ite {st st1 : NodeDB} {c : Prop} [Decidable c] {x : Except Err NodeDB}
    (h : (if c then x else .ok st) = .ok st1) (hx : x = .ok st1 → st1.Params = st.Params) :
    st1.Params = st.Params := by
  split at h
  · exact hx h
  · injection h with h; subst h; rfl

theorem params_BuildMmr {st st1 : NodeDB} {rowid rowPrev h : Nat}
    (hok : BuildMmr st rowid rowPrev h = .ok st1) : st1.Params = st.Params := by
  unfold BuildMmr at hok
  split at hok
  · cases hok
  split at hok
  · cases hok
  split at hok
  · cases hok
  split at hok
  · injection hok with hok; subst hok; rfl
  · exact params_updateRow hok

theorem params_OnStateReachable :
    ∀ (fuel : Nat) (st st1 : NodeDB) (rowid rowPrev h : Nat) (b : Bool),
      OnStateReachable fuel st rowid rowPrev h b = .ok st1 → st1.Params = st.Params := by
  intro fuel
  induction fuel with
  | zero => intro st st1 rowid rowPrev h b hok; simp [OnStateReachable] at hok
  | succ fuel ih =>
    intro st st1 rowid rowPrev h b hok
    rw [OnStateReachable, bind_ok_iff] at hok
    obtain ⟨sA, hA, hok⟩ := hok
    have kA : sA.Params = st.Params := by
      split at hA
      · exact params_BuildMmr hA
      · injection hA with hA; subst hA; rfl
    simp only at hok
    split at hok
    · split at hok
      · split at hok
        · exact (params_TipReachableAdd hok).trans kA
        · exact (params_TipReachableDel hok).trans kA
      · rw [bind_ok_iff] at hok
        obtain ⟨sB, hB, hok⟩ := hok
        rw [bind_ok_iff] at hok
        obtain ⟨sC, hC, hok⟩ := hok
        have kB : sB.Params = sA.Params :=
          foldlM_invariant (fun s => s.Params = sA.Params) _ _
            (fun s a s1 _ hP hs => (params_updateRow hs).trans hP) sA sB rfl hB
        have kC : sC.Params = sA.Params :=
          foldlM_invariant (fun s => s.Params = sA.Params) _ _
            (fun s a s1 _ hP hs => (ih _ _ _ _ _ _ hs).trans hP) sB sC kB hC
        exact ((ih _ _ _ _ _ _ hok).trans kC).trans kA
    · cases hok

theorem params_SetStateFunctional {fuel : Nat} {st st1 : NodeDB} {rowid : Nat}
    (hok : SetStateFunctional fuel st rowid = .ok st1) : st1.Params = st.Params := by
  obtain ⟨x, hx, h | ⟨-, st3, nFlags, rowPrev, st4, hpre, h4, hcas⟩⟩ :=
    SetStateFunctional_inv hok
  · rw [h.2]
  · have k3 : st3.Params = st.Params := by
      rcases SetStateFunctional_prevStep_inv hpre with h | h | ⟨-, -, s1, h1, h | h⟩
      · rw [h.2.2.1]
      · rw [h.2.2.1]
      · rw [h.2.1]; exact params_updateRow h1
      · exact (params_ite h.2.2 params_TipReachableDel).trans (params_updateRow h1)
    have k4 : st4.Params = st.Params := (params_updateRow h4).trans k3
    split at hcas
    · exact (params_OnStateReachable _ _ _ _ _ _ _ hcas).trans k4
    · injection hcas with hcas; subst hcas; exact k4

theorem params_SetStateNotFunctional {fuel : Nat} {st st1 : NodeDB} {rowid : Nat}
    (hok : SetStateNotFunctional fuel st rowid = .ok st1) : st1.Params = st.Params := by
  obtain ⟨x, hx, h | ⟨-, st3, rowPrev, st4, hpre, h4, hcas⟩⟩ :=
    SetStateNotFunctional_inv hok
  · rw [h.2]
  · have k3 : st3.Params = st.Params := by
      rcases SetStateNotFunctional_prevStep_inv hpre with h | h | ⟨-, -, -, s1, h1, h3⟩
      · rw [h.2.2.2.1]
      · rw [h.2.2.2.1]
      · exact (params_ite h3 params_TipReachableAdd).trans (params_updateRow h1)
    have k4 : st4.Params = st.Params := (params_updateRow h4).trans k3
    split at hcas
    · exact (params_OnStateReachable _ _ _ _ _ _ _ hcas).trans k4
    · injection hcas with hcas; subst hcas; exact k4

theorem get_Cursor_congr {st st1 : NodeDB} (h : st1.Params = st.Params) :
    get_Cursor st1 = get_Cursor st := by
  unfold get_Cursor ParamIntGetDef ParamIntGet
  rw [h]

theorem flagsLt_F {f : Nat} (h : f < 2 ^ 32) : f ||| StateFlags.Functional < 2 ^ 32 :=
  Nat.or_lt_two_pow h (by decide)

theorem flagsLt_R {f : Nat} (h : f < 2 ^ 32) : f ||| StateFlags.Reachable < 2 ^ 32 :=
  Nat.or_lt_two_pow h (by decide)

theorem flagsLt_and {f : Nat} (h : f < 2 ^ 32) (m : Nat) : f &&& m < 2 ^ 32 :=
  Nat.lt_of_le_of_lt Nat.and_le_left h

theorem flagsLt_flip (f : Nat) (h : f < 2 ^ 32)
    (_ : hasFlag f StateFlags.Functional = true) : f ^^^ StateFlags.Reachable < 2 ^ 32 :=
  Nat.xor_lt_two_pow h (by decide)

theorem flagsLt_newFlags {f : Nat} (h : f < 2 ^ 32) :
    SetStateNotFunctional.newFlags f < 2 ^ 32 := by
  unfold SetStateNotFunctional.newFlags
  simp only
  split
  · exact flagsLt_and (flagsLt_and h _) _
  · exact flagsLt_and h _

/-- In every reached store `Flags` is a 32-bit word. -/
theorem reached_flagsLt {cursor : Bool} {st : NodeDB} (h : Reached cursor st) :
    AllFlags (fun f => f < 2 ^ 32) st := by
  induction h with
  | empty => intro r hr; simp [NodeDB.empty] at hr
  | insertState _ _ hok ih =>
    exact allFlags_InsertState (Q := fun f => f < 2 ^ 32) (by decide) ih hok
  | deleteState _ hok ih => exact (flagsKept_DeleteState hok).allFlags ih
  | setStateFunctional _ hok ih =>
    obtain ⟨x, hx, h | ⟨-, st3, nFlags, rowPrev, st4, hpre, h4, hcas⟩⟩ :=
      SetStateFunctional_inv hok
    · rw [h.2]; exact ih
    · have hxl := ih x (findRow_some hx).1
      have hQ3 := (flagsKept_SetStateFunctional_prevStep hpre).allFlags ih
      have hn : nFlags < 2 ^ 32 := by
        rcases SetStateFunctional_prevStep_inv hpre with h | h | ⟨-, -, s1, -, h | h⟩
        · rw [h.2.2.2.1]; exact flagsLt_F hxl
        · rw [h.2.2.2.1]; exact flagsLt_R (flagsLt_F hxl)
        · rw [h.2.2]; exact flagsLt_F hxl
        · rw [h.2.1]; exact flagsLt_R (flagsLt_F hxl)
      have hQ4 := allFlags_SetFlags (Q := fun f => f < 2 ^ 32) hn hQ3 h4
      split at hcas
      · exact allFlags_OnStateReachable (Q := fun f => f < 2 ^ 32) flagsLt_flip
          _ _ _ _ _ _ _ hQ4 hcas
      · injection hcas with hcas; subst hcas; exact hQ4
  | setStateNotFunctional _ hok ih =>
    obtain ⟨x, hx, h | ⟨-, st3, rowPrev, st4, hpre, h4, hcas⟩⟩ :=
      SetStateNotFunctional_inv hok
    · rw [h.2]; exact ih
    · have hxl := ih x (findRow_some hx).1
      have hQ3 := (flagsKept_SetStateNotFunctional_prevStep hpre).allFlags ih
      have hQ4 := allFlags_SetFlags (Q := fun f => f < 2 ^ 32) (flagsLt_newFlags hxl) hQ3 h4
      split at hcas
      · exact allFlags_OnStateReachable (Q := fun f => f < 2 ^ 32) flagsLt_flip
          _ _ _ _ _ _ _ hQ4 hcas
      · injection hcas with hcas; subst hcas; exact hQ4
  | moveFwd _ _ hok ih =>
    obtain ⟨s1, h1, h2⟩ := MoveFwd_inv hok
    have hQ1 : AllFlags (fun f => f < 2 ^ 32) s1 :=
      allFlags_updateFlags (Q := fun f => f < 2 ^ 32) (g := fun f => f ||| StateFlags.Active)
        (fun f hf => Nat.or_lt_two_pow hf (by decide)) ih h1
    exact (FlagsKept.kept_of_states_eq (put_Cursor_ok h2).1).allFlags hQ1
  | moveBack _ _ hok ih =>
    obtain ⟨s1, r, h1, -, -, h2⟩ := MoveBack_inv hok
    have hQ1 : AllFlags (fun f => f < 2 ^ 32) s1 :=
      allFlags_updateFlags (Q := fun f => f < 2 ^ 32)
        (g := fun f => f &&& notU32 StateFlags.Active)
        (fun f hf => flagsLt_and hf _) ih h1
    exact (FlagsKept.kept_of_states_eq (put_Cursor_ok h2).1).allFlags hQ1

theorem reachedProtocol_reached {st : NodeDB} (h : ReachedProtocol st) : Reached true st := by
  induction h with
  | empty => exact Reached.empty
  | insertState _ hh hok ih => exact Reached.insertState ih hh hok
  | deleteState _ hok ih => exact Reached.deleteState ih hok
  | setStateFunctional _ hok ih => exact Reached.setStateFunctional ih hok
  | setStateNotFunctional _ hok ih => exact Reached.setStateNotFunctional ih hok
  | moveFwd _ _ hok ih => exact Reached.moveFwd rfl ih hok
  | moveBack _ hok ih => exact Reached.moveBack rfl ih hok

/-- What a flag operation leaves of the `RowPrev` links and of the `Active` flags: a step that
keeps the skeleton of every row and every bit of `Flags` outside `Functional` and
`Reachable`. -/
theorem links_of_frame {st st1 : NodeDB} (hnd : (st.States.map (fun r => r.rowid)).Nodup)
    (hk : SameSkeleton st st1)
    (hb : BitsKept (StateFlags.Functional ||| StateFlags.Reachable) st st1) :
    (∀ a, rowPrevOf st1 a = rowPrevOf st a) ∧
    (∀ r1 ∈ st1.States, ∃ r ∈ st.States, r1.rowid = r.rowid ∧
      hasFlag r1.Flags StateFlags.Active = hasFlag r.Flags StateFlags.Active) := by
  have hids : st1.States.map (fun r => r.rowid) = st.States.map (fun r => r.rowid) := by
    have := congrArg (List.map (fun r => r.rowid)) hk.1
    simpa [List.map_map, Function.comp, skeleton] using this
  have hrow : ∀ r1 ∈ st1.States, ∃ r ∈ st.States, r1.rowid = r.rowid ∧
      r1.RowPrev = r.RowPrev := by
    intro r1 hr1
    obtain ⟨r, hr, e⟩ := skeleton_mem_of_map_eq hk.1 hr1
    have f := skeleton_fields e
    exact ⟨r, hr, f.1, f.2.2.2.2.1⟩
  constructor
  · intro a
    unfold rowPrevOf
    cases h1 : findRow st1 a with
    | none =>
      cases h0 : findRow st a with
      | none => rfl
      | some r =>
        obtain ⟨hr, e⟩ := findRow_some h0
        have : a ∈ st1.States.map (fun r => r.rowid) := by
          rw [hids, ← e]; exact List.mem_map_of_mem _ hr
        obtain ⟨r1, hr1, e1⟩ := List.mem_map.mp this
        have := findRow_of_mem (by rw [hids]; exact hnd) hr1
        rw [e1, h1] at this
        cases this
    | some r1 =>
      obtain ⟨hr1, e1⟩ := findRow_some h1
      obtain ⟨r, hr, e, p⟩ := hrow r1 hr1
      have := findRow_of_mem hnd hr
      rw [← e, e1] at this
      rw [this]
      simp only [Option.map_some', p]
  · intro r1 hr1
    obtain ⟨r, hr, e, b⟩ := hb r1 hr1
    refine ⟨r, hr, e, ?_⟩
    have h2 := b 2 (by decide)
    have e1 : hasFlag r1.Flags StateFlags.Active = r1.Flags.testBit 2 := hasFlag_two_pow _ 2
    have e2 : hasFlag r.Flags StateFlags.Active = r.Flags.testBit 2 := hasFlag_two_pow _ 2
    rw [e1, e2, h2]

/-! The `Active` rows and the cursor -/

theorem chain_imp_mem {R S : Nat → Nat → Prop} : ∀ (l : List Nat), List.Chain' R l →
    (∀ a ∈ l, ∀ b, R a b → S a b) → List.Chain' S l := by
  intro l
  induction l with
  | nil => intro _ _; exact List.chain'_nil
  | cons x rest ih =>
    intro hc h
    cases rest with
    | nil => exact List.chain'_singleton _
    | cons y rest1 =>
      rw [List.chain'_cons] at hc ⊢
      exact ⟨h x (List.mem_cons_self _ _) y hc.1,
        ih hc.2 (fun a ha => h a (List.mem_cons_of_mem _ ha))⟩

theorem run_mem_last {f : Nat → Option (Option Nat)} {c : Nat} {L : List Nat}
    (hc : List.Chain' (fun a b => f a = some (some b)) (c :: L)) (hn : (c :: L).Nodup)
    {x : Nat} (hx : x ∈ c :: L) (hxc : f x = some (some c)) : ∃ M, c :: L = M ++ [x] := by
  obtain ⟨M, N, e⟩ := List.append_of_mem hx
  cases N with
  | nil => exact ⟨M, e⟩
  | cons y N1 =>
    exfalso
    rw [e] at hc
    have h1 := (List.chain'_append.mp hc).2.1
    rw [List.chain'_cons] at h1
    have hy : y = c := by
      have := h1.1
      rw [hxc] at this
      injection this with this
      injection this with this
      exact this.symm
    subst hy
    cases M with
    | nil =>
      simp only [List.nil_append, List.cons.injEq] at e
      obtain ⟨rfl, rfl⟩ := e
      simp at hn
    | cons m M1 =>
      simp only [List.cons_append, List.cons.injEq] at e
      obtain ⟨rfl, rfl⟩ := e
      simp at hn

/-- A step that keeps the cursor, the links of the rows of the run and the `Active` flag of
every row, and adds only rows that are not `Active`, keeps the run. -/
theorem activeRun_transfer {st st1 : NodeDB} {l : List Nat} (hrun : ActiveRun st l)
    (hp : ∀ a ∈ l, ∀ p, rowPrevOf st a = some (some p) → rowPrevOf st1 a = some (some p))
    (he : ∀ a ∈ l, (rowPrevOf st1 a).isSome)
    (hrows : ∀ r1 ∈ st1.States,
      (∃ r ∈ st.States, r1.rowid = r.rowid ∧
        hasFlag r1.Flags StateFlags.Active = hasFlag r.Flags StateFlags.Active) ∨
      (hasFlag r1.Flags StateFlags.Active = false ∧ r1.rowid ∉ l)) :
    ActiveRun st1 l := by
  obtain ⟨⟨hc, hs⟩, hn, hA⟩ := hrun
  refine ⟨⟨chain_imp_mem l hc (fun a ha b h => hp a ha b h), he⟩, hn, ?_⟩
  intro r1 hr1
  rcases hrows r1 hr1 with ⟨r, hr, e, f⟩ | ⟨f, hnot⟩
  · rw [f, e]; exact hA r hr
  · rw [f]
    simp only [Bool.false_eq_true, false_iff]
    exact hnot

theorem noActive_transfer {st st1 : NodeDB} (h : NoActive st)
    (hrows : ∀ r1 ∈ st1.States,
      (∃ r ∈ st.States, hasFlag r1.Flags StateFlags.Active
        = hasFlag r.Flags StateFlags.Active) ∨
      hasFlag r1.Flags StateFlags.Active = false) : NoActive st1 := by
  intro r1 hr1
  rcases hrows r1 hr1 with ⟨r, hr, f⟩ | f
  · rw [f]; exact h r hr
  · exact f

/-- The links in terms of rows: a row of the run still has a row with its identifier, and with
its `RowPrev` when that was not null. -/
theorem links_of_rows {st st1 : NodeDB} {l : List Nat}
    (hnd : (st.States.map (fun r => r.rowid)).Nodup)
    (hnd1 : (st1.States.map (fun r => r.rowid)).Nodup)
    (hs : ∀ a ∈ l, (rowPrevOf st a).isSome)
    (hfwd : ∀ r ∈ st.States, r.rowid ∈ l → ∃ r1 ∈ st1.States, r1.rowid = r.rowid ∧
      ∀ p, r.RowPrev = some p → r1.RowPrev = some p) :
    (∀ a ∈ l, ∀ p, rowPrevOf st a = some (some p) → rowPrevOf st1 a = some (some p)) ∧
    (∀ a ∈ l, (rowPrevOf st1 a).isSome) := by
  have key : ∀ a ∈ l, ∃ r ∈ st.States, ∃ r1 ∈ st1.States, r.rowid = a ∧ r1.rowid = a ∧
      ∀ p, r.RowPrev = some p → r1.RowPrev = some p := by
    intro a ha
    obtain ⟨r, hr, e⟩ := mem_of_rowPrevOf (hs a ha)
    obtain ⟨r1, hr1, e1, hp⟩ := hfwd r hr (by rw [e]; exact ha)
    exact ⟨r, hr, r1, hr1, e, e1.trans e, hp⟩
  constructor
  · intro a ha p h
    obtain ⟨r, hr, r1, hr1, e, e1, hp⟩ := key a ha
    rw [← e, rowPrevOf_of_mem hnd hr] at h
    injection h with h
    rw [← e1, rowPrevOf_of_mem hnd1 hr1, hp p h]
  · intro a ha
    obtain ⟨r, hr, r1, hr1, e, e1, hp⟩ := key a ha
    rw [← e1, rowPrevOf_of_mem hnd1 hr1]
    rfl

/-- The invariant of the cursor: no row is `Active`, or the `Active` rows are a run that starts
at the row of the cursor. -/
theorem cursorInv_InsertState {st st1 : NodeDB} {s : Full} {rowid : Nat}
    (hr : Reached true st) (hh : s.m_Height < 2 ^ 64)
    (hok : InsertState st s = .ok (st1, rowid))
    (hJ : NoActive st ∨ ∃ L, ActiveRun st ((get_Cursor st).1.m_Row :: L)) :
    NoActive st1 ∨ ∃ L, ActiveRun st1 ((get_Cursor st1).1.m_Row :: L) := by
  have hS := reached_structInv hr
  have hS1 := reached_structInv (Reached.insertState hr hh hok)
  obtain ⟨rfl, hkey, eS, -, -, eP, -⟩ := InsertState_closed hS hok
  have hfresh := newRowid_gt st
  have hrows : ∀ r1 ∈ st1.States,
      (∃ r ∈ st.States, r1.rowid = r.rowid ∧
        hasFlag r1.Flags StateFlags.Active = hasFlag r.Flags StateFlags.Active) ∨
      (hasFlag r1.Flags StateFlags.Active = false ∧ r1.rowid = newRowid st) := by
    intro r1 hr1
    rw [eS] at hr1
    simp only [List.mem_append, List.mem_map, List.mem_singleton] at hr1
    rcases hr1 with ⟨r0, hr0, rfl⟩ | rfl
    · exact Or.inl ⟨r0, hr0, insertedOld_rowid _ _ _ _ _, by rw [insertedOld_Flags]⟩
    · exact Or.inr ⟨hasFlag_zero _, rfl⟩
  rcases hJ with hJ | ⟨L, hJ⟩
  · left
    refine noActive_transfer hJ (fun r1 hr1 => ?_)
    rcases hrows r1 hr1 with ⟨r, hr, -, f⟩ | ⟨f, -⟩
    · exact Or.inl ⟨r, hr, f⟩
    · exact Or.inr f
  · right
    refine ⟨L, ?_⟩
    rw [get_Cursor_congr eP]
    have hl := links_of_rows hS.rowid_nodup hS1.rowid_nodup hJ.1.2 (by
      intro r hr _
      refine ⟨insertedOld (findKey st (heightDec s.m_Height) s.m_Prev) (newRowid st)
        s.m_Height s.hash r, ?_, insertedOld_rowid _ _ _ _ _, ?_⟩
      · rw [eS]
        exact List.mem_append_left _ (List.mem_map_of_mem _ hr)
      · intro p hp
        rw [insertedOld_RowPrev]
        by_cases hn : isNextOf s.m_Height s.hash r = true
        · have := rowPrev_none_of_isNextOf hS hh hkey hr hn
          rw [this] at hp
          cases hp
        · rw [if_neg hn]; exact hp)
    refine activeRun_transfer hJ hl.1 hl.2 (fun r1 hr1 => ?_)
    rcases hrows r1 hr1 with h | ⟨f, e⟩
    · exact Or.inl h
    · refine Or.inr ⟨f, fun hin => ?_⟩
      obtain ⟨r, hr, er⟩ := mem_of_rowPrevOf (hJ.1.2 _ hin)
      have := hfresh r hr
      omega

theorem cursorInv_DeleteState {st st1 : NodeDB} {rowid : Nat} {res : Bool × Nat}
    (hr : Reached true st) (hok : DeleteState st rowid = .ok (st1, res))
    (hJ : NoActive st ∨ ∃ L, ActiveRun st ((get_Cursor st).1.m_Row :: L)) :
    NoActive st1 ∨ ∃ L, ActiveRun st1 ((get_Cursor st1).1.m_Row :: L) := by
  have hS := reached_structInv hr
  have hS1 := reached_structInv (Reached.deleteState hr hok)
  obtain ⟨x, hx, ex, -, h | ⟨-, hxA, -, eS, -, -, eP, -⟩⟩ := DeleteState_closed hS.toLink hok
  · rw [h.2.1]; exact hJ
  · have hrows : ∀ r1 ∈ st1.States, ∃ r ∈ st.States, r1.rowid = r.rowid ∧
        hasFlag r1.Flags StateFlags.Active = hasFlag r.Flags StateFlags.Active := by
      intro r1 hr1
      rw [eS, List.mem_filter, List.mem_map] at hr1
      obtain ⟨⟨r0, hr0, rfl⟩, -⟩ := hr1
      exact ⟨r0, hr0, deletedOld_rowid _ _, by rw [deletedOld_Flags]⟩
    rcases hJ with hJ | ⟨L, hJ⟩
    · left
      exact noActive_transfer hJ (fun r1 hr1 => by
        obtain ⟨r, hr, -, f⟩ := hrows r1 hr1
        exact Or.inl ⟨r, hr, f⟩)
    · right
      refine ⟨L, ?_⟩
      rw [get_Cursor_congr eP]
      have hl := links_of_rows hS.rowid_nodup hS1.rowid_nodup hJ.1.2 (by
        intro r hr hin
        have hrA := (hJ.2.2 r hr).mpr hin
        have hne : r.rowid ≠ rowid := by
          intro e
          have := eq_of_rowid_eq hS.rowid_nodup hr hx (e.trans ex.symm)
          subst this
          rw [hxA] at hrA
          cases hrA
        refine ⟨deletedOld x r, ?_, deletedOld_rowid _ _, ?_⟩
        · rw [eS, List.mem_filter]
          refine ⟨List.mem_map_of_mem _ hr, ?_⟩
          rw [deletedOld_rowid]
          simpa using hne
        · intro p hp
          rw [deletedOld_RowPrev]; exact hp)
      exact activeRun_transfer hJ hl.1 hl.2 (fun r1 hr1 => Or.inl (hrows r1 hr1))

theorem cursorInv_of_frame {st st1 : NodeDB} (hr : Reached true st)
    (hk : SameSkeleton st st1)
    (hb : BitsKept (StateFlags.Functional ||| StateFlags.Reachable) st st1)
    (hP : st1.Params = st.Params)
    (hJ : NoActive st ∨ ∃ L, ActiveRun st ((get_Cursor st).1.m_Row :: L)) :
    NoActive st1 ∨ ∃ L, ActiveRun st1 ((get_Cursor st1).1.m_Row :: L) := by
  have hS := reached_structInv hr
  obtain ⟨hp, hrows⟩ := links_of_frame hS.rowid_nodup hk hb
  rcases hJ with hJ | ⟨L, hJ⟩
  · left
    exact noActive_transfer hJ (fun r1 hr1 => by
      obtain ⟨r, hr, -, f⟩ := hrows r1 hr1
      exact Or.inl ⟨r, hr, f⟩)
  · right
    refine ⟨L, ?_⟩
    rw [get_Cursor_congr hP]
    exact activeRun_transfer hJ (fun a _ p h => by rw [hp]; exact h)
      (fun a ha => by rw [hp]; exact hJ.1.2 a ha) (fun r1 hr1 => Or.inl (hrows r1 hr1))

theorem cursorInv_MoveFwd {st st1 : NodeDB} {sid : StateID}
    (hr : Reached true st) (hallow : FwdAllowed st sid) (hok : MoveFwd st sid = .ok st1)
    (hJ : NoActive st ∨ ∃ L, ActiveRun st ((get_Cursor st).1.m_Row :: L)) :
    NoActive st1 ∨ ∃ L, ActiveRun st1 ((get_Cursor st1).1.m_Row :: L) := by
  have hS := reached_structInv hr
  obtain ⟨e1, c1, -⟩ := MoveFwd_closed hok
  obtain ⟨r, hrm, erid, -, hprev⟩ := hallow
  have hp1 : ∀ a, rowPrevOf st1 a = rowPrevOf st a :=
    rowPrevOf_map e1 (fun r => ⟨(setActive_fields _ r).1, (setActive_fields _ r).2.1⟩)
  have hA1 : ∀ r1 ∈ st1.States, ∃ r0 ∈ st.States, r1.rowid = r0.rowid ∧
      (hasFlag r1.Flags StateFlags.Active = true ↔
        r0.rowid = sid.m_Row ∨ hasFlag r0.Flags StateFlags.Active = true) := by
    intro r1 hr1
    rw [e1, List.mem_map] at hr1
    obtain ⟨r0, hr0, rfl⟩ := hr1
    exact ⟨r0, hr0, (setActive_fields _ r0).1, (setActive_fields _ r0).2.2⟩
  have hrp : rowPrevOf st sid.m_Row = some r.RowPrev := by
    rw [← erid]; exact rowPrevOf_of_mem hS.rowid_nodup hrm
  have hcur : (get_Cursor st1).1.m_Row = sid.m_Row := by rw [c1]
  right
  rw [hcur]
  rcases hJ with hJ | ⟨L, hJ⟩
  · refine ⟨[], ⟨List.chain'_singleton _, fun a ha => ?_⟩, List.nodup_singleton _, ?_⟩
    · rw [List.mem_singleton] at ha
      rw [ha, hp1, hrp]; rfl
    · intro r1 hr1
      obtain ⟨r0, hr0, e, f⟩ := hA1 r1 hr1
      rw [f, hJ r0 hr0, e, List.mem_singleton]
      simp
  · obtain ⟨⟨hc, hs⟩, hn, hA⟩ := hJ
    have hcrow : r.RowPrev = some (get_Cursor st).1.m_Row := by
      rcases hprev with h | ⟨h0, -⟩
      · exact h
      · exfalso
        obtain ⟨y, hy, ey⟩ := mem_of_rowPrevOf (hs _ (List.mem_cons_self _ _))
        exact hS.rowid_ne_zero y hy (ey.trans h0)
    have hlink : rowPrevOf st sid.m_Row = some (some (get_Cursor st).1.m_Row) := by
      rw [hrp, hcrow]
    by_cases hin : sid.m_Row ∈ (get_Cursor st).1.m_Row :: L
    · obtain ⟨M, eM⟩ := run_mem_last hc hn hin hlink
      have hn2 : (sid.m_Row :: M).Nodup := by
        rw [eM] at hn
        have := List.nodup_append.mp hn
        rw [List.nodup_cons]
        exact ⟨fun h => this.2.2 h (List.mem_singleton_self _), this.1⟩
      have hmemiff : ∀ a, a ∈ sid.m_Row :: M ↔ a ∈ (get_Cursor st).1.m_Row :: L := by
        intro a
        rw [eM]
        simp only [List.mem_cons, List.mem_append, List.mem_singleton, List.not_mem_nil,
          or_false]
        exact Or.comm
      refine ⟨M, ⟨?_, fun a ha => ?_⟩, hn2, ?_⟩
      · have hcM : List.Chain' (fun a b => rowPrevOf st a = some (some b)) M := by
          rw [eM] at hc
          exact (List.chain'_append.mp hc).1
        have hc2 : List.Chain' (fun a b => rowPrevOf st a = some (some b)) (sid.m_Row :: M) := by
          cases M with
          | nil => exact List.chain'_singleton _
          | cons m M1 =>
            rw [List.chain'_cons]
            simp only [List.cons_append, List.cons.injEq] at eM
            refine ⟨?_, hcM⟩
            rw [hlink, eM.1]
        exact hc2.imp (fun {a b} h => by rw [hp1]; exact h)
      · rw [hp1]; exact hs a ((hmemiff a).mp ha)
      · intro r1 hr1
        obtain ⟨r0, hr0, e, f⟩ := hA1 r1 hr1
        rw [f, hA r0 hr0, e, hmemiff]
        constructor
        · rintro (h | h)
          · rw [h]; exact hin
          · exact h
        · exact Or.inr
    · refine ⟨(get_Cursor st).1.m_Row :: L, ⟨?_, fun a ha => ?_⟩, ?_, ?_⟩
      · rw [List.chain'_cons]
        exact ⟨by rw [hp1]; exact hlink, hc.imp (fun {a b} h => by rw [hp1]; exact h)⟩
      · rw [hp1]
        rcases List.mem_cons.mp ha with h | h
        · rw [h, hrp]; rfl
        · exact hs a h
      · exact List.nodup_cons.mpr ⟨hin, hn⟩
      · intro r1 hr1
        obtain ⟨r0, hr0, e, f⟩ := hA1 r1 hr1
        rw [f, hA r0 hr0, e]
        exact (List.mem_cons (a := r0.rowid) (b := sid.m_Row)).symm

theorem cursorInv_MoveBack {st st1 : NodeDB} {sid1 : StateID}
    (hok : MoveBack st (get_Cursor st).1 = .ok (st1, sid1))
    (hJ : NoActive st ∨ ∃ L, ActiveRun st ((get_Cursor st).1.m_Row :: L)) :
    NoActive st1 ∨ ∃ L, ActiveRun st1 ((get_Cursor st1).1.m_Row :: L) := by
  obtain ⟨e1, c1, -, _, -, -, hcase⟩ := MoveBack_closed hok
  have hp1 : ∀ a, rowPrevOf st1 a = rowPrevOf st a :=
    rowPrevOf_map e1 (fun r => ⟨(clearActive_fields _ r).1, (clearActive_fields _ r).2.1⟩)
  have hA1 : ∀ r1 ∈ st1.States, ∃ r0 ∈ st.States, r1.rowid = r0.rowid ∧
      (hasFlag r1.Flags StateFlags.Active = true ↔
        r0.rowid ≠ (get_Cursor st).1.m_Row ∧ hasFlag r0.Flags StateFlags.Active = true) := by
    intro r1 hr1
    rw [e1, List.mem_map] at hr1
    obtain ⟨r0, hr0, rfl⟩ := hr1
    exact ⟨r0, hr0, (clearActive_fields _ r0).1, (clearActive_fields _ r0).2.2⟩
  rcases hJ with hJ | ⟨L, hJ⟩
  · left
    intro r1 hr1
    obtain ⟨r0, hr0, -, f⟩ := hA1 r1 hr1
    cases h : hasFlag r1.Flags StateFlags.Active with
    | false => rfl
    | true =>
      have := (f.mp h).2
      rw [hJ r0 hr0] at this
      cases this
  · obtain ⟨⟨hc, hs⟩, hn, hA⟩ := hJ
    have hAL : ∀ r1 ∈ st1.States, hasFlag r1.Flags StateFlags.Active = true ↔ r1.rowid ∈ L := by
      intro r1 hr1
      obtain ⟨r0, hr0, e, f⟩ := hA1 r1 hr1
      rw [f, hA r0 hr0, e]
      rw [List.nodup_cons] at hn
      constructor
      · rintro ⟨h1, h2⟩
        rcases List.mem_cons.mp h2 with h | h
        · exact absurd h h1
        · exact h
      · intro h
        exact ⟨fun e => hn.1 (e ▸ h), List.mem_cons_of_mem _ h⟩
    cases L with
    | nil =>
      left
      intro r1 hr1
      cases h : hasFlag r1.Flags StateFlags.Active with
      | false => rfl
      | true => exact absurd ((hAL r1 hr1).mp h) (List.not_mem_nil _)
    | cons b L1 =>
      right
      have hab : rowPrevOf st (get_Cursor st).1.m_Row = some (some b) :=
        (List.chain'_cons.mp hc).1
      have hsid : sid1.m_Row = b := by
        rcases hcase with ⟨p, hp, e⟩ | ⟨hp, -⟩
        · rw [hab] at hp
          injection hp with hp
          injection hp with hp
          rw [e, hp]
        · rw [hab] at hp
          cases hp
      have hcur : (get_Cursor st1).1.m_Row = b := by rw [c1]; exact hsid
      rw [hcur]
      refine ⟨L1, ⟨((List.chain'_cons.mp hc).2).imp (fun {a c} h => by rw [hp1]; exact h),
        fun a ha => ?_⟩, (List.nodup_cons.mp hn).2, hAL⟩
      rw [hp1]; exact hs a (List.mem_cons_of_mem _ ha)

theorem reachedProtocol_cursorInv {st : NodeDB} (h : ReachedProtocol st) :
    NoActive st ∨ ∃ L, ActiveRun st ((get_Cursor st).1.m_Row :: L) := by
  induction h with
  | empty => left; intro r hr; simp [NodeDB.empty] at hr
  | insertState hp hh hok ih =>
    exact cursorInv_InsertState (reachedProtocol_reached hp) hh hok ih
  | deleteState hp hok ih => exact cursorInv_DeleteState (reachedProtocol_reached hp) hok ih
  | setStateFunctional hp hok ih =>
    exact cursorInv_of_frame (reachedProtocol_reached hp) (sameSkeleton_SetStateFunctional hok)
      (bitsKept_SetStateFunctional (by decide) (by decide) hok)
      (params_SetStateFunctional hok) ih
  | setStateNotFunctional hp hok ih =>
    exact cursorInv_of_frame (reachedProtocol_reached hp)
      (sameSkeleton_SetStateNotFunctional hok)
      (bitsKept_SetStateNotFunctional (by decide) (by decide)
        (reached_flagsLt (reachedProtocol_reached hp)) hok)
      (params_SetStateNotFunctional hok) ih
  | moveFwd hp hallow hok ih =>
    exact cursorInv_MoveFwd (reachedProtocol_reached hp) hallow hok ih
  | moveBack _ hok ih => exact cursorInv_MoveBack hok ih

theorem reachedProtocol_exOrphanFwd : ReachedProtocol exOrphanFwd :=
  ReachedProtocol.moveFwd
    (ReachedProtocol.insertState ReachedProtocol.empty
      (by decide : (exHeader 1 10 11).m_Height < 2 ^ 64)
      (by decide : InsertState NodeDB.empty (exHeader 1 10 11) = .ok (exOrphan, 1)))
    (by unfold FwdAllowed; decide : FwdAllowed exOrphan ⟨1, 1⟩)
    (by decide : MoveFwd exOrphan ⟨1, 1⟩ = .ok exOrphanFwd)

theorem reachedProtocol_exOrphanBack : ReachedProtocol exOrphanBack :=
  ReachedProtocol.moveBack
    (ReachedProtocol.insertState reachedProtocol_exOrphanFwd
      (by decide : (exHeader 0 0 10).m_Height < 2 ^ 64)
      (by decide : InsertState exOrphanFwd (exHeader 0 0 10) = .ok (exOrphanFwdGenesis, 2)))
    (by decide : MoveBack exOrphanFwdGenesis (get_Cursor exOrphanFwdGenesis).1
      = .ok (exOrphanBack, ⟨0, 2⟩))

/-! ## Spendable ledger, block payload, enumeration -/

theorem bindInt_castU32 {d : Int} (h1 : -2 ^ 31 ≤ d) (h2 : d < 2 ^ 31) :
    bindInt (castU32 d) = d := by
  unfold bindInt castU32
  have hm : (0 : Int) ≤ d % 2 ^ 32 := Int.emod_nonneg _ (by decide)
  have hlt : d % 2 ^ 32 < 2 ^ 32 := Int.emod_lt_of_pos _ (by decide)
  have hc : (((d % 2 ^ 32).toNat : Nat) : Int) = d % 2 ^ 32 := Int.toNat_of_nonneg hm
  have hmod : (d % 2 ^ 32).toNat % 2 ^ 32 = (d % 2 ^ 32).toNat := by
    apply Nat.mod_eq_of_lt
    omega
  rw [hmod]
  split
  · rename_i h
    rw [hc]
    omega
  · rename_i h
    rw [hc]
    omega

theorem bindInt_small {n : Nat} (h : n < 2 ^ 31) : bindInt n = n := by
  unfold bindInt
  have : n % 2 ^ 32 = n := Nat.mod_eq_of_lt (by omega)
  rw [this, if_pos h]

theorem modifiedRow_eq {key : Blob} {dR dU : Int} (h1 : -2 ^ 31 ≤ dR) (h2 : dR < 2 ^ 31)
    (h3 : -2 ^ 31 ≤ dU) (h4 : dU < 2 ^ 31) (r : SpendableRow) :
    modifiedRow key dR dU r
      = if r.Key = key then { r with Refs := r.Refs + dR, Unspent := r.Unspent + dU } else r := by
  unfold modifiedRow
  rw [bindInt_castU32 h1 h2, bindInt_castU32 h3 h4]
  by_cases h : r.Key = key
  · rw [if_pos h, if_pos (beq_iff_eq.mpr h)]
  · rw [if_neg h, if_neg (fun e => h (beq_iff_eq.mp e))]

theorem filter_key_length : ∀ {l : List SpendableRow},
    (l.map (fun r => r.Key)).Nodup → ∀ {x : SpendableRow}, x ∈ l →
    (l.filter (fun r => r.Key == x.Key)).length = 1 := by
  intro l
  induction l with
  | nil => intro _ x hx; cases hx
  | cons a t ih =>
    intro hnd x hx
    rw [List.map_cons, List.nodup_cons] at hnd
    rcases List.mem_cons.mp hx with e | hxt
    · subst e
      have hnone : t.filter (fun r => r.Key == x.Key) = [] := by
        rw [List.filter_eq_nil_iff]
        intro r hr h
        exact hnd.1 (by rw [← beq_iff_eq.mp h]; exact List.mem_map_of_mem _ hr)
      have e : (x :: t).filter (fun r => r.Key == x.Key)
          = x :: t.filter (fun r => r.Key == x.Key) := by
        simp only [List.filter_cons]
        rw [if_pos (beq_self_eq_true _)]
      rw [e, hnone]
      rfl
    · have hne : ¬ ((a.Key == x.Key) = true) := by
        intro h
        exact hnd.1 (by rw [beq_iff_eq.mp h]; exact List.mem_map_of_mem _ hxt)
      have e : (a :: t).filter (fun r => r.Key == x.Key)
          = t.filter (fun r => r.Key == x.Key) := by
        simp only [List.filter_cons]
        rw [if_neg hne]
      rw [e]
      exact ih hnd.2 hxt

/-- `ModifySpendable` completes on a table with the key, and what it leaves. -/
theorem ModifySpendable_closed {st : NodeDB} (hnd : (st.Spendable.map (fun r => r.Key)).Nodup)
    {x : SpendableRow} (hx : x ∈ st.Spendable) {dR dU : Int}
    (h1 : -2 ^ 31 ≤ dR) (h2 : dR < 2 ^ 31) (h3 : -2 ^ 31 ≤ dU) (h4 : dU < 2 ^ 31)
    (hnz : dR ≠ 0 ∨ dU ≠ 0) (b : Bool) :
    ModifySpendable st x.Key dR dU b = .ok { st with
      Spendable :=
        if b then (st.Spendable.map (fun r =>
            if r.Key = x.Key then { r with Refs := r.Refs + dR, Unspent := r.Unspent + dU }
            else r)).filter (fun r => !(r.Key == x.Key && r.Refs == 0))
        else st.Spendable.map (fun r =>
            if r.Key = x.Key then { r with Refs := r.Refs + dR, Unspent := r.Unspent + dU }
            else r) } := by
  unfold ModifySpendable
  have hz : (dR == 0 && dU == 0) = false := by
    rcases hnz with h | h
    · simp [h]
    · simp [h]
  rw [hz]
  simp only [Bool.false_eq_true, ↓reduceIte]
  rw [if_pos (filter_key_length hnd hx)]
  have hfun : modifiedRow x.Key dR dU = (fun r : SpendableRow =>
      if r.Key = x.Key then { r with Refs := r.Refs + dR, Unspent := r.Unspent + dU }
      else r) := funext (modifiedRow_eq h1 h2 h3 h4)
  rw [hfun]

/-! ## The `Mmr` column is written once -/

theorem MmrKept.mmr_refl (st : NodeDB) : MmrKept st st :=
  fun r hr => ⟨r, hr, rfl, fun _ => rfl⟩

theorem MmrKept.mmr_trans {a b c : NodeDB} (h1 : MmrKept a b) (h2 : MmrKept b c) :
    MmrKept a c := by
  intro r hr
  obtain ⟨r1, hr1, e1, b1⟩ := h2 r hr
  obtain ⟨r0, hr0, e0, b0⟩ := h1 r1 hr1
  refine ⟨r0, hr0, e1.trans e0, fun hs => ?_⟩
  have h10 := b0 hs
  have : r1.Mmr.isSome = true := by rw [h10]; exact hs
  exact (b1 this).trans h10

theorem MmrKept.mmr_of_states_eq {st st1 : NodeDB} (h : st1.States = st.States) :
    MmrKept st st1 := by
  intro r hr; rw [h] at hr; exact ⟨r, hr, rfl, fun _ => rfl⟩

theorem MmrKept.keepsMmr {st st1 : NodeDB} (h : MmrKept st st1)
    (hnd : (st.States.map (fun r => r.rowid)).Nodup) : KeepsMmr st st1 := by
  intro r hr hs r1 hr1 e
  obtain ⟨r0, hr0, e0, b0⟩ := h r1 hr1
  have := eq_of_rowid_eq hnd hr0 hr (e0.symm.trans e)
  subst this
  exact b0 hs

theorem mmrKept_updateRow {st st1 : NodeDB} {rowid : Nat} {f : StateRow → StateRow}
    (h : updateRow st rowid f = .ok st1)
    (hf : ∀ r, (f r).rowid = r.rowid ∧ (f r).Mmr = r.Mmr) : MmrKept st st1 := by
  obtain ⟨-, rfl⟩ := updateRow_ok h
  intro r hr
  simp only [List.mem_map] at hr
  obtain ⟨r0, hr0, rfl⟩ := hr
  refine ⟨r0, hr0, ?_⟩
  split
  · exact ⟨(hf r0).1, fun _ => (hf r0).2⟩
  · exact ⟨rfl, fun _ => rfl⟩

theorem mmrKept_ite {st st1 : NodeDB} {c : Prop} [Decidable c] {x : Except Err NodeDB}
    (h : (if c then x else .ok st) = .ok st1) (hx : x = .ok st1 → MmrKept st st1) :
    MmrKept st st1 := by
  split at h
  · exact hx h
  · injection h with h; subst h; exact MmrKept.mmr_refl _

theorem mmrKept_TipAdd {st st1 : NodeDB} {rowid h : Nat}
    (hok : TipAdd st rowid h = .ok st1) : MmrKept st st1 := by
  obtain ⟨-, rfl⟩ := TipAdd_ok hok; exact MmrKept.mmr_refl _

theorem mmrKept_TipDel {st st1 : NodeDB} {rowid h : Nat}
    (hok : TipDel st rowid h = .ok st1) : MmrKept st st1 := by
  obtain ⟨-, rfl⟩ := TipDel_ok hok; exact MmrKept.mmr_refl _

theorem mmrKept_TipReachableAdd {st st1 : NodeDB} {rowid h : Nat}
    (hok : TipReachableAdd st rowid h = .ok st1) : MmrKept st st1 := by
  obtain ⟨-, rfl⟩ := TipReachableAdd_ok hok; exact MmrKept.mmr_refl _

theorem mmrKept_TipReachableDel {st st1 : NodeDB} {rowid h : Nat}
    (hok : TipReachableDel st rowid h = .ok st1) : MmrKept st st1 := by
  obtain ⟨-, rfl⟩ := TipReachableDel_ok hok; exact MmrKept.mmr_refl _

theorem mmrKept_deleteRow {st st1 : NodeDB} {rowid : Nat}
    (hok : deleteRow st rowid = .ok st1) : MmrKept st st1 := by
  obtain ⟨-, rfl⟩ := deleteRow_ok hok
  intro r hr
  exact ⟨r, (List.mem_filter.mp hr).1, rfl, fun _ => rfl⟩

theorem mmrKept_InsertState {st st1 : NodeDB} {s : Full} {rowid : Nat}
    (hok : InsertState st s = .ok (st1, rowid)) :
    MmrKept { st with States := st.States ++ [InsertState.newRow st s] } st1 := by
  obtain ⟨-, -, st3, h3, h5⟩ := InsertState_inv hok
  have k3 : MmrKept { st with States := st.States ++ [InsertState.newRow st s] } st3 := by
    unfold InsertState.prevStep at h3
    simp only at h3
    split at h3
    · rw [bind_ok_iff] at h3
      obtain ⟨st2, h2, h3⟩ := h3
      have k2 : MmrKept _ st2 := mmrKept_updateRow h2 (fun _ => ⟨rfl, rfl⟩)
      split at h3
      · exact k2.mmr_trans (mmrKept_TipDel h3)
      · injection h3 with h3; subst h3; exact k2
    · injection h3 with h3; subst h3; exact MmrKept.mmr_refl _
  unfold InsertState.adoptStep at h5
  simp only at h5
  have k4 : MmrKept st3 { st3 with
      States := st3.States.map
        (fun r => if isNextOf s.m_Height s.hash r then { r with RowPrev := some rowid }
          else r) } := by
    intro r hr
    simp only [List.mem_map] at hr
    obtain ⟨r0, hr0, rfl⟩ := hr
    refine ⟨r0, hr0, ?_⟩
    split <;> exact ⟨rfl, fun _ => rfl⟩
  split at h5
  · exact (k3.mmr_trans k4).mmr_trans (mmrKept_updateRow h5 (fun _ => ⟨rfl, rfl⟩))
  · exact (k3.mmr_trans k4).mmr_trans (mmrKept_TipAdd h5)

theorem keepsMmr_InsertState {st st1 : NodeDB} {s : Full} {rowid : Nat}
    (hnd : (st.States.map (fun r => r.rowid)).Nodup)
    (hok : InsertState st s = .ok (st1, rowid)) : KeepsMmr st st1 := by
  have hk := mmrKept_InsertState hok
  have hfresh := newRowid_gt st
  have hnd1 : (({ st with States := st.States ++ [InsertState.newRow st s] } : NodeDB).States.map
      (fun r => r.rowid)).Nodup := by
    show ((st.States ++ [InsertState.newRow st s]).map (fun r => r.rowid)).Nodup
    rw [List.map_append, List.nodup_append]
    refine ⟨hnd, List.nodup_singleton _, ?_⟩
    intro a ha hb
    simp only [List.map_cons, List.map_nil, List.mem_singleton] at hb
    subst hb
    obtain ⟨r, hr, e⟩ := List.mem_map.mp ha
    have := hfresh r hr
    have e2 : (InsertState.newRow st s).rowid = newRowid st := rfl
    omega
  intro r hr
  exact hk.keepsMmr hnd1 r (List.mem_append_left _ hr)

theorem mmrKept_DeleteState {st st1 : NodeDB} {rowid : Nat} {res : Bool × Nat}
    (hok : DeleteState st rowid = .ok (st1, res)) : MmrKept st st1 := by
  obtain ⟨x, -, -, h | ⟨-, -, -, st4, st5, st6, h4, h5, h6, h7⟩⟩ := DeleteState_inv hok
  · rw [h.2.1]; exact MmrKept.mmr_refl _
  · have k4 : MmrKept st st4 := by
      rcases DeleteState_prevStep_inv h4 with ⟨-, rfl⟩ | ⟨p, -, -, s1, s2, h1, h2, hrest⟩
      · exact MmrKept.mmr_refl _
      · have k1 : MmrKept st s1 := mmrKept_updateRow h1 (fun _ => ⟨rfl, rfl⟩)
        have k2 : MmrKept s1 s2 := mmrKept_ite h2 mmrKept_TipAdd
        rcases hrest with ⟨-, rfl⟩ | ⟨-, -, s3, h3, h4⟩
        · exact k1.mmr_trans k2
        · have k3 : MmrKept s2 s3 := mmrKept_updateRow h3 (fun _ => ⟨rfl, rfl⟩)
          exact ((k1.mmr_trans k2).mmr_trans k3).mmr_trans
            (mmrKept_ite h4 mmrKept_TipReachableAdd)
    have k6 : MmrKept st5 st6 := mmrKept_ite h6 mmrKept_TipReachableDel
    exact ((k4.mmr_trans (mmrKept_TipDel h5)).mmr_trans k6).mmr_trans
      (mmrKept_deleteRow h7)

/-- `BuildMmr` on a row whose `Mmr` is not null returns the store it was given. -/
theorem BuildMmr_of_isSome {st st1 : NodeDB} {rowid rowPrev h : Nat} {r : StateRow}
    (hf : findRow st rowid = some r) (hs : r.Mmr.isSome = true)
    (hok : BuildMmr st rowid rowPrev h = .ok st1) : st1 = st := by
  unfold BuildMmr at hok
  split at hok
  · cases hok
  split at hok
  · cases hok
  rw [hf] at hok
  simp only [hs, ↓reduceIte] at hok
  injection hok with hok
  exact hok.symm

theorem mmrKept_BuildMmr {st st1 : NodeDB} {rowid rowPrev h : Nat}
    (hok : BuildMmr st rowid rowPrev h = .ok st1) : MmrKept st st1 := by
  unfold BuildMmr at hok
  split at hok
  · cases hok
  split at hok
  · cases hok
  split at hok
  · cases hok
  rename_i r hf
  split at hok
  · injection hok with hok; subst hok; exact MmrKept.mmr_refl _
  · rename_i hnone
    obtain ⟨hrm, hrid⟩ := findRow_some hf
    obtain ⟨-, rfl⟩ := updateRow_ok hok
    intro r1 hr1
    simp only [List.mem_map] at hr1
    obtain ⟨r0, hr0, rfl⟩ := hr1
    split
    · rename_i e
      simp only [beq_iff_eq] at e
      exact ⟨r, hrm, by rw [hrid]; exact e, fun hs => absurd hs hnone⟩
    · exact ⟨r0, hr0, rfl, fun _ => rfl⟩

theorem mmrKept_SetFlags {st st1 : NodeDB} {rowid n : Nat}
    (h : SetFlags st rowid n = .ok st1) : MmrKept st st1 :=
  mmrKept_updateRow h (fun _ => ⟨rfl, rfl⟩)

theorem mmrKept_OnStateReachable :
    ∀ (fuel : Nat) (st st1 : NodeDB) (rowid rowPrev h : Nat) (b : Bool),
      OnStateReachable fuel st rowid rowPrev h b = .ok st1 → MmrKept st st1 := by
  intro fuel
  induction fuel with
  | zero => intro st st1 rowid rowPrev h b hok; simp [OnStateReachable] at hok
  | succ fuel ih =>
    intro st st1 rowid rowPrev h b hok
    rw [OnStateReachable, bind_ok_iff] at hok
    obtain ⟨sA, hA, hok⟩ := hok
    have kA : MmrKept st sA := by
      split at hA
      · exact mmrKept_BuildMmr hA
      · injection hA with hA; subst hA; exact MmrKept.mmr_refl _
    simp only at hok
    split at hok
    · split at hok
      · split at hok
        · exact kA.mmr_trans (mmrKept_TipReachableAdd hok)
        · exact kA.mmr_trans (mmrKept_TipReachableDel hok)
      · rename_i r0 rest hrows
        rw [bind_ok_iff] at hok
        obtain ⟨sB, hB, hok⟩ := hok
        rw [bind_ok_iff] at hok
        obtain ⟨sC, hC, hok⟩ := hok
        have kB : MmrKept sA sB :=
          foldlM_invariant (MmrKept sA) _ (r0 :: rest)
            (fun s a s1 _ hP hs => hP.mmr_trans (mmrKept_SetFlags hs))
            sA sB (MmrKept.mmr_refl _) hB
        have kC : MmrKept sA sC :=
          foldlM_invariant (MmrKept sA) _ rest
            (fun s a s1 _ hP hs => hP.mmr_trans (ih _ _ _ _ _ _ hs)) sB sC kB hC
        exact (kA.mmr_trans kC).mmr_trans (ih _ _ _ _ _ _ hok)
    · cases hok

theorem mmrKept_SetStateFunctional {fuel : Nat} {st st1 : NodeDB} {rowid : Nat}
    (hok : SetStateFunctional fuel st rowid = .ok st1) : MmrKept st st1 := by
  obtain ⟨x, hx, h | ⟨-, st3, nFlags, rowPrev, st4, hpre, h4, hcas⟩⟩ :=
    SetStateFunctional_inv hok
  · rw [h.2]; exact MmrKept.mmr_refl _
  · have k3 : MmrKept st st3 := by
      rcases SetStateFunctional_prevStep_inv hpre with h | h | ⟨-, -, s1, h1, h | h⟩
      · rw [h.2.2.1]; exact MmrKept.mmr_refl _
      · rw [h.2.2.1]; exact MmrKept.mmr_refl _
      · rw [h.2.1]
        exact mmrKept_updateRow h1 (fun _ => ⟨rfl, rfl⟩)
      · exact (mmrKept_updateRow h1 (fun _ => ⟨rfl, rfl⟩)).mmr_trans
          (mmrKept_ite h.2.2 mmrKept_TipReachableDel)
    have k4 : MmrKept st st4 := k3.mmr_trans (mmrKept_SetFlags h4)
    split at hcas
    · exact k4.mmr_trans (mmrKept_OnStateReachable _ _ _ _ _ _ _ hcas)
    · injection hcas with hcas; subst hcas; exact k4

theorem mmrKept_SetStateNotFunctional {fuel : Nat} {st st1 : NodeDB} {rowid : Nat}
    (hok : SetStateNotFunctional fuel st rowid = .ok st1) : MmrKept st st1 := by
  obtain ⟨x, hx, h | ⟨-, st3, rowPrev, st4, hpre, h4, hcas⟩⟩ :=
    SetStateNotFunctional_inv hok
  · rw [h.2]; exact MmrKept.mmr_refl _
  · have k3 : MmrKept st st3 := by
      rcases SetStateNotFunctional_prevStep_inv hpre with h | h | ⟨-, -, -, s1, h1, h3⟩
      · rw [h.2.2.2.1]; exact MmrKept.mmr_refl _
      · rw [h.2.2.2.1]; exact MmrKept.mmr_refl _
      · exact (mmrKept_updateRow h1 (fun _ => ⟨rfl, rfl⟩)).mmr_trans
          (mmrKept_ite h3 mmrKept_TipReachableAdd)
    have k4 : MmrKept st st4 := k3.mmr_trans (mmrKept_SetFlags h4)
    split at hcas
    · exact k4.mmr_trans (mmrKept_OnStateReachable _ _ _ _ _ _ _ hcas)
    · injection hcas with hcas; subst hcas; exact k4

theorem mmrKept_MoveFwd {st st1 : NodeDB} {sid : StateID}
    (hok : MoveFwd st sid = .ok st1) : MmrKept st st1 := by
  obtain ⟨s1, h1, h2⟩ := MoveFwd_inv hok
  have c := put_Cursor_ok h2
  exact (mmrKept_updateRow h1 (fun _ => ⟨rfl, rfl⟩)).mmr_trans (MmrKept.mmr_of_states_eq c.1)

theorem mmrKept_MoveBack {st st1 : NodeDB} {sid sid1 : StateID}
    (hok : MoveBack st sid = .ok (st1, sid1)) : MmrKept st st1 := by
  obtain ⟨s1, r, h1, -, -, h2⟩ := MoveBack_inv hok
  have c := put_Cursor_ok h2
  exact (mmrKept_updateRow h1 (fun _ => ⟨rfl, rfl⟩)).mmr_trans (MmrKept.mmr_of_states_eq c.1)

theorem mmrKept_SetStateBlock {st st1 : NodeDB} {rowid : Nat} {body peer : Blob}
    (hok : SetStateBlock st rowid body peer = .ok st1) : MmrKept st st1 := by
  unfold SetStateBlock at hok
  refine mmrKept_updateRow hok (fun r => ?_)
  split <;> exact ⟨rfl, rfl⟩

theorem mmrKept_SetStateRollback {st st1 : NodeDB} {rowid : Nat} {rollback : Blob}
    (hok : SetStateRollback st rowid rollback = .ok st1) : MmrKept st st1 :=
  mmrKept_updateRow hok (fun _ => ⟨rfl, rfl⟩)

/-! ## A `Reachable` row has an `Mmr` -/

theorem mmrInvP_mono {st : NodeDB} {P Q : Nat → Prop} (h : MmrInvP st P)
    (hPQ : ∀ i, P i → Q i) : MmrInvP st Q :=
  fun r hr hR => (h r hr hR).imp id (hPQ _)

theorem mmrInvP_of_states_eq {st st1 : NodeDB} {P : Nat → Prop} (e : st1.States = st.States)
    (h : MmrInvP st P) : MmrInvP st1 P := by
  intro r hr; rw [e] at hr; exact h r hr

theorem ids_of_sameSkeleton {st st1 : NodeDB} (hk : SameSkeleton st st1) :
    st1.States.map (fun r => r.rowid) = st.States.map (fun r => r.rowid) := by
  have h1 : ∀ l : List StateRow, l.map (fun r => r.rowid)
      = (l.map skeleton).map (fun r => r.rowid) := by
    intro l
    rw [List.map_map]
    rfl
  rw [h1 st1.States, h1 st.States, hk.1]

theorem mmrInvP_updateRow {st st1 : NodeDB} {P : Nat → Prop} {rowid : Nat}
    {f : StateRow → StateRow} (h : updateRow st rowid f = .ok st1)
    (hf : ∀ r, (f r).rowid = r.rowid ∧ (f r).Flags = r.Flags ∧ (f r).Mmr = r.Mmr)
    (hI : MmrInvP st P) : MmrInvP st1 P := by
  obtain ⟨-, rfl⟩ := updateRow_ok h
  intro r1 hr1 hR
  simp only [List.mem_map] at hr1
  obtain ⟨r0, hr0, rfl⟩ := hr1
  split at hR
  · rename_i e
    rw [if_pos e]
    rw [(hf r0).2.1] at hR
    rw [(hf r0).2.2, (hf r0).1]
    exact hI r0 hr0 hR
  · rename_i e
    rw [if_neg e]
    exact hI r0 hr0 hR

/-- After `SetFlags` on `rowid`, the rows with that identifier are pending. -/
theorem mmrInvP_SetFlags {st st1 : NodeDB} {P : Nat → Prop} {rowid n : Nat} (b : Bool)
    (h : SetFlags st rowid n = .ok st1) (hn : b = false → hasFlag n StateFlags.Reachable = false)
    (hI : MmrInvP st P) : MmrInvP st1 (fun i => P i ∨ (b = true ∧ i = rowid)) := by
  obtain ⟨-, rfl⟩ := updateRow_ok h
  intro r1 hr1 hR
  simp only [List.mem_map] at hr1
  obtain ⟨r0, hr0, rfl⟩ := hr1
  split at hR
  · rename_i e
    rw [if_pos e]
    simp only [beq_iff_eq] at e
    cases b with
    | true => exact Or.inr (Or.inr ⟨rfl, e⟩)
    | false =>
      have := hn rfl
      simp only at hR
      rw [this] at hR
      cases hR
  · rename_i e
    rw [if_neg e]
    exact (hI r0 hr0 hR).imp id Or.inl

/-- After `BuildMmr` on `rowid`, the row with that identifier has a non-null `Mmr`. -/
theorem mmrInvP_BuildMmr {st st1 : NodeDB} {P : Nat → Prop} {rowid rowPrev h : Nat}
    (hnd : (st.States.map (fun r => r.rowid)).Nodup)
    (hok : BuildMmr st rowid rowPrev h = .ok st1) (hI : MmrInvP st P) :
    MmrInvP st1 (fun i => P i ∧ i ≠ rowid) := by
  unfold BuildMmr at hok
  split at hok
  · cases hok
  split at hok
  · cases hok
  split at hok
  · cases hok
  rename_i r hf
  obtain ⟨hrm, hrid⟩ := findRow_some hf
  split at hok
  · rename_i hs
    injection hok with hok
    subst hok
    intro r1 hr1 hR
    by_cases e : r1.rowid = rowid
    · have : r1 = r := eq_of_rowid_eq hnd hr1 hrm (e.trans hrid.symm)
      subst this
      exact Or.inl hs
    · exact (hI r1 hr1 hR).imp id (fun hp => ⟨hp, e⟩)
  · obtain ⟨-, rfl⟩ := updateRow_ok hok
    intro r1 hr1 hR
    simp only [List.mem_map] at hr1
    obtain ⟨r0, hr0, rfl⟩ := hr1
    split at hR
    · rename_i e
      rw [if_pos e]
      exact Or.inl rfl
    · rename_i e
      rw [if_neg e]
      simp only [beq_iff_eq] at e
      exact (hI r0 hr0 hR).imp id (fun hp => ⟨hp, e⟩)

/-- The flips of one turn of the loop: the flipped rows become pending when the flag is set,
and lose the flag otherwise. -/
theorem mmrInvP_flipFold {b : Bool} (rows : List StateRow)
    (hchk : ∀ r ∈ rows, hasFlag r.Flags StateFlags.Reachable = !b) :
    ∀ (X : Nat → Prop) (s s1 : NodeDB), MmrInvP s X →
      rows.foldlM (fun s r => SetFlags s r.rowid (r.Flags ^^^ StateFlags.Reachable)) s = .ok s1 →
      MmrInvP s1 (fun i => X i ∨ (b = true ∧ i ∈ rows.map (fun r => r.rowid))) := by
  induction rows with
  | nil =>
    intro X s s1 hI h
    simp only [List.foldlM, pure, Except.pure] at h
    injection h with h; subst h
    exact mmrInvP_mono hI (fun _ => Or.inl)
  | cons r rest ih =>
    intro X s s1 hI h
    rw [List.foldlM_cons, bind_ok_iff] at h
    obtain ⟨s2, h1, h2⟩ := h
    have hflip : b = false → hasFlag (r.Flags ^^^ StateFlags.Reachable) StateFlags.Reachable
        = false := by
      intro hb
      rw [hasFlag_R_flip, hchk r (List.mem_cons_self _ _), hb]
      rfl
    have k1 := mmrInvP_SetFlags b h1 hflip hI
    have k2 := ih (fun x hx => hchk x (List.mem_cons_of_mem _ hx)) _ s2 s1 k1 h2
    refine mmrInvP_mono k2 ?_
    intro i hi
    rcases hi with (hx | ⟨hb, e⟩) | ⟨hb, hm⟩
    · exact Or.inl hx
    · exact Or.inr ⟨hb, by rw [e]; exact List.mem_cons_self _ _⟩
    · exact Or.inr ⟨hb, by rw [List.map_cons]; exact List.mem_cons_of_mem _ hm⟩

/-- The recursive calls on the children, given the statement for one call. -/
theorem mmrInvP_recFold {fuel : Nat} {b : Bool} {rp h1 : Nat}
    (ih : ∀ (st st1 : NodeDB) (rowid rowPrev h : Nat) (X : Nat → Prop),
      (st.States.map (fun r => r.rowid)).Nodup → MmrInvP st X →
      OnStateReachable fuel st rowid rowPrev h b = .ok st1 →
      MmrInvP st1 (fun i => X i ∧ (b = true → i ≠ rowid)))
    (l : List StateRow) :
    ∀ (Q : Nat → Prop) (s s1 : NodeDB), (s.States.map (fun r => r.rowid)).Nodup →
      MmrInvP s (fun i => Q i ∨ (b = true ∧ i ∈ l.map (fun r => r.rowid))) →
      l.foldlM (fun s r => OnStateReachable fuel s r.rowid rp h1 b) s = .ok s1 →
      (s1.States.map (fun r => r.rowid)).Nodup ∧ MmrInvP s1 Q := by
  induction l with
  | nil =>
    intro Q s s1 hnd hI h
    simp only [List.foldlM, pure, Except.pure] at h
    injection h with h; subst h
    refine ⟨hnd, mmrInvP_mono hI ?_⟩
    intro i hi
    rcases hi with hq | ⟨-, hm⟩
    · exact hq
    · simp at hm
  | cons c rest ihl =>
    intro Q s s1 hnd hI h
    rw [List.foldlM_cons, bind_ok_iff] at h
    obtain ⟨s2, h1, h2⟩ := h
    have hnd2 : (s2.States.map (fun r => r.rowid)).Nodup := by
      rw [ids_of_sameSkeleton (sameSkeleton_OnStateReachable _ _ _ _ _ _ _ h1)]
      exact hnd
    have k1 := ih _ _ _ _ _ _ hnd hI h1
    refine ihl Q s2 s1 hnd2 (mmrInvP_mono k1 ?_) h2
    intro i hi
    obtain ⟨hx, hne⟩ := hi
    rcases hx with hq | ⟨hb, hm⟩
    · exact Or.inl hq
    · rw [List.map_cons, List.mem_cons] at hm
      rcases hm with e | hm
      · exact absurd e (hne hb)
      · exact Or.inr ⟨hb, hm⟩

/-- `OnStateReachable` on `rowid`: with `b = true` the row stops being pending; no other row
becomes pending. -/
theorem mmrInvP_OnStateReachable :
    ∀ (fuel : Nat) (st st1 : NodeDB) (rowid rowPrev h : Nat) (b : Bool) (X : Nat → Prop),
      (st.States.map (fun r => r.rowid)).Nodup → MmrInvP st X →
      OnStateReachable fuel st rowid rowPrev h b = .ok st1 →
      MmrInvP st1 (fun i => X i ∧ (b = true → i ≠ rowid)) := by
  intro fuel
  induction fuel with
  | zero => intro st st1 rowid rowPrev h b X _ _ hok; simp [OnStateReachable] at hok
  | succ fuel ih =>
    intro st st1 rowid rowPrev h b X hnd hI hok
    rw [OnStateReachable, bind_ok_iff] at hok
    obtain ⟨sA, hA, hok⟩ := hok
    have hndA : (sA.States.map (fun r => r.rowid)).Nodup := by
      split at hA
      · rw [ids_of_sameSkeleton (sameSkeleton_BuildMmr hA)]; exact hnd
      · injection hA with hA; subst hA; exact hnd
    have kA : MmrInvP sA (fun i => X i ∧ (b = true → i ≠ rowid)) := by
      split at hA
      · exact mmrInvP_mono (mmrInvP_BuildMmr hnd hA hI) (fun i hi => ⟨hi.1, fun _ => hi.2⟩)
      · rename_i hb
        injection hA with hA; subst hA
        exact mmrInvP_mono hI (fun i hi => ⟨hi, fun e => absurd e hb⟩)
    simp only at hok
    split at hok
    · rename_i hall
      split at hok
      · split at hok
        · obtain ⟨-, rfl⟩ := TipReachableAdd_ok hok
          exact kA
        · obtain ⟨-, rfl⟩ := TipReachableDel_ok hok
          exact kA
      · rename_i r0 rest hrows
        rw [bind_ok_iff] at hok
        obtain ⟨sB, hB, hok⟩ := hok
        rw [bind_ok_iff] at hok
        obtain ⟨sC, hC, hok⟩ := hok
        rw [hrows] at hall
        have hchk := rows_assert hall
        have kB := mmrInvP_flipFold (r0 :: rest) hchk _ sA sB kA hB
        have hndB : (sB.States.map (fun r => r.rowid)).Nodup := by
          have : SameSkeleton sA sB :=
            foldlM_invariant (SameSkeleton sA) _ _
              (fun s a s1 _ hP hs => hP.skel_trans (sameSkeleton_SetFlags hs)) sA sB
              (SameSkeleton.skel_refl _) hB
          rw [ids_of_sameSkeleton this]; exact hndA
        have kB2 : MmrInvP sB (fun i => ((X i ∧ (b = true → i ≠ rowid)) ∨
            (b = true ∧ i = r0.rowid)) ∨ (b = true ∧ i ∈ rest.map (fun r => r.rowid))) := by
          refine mmrInvP_mono kB ?_
          intro i hi
          rcases hi with hx | ⟨hb, hm⟩
          · exact Or.inl (Or.inl hx)
          · rw [List.map_cons, List.mem_cons] at hm
            rcases hm with e | hm
            · exact Or.inl (Or.inr ⟨hb, e⟩)
            · exact Or.inr ⟨hb, hm⟩
        obtain ⟨hndC, kC⟩ := mmrInvP_recFold
          (fun st st1 rowid rowPrev h X => ih st st1 rowid rowPrev h b X) rest _ sB sC hndB kB2 hC
        have kD := ih _ _ _ _ _ _ _ hndC kC hok
        refine mmrInvP_mono kD ?_
        intro i hi
        obtain ⟨hx | ⟨hb, e⟩, hne⟩ := hi
        · exact hx
        · exact absurd e (hne hb)
    · cases hok

theorem mmrInvP_SetStateFunctional {fuel : Nat} {st st1 : NodeDB} {rowid : Nat}
    (hnd : (st.States.map (fun r => r.rowid)).Nodup) (hI : MmrInvP st (fun _ => False))
    (hok : SetStateFunctional fuel st rowid = .ok st1) : MmrInvP st1 (fun _ => False) := by
  obtain ⟨x, hx, h | ⟨-, st3, nFlags, rowPrev, st4, hpre, h4, hcas⟩⟩ :=
    SetStateFunctional_inv hok
  · rw [h.2]; exact hI
  · have k3 : SameSkeleton st st3 ∧ MmrInvP st3 (fun _ => False) := by
      rcases SetStateFunctional_prevStep_inv hpre with h | h | ⟨-, -, s1, h1, h | h⟩
      · rw [h.2.2.1]; exact ⟨SameSkeleton.skel_refl _, hI⟩
      · rw [h.2.2.1]; exact ⟨SameSkeleton.skel_refl _, hI⟩
      · rw [h.2.1]
        exact ⟨sameSkeleton_SetNextCountFunctional h1,
          mmrInvP_updateRow h1 (fun _ => ⟨rfl, rfl, rfl⟩) hI⟩
      · have m1 := mmrInvP_updateRow h1 (fun _ => ⟨rfl, rfl, rfl⟩) hI
        have hh := h.2.2
        refine ⟨(sameSkeleton_SetNextCountFunctional h1).skel_trans
          (sameSkeleton_ite hh sameSkeleton_TipReachableDel), ?_⟩
        split at hh
        · obtain ⟨-, rfl⟩ := TipReachableDel_ok hh
          exact m1
        · injection hh with hh; subst hh; exact m1
    have hnd4 : (st4.States.map (fun r => r.rowid)).Nodup := by
      rw [ids_of_sameSkeleton (k3.1.skel_trans (sameSkeleton_SetFlags h4))]; exact hnd
    split at hcas
    · have k4 := mmrInvP_SetFlags true h4 (fun e => by cases e) k3.2
      have k5 := mmrInvP_OnStateReachable _ _ _ _ _ _ _ _ hnd4 k4 hcas
      refine mmrInvP_mono k5 ?_
      intro i hi
      obtain ⟨hf | ⟨-, e⟩, hne⟩ := hi
      · exact hf
      · exact hne rfl e
    · rename_i hR
      injection hcas with hcas; subst hcas
      have k4 := mmrInvP_SetFlags false h4 (fun _ => by simpa using hR) k3.2
      refine mmrInvP_mono k4 ?_
      intro i hi
      rcases hi with hf | ⟨hb, -⟩
      · exact hf
      · cases hb

theorem mmrInvP_SetStateNotFunctional {fuel : Nat} {st st1 : NodeDB} {rowid : Nat}
    (hnd : (st.States.map (fun r => r.rowid)).Nodup) (hI : MmrInvP st (fun _ => False))
    (hok : SetStateNotFunctional fuel st rowid = .ok st1) : MmrInvP st1 (fun _ => False) := by
  obtain ⟨x, hx, h | ⟨-, st3, rowPrev, st4, hpre, h4, hcas⟩⟩ :=
    SetStateNotFunctional_inv hok
  · rw [h.2]; exact hI
  · have k3 : SameSkeleton st st3 ∧ MmrInvP st3 (fun _ => False) := by
      rcases SetStateNotFunctional_prevStep_inv hpre with h | h | ⟨-, -, -, s1, h1, h3⟩
      · rw [h.2.2.2.1]; exact ⟨SameSkeleton.skel_refl _, hI⟩
      · rw [h.2.2.2.1]; exact ⟨SameSkeleton.skel_refl _, hI⟩
      · have m1 := mmrInvP_updateRow h1 (fun _ => ⟨rfl, rfl, rfl⟩) hI
        refine ⟨(sameSkeleton_SetNextCountFunctional h1).skel_trans
          (sameSkeleton_ite h3 sameSkeleton_TipReachableAdd), ?_⟩
        split at h3
        · obtain ⟨-, rfl⟩ := TipReachableAdd_ok h3
          exact m1
        · injection h3 with h3; subst h3; exact m1
    have hnd4 : (st4.States.map (fun r => r.rowid)).Nodup := by
      rw [ids_of_sameSkeleton (k3.1.skel_trans (sameSkeleton_SetFlags h4))]; exact hnd
    have k4 : MmrInvP st4 (fun _ => False) := by
      refine mmrInvP_mono (mmrInvP_SetFlags false h4 (fun _ => newFlags_R _) k3.2) ?_
      intro i hi
      rcases hi with hf | ⟨hb, -⟩
      · exact hf
      · cases hb
    split at hcas
    · refine mmrInvP_mono (mmrInvP_OnStateReachable _ _ _ _ _ _ _ _ hnd4 k4 hcas) ?_
      intro i hi
      exact hi.1
    · injection hcas with hcas; subst hcas; exact k4

theorem mmrInvP_InsertState {st st1 : NodeDB} {s : Full} {rowid : Nat} (hS : StructInv st)
    (hI : MmrInvP st (fun _ => False)) (hok : InsertState st s = .ok (st1, rowid)) :
    MmrInvP st1 (fun _ => False) := by
  obtain ⟨-, -, eS, -⟩ := InsertState_closed hS hok
  intro r1 hr1 hR
  rw [eS, List.mem_append] at hr1
  rcases hr1 with hr1 | hr1
  · obtain ⟨r0, hr0, rfl⟩ := List.mem_map.mp hr1
    rw [insertedOld_Flags] at hR
    rw [insertedOld_Mmr]
    exact Or.inl ((hI r0 hr0 hR).resolve_right id)
  · rw [List.mem_singleton] at hr1
    subst hr1
    simp [InsertState.newRow] at hR

theorem mmrInvP_DeleteState {st st1 : NodeDB} {rowid : Nat} {res : Bool × Nat}
    (hS : StructInv st) (hI : MmrInvP st (fun _ => False))
    (hok : DeleteState st rowid = .ok (st1, res)) : MmrInvP st1 (fun _ => False) := by
  obtain ⟨x, hx, -, -, h | ⟨-, -, -, eS, -⟩⟩ := DeleteState_closed hS.toLink hok
  · rw [h.2.1]; exact hI
  · intro r1 hr1 hR
    rw [eS] at hr1
    obtain ⟨r0, hr0, rfl⟩ := List.mem_map.mp (List.mem_filter.mp hr1).1
    rw [deletedOld_Flags] at hR
    rw [deletedOld_Mmr]
    exact Or.inl ((hI r0 hr0 hR).resolve_right id)

theorem reached_mmrInv {st : NodeDB} (h : Reached false st) : MmrInvP st (fun _ => False) := by
  induction h with
  | empty => intro r hr; simp [NodeDB.empty] at hr
  | insertState hr _ hok ih => exact mmrInvP_InsertState (reached_structInv hr) ih hok
  | deleteState hr hok ih => exact mmrInvP_DeleteState (reached_structInv hr) ih hok
  | setStateFunctional hr hok ih =>
    exact mmrInvP_SetStateFunctional (reached_structInv hr).rowid_nodup ih hok
  | setStateNotFunctional hr hok ih =>
    exact mmrInvP_SetStateNotFunctional (reached_structInv hr).rowid_nodup ih hok
  | moveFwd hc _ _ _ => cases hc
  | moveBack hc _ _ _ => cases hc

/-! ## `OnStateReachable` terminates -/

theorem parentInv_noWrap {st : NodeDB} (hP : ParentInv st) : NoWrap st := by
  intro c hc h0
  cases hp : c.RowPrev with
  | none => rfl
  | some p =>
    obtain ⟨P, -, -, e⟩ := hP.parent c hc p hp
    omega

theorem parentInv_of_sameSkeleton {st st1 : NodeDB} (hP : ParentInv st)
    (hk : SameSkeleton st st1) : ParentInv st1 := by
  refine ⟨?_, ?_, ?_⟩
  · rw [ids_of_sameSkeleton hk]; exact hP.rowid_nodup
  · intro r1 hr1
    obtain ⟨r, hr, e⟩ := skeleton_mem_of_map_eq hk.1 hr1
    rw [(skeleton_fields e).2.1]
    exact hP.height_lt r hr
  · intro c1 hc1 p hp
    obtain ⟨c, hc, e⟩ := skeleton_mem_of_map_eq hk.1 hc1
    have f := skeleton_fields e
    rw [f.2.2.2.2.1] at hp
    obtain ⟨P, hPm, e1, e2⟩ := hP.parent c hc p hp
    obtain ⟨P1, hP1, e3⟩ := skeleton_mem_of_map_eq hk.1.symm hPm
    have g := skeleton_fields e3
    exact ⟨P1, hP1, by rw [← g.1]; exact e1, by rw [← g.2.1, f.2.1]; exact e2⟩

theorem bind_ne_fuel {α β : Type} {x : Except Err α} {f : α → Except Err β}
    (hx : x ≠ .error .fuel) (hf : ∀ a, x = .ok a → f a ≠ .error .fuel) :
    (x >>= f) ≠ .error .fuel := by
  cases x with
  | error e =>
    intro h
    apply hx
    simpa [bind, Except.bind] using h
  | ok a => exact hf a rfl

theorem updateRow_ne_fuel (st : NodeDB) (rowid : Nat) (f : StateRow → StateRow) :
    updateRow st rowid f ≠ .error .fuel := by
  unfold updateRow
  split <;> simp

theorem BuildMmr_ne_fuel (st : NodeDB) (rowid rowPrev h : Nat) :
    BuildMmr st rowid rowPrev h ≠ .error .fuel := by
  unfold BuildMmr
  split
  · simp
  split
  · simp
  split
  · simp
  split
  · simp
  · exact updateRow_ne_fuel _ _ _

theorem TipReachableAdd_ne_fuel (st : NodeDB) (rowid h : Nat) :
    TipReachableAdd st rowid h ≠ .error .fuel := by
  unfold TipReachableAdd
  split <;> simp

theorem TipReachableDel_ne_fuel (st : NodeDB) (rowid h : Nat) :
    TipReachableDel st rowid h ≠ .error .fuel := by
  unfold TipReachableDel
  split <;> simp

theorem foldlM_ne_fuel {α : Type} (P : NodeDB → Prop) (f : NodeDB → α → Except Err NodeDB)
    (l : List α) (hf : ∀ s a, a ∈ l → P s → f s a ≠ .error .fuel)
    (hP : ∀ s a s1, a ∈ l → P s → f s a = .ok s1 → P s1) :
    ∀ st, P st → l.foldlM f st ≠ .error .fuel := by
  induction l with
  | nil => intro st _; simp [List.foldlM, pure, Except.pure]
  | cons a rest ih =>
    intro st hst
    rw [List.foldlM_cons]
    refine bind_ne_fuel (hf st a (List.mem_cons_self _ _) hst) ?_
    intro s1 h1
    exact ih (fun s x hx => hf s x (List.mem_cons_of_mem _ hx))
      (fun s x s2 hx => hP s x s2 (List.mem_cons_of_mem _ hx)) s1
      (hP st a s1 (List.mem_cons_self _ _) hst h1)

/-- A child found by the query of `OnStateReachable` sits one height above `h`, without
wrap-around. -/
theorem next_height {st : NodeDB} (hW : NoWrap st) {rowid h : Nat} (hh : h < 2 ^ 64)
    {r : StateRow} (hr : r ∈ nextFunctional st rowid h) :
    heightInc h = h + 1 ∧ h + 1 < 2 ^ 64 ∧ r.Height = h + 1 := by
  obtain ⟨hm, e1, e2, -⟩ := nextFunctional_mem hr
  have hne : heightInc h ≠ 0 := by
    intro e0
    have := hW r hm (e1.trans e0)
    rw [this] at e2
    cases e2
  have e := heightInc_eq_succ hh hne
  have := heightInc_lt h
  exact ⟨e, by omega, by rw [e1, e]⟩

/-- `OnStateReachable` does not run out of fuel when `fuel + h` is at least `2^64`. -/
theorem OnStateReachable_ne_fuel :
    ∀ (fuel : Nat) (st : NodeDB) (rowid rowPrev h : Nat) (b : Bool),
      NoWrap st → h < 2 ^ 64 → 2 ^ 64 ≤ fuel + h →
      OnStateReachable fuel st rowid rowPrev h b ≠ .error .fuel := by
  intro fuel
  induction fuel with
  | zero => intro st rowid rowPrev h b _ hh hf; omega
  | succ fuel ih =>
    intro st rowid rowPrev h b hW hh hf
    rw [OnStateReachable]
    refine bind_ne_fuel ?_ ?_
    · split
      · exact BuildMmr_ne_fuel _ _ _ _
      · simp
    · intro sA hA
      have kA : SameSkeleton st sA := by
        split at hA
        · exact sameSkeleton_BuildMmr hA
        · injection hA with hA; subst hA; exact SameSkeleton.skel_refl _
      have hWA := noWrap_of_sameSkeleton hW kA
      simp only
      split
      · split
        · split
          · exact TipReachableAdd_ne_fuel _ _ _
          · exact TipReachableDel_ne_fuel _ _ _
        · rename_i r0 rest hrows
          have hr0 : r0 ∈ nextFunctional sA rowid h := by
            rw [hrows]; exact List.mem_cons_self _ _
          obtain ⟨e1, e2, -⟩ := next_height hWA hh hr0
          rw [e1]
          refine bind_ne_fuel ?_ ?_
          · exact foldlM_ne_fuel (fun _ => True) _ _
              (fun s a _ _ => updateRow_ne_fuel _ _ _) (fun _ _ _ _ _ _ => trivial) sA trivial
          · intro sB hB
            have kB : SameSkeleton sA sB :=
              foldlM_invariant (SameSkeleton sA) _ _
                (fun s a s1 _ hP hs => hP.skel_trans (sameSkeleton_SetFlags hs)) sA sB
                (SameSkeleton.skel_refl _) hB
            have hWB := noWrap_of_sameSkeleton hWA kB
            refine bind_ne_fuel ?_ ?_
            · exact foldlM_ne_fuel NoWrap _ _
                (fun s a _ hs => ih s _ _ _ _ hs e2 (by omega))
                (fun s a s1 _ hs h1 => noWrap_of_sameSkeleton hs
                  (sameSkeleton_OnStateReachable _ _ _ _ _ _ _ h1)) sB hWB
            · intro sC hC
              have hWC : NoWrap sC :=
                foldlM_invariant NoWrap _ _
                  (fun s a s1 _ hs h1 => noWrap_of_sameSkeleton hs
                    (sameSkeleton_OnStateReachable _ _ _ _ _ _ _ h1)) sB sC hWB hC
              exact ih sC _ _ _ _ hWC e2 (by omega)
      · simp

/-- More fuel does not change a result that is not the fuel error. -/
theorem foldlM_mono {α : Type} (f g : NodeDB → α → Except Err NodeDB)
    (hfg : ∀ s a res, f s a = res → res ≠ .error .fuel → g s a = res) (l : List α) :
    ∀ st res, l.foldlM f st = res → res ≠ .error .fuel → l.foldlM g st = res := by
  induction l with
  | nil => intro st res h _; simpa [List.foldlM] using h
  | cons a rest ih =>
    intro st res h hne
    rw [List.foldlM_cons] at h ⊢
    cases hx : f st a with
    | error e =>
      rw [hx] at h
      have he : res = .error e := by simpa [bind, Except.bind] using h.symm
      have hg := hfg st a _ hx (by rw [← he]; exact hne)
      rw [hg, he]
      rfl
    | ok s1 =>
      rw [hx] at h
      rw [hfg st a _ hx (by simp)]
      exact ih s1 res h hne

theorem OnStateReachable_mono :
    ∀ (fuel : Nat) (st : NodeDB) (rowid rowPrev h : Nat) (b : Bool) (res : Except Err NodeDB),
      OnStateReachable fuel st rowid rowPrev h b = res → res ≠ .error .fuel →
      OnStateReachable (fuel + 1) st rowid rowPrev h b = res := by
  intro fuel
  induction fuel with
  | zero =>
    intro st rowid rowPrev h b res hres hne
    rw [OnStateReachable] at hres
    exact absurd hres.symm hne
  | succ fuel ih =>
    intro st rowid rowPrev h b res hres hne
    rw [OnStateReachable] at hres ⊢
    cases hA : (if b = true then BuildMmr st rowid rowPrev h else Except.ok st) with
    | error e =>
      rw [hA] at hres
      exact hres
    | ok sA =>
      rw [hA] at hres
      simp only [bind, Except.bind] at hres ⊢
      split at hres
      · rename_i hall
        rw [if_pos hall]
        split at hres
        · rename_i hrows
          exact hres
        · rename_i r0 rest hrows
          cases hB : List.foldlM
              (fun s r => SetFlags s r.rowid (r.Flags ^^^ StateFlags.Reachable)) sA (r0 :: rest) with
          | error e =>
            rw [hB] at hres
            simp only at hres
            exact hres
          | ok sB =>
            rw [hB] at hres
            simp only at hres ⊢
            cases hC : List.foldlM
                (fun s r => OnStateReachable fuel s r.rowid rowid (heightInc h) b) sB rest with
            | error e =>
              rw [hC] at hres
              simp only at hres
              have hC2 := foldlM_mono _
                (fun s r => OnStateReachable (fuel + 1) s r.rowid rowid (heightInc h) b)
                (fun s a res h1 h2 => ih s _ _ _ _ res h1 h2) rest sB _ hC
                (by rw [hres]; exact hne)
              rw [hC2]
              exact hres
            | ok sC =>
              rw [hC] at hres
              simp only at hres
              have hC2 := foldlM_mono _
                (fun s r => OnStateReachable (fuel + 1) s r.rowid rowid (heightInc h) b)
                (fun s a res h1 h2 => ih s _ _ _ _ res h1 h2) rest sB _ hC (by simp)
              rw [hC2]
              simp only
              exact ih sC _ _ _ _ res hres hne
      · rename_i hall
        rw [if_neg hall]
        exact hres

/-! ## The visits of `OnStateReachable` -/

theorem walkNext_fold_snd (f : NodeDB → Nat → List (Nat × Nat) × Except Err NodeDB)
    (l : List StateRow) :
    ∀ acc : List (Nat × Nat) × Except Err NodeDB,
      (l.foldl (walkNext f) acc).2
        = acc.2 >>= fun s => l.foldlM (fun s r => (f s r.rowid).2) s := by
  induction l with
  | nil =>
    intro acc
    cases h : acc.2 with
    | error e => simp [h, bind, Except.bind]
    | ok s => simp [h, bind, Except.bind, pure, Except.pure]
  | cons a rest ih =>
    intro acc
    rw [List.foldl_cons, ih]
    cases h : acc.2 with
    | error e => simp [walkNext, h, bind, Except.bind]
    | ok s => simp [walkNext, h, bind, Except.bind]

theorem foldlM_concat_except (f : NodeDB → StateRow → Except Err NodeDB) (l : List StateRow)
    (a : StateRow) (s : NodeDB) :
    (l ++ [a]).foldlM f s = l.foldlM f s >>= fun s1 => f s1 a := by
  rw [List.foldlM_append]
  congr 1
  funext s1
  simp [List.foldlM, bind, Except.bind, pure, Except.pure]
  cases f s1 a <;> rfl

/-- The second component of the walk is `OnStateReachable`. -/
theorem OnStateReachableWalk_snd :
    ∀ (fuel : Nat) (st : NodeDB) (rowid rowPrev h : Nat) (b : Bool),
      (OnStateReachableWalk fuel st rowid rowPrev h b).2
        = OnStateReachable fuel st rowid rowPrev h b := by
  intro fuel
  induction fuel with
  | zero => intro st rowid rowPrev h b; rfl
  | succ fuel ih =>
    intro st rowid rowPrev h b
    rw [OnStateReachableWalk, OnStateReachable]
    cases hA : (if b = true then BuildMmr st rowid rowPrev h else Except.ok st) with
    | error e => rfl
    | ok sA =>
      simp only [bind, Except.bind]
      generalize nextFunctional sA rowid h = rows
      split
      · cases rows with
        | nil => rfl
        | cons r0 rest =>
          simp only
          cases hB : List.foldlM
              (fun s r => SetFlags s r.rowid (r.Flags ^^^ StateFlags.Reachable)) sA
              (r0 :: rest) with
          | error e => rfl
          | ok sB =>
            simp only
            rw [walkNext_fold_snd]
            have hfun : (fun s r => (OnStateReachableWalk fuel s r.rowid rowid (heightInc h) b).2)
                = (fun (s : NodeDB) (r : StateRow) =>
                    OnStateReachable fuel s r.rowid rowid (heightInc h) b) := by
              funext s r
              exact ih _ _ _ _ _
            rw [hfun]
            simp only [bind, Except.bind]
            rw [foldlM_concat_except]
            rfl
      · rfl

theorem row_lookup {st0 s : NodeDB} (hP : ParentInv st0) (hk : SameSkeleton st0 s)
    {c : StateRow} (hc : c ∈ s.States) :
    heightOf st0 c.rowid = some c.Height ∧ parentOf st0 c.rowid = c.RowPrev := by
  obtain ⟨c0, hc0, e⟩ := skeleton_mem_of_map_eq hk.1 hc
  have f := skeleton_fields e
  have hfind := findRow_of_mem hP.rowid_nodup hc0
  unfold heightOf parentOf
  rw [f.1, hfind, f.2.1, f.2.2.2.2.1]
  exact ⟨rfl, rfl⟩

theorem heightOf_some {st : NodeDB} {v h : Nat} (e : heightOf st v = some h) :
    ∃ x ∈ st.States, x.rowid = v ∧ x.Height = h := by
  unfold heightOf at e
  cases hf : findRow st v with
  | none => rw [hf] at e; cases e
  | some x =>
    rw [hf] at e
    obtain ⟨hx, hid⟩ := findRow_some hf
    exact ⟨x, hx, hid, by simpa using e⟩

theorem visit_mono {st : NodeDB} {rowid h : Nat} {t t1 : List (Nat × Nat)} {e : Nat × Nat}
    (hv : Visit st rowid h t e) (hsub : ∀ x ∈ t, x ∈ t1) : Visit st rowid h t1 e := by
  refine ⟨hv.1, ?_⟩
  rcases hv.2 with h0 | ⟨e1, he1, hp⟩
  · exact Or.inl h0
  · exact Or.inr ⟨e1, hsub e1 he1, hp⟩

theorem visit_root_unique {st : NodeDB} {c c1 h : Nat} {t t1 : List (Nat × Nat)}
    {e e1 : Nat × Nat} (hv : Visit st c h t e) (hv1 : Visit st c1 h t1 e1)
    (he : e.1 = e1.1) : c = c1 := by
  obtain ⟨⟨k, a1, a2, a3⟩, -⟩ := hv
  obtain ⟨⟨k1, b1, b2, b3⟩, -⟩ := hv1
  rw [he, b2] at a2
  have e2 : e1.2 = e.2 := Option.some.inj a2
  have hk : k = k1 := by omega
  subst hk
  rw [he, b3] at a3
  exact (Option.some.inj a3).symm

theorem goodWalk_singleton {st : NodeDB} {rowid h : Nat} (hh : heightOf st rowid = some h) :
    GoodWalk st rowid h [(rowid, h)] := by
  refine ⟨by simp, ?_⟩
  intro e he
  rw [List.mem_singleton] at he
  subst he
  exact ⟨⟨0, rfl, hh, rfl⟩, Or.inl rfl⟩

theorem goodWalks_fold {st0 : NodeDB} {h1 : Nat}
    (f : NodeDB → Nat → List (Nat × Nat) × Except Err NodeDB)
    (hf : ∀ s i, SameSkeleton st0 s → heightOf st0 i = some h1 → GoodWalk st0 i h1 (f s i).1)
    (hsk : ∀ s i s1, (f s i).2 = .ok s1 → SameSkeleton s s1) (L : List StateRow) :
    ∀ (D : List Nat) (acc : List (Nat × Nat) × Except Err NodeDB),
      (D ++ L.map (fun r => r.rowid)).Nodup →
      (∀ c ∈ L, heightOf st0 c.rowid = some h1) →
      (∀ s, acc.2 = .ok s → SameSkeleton st0 s) →
      GoodWalks st0 D h1 acc.1 →
      GoodWalks st0 (D ++ L.map (fun r => r.rowid)) h1 (L.foldl (walkNext f) acc).1 := by
  induction L with
  | nil =>
    intro D acc _ _ _ hg
    simpa using hg
  | cons c rest ih =>
    intro D acc hnd hL hacc hg
    rw [List.foldl_cons]
    have hlist : D ++ (c :: rest).map (fun r => r.rowid)
        = (D ++ [c.rowid]) ++ rest.map (fun r => r.rowid) := by simp
    rw [hlist] at hnd ⊢
    have hcD : c.rowid ∉ D := by
      intro hin
      have h1 : (D ++ [c.rowid]).Nodup := (List.nodup_append.mp hnd).1
      have h2 := List.nodup_append.mp h1
      exact h2.2.2 hin (List.mem_singleton_self _)
    refine ih (D ++ [c.rowid]) (walkNext f acc c) hnd
      (fun x hx => hL x (List.mem_cons_of_mem _ hx)) ?_ ?_
    · intro s hs
      unfold walkNext at hs
      cases ha : acc.2 with
      | error e => rw [ha] at hs; simp only at hs; rw [ha] at hs; cases hs
      | ok s0 =>
        rw [ha] at hs
        simp only at hs
        exact (hacc s0 ha).skel_trans (hsk _ _ _ hs)
    · unfold walkNext
      cases ha : acc.2 with
      | error e =>
        simp only
        refine ⟨hg.1, fun e he => ?_⟩
        obtain ⟨d, hd, hv⟩ := hg.2 e he
        exact ⟨d, List.mem_append_left _ hd, hv⟩
      | ok s0 =>
        simp only
        have hc := hf s0 c.rowid (hacc s0 ha) (hL c (List.mem_cons_self _ _))
        refine ⟨?_, ?_⟩
        · rw [List.map_append, List.nodup_append]
          refine ⟨hg.1, hc.1, ?_⟩
          intro v hv1 hv2
          obtain ⟨e, he, rfl⟩ := List.mem_map.mp hv1
          obtain ⟨e1, he1, hee⟩ := List.mem_map.mp hv2
          obtain ⟨d, hd, hvd⟩ := hg.2 e he
          have := visit_root_unique hvd (hc.2 e1 he1) hee.symm
          rw [this] at hd
          exact hcD hd
        · intro e he
          rcases List.mem_append.mp he with he | he
          · obtain ⟨d, hd, hv⟩ := hg.2 e he
            exact ⟨d, List.mem_append_left _ hd,
              visit_mono hv (fun x hx => List.mem_append_left _ hx)⟩
          · exact ⟨c.rowid, List.mem_append_right _ (List.mem_singleton_self _),
              visit_mono (hc.2 e he) (fun x hx => List.mem_append_right _ hx)⟩

/-- The visits of `OnStateReachableWalk`, started at a row of the table with its height: no row
is visited twice, and every visit other than the first is entered from a visit of its parent,
one height below. -/
theorem goodWalk_OnStateReachableWalk {st0 : NodeDB} (hP : ParentInv st0) :
    ∀ (fuel : Nat) (s : NodeDB) (rowid rowPrev h : Nat) (b : Bool),
      SameSkeleton st0 s → heightOf st0 rowid = some h →
      GoodWalk st0 rowid h (OnStateReachableWalk fuel s rowid rowPrev h b).1 := by
  intro fuel
  induction fuel with
  | zero =>
    intro s rowid rowPrev h b _ _
    exact ⟨List.nodup_nil, fun e he => by cases he⟩
  | succ fuel ih =>
    intro s rowid rowPrev h b hk hroot
    rw [OnStateReachableWalk]
    cases hA : (if b = true then BuildMmr s rowid rowPrev h else Except.ok s) with
    | error e => exact goodWalk_singleton hroot
    | ok sA =>
      have kA : SameSkeleton st0 sA := by
        refine hk.skel_trans ?_
        split at hA
        · exact sameSkeleton_BuildMmr hA
        · injection hA with hA; subst hA; exact SameSkeleton.skel_refl _
      simp only
      generalize hrows : nextFunctional sA rowid h = rows
      split
      · cases rows with
        | nil => exact goodWalk_singleton hroot
        | cons r0 rest =>
          simp only
          cases hB : List.foldlM
              (fun s r => SetFlags s r.rowid (r.Flags ^^^ StateFlags.Reachable)) sA
              (r0 :: rest) with
          | error e => exact goodWalk_singleton hroot
          | ok sB =>
            simp only
            have kB : SameSkeleton st0 sB :=
              foldlM_invariant (SameSkeleton st0) _ _
                (fun s a s1 _ hP hs => hP.skel_trans (sameSkeleton_SetFlags hs)) sA sB kA hB
            obtain ⟨x, hx, hxid, hxh⟩ := heightOf_some hroot
            have hh : h < 2 ^ 64 := by rw [← hxh]; exact hP.height_lt x hx
            have hPA := parentInv_of_sameSkeleton hP kA
            have hWA := parentInv_noWrap hPA
            have hchild : ∀ c ∈ r0 :: rest, heightInc h = h + 1 ∧
                heightOf st0 c.rowid = some (h + 1) ∧ parentOf st0 c.rowid = some rowid := by
              intro c hc
              rw [← hrows] at hc
              obtain ⟨e1, -, e3⟩ := next_height hWA hh hc
              obtain ⟨hm, -, e5, -⟩ := nextFunctional_mem hc
              obtain ⟨l1, l2⟩ := row_lookup hP kA hm
              exact ⟨e1, by rw [l1, e3], by rw [l2, e5]⟩
            have e1 : heightInc h = h + 1 := (hchild r0 (List.mem_cons_self _ _)).1
            have hndrows : ((r0 :: rest).map (fun r => r.rowid)).Nodup := by
              rw [← hrows]
              unfold nextFunctional
              exact List.Nodup.sublist (List.Sublist.map _ (List.filter_sublist _))
                hPA.rowid_nodup
            have hperm : List.Perm ((rest ++ [r0]).map (fun r => r.rowid))
                ((r0 :: rest).map (fun r => r.rowid)) :=
              List.Perm.map _ (List.perm_append_singleton r0 rest)
            have hndL : (([] : List Nat)
                ++ (rest ++ [r0]).map (fun (r : StateRow) => r.rowid)).Nodup := by
              rw [List.nil_append]
              exact hperm.nodup_iff.mpr hndrows
            have hmemL : ∀ c ∈ rest ++ [r0], c ∈ r0 :: rest := fun c hc =>
              (List.perm_append_singleton r0 rest).subset hc
            rw [e1]
            have hw := goodWalks_fold
              (fun s i => OnStateReachableWalk fuel s i rowid (h + 1) b)
              (fun s i hs hi => ih s i rowid (h + 1) b hs hi)
              (fun s i s1 hs => by
                rw [OnStateReachableWalk_snd] at hs
                exact sameSkeleton_OnStateReachable _ _ _ _ _ _ _ hs)
              (rest ++ [r0]) [] ([], .ok sB) hndL
              (fun c hc => (hchild c (hmemL c hc)).2.1)
              (fun s hs => by injection hs with hs; subst hs; exact kB)
              ⟨List.nodup_nil, fun e he => by cases he⟩
            rw [List.nil_append] at hw
            generalize List.foldl
              (walkNext (fun s i => OnStateReachableWalk fuel s i rowid (h + 1) b))
              ([], Except.ok sB) (rest ++ [r0]) = w at hw ⊢
            have hpar : ∀ c ∈ (rest ++ [r0]).map (fun r => r.rowid),
                parentOf st0 c = some rowid := by
              intro c hc
              obtain ⟨r, hr, rfl⟩ := List.mem_map.mp hc
              exact (hchild r (hmemL r hr)).2.2
            refine ⟨?_, ?_⟩
            · rw [List.map_cons, List.nodup_cons]
              refine ⟨?_, hw.1⟩
              intro hin
              obtain ⟨e, he, hee⟩ := List.mem_map.mp hin
              obtain ⟨c, -, ⟨k, a1, a2, -⟩, -⟩ := hw.2 e he
              simp only at hee
              rw [hee, hroot] at a2
              have := Option.some.inj a2
              omega
            · intro e he
              rcases List.mem_cons.mp he with rfl | he
              · exact ⟨⟨0, rfl, hroot, rfl⟩, Or.inl rfl⟩
              · obtain ⟨c, hc, ⟨k, a1, a2, a3⟩, hstep⟩ := hw.2 e he
                refine ⟨⟨k + 1, by omega, a2, ?_⟩, Or.inr ?_⟩
                · show (ancestor st0 k e.1).bind (parentOf st0) = some rowid
                  rw [a3]
                  exact hpar c hc
                · rcases hstep with rfl | ⟨e1, he1, hp⟩
                  · exact ⟨(rowid, h), List.mem_cons_self _ _, hpar c hc, rfl⟩
                  · exact ⟨e1, List.mem_cons_of_mem _ he1, hp⟩
      · exact goodWalk_singleton hroot

theorem OnStateReachable_mono_le {fuel fuel1 : Nat} (hle : fuel ≤ fuel1) (st : NodeDB)
    (rowid rowPrev h : Nat) (b : Bool)
    (hne : OnStateReachable fuel st rowid rowPrev h b ≠ .error .fuel) :
    OnStateReachable fuel1 st rowid rowPrev h b = OnStateReachable fuel st rowid rowPrev h b := by
  induction fuel1, hle using Nat.le_induction with
  | base => rfl
  | succ n _ ih => exact OnStateReachable_mono n st rowid rowPrev h b _ ih hne

theorem parentInv_of_graphInv {st : NodeDB} (hG : GraphInv st) : ParentInv st := by
  refine ⟨hG.rowid_nodup, hG.height_lt, ?_⟩
  intro c hc p hp
  obtain ⟨P, hP, e1, e2, -⟩ := (hG.rowPrev_iff c hc p).mp hp
  exact ⟨P, hP, e1, e2⟩

theorem heightOf_of_mem {st : NodeDB} (hP : ParentInv st) {x : StateRow} (hx : x ∈ st.States) :
    heightOf st x.rowid = some x.Height :=
  (row_lookup hP (SameSkeleton.skel_refl st) hx).1

/-! ## A store with a reachable leaf -/

theorem graphInv_exTwoReachable : GraphInv exTwoReachable := by
  constructor
  · decide
  · decide
  · decide
  · decide
  · decide
  · intro c hc p
    simp only [exTwoReachable, exLeafReachable, exStore, exRow, List.mem_cons, List.mem_singleton,
      List.not_mem_nil, or_false] at hc
    rcases hc with rfl | rfl
    · simp [exTwoReachable, exLeafReachable, exStore, exRow]
    · simp [exTwoReachable, exLeafReachable, exStore, exRow]
  · decide
  · unfold RowReachable RowFunctional; decide
  · intro h row
    simp only [exTwoReachable, exLeafReachable, exStore, exRow, List.mem_cons, List.mem_singleton,
      List.not_mem_nil, or_false, Prod.mk.injEq]
    constructor
    · rintro ⟨rfl, rfl⟩
      refine ⟨_, Or.inr rfl, rfl, rfl, ?_, rfl⟩
      unfold RowReachable; decide
    · rintro ⟨r, hr | hr, h1, h2, -, h4⟩
      · subst hr; simp at h4
      · subst hr; simp at h1 h2; exact ⟨h2.symm, h1.symm⟩

theorem graphInvAll_exTwoReachable : GraphInvAll exTwoReachable := by
  refine ⟨graphInv_exTwoReachable, by decide, by decide, by decide, ?_⟩
  intro h row
  simp only [exTwoReachable, exLeafReachable, exStore, exRow, List.mem_cons, List.mem_singleton,
    List.not_mem_nil, or_false, Prod.mk.injEq]
  constructor
  · rintro ⟨rfl, rfl⟩; simp
  · rintro ⟨r, hr | hr, h1, h2, h3⟩
    · subst hr; simp at h3
    · subst hr; simp at h1 h2; exact ⟨h2.symm, h1.symm⟩

/-! ## The claims -/

theorem reached_exGenesis (cursor : Bool) : Reached cursor exGenesis :=
  Reached.insertState Reached.empty (by decide : (exHeader 0 0 10).m_Height < 2 ^ 64)
    (by decide : InsertState NodeDB.empty (exHeader 0 0 10) = .ok (exGenesis, 1))

theorem reached_exGenesisFunctional (cursor : Bool) : Reached cursor exGenesisFunctional :=
  Reached.setStateFunctional (reached_exGenesis cursor)
    (by decide : SetStateFunctional 1 exGenesis 1 = .ok exGenesisFunctional)

theorem reached_exTop (cursor : Bool) : Reached cursor exTop :=
  Reached.insertState Reached.empty (by decide : (exHeader exMaxHeight 5 7).m_Height < 2 ^ 64)
    (by decide : InsertState NodeDB.empty (exHeader exMaxHeight 5 7) = .ok (exTop, 1))

theorem reached_exTopThenGenesis (cursor : Bool) : Reached cursor exTopThenGenesis :=
  Reached.insertState (reached_exTop cursor) (by decide : (exHeader 0 7 10).m_Height < 2 ^ 64)
    (by decide : InsertState exTop (exHeader 0 7 10) = .ok (exTopThenGenesis, 2))

theorem reached_exGenesis7 (cursor : Bool) : Reached cursor exGenesis7 :=
  Reached.insertState Reached.empty (by decide : (exHeader 0 7 10).m_Height < 2 ^ 64)
    (by decide : InsertState NodeDB.empty (exHeader 0 7 10) = .ok (exGenesis7, 1))

theorem reached_exGenesis7Functional (cursor : Bool) : Reached cursor exGenesis7Functional :=
  Reached.setStateFunctional (reached_exGenesis7 cursor)
    (by decide : SetStateFunctional 1 exGenesis7 1 = .ok exGenesis7Functional)

theorem reached_exGenesisThenTop (cursor : Bool) : Reached cursor exGenesisThenTop :=
  Reached.insertState (reached_exGenesis7Functional cursor)
    (by decide : (exHeader exMaxHeight 5 7).m_Height < 2 ^ 64)
    (by decide : InsertState exGenesis7Functional (exHeader exMaxHeight 5 7)
      = .ok (exGenesisThenTop, 2))

theorem reached_exGenesisThenTopDeleted (cursor : Bool) :
    Reached cursor exGenesisThenTopDeleted :=
  Reached.deleteState (reached_exGenesisThenTop cursor)
    (by decide : DeleteState exGenesisThenTop 1 = .ok (exGenesisThenTopDeleted, (true, 2)))

theorem reached_exTwo (cursor : Bool) : Reached cursor exTwo :=
  Reached.insertState (reached_exGenesis cursor) (by decide : (exHeader 1 10 11).m_Height < 2 ^ 64)
    (by decide : InsertState exGenesis (exHeader 1 10 11) = .ok (exTwo, 2))

theorem reached_exTwoGenesisFunctional (cursor : Bool) : Reached cursor exTwoGenesisFunctional :=
  Reached.setStateFunctional (reached_exTwo cursor)
    (by decide : SetStateFunctional 1 exTwo 1 = .ok exTwoGenesisFunctional)

/-- C6: in every store reached from the empty store by `InsertState`, `DeleteState`,
`SetStateFunctional`, `SetStateNotFunctional`, `MoveFwd` and `MoveBack`, every row whose
`Reachable` flag is set also has its `Functional` flag set. -/
theorem C6_reachable_implies_functional (st : NodeDB) (h : Reached true st) (r : StateRow)
    (hr : r ∈ st.States) (hR : hasFlag r.Flags StateFlags.Reachable = true) :
    hasFlag r.Flags StateFlags.Functional = true :=
  reached_allFlags_rif h r hr hR

theorem C6_reachable_implies_functional_witness :
    Reached true exGenesisFunctional
    ∧ exRow 1 0 10 0 3 none 0 0 (some (DmmrAppend 1 0 0 0)) ∈ exGenesisFunctional.States
    ∧ hasFlag (exRow 1 0 10 0 3 none 0 0 (some (DmmrAppend 1 0 0 0))).Flags
        StateFlags.Reachable = true
    ∧ hasFlag (exRow 1 0 10 0 3 none 0 0 (some (DmmrAppend 1 0 0 0))).Flags
        StateFlags.Functional = true :=
  ⟨reached_exGenesisFunctional true, by decide, by decide,
    C6_reachable_implies_functional exGenesisFunctional (reached_exGenesisFunctional true)
      (exRow 1 0 10 0 3 none 0 0 (some (DmmrAppend 1 0 0 0))) (by decide) (by decide)⟩

/-- C1 (code at the failing input): after `InsertState` of a header of height 0 whose `HashPrev`
is 7, `SetStateFunctional` of it, and `InsertState` of a header of height `2^64 - 1` with hash 7,
all three calls complete and `assert_valid` fails: the height-0 row is `Reachable` and has been
given the new row as parent, which is not `Reachable`. -/
theorem C1_assert_valid_fails_after_wrap :
    Reached false exGenesisThenTop ∧ assert_valid exGenesisThenTop = false :=
  ⟨reached_exGenesisThenTop false, by decide⟩

/-- C3 (code at the failing input): after the three calls of C1 and `DeleteState` of the
height-0 row, `TipsReachable` holds the row of height `2^64 - 1`, whose `Reachable` flag is
clear. -/
theorem C3_tipsReachable_holds_unreachable_row :
    Reached false exGenesisThenTopDeleted
    ∧ (exMaxHeight, 2) ∈ exGenesisThenTopDeleted.TipsReachable
    ∧ ∀ r ∈ exGenesisThenTopDeleted.States, r.rowid = 2 →
        hasFlag r.Flags StateFlags.Reachable = false :=
  ⟨reached_exGenesisThenTopDeleted false, by decide, by decide⟩

/-- C4 (code at the failing input): after `InsertState` of a header of height `2^64 - 1` with
hash 7 and of a header of height 0 whose `HashPrev` is 7, the first row has `CountNext = 1`
although no row has its hash as `HashPrev` and a height one above its own. -/
theorem C4_countNext_counts_wrapped_child :
    Reached false exTopThenGenesis
    ∧ ∃ r ∈ exTopThenGenesis.States, r.rowid = 1 ∧ r.CountNext = 1
        ∧ (exTopThenGenesis.States.filter
            (fun c => c.HashPrev == r.Hash && c.Height == r.Height + 1)).length = 0 :=
  ⟨reached_exTopThenGenesis false, by decide⟩

/-- C5 (code at the failing input): after the three calls of C1 the row of height `2^64 - 1` has
`CountNextFunctional = 1` although no row has its hash as `HashPrev` and a height one above its
own. -/
theorem C5_countNextFunctional_counts_wrapped_child :
    Reached false exGenesisThenTop
    ∧ ∃ r ∈ exGenesisThenTop.States, r.rowid = 2 ∧ r.CountNextFunctional = 1
        ∧ (exGenesisThenTop.States.filter
            (fun c => c.HashPrev == r.Hash && c.Height == r.Height + 1
              && hasFlag c.Flags StateFlags.Functional)).length = 0 :=
  ⟨reached_exGenesisThenTop false, by decide⟩

/-- C8 (code at the failing input): after the three calls of C1 the height-0 row is `Reachable`
while the row its `RowPrev` names is not `Functional`. -/
theorem C8_reachable_row_with_nonfunctional_ancestor :
    Reached false exGenesisThenTop
    ∧ ∃ r ∈ exGenesisThenTop.States, ∃ p ∈ exGenesisThenTop.States,
        hasFlag r.Flags StateFlags.Reachable = true ∧ r.RowPrev = some p.rowid
        ∧ hasFlag p.Flags StateFlags.Functional = false :=
  ⟨reached_exGenesisThenTop false, by decide⟩

/-- C9 (code at the failing input): after the two calls of C4 the row of height 0 has a non-null
`RowPrev` although no row has a height one below its own. -/
theorem C9_rowPrev_set_on_height_zero :
    Reached false exTopThenGenesis
    ∧ ∃ r ∈ exTopThenGenesis.States, r.Height = 0 ∧ r.RowPrev = some 1
        ∧ ∀ p ∈ exTopThenGenesis.States, ¬(p.Height + 1 = r.Height ∧ p.Hash = r.HashPrev) :=
  ⟨reached_exTopThenGenesis false, by decide⟩

/-- C7 (counterexample): after `InsertState` of a genesis header and of its child and
`SetStateFunctional` of the genesis row, the child has a parent whose `Reachable` flag is set
while its own is clear. -/
theorem C7_counterexample :
    Reached false exTwoGenesisFunctional
    ∧ ∃ c ∈ exTwoGenesisFunctional.States, ∃ p ∈ exTwoGenesisFunctional.States,
        c.RowPrev = some p.rowid ∧ hasFlag p.Flags StateFlags.Reachable = true
        ∧ hasFlag c.Flags StateFlags.Reachable = false :=
  ⟨reached_exTwoGenesisFunctional false, by decide⟩

/-- C2: in every store reached from the empty store by `InsertState`, `DeleteState`,
`SetStateFunctional` and `SetStateNotFunctional`, the table `Tips` contains the pair
`(height, row)` if and only if `row` is a row of `States` with that height and
`CountNext = 0`. -/
theorem C2_tips_iff_countNext_zero (st : NodeDB) (h : Reached false st) (height row : Nat) :
    (height, row) ∈ st.Tips ↔
      ∃ r ∈ st.States, r.rowid = row ∧ r.Height = height ∧ r.CountNext = 0 :=
  (reached_structInv h).tips height row

theorem C2_tips_iff_countNext_zero_witness :
    Reached false exTwo ∧
    ((1, 2) ∈ exTwo.Tips ↔
      ∃ r ∈ exTwo.States, r.rowid = 2 ∧ r.Height = 1 ∧ r.CountNext = 0) :=
  ⟨reached_exTwo false, C2_tips_iff_countNext_zero exTwo (reached_exTwo false) 1 2⟩

/-- C7 (amended): in every store reached from the empty store by `InsertState`, `DeleteState`,
`SetStateFunctional` and `SetStateNotFunctional`, a row of non-zero height that has a parent
(`RowPrev` non-null) has `Reachable` set if and only if its `Functional` flag is set and its
parent has `Reachable` set; and a row without a parent has `Reachable` set if and only if its
height is 0 and its `Functional` flag is set. -/
theorem C7_reachable_iff_functional_and_parent (st : NodeDB) (h : Reached false st)
    (c : StateRow) (hc : c ∈ st.States) :
    (c.Height ≠ 0 → ∀ p ∈ st.States, c.RowPrev = some p.rowid →
      (hasFlag c.Flags StateFlags.Reachable = true ↔
        hasFlag c.Flags StateFlags.Functional = true
          ∧ hasFlag p.Flags StateFlags.Reachable = true)) ∧
    (c.RowPrev = none →
      (hasFlag c.Flags StateFlags.Reachable = true ↔
        c.Height = 0 ∧ hasFlag c.Flags StateFlags.Functional = true)) := by
  have hS := reached_structInv h
  have hI := reached_flagsInv h
  unfold FlagsInv at hI
  constructor
  · intro hne p hp e
    have := hI.up c hc hne
    unfold RowReachable RowFunctional at this
    rw [this]
    constructor
    · rintro ⟨hF, q, hq, e1, e2⟩
      have hqp : q = p := parent_unique hS.toLink hq hp e1 e
      rw [hqp, eff_empty] at e2
      exact ⟨hF, e2⟩
    · rintro ⟨hF, hR⟩
      exact ⟨hF, p, hp, e, (eff_empty p).mpr hR⟩
  · intro hnone
    by_cases h0 : c.Height = 0
    · have := hI.zero c hc h0
      unfold RowReachable RowFunctional at this
      rw [this]
      exact ⟨fun hF => ⟨h0, hF⟩, fun hF => hF.2⟩
    · have := hI.up c hc h0
      unfold RowReachable RowFunctional at this
      rw [this]
      constructor
      · rintro ⟨-, q, -, e1, -⟩
        rw [hnone] at e1; cases e1
      · rintro ⟨h, -⟩; exact absurd h h0

theorem C7_reachable_iff_functional_and_parent_witness :
    Reached false exTwoGenesisFunctional
    ∧ exRow 2 1 11 10 0 (some 1) 0 0 none ∈ exTwoGenesisFunctional.States
    ∧ (((exRow 2 1 11 10 0 (some 1) 0 0 none).Height ≠ 0 →
        ∀ p ∈ exTwoGenesisFunctional.States,
          (exRow 2 1 11 10 0 (some 1) 0 0 none).RowPrev = some p.rowid →
          (hasFlag (exRow 2 1 11 10 0 (some 1) 0 0 none).Flags StateFlags.Reachable = true ↔
            hasFlag (exRow 2 1 11 10 0 (some 1) 0 0 none).Flags StateFlags.Functional = true
              ∧ hasFlag p.Flags StateFlags.Reachable = true)) ∧
      ((exRow 2 1 11 10 0 (some 1) 0 0 none).RowPrev = none →
        (hasFlag (exRow 2 1 11 10 0 (some 1) 0 0 none).Flags StateFlags.Reachable = true ↔
          (exRow 2 1 11 10 0 (some 1) 0 0 none).Height = 0
            ∧ hasFlag (exRow 2 1 11 10 0 (some 1) 0 0 none).Flags
                StateFlags.Functional = true))) :=
  ⟨reached_exTwoGenesisFunctional false, by decide,
    C7_reachable_iff_functional_and_parent exTwoGenesisFunctional
      (reached_exTwoGenesisFunctional false) (exRow 2 1 11 10 0 (some 1) 0 0 none)
      (by decide)⟩

/-- C10: on every store that satisfies the graph invariants (`GraphInv`), for every row of
`States` whose `Functional` flag is clear, and with fuel for every height (`2^64`),
`SetStateFunctional` on the row completes, `SetStateNotFunctional` on the same row completes
after it, and in the store they leave every row has the `Flags`, `CountNext` and
`CountNextFunctional` it had before (`flagCols`, row by row, in the order of the table), `Tips`
is the same table and `TipsReachable` holds the same pairs. -/
theorem C10_setFunctional_then_notFunctional_restores (st : NodeDB) (hG : GraphInv st)
    (x : StateRow) (hx : x ∈ st.States)
    (hF : hasFlag x.Flags StateFlags.Functional = false) (fuel : Nat) (hfuel : 2 ^ 64 ≤ fuel) :
    ∃ st1 st2, SetStateFunctional fuel st x.rowid = .ok st1 ∧
      SetStateNotFunctional fuel st1 x.rowid = .ok st2 ∧
      st2.States.map flagCols = st.States.map flagCols ∧
      st2.Tips = st.Tips ∧ st2.TipsReachable.Perm st.TipsReachable :=
  setFunctional_roundTrip hG hx hF hfuel

/-- C10, at the store `exChildFunctional` and its genesis row: the two calls cascade to the
child and back. -/
theorem C10_setFunctional_then_notFunctional_restores_witness :
    GraphInv exChildFunctional ∧
      exRow 1 0 10 0 0 none 1 1 none ∈ exChildFunctional.States ∧
      hasFlag (exRow 1 0 10 0 0 none 1 1 none).Flags StateFlags.Functional = false ∧
      2 ^ 64 ≤ 2 ^ 64 ∧
      ∃ st1 st2, SetStateFunctional (2 ^ 64) exChildFunctional
          (exRow 1 0 10 0 0 none 1 1 none).rowid = .ok st1 ∧
        SetStateNotFunctional (2 ^ 64) st1 (exRow 1 0 10 0 0 none 1 1 none).rowid = .ok st2 ∧
        st2.States.map flagCols = exChildFunctional.States.map flagCols ∧
        st2.Tips = exChildFunctional.Tips ∧
        st2.TipsReachable.Perm exChildFunctional.TipsReachable :=
  ⟨graphInv_exChildFunctional, by decide, by decide, Nat.le_refl _,
    C10_setFunctional_then_notFunctional_restores exChildFunctional graphInv_exChildFunctional
      (exRow 1 0 10 0 0 none 1 1 none) (by decide) (by decide) (2 ^ 64) (Nat.le_refl _)⟩

/-- C20 (counterexample): in the store `exParam` a row for id 5 exists, with value 7, and
`ParamIntGetDef 5 7` returns the default 7 all the same. -/
theorem C20_counterexample :
    5 ∈ exParam.Params.map (fun p => p.ID) ∧ ParamIntGetDef exParam 5 7 = 7 := by
  decide

/-- C20 (amended): for a parameter table with at most one row per id, an id and a value `v`: `ParamIntSet` completes; afterwards `ParamIntGet` of the id yields `v`, `ParamIntGet` of
every other id yields what it did before, the table still has at most one row per id and has one
for the id.  `ParamIntGetDef` returns the default when no row for the id exists and the value
`ParamIntGet` yields when one does. -/
theorem C20_paramIntSet_then_get (st : NodeDB)
    (hnd : (st.Params.map (fun p => p.ID)).Nodup) (ID v : Nat) :
    (∃ st1, ParamIntSet st ID v = .ok st1 ∧ ParamIntGet st1 ID = some v ∧
      (∀ ID1, ID1 ≠ ID → ParamIntGet st1 ID1 = ParamIntGet st ID1) ∧
      (st1.Params.map (fun p => p.ID)).Nodup ∧ ID ∈ st1.Params.map (fun p => p.ID)) ∧
    (∀ d, (ID ∉ st.Params.map (fun p => p.ID) → ParamIntGetDef st ID d = d) ∧
      (∀ w, ParamIntGet st ID = some w → ParamIntGetDef st ID d = w)) := by
  obtain ⟨st1, hok, -⟩ := ParamIntSet_total st ID v
  exact ⟨⟨st1, hok, ParamIntGet_set_same hok, fun _ h => ParamIntGet_set_other hok h,
    ParamIntSet_ids hok hnd⟩, fun d => ParamIntGetDef_eq st ID d⟩

/-- C20 (amended), at the store `exParam`, id 5 and value 9. -/
theorem C20_paramIntSet_then_get_witness :
    (exParam.Params.map (fun p => p.ID)).Nodup ∧
    ((∃ st1, ParamIntSet exParam 5 9 = .ok st1 ∧ ParamIntGet st1 5 = some 9 ∧
      (∀ ID1, ID1 ≠ 5 → ParamIntGet st1 ID1 = ParamIntGet exParam ID1) ∧
      (st1.Params.map (fun p => p.ID)).Nodup ∧ 5 ∈ st1.Params.map (fun p => p.ID)) ∧
    (∀ d, (5 ∉ exParam.Params.map (fun p => p.ID) → ParamIntGetDef exParam 5 d = d) ∧
      (∀ w, ParamIntGet exParam 5 = some w → ParamIntGetDef exParam 5 d = w))) :=
  ⟨by decide, C20_paramIntSet_then_get exParam (by decide) 5 9⟩

/-- C16: `SetStateFunctional` on an existing row whose `Functional` flag is set, and
`SetStateNotFunctional` on an existing row whose `Functional` flag is clear, complete and return
the store they were given: no table changes. -/
theorem C16_already_in_target_state (st : NodeDB) (fuel rowid : Nat) (x : StateRow)
    (hx : findRow st rowid = some x) :
    (hasFlag x.Flags StateFlags.Functional = true →
      SetStateFunctional fuel st rowid = .ok st) ∧
    (hasFlag x.Flags StateFlags.Functional = false →
      SetStateNotFunctional fuel st rowid = .ok st) := by
  constructor
  · intro h
    unfold SetStateFunctional
    rw [hx]
    simp [h]
  · intro h
    unfold SetStateNotFunctional
    rw [hx]
    simp [h]

/-- C16, at `exGenesisFunctional` (row 1 is `Functional`, fuel 0). -/
theorem C16_already_in_target_state_witness :
    findRow exGenesisFunctional 1 = some (exRow 1 0 10 0 3 none 0 0 (some (DmmrAppend 1 0 0 0))) ∧
    ((hasFlag (exRow 1 0 10 0 3 none 0 0 (some (DmmrAppend 1 0 0 0))).Flags
        StateFlags.Functional = true →
      SetStateFunctional 0 exGenesisFunctional 1 = .ok exGenesisFunctional) ∧
    (hasFlag (exRow 1 0 10 0 3 none 0 0 (some (DmmrAppend 1 0 0 0))).Flags
        StateFlags.Functional = false →
      SetStateNotFunctional 0 exGenesisFunctional 1 = .ok exGenesisFunctional)) :=
  ⟨by decide, C16_already_in_target_state exGenesisFunctional 0 1 _ (by decide)⟩

/-- C14: for an existing row, `DeleteState` returns `true` only if the row has `CountNext = 0`
and is not `Active`; with `CountNext > 0` it returns `false`, the `RowPrev` of the row (0 if
null) and the store unchanged; with `CountNext = 0` and `Active` set it raises (`throw "attempt
to delete an active state"`, before any statement that writes), so no store is produced. -/
theorem C14_deleteState_refuses (st : NodeDB) (rowid : Nat) (x : StateRow)
    (hx : findRow st rowid = some x) :
    (x.CountNext ≠ 0 → DeleteState st rowid = .ok (st, false, x.RowPrev.getD 0)) ∧
    (x.CountNext = 0 → hasFlag x.Flags StateFlags.Active = true →
      DeleteState st rowid = .error .activeDelete) ∧
    (∀ st1 rowPrev, DeleteState st rowid = .ok (st1, true, rowPrev) →
      x.CountNext = 0 ∧ hasFlag x.Flags StateFlags.Active = false) := by
  refine ⟨?_, ?_, ?_⟩
  · intro h
    unfold DeleteState
    rw [hx]
    simp [h]
  · intro h hA
    unfold DeleteState
    rw [hx]
    simp [h, hA]
  · intro st1 rowPrev hok
    obtain ⟨y, hy, -, h | h⟩ := DeleteState_inv hok
    · exact absurd h.2.2 (by simp)
    · rw [hx] at hy
      injection hy with hy
      subst hy
      exact ⟨h.1, h.2.1⟩

/-- C14, at `exTwo` and its genesis row, which has a child. -/
theorem C14_deleteState_refuses_witness :
    findRow exTwo 1 = some (exRow 1 0 10 0 0 none 1 0 none) ∧
    (((exRow 1 0 10 0 0 none 1 0 none).CountNext ≠ 0 →
      DeleteState exTwo 1 = .ok (exTwo, false, (exRow 1 0 10 0 0 none 1 0 none).RowPrev.getD 0)) ∧
    ((exRow 1 0 10 0 0 none 1 0 none).CountNext = 0 →
      hasFlag (exRow 1 0 10 0 0 none 1 0 none).Flags StateFlags.Active = true →
      DeleteState exTwo 1 = .error .activeDelete) ∧
    (∀ st1 rowPrev, DeleteState exTwo 1 = .ok (st1, true, rowPrev) →
      (exRow 1 0 10 0 0 none 1 0 none).CountNext = 0
        ∧ hasFlag (exRow 1 0 10 0 0 none 1 0 none).Flags StateFlags.Active = false)) :=
  ⟨by decide, C14_deleteState_refuses exTwo 1 _ (by decide)⟩

/-- C13: in every store reached from the empty one (cursor moves included), for every header
whose `(Height, Hash)` key is not in `States`, `InsertState` returns a row identifier that is not
zero, `StateFindSafe` of the key then returns this identifier, and `get_State` of it returns the
six fields of the header; in any store `StateFindSafe` returns 0 for a key that is not
present. -/
theorem C13_insertState_then_find_and_get (st : NodeDB) (hr : Reached true st) (s : Full)
    (hkey : ∀ x ∈ st.States, ¬(x.Height = s.m_Height ∧ x.Hash = s.hash)) :
    (∃ st1 rowid, InsertState st s = .ok (st1, rowid) ∧ rowid ≠ 0 ∧
      StateFindSafe st1 s.m_Height s.hash = rowid ∧
      get_State st1 rowid = .ok (s.m_Height, s.m_Prev, s.m_Difficulty, s.m_TimeStamp,
        s.m_LiveObjects, s.m_History)) ∧
    (∀ (st0 : NodeDB) (h : Nat) (hash : MerkleHash),
      (∀ x ∈ st0.States, ¬(x.Height = h ∧ x.Hash = hash)) → StateFindSafe st0 h hash = 0) := by
  have key : ∀ (st0 : NodeDB) (h : Nat) (hash : MerkleHash),
      (∀ x ∈ st0.States, ¬(x.Height = h ∧ x.Hash = hash)) → findKey st0 h hash = none := by
    intro st0 h hash hn
    cases hf : findKey st0 h hash with
    | none => rfl
    | some x =>
      obtain ⟨hx, e1, e2⟩ := findKey_some hf
      exact absurd ⟨e1, e2⟩ (hn x hx)
  constructor
  · obtain ⟨st1, hok⟩ := InsertState_total (reached_structInv hr) (reached_tipsNodup hr)
      (key st _ _ hkey)
    exact ⟨st1, _, hok, InsertState_post hok⟩
  · intro st0 h hash hn
    exact StateFindSafe_absent (key st0 h hash hn)

/-- C13, at the store `exGenesis` and a header of height 1 with hash 11. -/
theorem C13_insertState_then_find_and_get_witness :
    Reached true exGenesis ∧
    (∀ x ∈ exGenesis.States, ¬(x.Height = (exHeader 1 10 11).m_Height
      ∧ x.Hash = (exHeader 1 10 11).hash)) ∧
    ((∃ st1 rowid, InsertState exGenesis (exHeader 1 10 11) = .ok (st1, rowid) ∧ rowid ≠ 0 ∧
      StateFindSafe st1 (exHeader 1 10 11).m_Height (exHeader 1 10 11).hash = rowid ∧
      get_State st1 rowid = .ok ((exHeader 1 10 11).m_Height, (exHeader 1 10 11).m_Prev,
        (exHeader 1 10 11).m_Difficulty, (exHeader 1 10 11).m_TimeStamp,
        (exHeader 1 10 11).m_LiveObjects, (exHeader 1 10 11).m_History)) ∧
    (∀ (st0 : NodeDB) (h : Nat) (hash : MerkleHash),
      (∀ x ∈ st0.States, ¬(x.Height = h ∧ x.Hash = hash)) → StateFindSafe st0 h hash = 0)) :=
  ⟨reached_exGenesis true, by decide,
    C13_insertState_then_find_and_get exGenesis (reached_exGenesis true) (exHeader 1 10 11)
      (by decide)⟩


/-- C12: for two lists of headers (64-bit heights) that are permutations of each other and have
pairwise distinct `(Height, Hash)` keys, inserting either list into the empty store completes,
and the two results agree with rows identified by key: the rows of either have the keys of the
headers, `Flags = 0` and `CountNextFunctional = 0`; rows of the same key have the same parent
key (or none) and the same `CountNext`; `Tips` holds the same keys; `TipsReachable` is
empty. -/
theorem C12_insert_order_independent (hs hs1 : List Full) (hperm : hs.Perm hs1)
    (hnd : (hs.map fullKey).Nodup) (hh : ∀ s ∈ hs, s.m_Height < 2 ^ 64) :
    ∃ st1 st2, insertAll NodeDB.empty hs = .ok st1 ∧ insertAll NodeDB.empty hs1 = .ok st2 ∧
      (∀ k, k ∈ st1.States.map rowKey ↔ k ∈ hs.map fullKey) ∧
      (∀ k, k ∈ st2.States.map rowKey ↔ k ∈ hs.map fullKey) ∧
      (∀ r ∈ st1.States, r.Flags = 0 ∧ r.CountNextFunctional = 0) ∧
      (∀ r ∈ st2.States, r.Flags = 0 ∧ r.CountNextFunctional = 0) ∧
      (∀ r1 ∈ st1.States, ∀ r2 ∈ st2.States, rowKey r1 = rowKey r2 →
        parentKey st1 r1 = parentKey st2 r2 ∧ r1.CountNext = r2.CountNext) ∧
      (∀ k, k ∈ tipKeys st1 ↔ k ∈ tipKeys st2) ∧
      st1.TipsReachable = [] ∧ st2.TipsReachable = [] := by
  have hnd1 : (hs1.map fullKey).Nodup := (hperm.map fullKey).nodup_iff.mp hnd
  have hh1 : ∀ s ∈ hs1, s.m_Height < 2 ^ 64 := fun s h => hh s (hperm.symm.subset h)
  obtain ⟨st1, ok1, r1, f1, c1, t1⟩ := insertAll_spec hs NodeDB.empty Reached.empty
    (by intro r hr; cases hr) hh (by simpa [NodeDB.empty] using hnd)
  obtain ⟨st2, ok2, r2, f2, c2, t2⟩ := insertAll_spec hs1 NodeDB.empty Reached.empty
    (by intro r hr; cases hr) hh1 (by simpa [NodeDB.empty] using hnd1)
  have e1 : st1.States.map keyCols = hs.map fullCols := by
    rw [c1]; simp [NodeDB.empty]
  have e2 : st2.States.map keyCols = hs1.map fullCols := by
    rw [c2]; simp [NodeDB.empty]
  have k1 : st1.States.map rowKey = hs.map fullKey := by
    have := congrArg (List.map (fun c : Nat × MerkleHash × MerkleHash => (c.1, c.2.1))) e1
    rw [List.map_map, List.map_map] at this
    exact this
  have k2 : st2.States.map rowKey = hs1.map fullKey := by
    have := congrArg (List.map (fun c : Nat × MerkleHash × MerkleHash => (c.1, c.2.1))) e2
    rw [List.map_map, List.map_map] at this
    exact this
  have hp : (st1.States.map keyCols).Perm (st2.States.map keyCols) := by
    rw [e1, e2]; exact hperm.map fullCols
  have a12 := agree_of_perm (reached_structInv r1) (reached_structInv r2) hp
  have a21 := agree_of_perm (reached_structInv r2) (reached_structInv r1) hp.symm
  refine ⟨st1, st2, ok1, ok2, ?_, ?_, f1, f2, a12.2.1, ?_, ?_, ?_⟩
  · intro k; rw [k1]
  · intro k; rw [k2]; exact (hperm.map fullKey).symm.mem_iff
  · intro k; exact ⟨a12.2.2 k, a21.2.2 k⟩
  · rw [t1]; rfl
  · rw [t2]; rfl

/-- C12, at the headers of heights 0 and 1 (hashes 10 and 11), child first against parent
first. -/
theorem C12_insert_order_independent_witness :
    [exHeader 1 10 11, exHeader 0 0 10].Perm [exHeader 0 0 10, exHeader 1 10 11] ∧
    ([exHeader 1 10 11, exHeader 0 0 10].map fullKey).Nodup ∧
    (∀ s ∈ [exHeader 1 10 11, exHeader 0 0 10], s.m_Height < 2 ^ 64) ∧
    ∃ st1 st2, insertAll NodeDB.empty [exHeader 1 10 11, exHeader 0 0 10] = .ok st1 ∧
      insertAll NodeDB.empty [exHeader 0 0 10, exHeader 1 10 11] = .ok st2 ∧
      (∀ k, k ∈ st1.States.map rowKey ↔ k ∈ [exHeader 1 10 11, exHeader 0 0 10].map fullKey) ∧
      (∀ k, k ∈ st2.States.map rowKey ↔ k ∈ [exHeader 1 10 11, exHeader 0 0 10].map fullKey) ∧
      (∀ r ∈ st1.States, r.Flags = 0 ∧ r.CountNextFunctional = 0) ∧
      (∀ r ∈ st2.States, r.Flags = 0 ∧ r.CountNextFunctional = 0) ∧
      (∀ r1 ∈ st1.States, ∀ r2 ∈ st2.States, rowKey r1 = rowKey r2 →
        parentKey st1 r1 = parentKey st2 r2 ∧ r1.CountNext = r2.CountNext) ∧
      (∀ k, k ∈ tipKeys st1 ↔ k ∈ tipKeys st2) ∧
      st1.TipsReachable = [] ∧ st2.TipsReachable = [] :=
  ⟨List.Perm.swap _ _ _, by decide, by decide,
    C12_insert_order_independent _ _ (List.Perm.swap _ _ _) (by decide) (by decide)⟩


/-- C11 (code at the failing input): the store `exGenesis7` (one row of height 0 whose
`HashPrev` is 7) satisfies the graph invariants; the header of height `2^64 - 1` with hash 7 has
a key that is not in the store and no row sits at its `Height + 1` with its hash as `HashPrev`.
`InsertState` of it returns row 2 and `DeleteState` of row 2 returns `deleted = false`: the row
of height 0 has been given row 2 as `RowPrev`, row 2 counts it as a child, and both stay so. -/
theorem C11_insert_then_delete_keeps_wrapped_row :
    GraphInvAll exGenesis7 ∧
    (∀ x ∈ exGenesis7.States, ¬(x.Height = (exHeader exMaxHeight 5 7).m_Height
      ∧ x.Hash = (exHeader exMaxHeight 5 7).hash)) ∧
    (∀ x ∈ exGenesis7.States, ¬(x.Height = (exHeader exMaxHeight 5 7).m_Height + 1
      ∧ x.HashPrev = (exHeader exMaxHeight 5 7).hash)) ∧
    InsertState exGenesis7 (exHeader exMaxHeight 5 7) = .ok (exGenesis7ThenTop, 2) ∧
    DeleteState exGenesis7ThenTop 2 = .ok (exGenesis7ThenTop, false, 0) ∧
    (∃ r ∈ exGenesis7.States, r.rowid = 1 ∧ r.RowPrev = none) ∧
    (∃ r ∈ exGenesis7ThenTop.States, r.rowid = 1 ∧ r.RowPrev = some 2) :=
  ⟨graphInvAll_exGenesis7, by decide, by decide, by decide, by decide, by decide, by decide⟩


theorem reached_exTwoReachable (cursor : Bool) : Reached cursor exTwoReachable :=
  Reached.setStateFunctional (reached_exTwoGenesisFunctional cursor)
    (by decide : SetStateFunctional 1 exTwoGenesisFunctional 2 = .ok exTwoReachable)

/-- C15: on every store that satisfies the graph invariants (`GraphInvAll`), for every row `x`
of `States` with `CountNext = 0` and `Active` clear, `DeleteState` of the row returns
`deleted = true` and `row_prev` the `RowPrev` of the row (0 if NULL), which names the parent
when there is one.  The tables it leaves are given in full: `States` is the old table without
the row of `x` and with the parent changed as `deletedOld` says; `Tips` is the old table plus
the parent if its `CountNext` was 1, minus the entry of `x`; `TipsReachable` is the old table
plus the parent if `x` was `Reachable` and the `CountNextFunctional` of the parent was 1, minus
the entry of `x`.  So no row of `States` has the identifier of `x`, no entry of `Tips` or
`TipsReachable` names it, a row that is neither `x` nor its parent is unchanged, and the parent
keeps `Height` and `Flags`, has `CountNext` one less and `CountNextFunctional` one less when
`x` was `Functional` (which a `Reachable` row is) and unchanged otherwise, is in `Tips` exactly
when its `CountNext` is now 0, and is in `TipsReachable` exactly when it is `Reachable` and its
`CountNextFunctional` is now 0.  A second `DeleteState` of the row raises the not-found
error. -/
theorem C15_deleteState_leaf (st : NodeDB) (hG : GraphInvAll st) (x : StateRow)
    (hx : x ∈ st.States) (hc : x.CountNext = 0)
    (hA : hasFlag x.Flags StateFlags.Active = false) :
    ∃ st1, DeleteState st x.rowid = .ok (st1, true, x.RowPrev.getD 0) ∧
      (∀ P ∈ st.States, P.Height + 1 = x.Height → P.Hash = x.HashPrev →
        x.RowPrev.getD 0 = P.rowid) ∧
      ((∀ P ∈ st.States, ¬(P.Height + 1 = x.Height ∧ P.Hash = x.HashPrev)) →
        x.RowPrev.getD 0 = 0) ∧
      st1.States = (st.States.map (deletedOld x)).filter (fun r => r.rowid != x.rowid) ∧
      (∀ a b, (a, b) ∈ st1.Tips ↔ ((a, b) ∈ st.Tips ∨
          ∃ P ∈ st.States, x.RowPrev = some P.rowid ∧ P.CountNext = 1
            ∧ a = P.Height ∧ b = P.rowid) ∧ (a, b) ≠ (x.Height, x.rowid)) ∧
      (∀ a b, (a, b) ∈ st1.TipsReachable ↔ ((a, b) ∈ st.TipsReachable ∨
          ∃ P ∈ st.States, x.RowPrev = some P.rowid
            ∧ hasFlag x.Flags StateFlags.Reachable = true ∧ P.CountNextFunctional = 1
            ∧ a = P.Height ∧ b = P.rowid) ∧ b ≠ x.rowid) ∧
      (∀ r ∈ st1.States, r.rowid ≠ x.rowid) ∧
      (∀ h, (h, x.rowid) ∉ st1.Tips ∧ (h, x.rowid) ∉ st1.TipsReachable) ∧
      (∀ r ∈ st.States, r.rowid ≠ x.rowid → x.RowPrev ≠ some r.rowid → r ∈ st1.States) ∧
      (∀ P ∈ st.States, x.RowPrev = some P.rowid →
        ∃ P1 ∈ st1.States, P1.rowid = P.rowid ∧ P1.Height = P.Height ∧ P1.Flags = P.Flags ∧
          P1.CountNext + 1 = P.CountNext ∧
          P1.CountNextFunctional + (if hasFlag x.Flags StateFlags.Functional = true then 1 else 0)
            = P.CountNextFunctional ∧
          (hasFlag x.Flags StateFlags.Reachable = true →
            hasFlag x.Flags StateFlags.Functional = true) ∧
          ((P1.Height, P1.rowid) ∈ st1.Tips ↔ P1.CountNext = 0) ∧
          ((P1.Height, P1.rowid) ∈ st1.TipsReachable ↔
            hasFlag P.Flags StateFlags.Reachable = true ∧ P1.CountNextFunctional = 0) ∧
          (hasFlag x.Flags StateFlags.Reachable = true → P1.CountNextFunctional = 0 →
            (P1.Height, P1.rowid) ∈ st1.TipsReachable)) ∧
      DeleteState st1 x.rowid = .error .notFound := by
  have hnd := hG.graph.rowid_nodup
  obtain ⟨st1, hok, eS, eT, eR⟩ := DeleteState_leaf hG hx hc hA
  have hnot : ∀ r ∈ st1.States, r.rowid ≠ x.rowid := by
    intro r hr
    rw [eS, List.mem_filter] at hr
    simpa using hr.2
  have hself : ∀ P ∈ st.States, x.RowPrev = some P.rowid → P.rowid ≠ x.rowid := by
    intro P hP hp e
    obtain ⟨Q, hQ, e1, e2, -⟩ := parent_of_rowPrev hG hx hp
    have h1 := eq_of_rowid_eq hnd hQ hP e1
    have h2 := eq_of_rowid_eq hnd hP hx e
    subst h1
    subst h2
    omega
  have hpar : ∀ P ∈ st.States, x.RowPrev = some P.rowid → heightDec x.Height = P.Height := by
    intro P hP hp
    obtain ⟨Q, hQ, e1, e2, -⟩ := parent_of_rowPrev hG hx hp
    have := eq_of_rowid_eq hnd hQ hP e1
    subst this
    rw [← e2]; exact heightDec_succ (by have := hG.graph.height_lt x hx; omega)
  have hRF : ∀ P ∈ st.States, x.RowPrev = some P.rowid →
      (hasFlag x.Flags StateFlags.Reachable = true ↔
        hasFlag x.Flags StateFlags.Functional = true
          ∧ hasFlag P.Flags StateFlags.Reachable = true) :=
    fun P hP hp => (hG.graph.reachable x hx).1 P hP hp
  have hxTR : ∀ a, (a, x.rowid) ∈ st.TipsReachable →
      a = x.Height ∧ hasFlag x.Flags StateFlags.Reachable = true := by
    intro a hin
    obtain ⟨r, hr, e1, e2, hR, -⟩ := (hG.graph.tipsReachable _ _).mp hin
    have := eq_of_rowid_eq hnd hr hx e1
    subst this
    exact ⟨e2.symm, hR⟩
  have eT1 : ∀ a b, (a, b) ∈ st1.Tips ↔ ((a, b) ∈ st.Tips ∨
      ∃ P ∈ st.States, x.RowPrev = some P.rowid ∧ P.CountNext = 1
        ∧ a = P.Height ∧ b = P.rowid) ∧ (a, b) ≠ (x.Height, x.rowid) := by
    intro a b
    rw [eT]
    constructor
    · rintro ⟨h | ⟨P, hP, hp, h1, h2, h3⟩, hne⟩
      · exact ⟨Or.inl h, hne⟩
      · exact ⟨Or.inr ⟨P, hP, hp, h1, by rw [h2, hpar P hP hp], h3⟩, hne⟩
    · rintro ⟨h | ⟨P, hP, hp, h1, h2, h3⟩, hne⟩
      · exact ⟨Or.inl h, hne⟩
      · exact ⟨Or.inr ⟨P, hP, hp, h1, by rw [h2, hpar P hP hp], h3⟩, hne⟩
  have eR1 : ∀ a b, (a, b) ∈ st1.TipsReachable ↔ ((a, b) ∈ st.TipsReachable ∨
      ∃ P ∈ st.States, x.RowPrev = some P.rowid
        ∧ hasFlag x.Flags StateFlags.Reachable = true ∧ P.CountNextFunctional = 1
        ∧ a = P.Height ∧ b = P.rowid) ∧ b ≠ x.rowid := by
    intro a b
    rw [eR]
    constructor
    · rintro ⟨h | ⟨P, hP, hp, -, hR, h1, h2, h3⟩, hne⟩
      · refine ⟨Or.inl h, ?_⟩
        intro e
        subst e
        obtain ⟨ea, hR⟩ := hxTR a h
        exact hne ⟨hR, by rw [ea]⟩
      · refine ⟨Or.inr ⟨P, hP, hp, hR, h1, by rw [h2, hpar P hP hp], h3⟩, ?_⟩
        rw [h3]; exact hself P hP hp
    · rintro ⟨h | ⟨P, hP, hp, hR, h1, h2, h3⟩, hne⟩
      · refine ⟨Or.inl h, ?_⟩
        rintro ⟨-, e⟩
        injection e with _ e
        exact hne e
      · refine ⟨Or.inr ⟨P, hP, hp, ((hRF P hP hp).mp hR).1, hR, h1,
          by rw [h2, hpar P hP hp], h3⟩, ?_⟩
        rintro ⟨-, e⟩
        injection e with _ e
        exact hne e
  refine ⟨st1, hok, ?_, ?_, eS, eT1, eR1, hnot, ?_, ?_, ?_, ?_⟩
  · intro P hP e2 e3
    have := (hG.graph.rowPrev_iff x hx P.rowid).mpr ⟨P, hP, rfl, e2, e3⟩
    rw [this]; rfl
  · intro hno
    cases hp : x.RowPrev with
    | none => rfl
    | some p =>
      obtain ⟨P, hP, -, e2, e3, -⟩ := parent_of_rowPrev hG hx hp
      exact absurd ⟨e2, e3⟩ (hno P hP)
  · intro h
    constructor
    · intro hin
      obtain ⟨h1, h2⟩ := (eT1 _ _).mp hin
      rcases h1 with h1 | ⟨P, hP, hp, -, -, e⟩
      · obtain ⟨r, hr, a, b, -⟩ := (hG.tips _ _).mp h1
        have := eq_of_rowid_eq hnd hr hx a
        subst this
        exact h2 (by rw [b])
      · exact hself P hP hp e.symm
    · intro hin
      exact ((eR1 _ _).mp hin).2 rfl
  · intro r hr hne hnp
    rw [eS, List.mem_filter]
    refine ⟨List.mem_map.mpr ⟨r, hr, ?_⟩, by simpa using hne⟩
    unfold deletedOld
    cases hp : x.RowPrev with
    | none => rfl
    | some p =>
      simp only
      rw [if_neg]
      intro e
      simp only [beq_iff_eq] at e
      exact hnp (by rw [hp, e])
  · intro P hP hp
    obtain ⟨Q, hQ, e1, e2, e3, -, hcn, hcf⟩ := parent_of_rowPrev hG hx hp
    have := eq_of_rowid_eq hnd hQ hP e1
    subst this
    have hne := hself Q hQ hp
    have hP1 : deletedOld x Q ∈ st1.States := by
      rw [eS, List.mem_filter]
      refine ⟨List.mem_map_of_mem _ hQ, ?_⟩
      rw [deletedOld_rowid]
      simpa using hne
    have hcn1 : (deletedOld x Q).CountNext = Q.CountNext - 1 := by
      rw [deletedOld_CountNext, if_pos hp]
    have hcf1 : (deletedOld x Q).CountNextFunctional
        + (if hasFlag x.Flags StateFlags.Functional = true then 1 else 0)
        = Q.CountNextFunctional := by
      rw [deletedOld_CountNextFunctional]
      by_cases hF : hasFlag x.Flags StateFlags.Functional = true
      · rw [if_pos ⟨hp, hF⟩, if_pos hF]
        have := hcf hF
        omega
      · rw [if_neg (fun h => hF h.2), if_neg hF]
        rfl
    have hQtips : (Q.Height, Q.rowid) ∈ st.Tips ↔ Q.CountNext = 0 := by
      rw [hG.tips]
      constructor
      · rintro ⟨r, hr, a, -, c⟩
        have := eq_of_rowid_eq hnd hr hQ a
        subst this
        exact c
      · intro c; exact ⟨Q, hQ, rfl, rfl, c⟩
    have hQtr : (Q.Height, Q.rowid) ∈ st.TipsReachable ↔
        hasFlag Q.Flags StateFlags.Reachable = true ∧ Q.CountNextFunctional = 0 := by
      rw [hG.graph.tipsReachable]
      constructor
      · rintro ⟨r, hr, a, -, c, d⟩
        have := eq_of_rowid_eq hnd hr hQ a
        subst this
        exact ⟨c, d⟩
      · rintro ⟨c, d⟩; exact ⟨Q, hQ, rfl, rfl, c, d⟩
    have hTR : (Q.Height, Q.rowid) ∈ st1.TipsReachable ↔
        hasFlag Q.Flags StateFlags.Reachable = true ∧ (deletedOld x Q).CountNextFunctional = 0 := by
      rw [eR1]
      constructor
      · rintro ⟨h | ⟨P, hP, hp2, hR, h1, -, h3⟩, -⟩
        · obtain ⟨c, d⟩ := hQtr.mp h
          refine ⟨c, ?_⟩
          omega
        · have := eq_of_rowid_eq hnd hP hQ h3.symm
          subst this
          refine ⟨((hRF P hP hp).mp hR).2, ?_⟩
          have hF := ((hRF P hP hp).mp hR).1
          rw [if_pos hF] at hcf1
          omega
      · rintro ⟨c, d⟩
        refine ⟨?_, hne⟩
        by_cases hF : hasFlag x.Flags StateFlags.Functional = true
        · rw [if_pos hF] at hcf1
          exact Or.inr ⟨Q, hQ, hp, (hRF Q hQ hp).mpr ⟨hF, c⟩, by omega, rfl, rfl⟩
        · rw [if_neg hF] at hcf1
          exact Or.inl (hQtr.mpr ⟨c, by omega⟩)
    refine ⟨deletedOld x Q, hP1, deletedOld_rowid x Q, deletedOld_Height x Q,
      deletedOld_Flags x Q, by rw [hcn1]; omega, hcf1,
      fun hR => ((hRF Q hQ hp).mp hR).1, ?_, ?_, ?_⟩
    · rw [deletedOld_Height, deletedOld_rowid, eT1]
      constructor
      · rintro ⟨h | ⟨P, hP, hp2, h1, -, h3⟩, -⟩
        · have := hQtips.mp h
          exact absurd this hcn
        · have := eq_of_rowid_eq hnd hP hQ h3.symm
          subst this
          rw [hcn1]; omega
      · intro hz
        refine ⟨Or.inr ⟨Q, hQ, hp, by rw [hcn1] at hz; omega, rfl, rfl⟩, ?_⟩
        intro e
        injection e with _ e
        exact hne e
    · rw [deletedOld_Height, deletedOld_rowid]
      exact hTR
    · intro hR hz
      rw [deletedOld_Height, deletedOld_rowid]
      exact hTR.mpr ⟨((hRF Q hQ hp).mp hR).2, hz⟩
  · unfold DeleteState
    have : findRow st1 x.rowid = none := by
      unfold findRow
      rw [List.find?_eq_none]
      intro r hr
      simpa using hnot r hr
    rw [this]

/-- C15, at the reached store `exTwoReachable` and its row 2, the `Functional` and `Reachable`
child of the genesis row: the call leaves `exGenesisFunctional`, in which the genesis row has
`CountNext = 0` and `CountNextFunctional = 0` and is back in `Tips` and `TipsReachable`. -/
theorem C15_deleteState_leaf_witness :
    GraphInvAll exTwoReachable ∧ exLeafReachable ∈ exTwoReachable.States ∧
    exLeafReachable.CountNext = 0 ∧
    hasFlag exLeafReachable.Flags StateFlags.Active = false ∧
    Reached false exTwoReachable ∧
    DeleteState exTwoReachable 2 = .ok (exGenesisFunctional, (true, 1)) ∧
    (∃ st1, DeleteState exTwoReachable exLeafReachable.rowid = .ok (st1, true, exLeafReachable.RowPrev.getD 0) ∧
      (∀ P ∈ exTwoReachable.States, P.Height + 1 = exLeafReachable.Height → P.Hash = exLeafReachable.HashPrev →
        exLeafReachable.RowPrev.getD 0 = P.rowid) ∧
      ((∀ P ∈ exTwoReachable.States, ¬(P.Height + 1 = exLeafReachable.Height ∧ P.Hash = exLeafReachable.HashPrev)) →
        exLeafReachable.RowPrev.getD 0 = 0) ∧
      st1.States = (exTwoReachable.States.map (deletedOld exLeafReachable)).filter (fun r => r.rowid != exLeafReachable.rowid) ∧
      (∀ a b, (a, b) ∈ st1.Tips ↔ ((a, b) ∈ exTwoReachable.Tips ∨
          ∃ P ∈ exTwoReachable.States, exLeafReachable.RowPrev = some P.rowid ∧ P.CountNext = 1
            ∧ a = P.Height ∧ b = P.rowid) ∧ (a, b) ≠ (exLeafReachable.Height, exLeafReachable.rowid)) ∧
      (∀ a b, (a, b) ∈ st1.TipsReachable ↔ ((a, b) ∈ exTwoReachable.TipsReachable ∨
          ∃ P ∈ exTwoReachable.States, exLeafReachable.RowPrev = some P.rowid
            ∧ hasFlag exLeafReachable.Flags StateFlags.Reachable = true ∧ P.CountNextFunctional = 1
            ∧ a = P.Height ∧ b = P.rowid) ∧ b ≠ exLeafReachable.rowid) ∧
      (∀ r ∈ st1.States, r.rowid ≠ exLeafReachable.rowid) ∧
      (∀ h, (h, exLeafReachable.rowid) ∉ st1.Tips ∧ (h, exLeafReachable.rowid) ∉ st1.TipsReachable) ∧
      (∀ r ∈ exTwoReachable.States, r.rowid ≠ exLeafReachable.rowid → exLeafReachable.RowPrev ≠ some r.rowid → r ∈ st1.States) ∧
      (∀ P ∈ exTwoReachable.States, exLeafReachable.RowPrev = some P.rowid →
        ∃ P1 ∈ st1.States, P1.rowid = P.rowid ∧ P1.Height = P.Height ∧ P1.Flags = P.Flags ∧
          P1.CountNext + 1 = P.CountNext ∧
          P1.CountNextFunctional + (if hasFlag exLeafReachable.Flags StateFlags.Functional = true then 1 else 0)
            = P.CountNextFunctional ∧
          (hasFlag exLeafReachable.Flags StateFlags.Reachable = true →
            hasFlag exLeafReachable.Flags StateFlags.Functional = true) ∧
          ((P1.Height, P1.rowid) ∈ st1.Tips ↔ P1.CountNext = 0) ∧
          ((P1.Height, P1.rowid) ∈ st1.TipsReachable ↔
            hasFlag P.Flags StateFlags.Reachable = true ∧ P1.CountNextFunctional = 0) ∧
          (hasFlag exLeafReachable.Flags StateFlags.Reachable = true → P1.CountNextFunctional = 0 →
            (P1.Height, P1.rowid) ∈ st1.TipsReachable)) ∧
      DeleteState st1 exLeafReachable.rowid = .error .notFound) :=
  ⟨graphInvAll_exTwoReachable, by decide, by decide, by decide, reached_exTwoReachable false,
    by decide,
    C15_deleteState_leaf exTwoReachable graphInvAll_exTwoReachable exLeafReachable
      (by decide) (by decide) (by decide)⟩

/-- C17: on every store in which row identifiers are unique and `Flags` is 32-bit, a call that
completes keeps, for every row that has its identifier before and after (`KeepsBits`), all bits
of `Flags` outside a mask: `Functional ||| Reachable` for `InsertState`, `DeleteState`,
`SetStateFunctional` and `SetStateNotFunctional` (so `Active` is kept), and `Active` for
`MoveFwd` and `MoveBack`. -/
theorem C17_flag_bits_frame (st : NodeDB) (hnd : (st.States.map (fun r => r.rowid)).Nodup)
    (hfl : ∀ r ∈ st.States, r.Flags < 2 ^ 32) :
    (∀ s st1 rowid, InsertState st s = .ok (st1, rowid) →
      KeepsBits (StateFlags.Functional ||| StateFlags.Reachable) st st1) ∧
    (∀ rowid st1 res, DeleteState st rowid = .ok (st1, res) →
      KeepsBits (StateFlags.Functional ||| StateFlags.Reachable) st st1) ∧
    (∀ fuel rowid st1, SetStateFunctional fuel st rowid = .ok st1 →
      KeepsBits (StateFlags.Functional ||| StateFlags.Reachable) st st1) ∧
    (∀ fuel rowid st1, SetStateNotFunctional fuel st rowid = .ok st1 →
      KeepsBits (StateFlags.Functional ||| StateFlags.Reachable) st st1) ∧
    (∀ sid st1, MoveFwd st sid = .ok st1 → KeepsBits StateFlags.Active st st1) ∧
    (∀ sid st1 sid1, MoveBack st sid = .ok (st1, sid1) →
      KeepsBits StateFlags.Active st st1) :=
  ⟨fun _ _ _ hok => keepsBits_InsertState hnd hok,
    fun _ _ _ hok => (bitsKept_DeleteState hok).keeps hnd,
    fun _ _ _ hok => (bitsKept_SetStateFunctional (by decide) (by decide) hok).keeps hnd,
    fun _ _ _ hok => (bitsKept_SetStateNotFunctional (by decide) (by decide) hfl hok).keeps hnd,
    fun _ _ hok => (bitsKept_MoveFwd (by decide) hok).keeps hnd,
    fun _ _ _ hok => (bitsKept_MoveBack (by decide) hfl hok).keeps hnd⟩

/-- C17, at the store `exTwoGenesisFunctional`. -/
theorem C17_flag_bits_frame_witness :
    (exTwoGenesisFunctional.States.map (fun r => r.rowid)).Nodup ∧
    (∀ r ∈ exTwoGenesisFunctional.States, r.Flags < 2 ^ 32) ∧
    ((∀ s st1 rowid, InsertState exTwoGenesisFunctional s = .ok (st1, rowid) →
      KeepsBits (StateFlags.Functional ||| StateFlags.Reachable) exTwoGenesisFunctional st1) ∧
    (∀ rowid st1 res, DeleteState exTwoGenesisFunctional rowid = .ok (st1, res) →
      KeepsBits (StateFlags.Functional ||| StateFlags.Reachable) exTwoGenesisFunctional st1) ∧
    (∀ fuel rowid st1, SetStateFunctional fuel exTwoGenesisFunctional rowid = .ok st1 →
      KeepsBits (StateFlags.Functional ||| StateFlags.Reachable) exTwoGenesisFunctional st1) ∧
    (∀ fuel rowid st1, SetStateNotFunctional fuel exTwoGenesisFunctional rowid = .ok st1 →
      KeepsBits (StateFlags.Functional ||| StateFlags.Reachable) exTwoGenesisFunctional st1) ∧
    (∀ sid st1, MoveFwd exTwoGenesisFunctional sid = .ok st1 →
      KeepsBits StateFlags.Active exTwoGenesisFunctional st1) ∧
    (∀ sid st1 sid1, MoveBack exTwoGenesisFunctional sid = .ok (st1, sid1) →
      KeepsBits StateFlags.Active exTwoGenesisFunctional st1)) :=
  ⟨by decide, by decide, C17_flag_bits_frame exTwoGenesisFunctional (by decide) (by decide)⟩

/-- C19: in a store with unique non-zero row identifiers and no `Active` row, for rows
`r0 :: rest` of the table such that `r0` has no `RowPrev` and every later row names the row
before it as `RowPrev`: `MoveFwd({i, ri})` for `i = 0, 1, ...` completes and leaves `get_Cursor`
returning `true` with the last height and the last row, and exactly the rows of the list
`Active`; `MoveBack`, called once per row, each time on the `StateID` the call before has left,
then completes and leaves `get_Cursor` returning `false` with `Row = 0`, `Height = 0`, and no
row `Active`. -/
theorem C19_moveFwd_then_moveBack (st : NodeDB) (r0 : StateRow) (rest : List StateRow)
    (hnd : (st.States.map (fun r => r.rowid)).Nodup) (h0 : ∀ r ∈ st.States, r.rowid ≠ 0)
    (hmem : ∀ r ∈ r0 :: rest, r ∈ st.States) (hroot : r0.RowPrev = none)
    (hlink : List.Chain' (fun a b => b.RowPrev = some a.rowid) (r0 :: rest))
    (hA : ∀ r ∈ st.States, hasFlag r.Flags StateFlags.Active = false) :
    ∃ st1, moveFwdFrom st 0 ((r0 :: rest).map (fun r => r.rowid)) = .ok st1 ∧
      get_Cursor st1 = ((⟨rest.length, ((r0 :: rest).getLast (List.cons_ne_nil _ _)).rowid⟩ : StateID), true) ∧
      (∀ r ∈ st1.States, hasFlag r.Flags StateFlags.Active = true ↔
        r.rowid ∈ (r0 :: rest).map (fun r => r.rowid)) ∧
      ∃ st2 sid2, moveBackN (rest.length + 1) st1 (get_Cursor st1).1 = .ok (st2, sid2) ∧
        get_Cursor st2 = ({ m_Height := 0, m_Row := 0 }, false) ∧
        ∀ r ∈ st2.States, hasFlag r.Flags StateFlags.Active = false := by
  have hne : (r0 :: rest).map (fun r => r.rowid) ≠ [] := by simp
  have hmemid : ∀ a ∈ (r0 :: rest).map (fun r => r.rowid), ∃ x ∈ st.States, x.rowid = a := by
    intro a ha
    obtain ⟨r, hr, e⟩ := List.mem_map.mp ha
    exact ⟨r, hmem r hr, e⟩
  obtain ⟨st1, ok1, p1, i1, d1, c1⟩ := moveFwdFrom_spec _ st 0 (fun _ => False) hnd hmemid
    (fun r hr => by rw [hA r hr]; simp)
  have hsplit := (List.dropLast_append_getLast hne).symm
  have hlastid : ((r0 :: rest).map (fun r => r.rowid)).getLast hne
      = ((r0 :: rest).getLast (List.cons_ne_nil _ _)).rowid := by
    rw [List.getLast_map]
  have hlastmem : (r0 :: rest).getLast (List.cons_ne_nil _ _) ∈ st.States :=
    hmem _ (List.getLast_mem _)
  have hcur : get_Cursor st1 = ((⟨rest.length, ((r0 :: rest).getLast (List.cons_ne_nil _ _)).rowid⟩ : StateID), true) := by
    rw [c1 _ _ hsplit, hlastid]
    have h1 : decide (((r0 :: rest).getLast (List.cons_ne_nil _ _)).rowid > 0) = true := by
      have := h0 _ hlastmem
      simp only [decide_eq_true_eq]
      omega
    rw [h1]
    simp
  have hd1 : ∀ r ∈ st1.States, hasFlag r.Flags StateFlags.Active = true ↔
      r.rowid ∈ (r0 :: rest).map (fun r => r.rowid) := by
    intro r hr
    rw [d1 r hr]
    simp only [false_or]
  refine ⟨st1, ok1, hcur, hd1, ?_⟩
  -- the way back: the identifiers in reverse
  have hrev : ((r0 :: rest).map (fun r => r.rowid)).reverse
      = ((r0 :: rest).getLast (List.cons_ne_nil _ _)).rowid
        :: (((r0 :: rest).map (fun r => r.rowid)).dropLast).reverse := by
    conv_lhs => rw [hsplit]
    rw [List.reverse_append, hlastid]
    rfl
  have hchain : List.Chain' (fun a b => rowPrevOf st1 a = some (some b))
      ((r0 :: rest).map (fun r => r.rowid)).reverse := by
    rw [List.chain'_reverse]
    exact (chain_rowPrevOf hnd _ hmem hlink).imp (fun {a b} h => by
      show rowPrevOf st1 b = some (some a)
      rw [p1]; exact h)
  have hrun : IsRun st1 (((r0 :: rest).getLast (List.cons_ne_nil _ _)).rowid
      :: (((r0 :: rest).map (fun r => r.rowid)).dropLast).reverse) := by
    rw [← hrev]
    refine ⟨hchain, fun a ha => ?_⟩
    rw [List.mem_reverse] at ha
    obtain ⟨x, hx, e⟩ := hmemid a ha
    rw [p1, ← e, rowPrevOf_of_mem hnd hx]
    rfl
  have h01 : ∀ r ∈ st1.States, r.rowid ≠ 0 := by
    intro r hr
    have : r.rowid ∈ st.States.map (fun r => r.rowid) := by
      rw [← i1]; exact List.mem_map_of_mem _ hr
    obtain ⟨x, hx, e⟩ := List.mem_map.mp this
    rw [← e]; exact h0 x hx
  have hlast : ∀ z, (((r0 :: rest).getLast (List.cons_ne_nil _ _)).rowid
      :: (((r0 :: rest).map (fun r => r.rowid)).dropLast).reverse).getLast? = some z →
      rowPrevOf st1 z = some none := by
    intro z hz
    rw [← hrev, List.getLast?_reverse] at hz
    simp only [List.map_cons, List.head?_cons, Option.some.injEq] at hz
    subst hz
    rw [p1, rowPrevOf_of_mem hnd (hmem r0 (List.mem_cons_self _ _)), hroot]
  obtain ⟨st2, sid2, ok2, c2, d2⟩ := moveBackN_spec _ _ st1 rest.length
    (fun j => j ∈ (r0 :: rest).map (fun r => r.rowid)) (by rw [i1]; exact hnd) h01 hrun hlast hd1
  refine ⟨st2, sid2, ?_, c2, ?_⟩
  · rw [hcur]
    have hlen : (((r0 :: rest).getLast (List.cons_ne_nil _ _)).rowid
        :: (((r0 :: rest).map (fun r => r.rowid)).dropLast).reverse).length
        = rest.length + 1 := by
      simp
    rw [hlen] at ok2
    exact ok2
  · intro r hr
    cases hf : hasFlag r.Flags StateFlags.Active with
    | false => rfl
    | true =>
      obtain ⟨a1, a2⟩ := (d2 r hr).mp hf
      rw [← hrev, List.mem_reverse] at a2
      exact absurd a1 a2

/-- C19, at the store `exTwo` and its two rows, the genesis row and its child. -/
theorem C19_moveFwd_then_moveBack_witness :
    (exTwo.States.map (fun r => r.rowid)).Nodup ∧
    (∀ r ∈ exTwo.States, r.rowid ≠ 0) ∧
    (∀ r ∈ [(exRow 1 0 10 0 0 none 1 0 none), (exRow 2 1 11 10 0 (some 1) 0 0 none)], r ∈ exTwo.States) ∧
    (exRow 1 0 10 0 0 none 1 0 none).RowPrev = none ∧
    List.Chain' (fun a b => b.RowPrev = some a.rowid)
      [(exRow 1 0 10 0 0 none 1 0 none), (exRow 2 1 11 10 0 (some 1) 0 0 none)] ∧
    (∀ r ∈ exTwo.States, hasFlag r.Flags StateFlags.Active = false) ∧
    (∃ st1, moveFwdFrom exTwo 0 (([(exRow 1 0 10 0 0 none 1 0 none), (exRow 2 1 11 10 0 (some 1) 0 0 none)]).map (fun r => r.rowid)) = .ok st1 ∧
      get_Cursor st1 = ((⟨[(exRow 2 1 11 10 0 (some 1) 0 0 none)].length, (([(exRow 1 0 10 0 0 none 1 0 none), (exRow 2 1 11 10 0 (some 1) 0 0 none)]).getLast (List.cons_ne_nil _ _)).rowid⟩ : StateID), true) ∧
      (∀ r ∈ st1.States, hasFlag r.Flags StateFlags.Active = true ↔
        r.rowid ∈ ([(exRow 1 0 10 0 0 none 1 0 none), (exRow 2 1 11 10 0 (some 1) 0 0 none)]).map (fun r => r.rowid)) ∧
      ∃ st2 sid2, moveBackN ([(exRow 2 1 11 10 0 (some 1) 0 0 none)].length + 1) st1 (get_Cursor st1).1 = .ok (st2, sid2) ∧
        get_Cursor st2 = ({ m_Height := 0, m_Row := 0 }, false) ∧
        ∀ r ∈ st2.States, hasFlag r.Flags StateFlags.Active = false) :=
  ⟨by decide, by decide, by decide, by decide, List.chain'_pair.mpr rfl, by decide,
    C19_moveFwd_then_moveBack exTwo (exRow 1 0 10 0 0 none 1 0 none)
      [(exRow 2 1 11 10 0 (some 1) 0 0 none)]
      (by decide) (by decide) (by decide) (by decide) (List.chain'_pair.mpr rfl) (by decide)⟩

/-- C18 (counterexample): `InsertState` of a header of height 1 whose predecessor is missing,
`MoveFwd` to its row (the cursor is zeroed and the row has no `RowPrev`), `InsertState` of the
predecessor, and `MoveBack` on the cursor follow the protocol and leave `get_Cursor` returning
`true` with row 2, the predecessor, while no row is `Active`. -/
theorem C18_counterexample :
    ReachedProtocol exOrphanBack ∧ get_Cursor exOrphanBack = (⟨0, 2⟩, true) ∧
    ∀ r ∈ exOrphanBack.States, hasFlag r.Flags StateFlags.Active = false :=
  ⟨reachedProtocol_exOrphanBack, by decide, by decide⟩

/-- C18 (amended): in every store reached from the empty store by `InsertState`, `DeleteState`,
`SetStateFunctional`, `SetStateNotFunctional` and cursor moves that follow the caller protocol,
no row is `Active` when `get_Cursor` returns `false`; when it returns `true`, either no row is
`Active`, or the `Active` rows are exactly the rows of a `RowPrev` chain without repetition that
starts at the row of the cursor (`ActiveRun`): the cursor row, the row it names as `RowPrev`,
and so on. -/
theorem C18_active_rows_form_run (st : NodeDB) (h : ReachedProtocol st) :
    ((get_Cursor st).2 = false → NoActive st) ∧
    ((get_Cursor st).2 = true →
      NoActive st ∨ ∃ L, ActiveRun st ((get_Cursor st).1.m_Row :: L)) := by
  have hJ := reachedProtocol_cursorInv h
  refine ⟨fun hz => ?_, fun _ => hJ⟩
  rcases hJ with hJ | ⟨L, hJ⟩
  · exact hJ
  · exfalso
    obtain ⟨y, hy, ey⟩ := mem_of_rowPrevOf (hJ.1.2 _ (List.mem_cons_self _ _))
    have h0 := (reached_structInv (reachedProtocol_reached h)).rowid_ne_zero y hy
    have : (get_Cursor st).2 = decide ((get_Cursor st).1.m_Row > 0) := rfl
    rw [this, decide_eq_false_iff_not] at hz
    omega

/-- C18 (amended), at the store `exOrphanFwd`: the cursor is on the one row, which is
`Active`. -/
theorem C18_active_rows_form_run_witness :
    ReachedProtocol exOrphanFwd ∧
    (((get_Cursor exOrphanFwd).2 = false → NoActive exOrphanFwd) ∧
    ((get_Cursor exOrphanFwd).2 = true →
      NoActive exOrphanFwd ∨
        ∃ L, ActiveRun exOrphanFwd ((get_Cursor exOrphanFwd).1.m_Row :: L))) :=
  ⟨reachedProtocol_exOrphanFwd, C18_active_rows_form_run exOrphanFwd reachedProtocol_exOrphanFwd⟩

/-- C21: for every `Spendable` table with at most one row per key, every row `x` of it and
every pair of signed 32-bit deltas that are not both zero, `ModifySpendable(x.Key, dR, dU,
false)` completes and leaves the table with the row of the key changed to `Refs + dR` and
`Unspent + dU` (sums of integers: a negative delta subtracts), its `Body` and every other row
as they were; the other tables are untouched. -/
theorem C21_modifySpendable_signed_sums (st : NodeDB)
    (hnd : (st.Spendable.map (fun r => r.Key)).Nodup) (x : SpendableRow)
    (hx : x ∈ st.Spendable) (dR dU : Int)
    (h1 : -2 ^ 31 ≤ dR) (h2 : dR < 2 ^ 31) (h3 : -2 ^ 31 ≤ dU) (h4 : dU < 2 ^ 31)
    (hnz : dR ≠ 0 ∨ dU ≠ 0) :
    ModifySpendable st x.Key dR dU false = .ok { st with
      Spendable := st.Spendable.map (fun r =>
        if r.Key = x.Key then { r with Refs := r.Refs + dR, Unspent := r.Unspent + dU }
        else r) } := by
  rw [ModifySpendable_closed hnd hx h1 h2 h3 h4 hnz false]
  rfl

/-- C21, at the store after `AddSpendable(K, B, 3, 2)` with the deltas `-1`, `-1`: the row is
left with `Refs = 2`, `Unspent = 1`. -/
theorem C21_modifySpendable_signed_sums_witness :
    (exSpend.Spendable.map (fun r => r.Key)).Nodup ∧
    ({ Key := [1], Body := [7], Refs := 3, Unspent := 2 } : SpendableRow) ∈ exSpend.Spendable ∧
    (-2 ^ 31 ≤ (-1 : Int)) ∧ ((-1 : Int) < 2 ^ 31) ∧ (-2 ^ 31 ≤ (-1 : Int)) ∧
    ((-1 : Int) < 2 ^ 31) ∧ ((-1 : Int) ≠ 0 ∨ (-1 : Int) ≠ 0) ∧
    ModifySpendable exSpend
        ({ Key := [1], Body := [7], Refs := 3, Unspent := 2 } : SpendableRow).Key (-1) (-1) false
      = .ok { exSpend with
      Spendable := exSpend.Spendable.map (fun r =>
        if r.Key = ({ Key := [1], Body := [7], Refs := 3, Unspent := 2 } : SpendableRow).Key
        then { r with Refs := r.Refs + (-1), Unspent := r.Unspent + (-1) }
        else r) } :=
  ⟨by decide, by decide, by decide, by decide, by decide, by decide, by decide,
    C21_modifySpendable_signed_sums exSpend (by decide)
      { Key := [1], Body := [7], Refs := 3, Unspent := 2 } (by decide) (-1) (-1)
      (by decide) (by decide) (by decide) (by decide) (by decide)⟩

/-- C22: for every `Spendable` table with at most one row per key, every row `x` of it and
signed 32-bit deltas not both zero, `ModifySpendable(x.Key, dR, dU, b)` completes; afterwards
the key is gone from the table exactly when `b` is set and `Refs + dR = 0`, a key that is gone
is not among the keys `EnumUnpsent` yields, and every row of another key is still in the
table. -/
theorem C22_spendable_deleted_only_at_zero_refs (st : NodeDB)
    (hnd : (st.Spendable.map (fun r => r.Key)).Nodup) (x : SpendableRow)
    (hx : x ∈ st.Spendable) (dR dU : Int)
    (h1 : -2 ^ 31 ≤ dR) (h2 : dR < 2 ^ 31) (h3 : -2 ^ 31 ≤ dU) (h4 : dU < 2 ^ 31)
    (hnz : dR ≠ 0 ∨ dU ≠ 0) (b : Bool) :
    ∃ st1, ModifySpendable st x.Key dR dU b = .ok st1 ∧
      (x.Key ∉ st1.Spendable.map (fun r => r.Key) ↔ (b = true ∧ x.Refs + dR = 0)) ∧
      (x.Key ∉ st1.Spendable.map (fun r => r.Key) →
        x.Key ∉ (EnumUnpsent st1).map (fun p => p.1)) ∧
      (∀ y ∈ st.Spendable, y.Key ≠ x.Key → y ∈ st1.Spendable) := by
  refine ⟨_, ModifySpendable_closed hnd hx h1 h2 h3 h4 hnz b, ?_, ?_, ?_⟩
  · cases b with
    | false =>
      simp only [Bool.false_eq_true, ↓reduceIte, false_and, iff_false, not_not]
      exact List.mem_map.mpr ⟨_, List.mem_map_of_mem _ hx, by rw [if_pos rfl]⟩
    | true =>
      simp only [↓reduceIte, true_and]
      constructor
      · intro hgone
        by_contra hne
        apply hgone
        refine List.mem_map.mpr ⟨{ x with Refs := x.Refs + dR, Unspent := x.Unspent + dU },
          ?_, rfl⟩
        rw [List.mem_filter]
        refine ⟨List.mem_map.mpr ⟨x, hx, by rw [if_pos rfl]⟩, ?_⟩
        simp [hne]
      · intro hz hin
        obtain ⟨r1, hr1, e1⟩ := List.mem_map.mp hin
        rw [List.mem_filter] at hr1
        obtain ⟨hm, hp⟩ := hr1
        obtain ⟨r, hr, rfl⟩ := List.mem_map.mp hm
        by_cases hk : r.Key = x.Key
        · have hrx : r = x := List.inj_on_of_nodup_map hnd hr hx hk
          subst hrx
          rw [if_pos rfl] at hp
          simp [hz] at hp
        · rw [if_neg hk] at e1
          exact hk e1
  · intro hgone hin
    apply hgone
    obtain ⟨p, hp, e⟩ := List.mem_map.mp hin
    unfold EnumUnpsent at hp
    obtain ⟨r, hr, rfl⟩ := List.mem_map.mp hp
    exact List.mem_map.mpr ⟨r, (List.mem_filter.mp hr).1, e⟩
  · intro y hy hne
    have hmy : y ∈ st.Spendable.map (fun r =>
        if r.Key = x.Key then { r with Refs := r.Refs + dR, Unspent := r.Unspent + dU }
        else r) := List.mem_map.mpr ⟨y, hy, by rw [if_neg hne]⟩
    cases b with
    | false => exact hmy
    | true =>
      simp only [↓reduceIte]
      rw [List.mem_filter]
      refine ⟨hmy, ?_⟩
      simp [hne]

/-- C22, at the store after `AddSpendable(K, B, 3, 2)` with the deltas `-3`, `-2` and
`bMaybeDelete` set: the row goes. -/
theorem C22_spendable_deleted_only_at_zero_refs_witness :
    (exSpend.Spendable.map (fun r => r.Key)).Nodup ∧
    ({ Key := [1], Body := [7], Refs := 3, Unspent := 2 } : SpendableRow) ∈ exSpend.Spendable ∧
    (-2 ^ 31 ≤ (-3 : Int)) ∧ ((-3 : Int) < 2 ^ 31) ∧ (-2 ^ 31 ≤ (-2 : Int)) ∧
    ((-2 : Int) < 2 ^ 31) ∧ ((-3 : Int) ≠ 0 ∨ (-2 : Int) ≠ 0) ∧
    (∃ st1, ModifySpendable exSpend ({ Key := [1], Body := [7], Refs := 3, Unspent := 2 } : SpendableRow).Key (-3) (-2) true = .ok st1 ∧
      (({ Key := [1], Body := [7], Refs := 3, Unspent := 2 } : SpendableRow).Key ∉ st1.Spendable.map (fun r => r.Key) ↔ (true = true ∧ ({ Key := [1], Body := [7], Refs := 3, Unspent := 2 } : SpendableRow).Refs + (-3) = 0)) ∧
      (({ Key := [1], Body := [7], Refs := 3, Unspent := 2 } : SpendableRow).Key ∉ st1.Spendable.map (fun r => r.Key) →
        ({ Key := [1], Body := [7], Refs := 3, Unspent := 2 } : SpendableRow).Key ∉ (EnumUnpsent st1).map (fun p => p.1)) ∧
      (∀ y ∈ exSpend.Spendable, y.Key ≠ ({ Key := [1], Body := [7], Refs := 3, Unspent := 2 } : SpendableRow).Key → y ∈ st1.Spendable)) :=
  ⟨by decide, by decide, by decide, by decide, by decide, by decide, by decide,
    C22_spendable_deleted_only_at_zero_refs exSpend (by decide)
      { Key := [1], Body := [7], Refs := 3, Unspent := 2 } (by decide) (-3) (-2)
      (by decide) (by decide) (by decide) (by decide) (by decide) true⟩

/-- C23 (counterexample): `AddSpendable(K, B, 1, 0)` and `ModifySpendable(K, -2, 0, false)` on
the empty store complete and leave the row of `K` with `Refs = -1`. -/
theorem C23_counterexample :
    SpendableReached exSpendNegative ∧ ∃ r ∈ exSpendNegative.Spendable, ¬ SpendableOk r :=
  ⟨SpendableReached.modify
      (SpendableReached.add SpendableReached.empty (by decide : 0 < 1) (by decide : 1 < 2 ^ 32)
        (by decide : 0 < 2 ^ 32)
        (rfl : AddSpendable NodeDB.empty [1] [7] 1 0 = .ok { NodeDB.empty with
          Spendable := [{ Key := [1], Body := [7], Refs := 1, Unspent := 0 }] }))
      (by decide : -2 ^ 31 ≤ (-2 : Int)) (by decide : (-2 : Int) < 2 ^ 31)
      (by decide : -2 ^ 31 ≤ (0 : Int)) (by decide : (0 : Int) < 2 ^ 31)
      (by decide : ModifySpendable _ [1] (-2) 0 false = .ok exSpendNegative),
    ⟨{ Key := [1], Body := [7], Refs := -1, Unspent := 0 }, by decide,
      fun h => absurd h.1 (by decide)⟩⟩

/-- C23 (amended): in every store reached from the empty one by `AddSpendable` calls with
`0 < nRefs < 2^31` and `nUnspentCount <= nRefs`, and `ModifySpendable` calls with signed
32-bit deltas that leave the row of the key with `0 <= Unspent <= Refs`, every row of
`Spendable` has `Refs >= 0`, `Unspent >= 0` and `Refs >= Unspent`. -/
theorem C23_spendable_invariant_of_guarded_calls (st : NodeDB) (h : SpendableGuarded st) :
    ∀ r ∈ st.Spendable, SpendableOk r := by
  induction h with
  | empty => intro r hr; cases hr
  | @add st0 st1 key body nRefs nUnspentCount _ h0 h31 hle hok ih =>
    unfold AddSpendable at hok
    split at hok
    · cases hok
    split at hok
    · cases hok
    injection hok with hok
    subst hok
    intro r hr
    simp only [List.mem_append, List.mem_singleton] at hr
    rcases hr with hr | rfl
    · exact ih r hr
    · unfold SpendableOk
      simp only
      rw [bindInt_small h31, bindInt_small (Nat.lt_of_le_of_lt hle h31)]
      omega
  | @modify st0 st1 key dR dU b _ h1 h2 h3 h4 hkeep hok ih =>
    unfold ModifySpendable at hok
    split at hok
    · cases hok
    split at hok
    · injection hok with hok
      subst hok
      have hmap : ∀ r ∈ st0.Spendable.map (modifiedRow key dR dU), SpendableOk r := by
        intro r hr
        obtain ⟨r0, hr0, rfl⟩ := List.mem_map.mp hr
        rw [modifiedRow_eq h1 h2 h3 h4]
        by_cases hk : r0.Key = key
        · rw [if_pos hk]
          have := hkeep r0 hr0 hk
          unfold SpendableOk
          simp only
          omega
        · rw [if_neg hk]; exact ih r0 hr0
      intro r hr
      simp only at hr
      split at hr
      · exact hmap r (List.mem_filter.mp hr).1
      · exact hmap r hr
    · cases hok

/-- C23 (amended), at the store after `AddSpendable(K, B, 3, 2)`. -/
theorem C23_spendable_invariant_of_guarded_calls_witness :
    SpendableGuarded exSpend ∧ ∀ r ∈ exSpend.Spendable, SpendableOk r :=
  ⟨SpendableGuarded.add SpendableGuarded.empty (by decide : 0 < 3) (by decide : 3 < 2 ^ 31)
      (by decide : 2 ≤ 3) (by decide : AddSpendable NodeDB.empty [1] [7] 3 2 = .ok exSpend),
    C23_spendable_invariant_of_guarded_calls exSpend
      (SpendableGuarded.add SpendableGuarded.empty (by decide : 0 < 3) (by decide : 3 < 2 ^ 31)
        (by decide : 2 ≤ 3) (by decide : AddSpendable NodeDB.empty [1] [7] 3 2 = .ok exSpend))⟩

/-- C27 (counterexample): the row of `exGenesisBlock` has a `Peer`; after `DelStateBlock` its
`Peer` is NULL. -/
theorem C27_counterexample :
    (∃ r ∈ exGenesisBlock.States, r.rowid = 1 ∧ r.Peer = some [9]) ∧
    ∃ st1, DelStateBlock exGenesisBlock 1 [] = .ok st1 ∧
      ∀ r ∈ st1.States, r.rowid = 1 → r.Body = none ∧ r.Peer = none :=
  ⟨by decide, _, rfl, by decide⟩

/-- C27 (amended): in a store with unique row identifiers, for every row `x` of `States`,
`SetStateBlock` with an empty body, and so `DelStateBlock`, completes and leaves the table with
`Body` and `Peer` of the row both NULL, every other column and every other row as before. -/
theorem C27_setStateBlock_empty_nulls_body_and_peer (st : NodeDB)
    (hnd : (st.States.map (fun r => r.rowid)).Nodup) (x : StateRow) (hx : x ∈ st.States)
    (peer : Blob) :
    SetStateBlock st x.rowid [] peer = .ok { st with
      States := st.States.map (fun r =>
        if r.rowid == x.rowid then { r with Body := none, Peer := none } else r) } ∧
    DelStateBlock st x.rowid peer = SetStateBlock st x.rowid [] peer :=
  ⟨updateRow_total hnd hx _, rfl⟩

/-- C27 (amended), at the store `exGenesisBlock` and its row. -/
theorem C27_setStateBlock_empty_nulls_body_and_peer_witness :
    (exGenesisBlock.States.map (fun r => r.rowid)).Nodup ∧
    exBlockRow
      ∈ exGenesisBlock.States ∧
    (SetStateBlock exGenesisBlock
      exBlockRow.rowid [] [] = .ok { exGenesisBlock with
      States := exGenesisBlock.States.map (fun r =>
        if r.rowid == exBlockRow.rowid
        then { r with Body := none, Peer := none } else r) } ∧
    DelStateBlock exGenesisBlock
      exBlockRow.rowid [] = SetStateBlock exGenesisBlock
      exBlockRow.rowid [] []) :=
  ⟨by decide, by decide,
    C27_setStateBlock_empty_nulls_body_and_peer exGenesisBlock (by decide)
      exBlockRow
      (by decide) []⟩

/-- C30 (code at the failing input): the store `exTop` holds a row of height `2^64 - 1` with
hash 7, a tip.  `InsertState` of a header of `Height` 0 whose `HashPrev` is 7 completes; the new
row has row 1 as `RowPrev`, row 1 has `CountNext` 1 where it had 0, and has left `Tips`. -/
theorem C30_insert_height_zero_records_parent :
    Reached false exTop ∧ (exHeader 0 7 10).m_Height = 0 ∧
    InsertState exTop (exHeader 0 7 10) = .ok (exTopThenGenesis, 2) ∧
    (∃ r ∈ exTopThenGenesis.States, r.rowid = 2 ∧ r.RowPrev = some 1) ∧
    (∃ r ∈ exTop.States, r.rowid = 1 ∧ r.CountNext = 0) ∧
    (∃ r ∈ exTopThenGenesis.States, r.rowid = 1 ∧ r.CountNext = 1) ∧
    (exMaxHeight, 1) ∈ exTop.Tips ∧ (exMaxHeight, 1) ∉ exTopThenGenesis.Tips :=
  ⟨reached_exTop false, rfl, by decide, by decide, by decide, by decide, by decide, by decide⟩

theorem reached_exTopAndGenesisFunctional (cursor : Bool) :
    Reached cursor exTopAndGenesisFunctional :=
  Reached.setStateFunctional
    (Reached.insertState (reached_exGenesisThenTopDeleted cursor)
      (by decide : (exHeader 0 0 20).m_Height < 2 ^ 64)
      (by decide : InsertState exGenesisThenTopDeleted (exHeader 0 0 20)
        = .ok (exTopAndGenesis, 3)))
    (by decide : SetStateFunctional 1 exTopAndGenesis 3 = .ok exTopAndGenesisFunctional)

/-- C26 (code at the failing input): the table `TipsReachable` of `exHighTips` holds
`(2^63, 1)` and `(0, 2)`.  The enumeration yields `(0, 2)` first and `(2^63, 1)` second: the
store orders the heights as signed 64-bit integers, and `2^63` is stored as `-2^63`.  As
unsigned numbers the first height is below the second.  The same happens in the reached store
`exTopAndGenesisFunctional`, whose entries are `(2^64 - 1, 2)` and `(0, 3)`. -/
theorem C26_enumFunctionalTips_orders_signed :
    exHighTips.TipsReachable = [(2 ^ 63, 1), (0, 2)] ∧
    EnumFunctionalTips exHighTips = [⟨0, 2⟩, ⟨2 ^ 63, 1⟩] ∧
    ¬ sidGt ⟨0, 2⟩ ⟨2 ^ 63, 1⟩ ∧ asInt64 (2 ^ 63) = -2 ^ 63 ∧
    Reached false exTopAndGenesisFunctional ∧
    exTopAndGenesisFunctional.TipsReachable = [(exMaxHeight, 2), (0, 3)] ∧
    EnumFunctionalTips exTopAndGenesisFunctional = [⟨0, 3⟩, ⟨exMaxHeight, 2⟩] ∧
    ¬ sidGt ⟨0, 3⟩ ⟨exMaxHeight, 2⟩ ∧ asInt64 exMaxHeight = -1 :=
  ⟨by decide, by decide, by unfold sidGt; decide, by decide,
    reached_exTopAndGenesisFunctional false, rfl, by decide, by unfold sidGt; decide, by decide⟩

/-- C25: in a store with unique row identifiers, `BuildMmr` on a row whose `Mmr` is not null
returns the store unchanged, and every completing `InsertState`, `SetStateFunctional`,
`SetStateNotFunctional`, `MoveFwd`, `MoveBack`, `SetStateBlock`, `SetStateRollback` and
`DeleteState` leaves the `Mmr` value of each row that had a non-null `Mmr` and is still in the
table as it was (`KeepsMmr`).  The store is arbitrary, so this covers a later
`SetStateFunctional` that makes the row `Reachable` again. -/
theorem C25_mmr_written_at_most_once (st : NodeDB)
    (hnd : (st.States.map (fun r => r.rowid)).Nodup) :
    (∀ rowid rowPrev h r st1, findRow st rowid = some r → r.Mmr.isSome = true →
      BuildMmr st rowid rowPrev h = .ok st1 → st1 = st) ∧
    (∀ s st1 rowid, InsertState st s = .ok (st1, rowid) → KeepsMmr st st1) ∧
    (∀ fuel rowid st1, SetStateFunctional fuel st rowid = .ok st1 → KeepsMmr st st1) ∧
    (∀ fuel rowid st1, SetStateNotFunctional fuel st rowid = .ok st1 → KeepsMmr st st1) ∧
    (∀ sid st1, MoveFwd st sid = .ok st1 → KeepsMmr st st1) ∧
    (∀ sid st1 sid1, MoveBack st sid = .ok (st1, sid1) → KeepsMmr st st1) ∧
    (∀ rowid body peer st1, SetStateBlock st rowid body peer = .ok st1 → KeepsMmr st st1) ∧
    (∀ rowid rollback st1, SetStateRollback st rowid rollback = .ok st1 → KeepsMmr st st1) ∧
    (∀ rowid st1 res, DeleteState st rowid = .ok (st1, res) → KeepsMmr st st1) :=
  ⟨fun _ _ _ _ _ hf hs hok => BuildMmr_of_isSome hf hs hok,
    fun _ _ _ hok => keepsMmr_InsertState hnd hok,
    fun _ _ _ hok => (mmrKept_SetStateFunctional hok).keepsMmr hnd,
    fun _ _ _ hok => (mmrKept_SetStateNotFunctional hok).keepsMmr hnd,
    fun _ _ hok => (mmrKept_MoveFwd hok).keepsMmr hnd,
    fun _ _ _ hok => (mmrKept_MoveBack hok).keepsMmr hnd,
    fun _ _ _ _ hok => (mmrKept_SetStateBlock hok).keepsMmr hnd,
    fun _ _ _ hok => (mmrKept_SetStateRollback hok).keepsMmr hnd,
    fun _ _ _ hok => (mmrKept_DeleteState hok).keepsMmr hnd⟩

/-- C25, at the store `exGenesisFunctional`, whose one row has a non-null `Mmr`. -/
theorem C25_mmr_written_at_most_once_witness :
    (exGenesisFunctional.States.map (fun r => r.rowid)).Nodup ∧
    (∃ r ∈ exGenesisFunctional.States, r.Mmr.isSome = true) ∧
    ((∀ rowid rowPrev h r st1, findRow exGenesisFunctional rowid = some r → r.Mmr.isSome = true →
      BuildMmr exGenesisFunctional rowid rowPrev h = .ok st1 → st1 = exGenesisFunctional) ∧
    (∀ s st1 rowid, InsertState exGenesisFunctional s = .ok (st1, rowid) →
      KeepsMmr exGenesisFunctional st1) ∧
    (∀ fuel rowid st1, SetStateFunctional fuel exGenesisFunctional rowid = .ok st1 →
      KeepsMmr exGenesisFunctional st1) ∧
    (∀ fuel rowid st1, SetStateNotFunctional fuel exGenesisFunctional rowid = .ok st1 →
      KeepsMmr exGenesisFunctional st1) ∧
    (∀ sid st1, MoveFwd exGenesisFunctional sid = .ok st1 → KeepsMmr exGenesisFunctional st1) ∧
    (∀ sid st1 sid1, MoveBack exGenesisFunctional sid = .ok (st1, sid1) →
      KeepsMmr exGenesisFunctional st1) ∧
    (∀ rowid body peer st1, SetStateBlock exGenesisFunctional rowid body peer = .ok st1 →
      KeepsMmr exGenesisFunctional st1) ∧
    (∀ rowid rollback st1, SetStateRollback exGenesisFunctional rowid rollback = .ok st1 →
      KeepsMmr exGenesisFunctional st1) ∧
    (∀ rowid st1 res, DeleteState exGenesisFunctional rowid = .ok (st1, res) →
      KeepsMmr exGenesisFunctional st1)) :=
  ⟨by decide, by decide, C25_mmr_written_at_most_once exGenesisFunctional (by decide)⟩

/-- C28: on a store that satisfies the graph invariants (`GraphInvAll`), with fuel at least
`2^64`, each of the following calls completes, that is, returns a store and raises none of the
integrity errors: `SetStateFunctional` and `SetStateNotFunctional` on a row of the table,
`DeleteState` on a row of the table with `CountNext = 0` and `Active` clear (it returns `true`),
and `InsertState` of a header whose `(Height, Hash)` is not in the table. -/
theorem C28_no_guard_fires_under_invariants (st : NodeDB) (hG : GraphInvAll st) (fuel : Nat)
    (hfuel : 2 ^ 64 ≤ fuel) :
    (∀ x ∈ st.States, ∃ st1, SetStateFunctional fuel st x.rowid = .ok st1) ∧
    (∀ x ∈ st.States, ∃ st1, SetStateNotFunctional fuel st x.rowid = .ok st1) ∧
    (∀ x ∈ st.States, x.CountNext = 0 → hasFlag x.Flags StateFlags.Active = false →
      ∃ st1 rowPrev, DeleteState st x.rowid = .ok (st1, true, rowPrev)) ∧
    (∀ s : Full, findKey st s.m_Height s.hash = none →
      ∃ st1 rowid, InsertState st s = .ok (st1, rowid)) := by
  have hI := graphInv_cascInv hG.graph
  refine ⟨?_, ?_, ?_, ?_⟩
  · intro x hx
    cases hF : hasFlag x.Flags StateFlags.Functional with
    | false =>
      obtain ⟨st1, h1, -⟩ := SetStateFunctional_total hI hx hF hfuel
      exact ⟨st1, h1⟩
    | true =>
      refine ⟨st, ?_⟩
      unfold SetStateFunctional
      rw [findRow_of_mem hG.graph.rowid_nodup hx]
      simp [hF]
  · intro x hx
    cases hF : hasFlag x.Flags StateFlags.Functional with
    | true =>
      obtain ⟨st1, h1, -⟩ := SetStateNotFunctional_total hI hx hF hfuel
      exact ⟨st1, h1⟩
    | false =>
      refine ⟨st, ?_⟩
      unfold SetStateNotFunctional
      rw [findRow_of_mem hG.graph.rowid_nodup hx]
      simp [hF]
  · intro x hx hc hA
    obtain ⟨st1, h1, -⟩ := DeleteState_leaf hG hx hc hA
    exact ⟨st1, _, h1⟩
  · intro s hkey
    obtain ⟨st1, h1⟩ := InsertState_total_of hG.graph.rowid_ne_zero hG.graph.rowid_nodup
      hG.tips hG.tips_nodup hkey
    exact ⟨st1, _, h1⟩

/-- C28, at the store `exTwo` with fuel `2^64`. -/
theorem C28_no_guard_fires_under_invariants_witness :
    GraphInvAll exTwo ∧ 2 ^ 64 ≤ 2 ^ 64 ∧
    ((∀ x ∈ exTwo.States, ∃ st1, SetStateFunctional (2 ^ 64) exTwo x.rowid = .ok st1) ∧
    (∀ x ∈ exTwo.States, ∃ st1, SetStateNotFunctional (2 ^ 64) exTwo x.rowid = .ok st1) ∧
    (∀ x ∈ exTwo.States, x.CountNext = 0 → hasFlag x.Flags StateFlags.Active = false →
      ∃ st1 rowPrev, DeleteState exTwo x.rowid = .ok (st1, true, rowPrev)) ∧
    (∀ s : Full, findKey exTwo s.m_Height s.hash = none →
      ∃ st1 rowid, InsertState exTwo s = .ok (st1, rowid))) :=
  ⟨graphInvAll_exTwo, Nat.le_refl _,
    C28_no_guard_fires_under_invariants exTwo graphInvAll_exTwo (2 ^ 64) (Nat.le_refl _)⟩

theorem reached_exGenesisNotFunctional (cursor : Bool) : Reached cursor exGenesisNotFunctional :=
  Reached.setStateNotFunctional (reached_exGenesisFunctional cursor)
    (by decide : SetStateNotFunctional 1 exGenesisFunctional 1 = .ok exGenesisNotFunctional)

/-- C24 (counterexample): `exGenesisNotFunctional` is reached from the empty store by
`InsertState` of a genesis header, `SetStateFunctional` and `SetStateNotFunctional`; its row
has a non-null `Mmr` (written by `BuildMmr` when the row became `Reachable`, and never cleared)
and the `Reachable` flag clear. -/
theorem C24_counterexample :
    Reached false exGenesisNotFunctional ∧
    ∃ r ∈ exGenesisNotFunctional.States,
      r.Mmr.isSome = true ∧ hasFlag r.Flags StateFlags.Reachable = false :=
  ⟨reached_exGenesisNotFunctional false, by decide⟩

/-- C24 (amended): in every store reached from the empty store by `InsertState`, `DeleteState`,
`SetStateFunctional` and `SetStateNotFunctional`, every row with the `Reachable` flag set has a
non-null `Mmr`. -/
theorem C24_reachable_row_has_mmr (st : NodeDB) (h : Reached false st) :
    ∀ r ∈ st.States, hasFlag r.Flags StateFlags.Reachable = true → r.Mmr.isSome = true :=
  fun r hr hR => (reached_mmrInv h r hr hR).resolve_right id

/-- C24 (amended), at the store `exGenesisFunctional`, whose row is `Reachable`. -/
theorem C24_reachable_row_has_mmr_witness :
    Reached false exGenesisFunctional ∧
    (∃ r ∈ exGenesisFunctional.States, hasFlag r.Flags StateFlags.Reachable = true) ∧
    ∀ r ∈ exGenesisFunctional.States,
      hasFlag r.Flags StateFlags.Reachable = true → r.Mmr.isSome = true :=
  ⟨reached_exGenesisFunctional false, by decide,
    C24_reachable_row_has_mmr exGenesisFunctional (reached_exGenesisFunctional false)⟩

/-- C29: on a store with unique row identifiers and 64-bit heights in which every non-null
`RowPrev` names a row one height below (`ParentInv`), for every row `x` of the table, both
values of `b` and every `rowPrev`, `OnStateReachable` started at `(x.rowid, x.Height)` with
fuel at least `2^64` does not run out of fuel, and every larger fuel gives the same result: the
walk ends, by returning or by raising.  `OnStateReachableWalk` is the same computation with the
list of the `(rowid, h)` at which a turn of the loop starts; no row occurs twice in the list,
each entry is a row of the table at its height, and each entry other than the start is
entered from an entry of its `RowPrev`, at a height one less. -/
theorem C29_onStateReachable_terminates (st : NodeDB) (hP : ParentInv st) (x : StateRow)
    (hx : x ∈ st.States) (rowPrev : Nat) (b : Bool) (fuel : Nat) (hfuel : 2 ^ 64 ≤ fuel) :
    OnStateReachable fuel st x.rowid rowPrev x.Height b ≠ .error .fuel ∧
    (∀ fuel1, fuel ≤ fuel1 → OnStateReachable fuel1 st x.rowid rowPrev x.Height b
      = OnStateReachable fuel st x.rowid rowPrev x.Height b) ∧
    (OnStateReachableWalk fuel st x.rowid rowPrev x.Height b).2
      = OnStateReachable fuel st x.rowid rowPrev x.Height b ∧
    ((OnStateReachableWalk fuel st x.rowid rowPrev x.Height b).1.map Prod.fst).Nodup ∧
    ∀ e ∈ (OnStateReachableWalk fuel st x.rowid rowPrev x.Height b).1,
      heightOf st e.1 = some e.2 ∧ x.Height ≤ e.2 ∧
      (e = (x.rowid, x.Height) ∨
        ∃ e1 ∈ (OnStateReachableWalk fuel st x.rowid rowPrev x.Height b).1,
          parentOf st e.1 = some e1.1 ∧ e.2 = e1.2 + 1) := by
  have hne := OnStateReachable_ne_fuel fuel st x.rowid rowPrev x.Height b
    (parentInv_noWrap hP) (hP.height_lt x hx) (by omega)
  have hw := goodWalk_OnStateReachableWalk hP fuel st x.rowid rowPrev x.Height b
    (SameSkeleton.skel_refl st) (heightOf_of_mem hP hx)
  refine ⟨hne, fun fuel1 hle => OnStateReachable_mono_le hle st _ _ _ _ hne,
    OnStateReachableWalk_snd _ _ _ _ _ _, hw.1, ?_⟩
  intro e he
  obtain ⟨⟨k, a1, a2, -⟩, hstep⟩ := hw.2 e he
  exact ⟨a2, by omega, hstep⟩

/-- C29, at the store `exChildFunctional`, from its genesis row, with `b = true` and fuel
`2^64`; the child of the genesis row is `Functional`, so the walk goes on to it. -/
theorem C29_onStateReachable_terminates_witness :
    ParentInv exChildFunctional ∧
    exRow 1 0 10 0 0 none 1 1 none ∈ exChildFunctional.States ∧ 2 ^ 64 ≤ 2 ^ 64 ∧
    (OnStateReachable (2 ^ 64) exChildFunctional 1 0 0 true ≠ .error .fuel ∧
    (∀ fuel1, 2 ^ 64 ≤ fuel1 → OnStateReachable fuel1 exChildFunctional 1 0 0 true
      = OnStateReachable (2 ^ 64) exChildFunctional 1 0 0 true) ∧
    (OnStateReachableWalk (2 ^ 64) exChildFunctional 1 0 0 true).2
      = OnStateReachable (2 ^ 64) exChildFunctional 1 0 0 true ∧
    ((OnStateReachableWalk (2 ^ 64) exChildFunctional 1 0 0 true).1.map Prod.fst).Nodup ∧
    ∀ e ∈ (OnStateReachableWalk (2 ^ 64) exChildFunctional 1 0 0 true).1,
      heightOf exChildFunctional e.1 = some e.2 ∧ 0 ≤ e.2 ∧
      (e = (1, 0) ∨
        ∃ e1 ∈ (OnStateReachableWalk (2 ^ 64) exChildFunctional 1 0 0 true).1,
          parentOf exChildFunctional e.1 = some e1.1 ∧ e.2 = e1.2 + 1)) :=
  ⟨parentInv_of_graphInv graphInv_exChildFunctional, by decide, Nat.le_refl _,
    C29_onStateReachable_terminates exChildFunctional
      (parentInv_of_graphInv graphInv_exChildFunctional)
      (exRow 1 0 10 0 0 none 1 1 none) (by decide) 0 true (2 ^ 64) (Nat.le_refl _)⟩

end Beam
